import Mathlib

/-! # Entity/component storage and query engine of `2d-engine`

A shallow embedding of `src/ecs/Util.js`, `src/Entity.js`, `src/Component.js`,
`src/Query.js` and `src/World.js`, followed by the properties proved about it.

Conventions of the embedding.

* JavaScript objects with identity (component stores, query functions) are
  natural numbers; compiled query objects are addressed by their position in
  `World.queries`, the order in which the `Set` of queries received them.
* A JavaScript `Map` or plain object used as a dictionary is an association
  list (`mapGet`, `mapSet`, `mapDelete`); a `Set` is a list without duplicates
  (`setAdd`), both in insertion order.
* A `Uint32Array` is a `List Nat` of fixed length: a read outside the array is
  `undefined`, which the bitwise operators turn into `0`, and a write outside
  the array is ignored.  Words stored are reduced modulo `2 ^ 32`.
* Module-level variables of `src/Entity.js` are the fields of `Globals`.
  Identifiers, sizes and lengths are natural numbers.  The recycle threshold is
  a `Double`, a number that is not negative, and the product
  `globalSize * removedReuseThreshold` is rounded to a double before
  `Math.round` sees it (`roundToDouble`); negative thresholds and `NaN` are not
  covered.
* `enterQuery` and `exitQuery` call a method `reset` that the object
  `SparseSet()` does not have; the call raises a `TypeError`, and the embedding
  returns that error.
* The values held in the columns of the component stores are not part of the
  state: `resetStoreFor` and the change-detection pass only touch them.  They
  come from `./Storage.js`, which is not among the sources; `query` returns
  `none` for a `Changed` query, and the change-detection pass is embedded apart
  (`diff`, `queryChanged`), over the tracked columns given as lists of integers.
* The array `worlds` of `src/World.js` and the module state form a `Universe`.
-/

namespace ECS

/-! ## Dictionaries and sets -/

/-- `Map.prototype.get` / property read: the value stored under a key, if any. -/
def mapGet {α β : Type} [DecidableEq α] : List (α × β) → α → Option β
  | [], _ => none
  | (k, v) :: rest, a => if k = a then some v else mapGet rest a

/-- `Map.prototype.set` / property write: replaces the value in place when the key
is present, appends the entry otherwise. -/
def mapSet {α β : Type} [DecidableEq α] : List (α × β) → α → β → List (α × β)
  | [], a, b => [(a, b)]
  | (k, v) :: rest, a, b => if k = a then (k, b) :: rest else (k, v) :: mapSet rest a b

/-- `Map.prototype.delete`. -/
def mapDelete {α β : Type} [DecidableEq α] : List (α × β) → α → List (α × β)
  | [], _ => []
  | (k, v) :: rest, a => if k = a then rest else (k, v) :: mapDelete rest a

/-- `Set.prototype.add`. -/
def setAdd {α : Type} [DecidableEq α] (s : List α) (a : α) : List α :=
  if a ∈ s then s else s ++ [a]

/-- `Set.prototype.delete`. -/
def setDelete {α : Type} [DecidableEq α] (s : List α) (a : α) : List α :=
  s.filter (fun x => decide (x ≠ a))

/-- Truthiness of a possibly `undefined` number: defined and non-zero. -/
def truthy : Option Nat → Bool
  | some n => n != 0
  | none => false

/-- The read `a[i]` of a JavaScript array that may have holes: `undefined` at a
hole and past the end. -/
def jsGet (a : List (Option Nat)) (i : Nat) : Option Nat := a.getD i none

/-- Assignment `a[i] = v` to a JavaScript array that may have holes: a write past
the end extends the array, the skipped positions read as `undefined`. -/
def jsSet (a : List (Option Nat)) (i : Nat) (v : Nat) : List (Option Nat) :=
  if i < a.length then a.set i (some v)
  else a ++ List.replicate (i - a.length) none ++ [some v]

/-! ## `src/ecs/Util.js` -/

/-- The object returned by `SparseSet()`: the `dense` array of members and the
`sparse` array giving for a value its position in `dense`. -/
structure SparseSet where
  dense : List Nat
  sparse : List (Option Nat)
deriving DecidableEq, Repr

namespace SparseSet

/-- The object `SparseSet()` returns: both arrays empty. -/
def empty : SparseSet := { dense := [], sparse := [] }

/-- Method `has`: `sparse[val] < dense.length && dense[sparse[val]] === val`
(the comparison with `undefined` is false). -/
def has (s : SparseSet) (val : Nat) : Bool :=
  match jsGet s.sparse val with
  | none => false
  | some i => decide (i < s.dense.length) && (s.dense[i]? == some val)

/-- Method `add`. -/
def add (s : SparseSet) (val : Nat) : SparseSet :=
  if s.has val then s
  else { dense := s.dense ++ [val], sparse := jsSet s.sparse val s.dense.length }

/-- Method `remove`: pops the last member and, unless the removed value was the
last one, moves it into the freed slot. -/
def remove (s : SparseSet) (val : Nat) : SparseSet :=
  if !s.has val then s
  else
    match jsGet s.sparse val, s.dense.getLast? with
    | some denseIndex, some lastVal =>
      let dense := s.dense.dropLast
      if denseIndex < dense.length then
        { dense := dense.set denseIndex lastVal, sparse := jsSet s.sparse lastVal denseIndex }
      else { dense := dense, sparse := s.sparse }
    | _, _ => s

end SparseSet

/-! ## State -/

/-- A component store, by identity. -/
abbrev Component := Nat

/-- The errors the engine throws. -/
inductive Error where
  | entityUndefined
  | entityDoesNotExist
  | maxEntitiesReached
  | cannotFlushRemovedEntities
deriving DecidableEq, Repr

/-- The record `registerComponent` stores in the component map.  The sets
`notQueries` and `changedQueries` of the record are created empty and never
touched again; they are left out. -/
structure Registration where
  generationId : Nat
  bitflag : Nat
  store : Component
  queries : List Nat
deriving DecidableEq, Repr

/-- What a compiled query keeps of a registration record in `allComponents`. -/
structure ComponentRecord where
  generationId : Nat
  bitflag : Nat
  store : Component
deriving DecidableEq, Repr

/-- The second element of what a modifier function returns. -/
inductive Modifier where
  | not
  | or
  | changed
deriving DecidableEq, Repr

/-- An element of the array given to `defineQuery`: a component, or a modifier
function (`Not(c)`, `Or(c)`, `Changed(c)`). -/
inductive QueryTerm where
  | comp (c : Component)
  | modifier (c : Component) (mod : Modifier)
deriving DecidableEq, Repr

/-- The function object `defineQuery` returns, with its identity `uid` and its
`$queryComponents`. -/
structure QueryDef where
  uid : Nat
  queryComponents : List QueryTerm
deriving DecidableEq, Repr

/-- The compiled query object `q` built by `registerQuery`: the sparse set of its
live entities (`live`, the object `q` itself) with the fields assigned to it. -/
structure Query where
  live : SparseSet
  components : List Component
  notComponents : List Component
  changedComponents : List Component
  allComponents : List ComponentRecord
  masks : List (Nat × Nat)
  notMasks : List (Nat × Nat)
  hasMasks : List (Nat × Nat)
  generations : List Nat
  toRemove : SparseSet
  entered : SparseSet
  exited : SparseSet
deriving DecidableEq, Repr

/-- The symbol-keyed fields of a world object.  `$entityArray` is the `dense`
array of `entitySparseSet`; the deserializer maps `$localEntities` and
`$localEntityLookup` are never populated and are left out. -/
structure World where
  size : Nat
  entityMasks : List (List Nat)
  entityComponents : List (Nat × List Component)
  entitySparseSet : SparseSet
  bitflag : Nat
  componentMap : List (Component × Registration)
  queryMap : List (QueryDef × Nat)
  queries : List Query
  notQueries : List Nat
  dirtyQueries : List Nat
  manualEntityRecycling : Bool
deriving DecidableEq, Repr

/-- A JavaScript number that is finite and not negative, given as the value
`mant / 2 ^ scale`.  Every double in `[0, 2 ^ 53)` is of this form with
`mant < 2 ^ 53` and `scale ≤ 1074`: `0.5` is `1 / 2 ^ 1` and `0.01`, which is no
binary fraction, is the double `5764607523034235 / 2 ^ 59` next to it. -/
structure Double where
  mant : Nat
  scale : Nat
deriving DecidableEq, Repr

/-- The module-level variables of `src/Entity.js`.  `globalSize` is a number with
an integer value and `removedReuseThreshold` a number that is not negative. -/
structure Globals where
  globalEntityCursor : Nat
  globalSize : Nat
  removedReuseThreshold : Double
  removed : List Nat
  recycled : List Nat
deriving DecidableEq, Repr

/-- The module state together with one world. -/
structure State where
  g : Globals
  w : World
deriving DecidableEq, Repr

/-! ## `src/World.js` -/

/-- `resetWorld` on a new object, as `createWorld` calls it: one zero-filled
generation array, bitflag cursor `1`, everything else empty. -/
def createWorld (size : Nat) : World :=
  { size := size
    entityMasks := [List.replicate size 0]
    entityComponents := []
    entitySparseSet := SparseSet.empty
    bitflag := 1
    componentMap := []
    queryMap := []
    queries := []
    notQueries := []
    dirtyQueries := []
    manualEntityRecycling := false }

/-- `enableManualEntityRecycling`. -/
def enableManualEntityRecycling (w : World) : World :=
  { w with manualEntityRecycling := true }

/-! ## `src/Component.js` -/

/-- `incrementBitflag`: doubles the cursor; at `2 ^ 31` the cursor goes back to `1`
and a zero-filled generation array of the world's size is appended. -/
def incrementBitflag (w : World) : World :=
  if w.bitflag * 2 ≥ 2 ^ 31 then
    { w with bitflag := 1, entityMasks := w.entityMasks ++ [List.replicate w.size 0] }
  else { w with bitflag := w.bitflag * 2 }

/-- The test `q.allComponents.includes(component)` of `registerComponent`.
`allComponents` holds registration records and `component` is a store; `includes`
compares by identity and no record is a store, so the test never succeeds. -/
def allComponentsIncludes (_q : Query) (_component : Component) : Bool := false

/-- `registerComponent`. -/
def registerComponent (w : World) (component : Component) : World :=
  let queries := (List.range w.queries.length).filter
    (fun i => match w.queries[i]? with
      | some q => allComponentsIncludes q component
      | none => false)
  let record : Registration :=
    { generationId := w.entityMasks.length - 1
      bitflag := w.bitflag
      store := component
      queries := queries }
  incrementBitflag { w with componentMap := mapSet w.componentMap component record }

/-- The statement `if (!world[$componentMap].has(c)) registerComponent(world, c)` of
`addComponent` and `registerQuery`. -/
def registerIfNew (w : World) (c : Component) : World :=
  if (mapGet w.componentMap c).isNone then registerComponent w c else w

/-- `registerComponents`. -/
def registerComponents (w : World) (components : List Component) : World :=
  components.foldl registerComponent w

/-- The word `world[$entityMasks][generationId][eid]` as the bitwise operators see
it (`0` outside the array). -/
def readMask (entityMasks : List (List Nat)) (generationId eid : Nat) : Nat :=
  (entityMasks.getD generationId []).getD eid 0

/-- The assignment `world[$entityMasks][generationId][eid] = v` into a
`Uint32Array`. -/
def writeMask (entityMasks : List (List Nat)) (generationId eid v : Nat) : List (List Nat) :=
  entityMasks.set generationId ((entityMasks.getD generationId []).set eid (v % 2 ^ 32))

/-- `hasComponent`. -/
def hasComponent (w : World) (component : Component) (eid : Nat) : Bool :=
  match mapGet w.componentMap component with
  | none => false
  | some r => (readMask w.entityMasks r.generationId eid &&& r.bitflag) == r.bitflag

/-! ## `src/Query.js` -/

/-- `queryCheckEntity`. -/
def queryCheckEntity (w : World) (q : Query) (eid : Nat) : Bool :=
  q.generations.all fun generationId =>
    let qMask := mapGet q.masks generationId
    let qNotMask := mapGet q.notMasks generationId
    let eMask := readMask w.entityMasks generationId eid
    !(truthy qNotMask && (eMask &&& qNotMask.getD 0) != 0) &&
    !(truthy qMask && (eMask &&& qMask.getD 0) != qMask.getD 0)

/-- `queryAddEntity`. -/
def queryAddEntity (q : Query) (eid : Nat) : Query :=
  { q with
    toRemove := q.toRemove.remove eid
    entered := q.entered.add eid
    live := q.live.add eid }

/-- `queryRemoveEntity`, for the query stored at position `qid`. -/
def queryRemoveEntity (w : World) (qid eid : Nat) : World :=
  match w.queries[qid]? with
  | none => w
  | some q =>
    if !q.live.has eid || q.toRemove.has eid then w
    else
      { w with
        queries := w.queries.set qid
          { q with toRemove := q.toRemove.add eid, exited := q.exited.add eid }
        dirtyQueries := setAdd w.dirtyQueries qid }

/-- `queryCommitRemovals`: the loop runs `i` from the initial length of
`toRemove.dense` down to `0`. -/
def queryCommitRemovals (q : Query) : Query :=
  (List.range q.toRemove.dense.length).reverse.foldl
    (fun q i =>
      match q.toRemove.dense[i]? with
      | none => q
      | some eid => { q with toRemove := q.toRemove.remove eid, live := q.live.remove eid })
    q

/-- A callback that mutates the query object stored at position `qid`. -/
def modifyQuery (qs : List Query) (qid : Nat) (f : Query → Query) : List Query :=
  match qs[qid]? with
  | none => qs
  | some q => qs.set qid (f q)

/-- `commitRemovals`. -/
def commitRemovals (w : World) : World :=
  if w.dirtyQueries.length = 0 then w
  else
    { w with
      queries := w.dirtyQueries.foldl (fun qs qid => modifyQuery qs qid queryCommitRemovals)
        w.queries
      dirtyQueries := [] }

/-- The statements `const match = queryCheckEntity(world, q, eid)` and
`if (match) queryAddEntity(q, eid)`, the callback of `addEntity` and the body of
the initial scan of `registerQuery`, for the query stored at position `qid`. -/
def addIfMatch (eid : Nat) (w : World) (qid : Nat) : World :=
  match w.queries[qid]? with
  | none => w
  | some q =>
    if queryCheckEntity w q eid then
      { w with queries := w.queries.set qid (queryAddEntity q eid) }
    else w

/-- The statement `world[$entityComponents].get(eid).add(component)`, or `.delete`:
the set of components held by `eid` is replaced by its image under `f`.  Every
existing entity has such a set. -/
def updateHeld (entityComponents : List (Nat × List Component)) (eid : Nat)
    (f : List Component → List Component) : List (Nat × List Component) :=
  match mapGet entityComponents eid with
  | none => entityComponents
  | some held => mapSet entityComponents eid (f held)

/-- The callback of `queries.forEach` in `addComponent` and `removeComponent`,
for the query stored at position `qid`. -/
def reevaluate (eid : Nat) (w : World) (qid : Nat) : World :=
  match w.queries[qid]? with
  | none => w
  | some q =>
    let q1 := { q with toRemove := q.toRemove.remove eid }
    if queryCheckEntity w q1 eid then
      { w with
        queries := w.queries.set qid
          (queryAddEntity { q1 with exited := q1.exited.remove eid } eid) }
    else
      queryRemoveEntity
        { w with queries := w.queries.set qid { q1 with entered := q1.entered.remove eid } }
        qid eid

/-- `addComponent`.  The parameter `reset` only zeroes column values and is left
out. -/
def addComponent (w : World) (component : Component) (eid : Option Nat) : Except Error World :=
  match eid with
  | none => .error .entityUndefined
  | some eid =>
    if !w.entitySparseSet.has eid then .error .entityDoesNotExist
    else
      let w1 := registerIfNew w component
      if hasComponent w1 component eid then .ok w1
      else
        match mapGet w1.componentMap component with
        | none => .ok w1
        | some c =>
          let w2 := { w1 with
            entityMasks := writeMask w1.entityMasks c.generationId eid
              (readMask w1.entityMasks c.generationId eid ||| c.bitflag) }
          let w3 := c.queries.foldl (reevaluate eid) w2
          .ok { w3 with
            entityComponents := updateHeld w3.entityComponents eid fun held => setAdd held component }

/-- `removeComponent`.  `~bitflag` keeps every other bit of the 32-bit word. -/
def removeComponent (w : World) (component : Component) (eid : Option Nat) :
    Except Error World :=
  match eid with
  | none => .error .entityUndefined
  | some eid =>
    if !w.entitySparseSet.has eid then .error .entityDoesNotExist
    else if !hasComponent w component eid then .ok w
    else
      match mapGet w.componentMap component with
      | none => .ok w
      | some c =>
        let w2 := { w with
          entityMasks := writeMask w.entityMasks c.generationId eid
            (readMask w.entityMasks c.generationId eid &&& ((2 ^ 32 - 1) ^^^ c.bitflag)) }
        let w3 := c.queries.foldl (reevaluate eid) w2
        .ok { w3 with
          entityComponents :=
            updateHeld w3.entityComponents eid fun held => setDelete held component }

/-- The callback of `reduceBitflags`. -/
def reduceBitflags (a : List (Nat × Nat)) (c : ComponentRecord) : List (Nat × Nat) :=
  let a1 := if truthy (mapGet a c.generationId) then a else mapSet a c.generationId 0
  mapSet a1 c.generationId ((mapGet a1 c.generationId).getD 0 ||| c.bitflag)

/-- The lists `components`, `notComponents` and `changedComponents` that the first
loop of `registerQuery` builds. -/
structure QueryLists where
  components : List Component
  notComponents : List Component
  changedComponents : List Component
deriving DecidableEq, Repr

/-- The callback of `query[$queryComponents].forEach` in `registerQuery`. -/
def resolveTerm (acc : World × QueryLists) (t : QueryTerm) : World × QueryLists :=
  match t with
  | .modifier comp .not =>
    (registerIfNew acc.1 comp, { acc.2 with notComponents := acc.2.notComponents ++ [comp] })
  | .modifier comp .changed =>
    (registerIfNew acc.1 comp,
      { acc.2 with
        changedComponents := acc.2.changedComponents ++ [comp]
        components := acc.2.components ++ [comp] })
  | .modifier comp .or => (registerIfNew acc.1 comp, acc.2)
  | .comp c => (registerIfNew acc.1 c, { acc.2 with components := acc.2.components ++ [c] })

/-- `mapComponents`: the registration record of a component, as a compiled query
keeps it. -/
def mapComponents (w : World) (c : Component) : Option ComponentRecord :=
  (mapGet w.componentMap c).map fun r =>
    { generationId := r.generationId, bitflag := r.bitflag, store := r.store }

/-- The query object `registerQuery` builds from the lists of components, in a
world where they are registered; the four sets are new. -/
def compileQuery (w : World) (lists : QueryLists) : Query :=
  let allComponents := (lists.components ++ lists.notComponents).filterMap (mapComponents w)
  { live := SparseSet.empty
    components := lists.components
    notComponents := lists.notComponents
    changedComponents := lists.changedComponents
    allComponents := allComponents
    masks := (lists.components.filterMap (mapComponents w)).foldl reduceBitflags []
    notMasks := (lists.notComponents.filterMap (mapComponents w)).foldl reduceBitflags []
    hasMasks := allComponents.foldl reduceBitflags []
    generations := (allComponents.map (·.generationId)).foldl
      (fun a v => if v ∈ a then a else a ++ [v]) []
    toRemove := SparseSet.empty
    entered := SparseSet.empty
    exited := SparseSet.empty }

/-- The callback `c => c.queries.add(q)` of `registerQuery`, for the query stored at
position `qid`; `c` is the record the component map holds for `c.store`. -/
def subscribe (qid : Nat) (cm : List (Component × Registration)) (c : ComponentRecord) :
    List (Component × Registration) :=
  match mapGet cm c.store with
  | none => cm
  | some r => mapSet cm c.store { r with queries := setAdd r.queries qid }

/-- The body of the initial scan of `registerQuery`. -/
def scanEntity (qid : Nat) (w : World) (eid : Nat) : World :=
  if !w.entitySparseSet.has eid then w else addIfMatch eid w qid

/-- `registerQuery`.  The global `getEntityCursor()` bounds the initial scan. -/
def registerQuery (g : Globals) (w : World) (query : QueryDef) : World :=
  let resolved := query.queryComponents.foldl resolveTerm
    (w, { components := [], notComponents := [], changedComponents := [] })
  let w1 := resolved.1
  let q := compileQuery w1 resolved.2
  let qid := w1.queries.length
  let w2 := { w1 with
    queryMap := mapSet w1.queryMap query qid
    queries := w1.queries ++ [q]
    componentMap := q.allComponents.foldl (subscribe qid) w1.componentMap
    notQueries := if q.notComponents.length = 0 then w1.notQueries else setAdd w1.notQueries qid }
  (List.range g.globalEntityCursor).foldl (scanEntity qid) w2

/-- The statement `if (!world[$queryMap].has(query)) registerQuery(world, query)` that
opens every read of a query. -/
def registerQueryIfNew (g : Globals) (w : World) (qd : QueryDef) : World :=
  if (mapGet w.queryMap qd).isNone then registerQuery g w qd else w

/-- The function `defineQuery` returns, for a query without `Changed` components:
compiles the query on first use, commits the pending removals and returns the
`dense` array of the query.  For a query with `Changed` components the value
returned is the result of the change-detection pass over the column values, which
is not part of this state; the result is `none` then. -/
def query (g : Globals) (w : World) (qd : QueryDef) : World × Option (List Nat) :=
  let w1 := registerQueryIfNew g w qd
  let w2 := commitRemovals w1
  match mapGet w2.queryMap qd with
  | none => (w2, none)
  | some qid =>
    match w2.queries[qid]? with
    | none => (w2, none)
    | some q => if q.changedComponents.length = 0 then (w2, some q.live.dense) else (w2, none)

/-- The failure of the call of a property that an object does not have. -/
inductive TypeError where
  | resetIsNotAFunction
deriving DecidableEq, Repr

/-- `enterQuery(query)(world)`: the world it leaves and the value returned or the
error thrown.  The object `SparseSet()` of `src/ecs/Util.js` has the properties
`dense`, `sparse`, `has`, `add` and `remove` and no property `reset`, so on a log
that is not empty the call `q.entered.reset()` raises a `TypeError` once `results`
has been copied; nothing is cleared and nothing is returned. -/
def enterQuery (g : Globals) (w : World) (qd : QueryDef) :
    World × Except TypeError (List Nat) :=
  let w1 := registerQueryIfNew g w qd
  match mapGet w1.queryMap qd with
  | none => (w1, .ok [])
  | some qid =>
    match w1.queries[qid]? with
    | none => (w1, .ok [])
    | some q =>
      if q.entered.dense.length = 0 then (w1, .ok [])
      else (w1, .error .resetIsNotAFunction)

/-- `exitQuery(query)(world)`, which calls `q.exited.reset()` in the same way; see
`enterQuery`. -/
def exitQuery (g : Globals) (w : World) (qd : QueryDef) :
    World × Except TypeError (List Nat) :=
  let w1 := registerQueryIfNew g w qd
  match mapGet w1.queryMap qd with
  | none => (w1, .ok [])
  | some qid =>
    match w1.queries[qid]? with
    | none => (w1, .ok [])
    | some q =>
      if q.exited.dense.length = 0 then (w1, .ok [])
      else (w1, .error .resetIsNotAFunction)

/-! ### Change detection -/

/-- Modelled from the spec: a column of a component store, "one growable column
per field, all columns sharing entity-ID indexing", here with integer values.
The stores are built by `./Storage.js`, which is not among the sources.  A read
outside the column is `undefined` (`none`), a write outside it is ignored. -/
abbrev Column := List Int

/-- The fields `changed` and `shadows` of a compiled query object.  The array
`shadows` is a dictionary from the position of a column in `flatProps` to the
shadow of that column. -/
structure Tracking where
  changed : List Nat
  shadows : List (Nat × Column)
deriving DecidableEq, Repr

/-- The expression `shadows[pid] || generateShadow(q, pid)`: the shadows after it
has run.  `generateShadow` stores what `createShadow` of `./Storage.js` makes of
the column; that function is a parameter here. -/
def ensureShadow (createShadow : Column → Column) (shadows : List (Nat × Column)) (pid : Nat)
    (prop : Column) : List (Nat × Column) :=
  if (mapGet shadows pid).isSome then shadows else mapSet shadows pid (createShadow prop)

/-- The body of the loop over `pid` in `diff`, for a column of scalars: the
shadows and the flag `dirty` it leaves.  The assignment `shadow[eid] = prop[eid]`
stores `0` for `undefined`. -/
def diffProp (createShadow : Column → Column) (flatProps : List Column) (eid : Nat)
    (acc : List (Nat × Column) × Bool) (pid : Nat) : List (Nat × Column) × Bool :=
  match flatProps[pid]? with
  | none => acc
  | some prop =>
    let shadows := ensureShadow createShadow acc.1 pid prop
    let shadow := (mapGet shadows pid).getD []
    if prop[eid]? ≠ shadow[eid]? then
      (mapSet shadows pid (shadow.set eid ((prop[eid]?).getD 0)), true)
    else (shadows, acc.2)

/-- The body of the loop over the live set in `diff`, for the entity `eid`. -/
def diffEntity (createShadow : Column → Column) (flatProps : List Column) (t : Tracking)
    (eid : Nat) : Tracking :=
  let r := (List.range flatProps.length).foldl (diffProp createShadow flatProps eid)
    (t.shadows, false)
  { changed := if r.2 then t.changed ++ [eid] else t.changed, shadows := r.1 }

/-- `diff(q, clearDiff)` over the live set `dense`; `flatProps` are the columns
`q.flatProps` refers to, as they are when the function runs.  The value returned
is the field `changed` of the result. -/
def diff (createShadow : Column → Column) (flatProps : List Column) (dense : List Nat)
    (t : Tracking) (clearDiff : Bool) : Tracking :=
  dense.foldl (diffEntity createShadow flatProps)
    { t with changed := if clearDiff then [] else t.changed }

/-- The function `defineQuery` returns, with the change-detection pass: the world
and the tracking fields of the query it leaves and the list it returns.
`flatProps` are the tracked columns as they are at the call, `t` the fields
`changed` and `shadows` of the query object before it. -/
def queryChanged (createShadow : Column → Column) (g : Globals) (w : World) (qd : QueryDef)
    (flatProps : List Column) (t : Tracking) (clearDiff : Bool) :
    World × Tracking × List Nat :=
  let w1 := registerQueryIfNew g w qd
  let w2 := commitRemovals w1
  match mapGet w2.queryMap qd with
  | none => (w2, t, [])
  | some qid =>
    match w2.queries[qid]? with
    | none => (w2, t, [])
    | some q =>
      if q.changedComponents.length = 0 then (w2, t, q.live.dense)
      else
        (w2, diff createShadow flatProps q.live.dense t clearDiff,
          (diff createShadow flatProps q.live.dense t clearDiff).changed)

/-- Modelled from the spec: what `registerQuery` reads of a component store when it
computes `flatProps`.  The stores are built by `./Storage.js`, which is not among
the sources: `tagStore` is `c[$tagStore]` ("a store with an empty/absent schema
is a zero-size tag store"), `storeFlattened` is `c[$storeFlattened]` when the
store has that property ("one growable column per field"), and `column` is the
store itself read as a column. -/
structure StoreView where
  tagStore : Bool
  storeFlattened : Option (List Column)
  column : Column

/-- The callback of `map` in the computation of `flatProps`: `c[$storeFlattened]`
when the store has that property, the store itself as the one column otherwise. -/
def columnsOf (c : StoreView) : List Column :=
  match c.storeFlattened with
  | some props => props
  | none => [c.column]

/-- The value of `flatProps` in `registerQuery`: the columns of the components of
the list `components` that are not tag stores, in order. -/
def flatPropsOf (stores : Component → StoreView) (components : List Component) : List Column :=
  ((components.filter fun c => !(stores c).tagStore).map fun c => columnsOf (stores c)).foldl
    (fun a v => a ++ v) []

/-- The function `defineQuery` returns, with the change-detection pass over the
columns `q.flatProps` refers to, read from the stores as they are at the call. -/
def queryTracked (createShadow : Column → Column) (stores : Component → StoreView)
    (g : Globals) (w : World) (qd : QueryDef) (t : Tracking) (clearDiff : Bool) :
    World × Tracking × List Nat :=
  let w2 := commitRemovals (registerQueryIfNew g w qd)
  match mapGet w2.queryMap qd with
  | none => (w2, t, [])
  | some qid =>
    match w2.queries[qid]? with
    | none => (w2, t, [])
    | some q => queryChanged createShadow g w qd (flatPropsOf stores q.components) t clearDiff

/-! ## `src/Entity.js` -/

/-- `defaultRemovedReuseThreshold`, the double the literal `0.01` denotes. -/
def defaultRemovedReuseThreshold : Double := { mant := 5764607523034235, scale := 59 }

/-- The number of low bits a numerator has beyond the 53 bits of a double's
significand: how often `n` is halved until it is below `2 ^ 53`.  The first
argument bounds the recursion and is `n` itself in every use. -/
def excessBits : Nat → Nat → Nat
  | 0, _ => 0
  | fuel + 1, n => if n < 2 ^ 53 then 0 else excessBits fuel (n / 2) + 1

/-- Rounding of a numerator to a double, to nearest with ties to even as every
arithmetic operator of JavaScript rounds: the low bits beyond the significand are
cut off, and the significand goes up by one when they are more than half a unit
of its last place, or exactly half and the significand is odd. -/
def roundToDouble (n : Nat) : Nat :=
  let sh := excessBits n n
  let q := n / 2 ^ sh
  let r := n % 2 ^ sh
  if 2 ^ sh < 2 * r ∨ (2 * r = 2 ^ sh ∧ q % 2 = 1) then (q + 1) * 2 ^ sh else q * 2 ^ sh

/-- The product `globalSize * removedReuseThreshold` of two doubles, as a
numerator over `2 ^ removedReuseThreshold.scale`: the exact product
`globalSize * mant / 2 ^ scale` rounded to a double. -/
def sizeTimesThreshold (g : Globals) : Nat :=
  roundToDouble (g.globalSize * g.removedReuseThreshold.mant)

/-- `Math.round(globalSize * removedReuseThreshold)`: the integer nearest to the
double product, a half rounded up. -/
def reuseLimit (g : Globals) : Nat :=
  (2 * sizeTimesThreshold g + 2 ^ g.removedReuseThreshold.scale) /
    2 ^ (g.removedReuseThreshold.scale + 1)

/-- The module state when `src/Entity.js` is loaded or after `setDefaultSize` and
`setRemovedRecycleThreshold`: cursor `0`, both pools empty. -/
def initGlobals (globalSize : Nat) (threshold : Double) : Globals :=
  { globalEntityCursor := 0
    globalSize := globalSize
    removedReuseThreshold := threshold
    removed := []
    recycled := [] }

/-- `setRemovedRecycleThreshold`. -/
def setRemovedRecycleThreshold (g : Globals) (newThreshold : Double) : Globals :=
  { g with removedReuseThreshold := newThreshold }

/-- `entityExists`. -/
def entityExists (w : World) (eid : Nat) : Bool := w.entitySparseSet.has eid

/-- `getEntityComponents`. -/
def getEntityComponents (w : World) (eid : Option Nat) : Except Error (List Component) :=
  match eid with
  | none => .error .entityUndefined
  | some eid =>
    if !w.entitySparseSet.has eid then .error .entityDoesNotExist
    else .ok ((mapGet w.entityComponents eid).getD [])

/-- `flushRemovedEntities`. -/
def flushRemovedEntities (s : State) : Except Error State :=
  if !s.w.manualEntityRecycling then .error .cannotFlushRemovedEntities
  else .ok { s with g := { s.g with removed := s.g.removed ++ s.g.recycled, recycled := [] } }

/-- The identifier `addEntity` chooses and the module state it leaves: the head of
the removed pool, or the cursor, which is then advanced. -/
def chooseEid (g : Globals) (manualEntityRecycling : Bool) : Nat × Globals :=
  let recycle :=
    if manualEntityRecycling then decide (g.removed.length ≠ 0)
    else decide (g.removed.length > reuseLimit g)
  match recycle, g.removed with
  | true, eid :: rest => (eid, { g with removed := rest })
  | _, _ => (g.globalEntityCursor, { g with globalEntityCursor := g.globalEntityCursor + 1 })

/-- `addEntity`: the state it leaves and the identifier returned, or the error
thrown.  The global map `eidToWorld` is only written and is left out. -/
def addEntity (s : State) : State × Except Error Nat :=
  let chosen := chooseEid s.g s.w.manualEntityRecycling
  let eid := chosen.1
  if eid > s.w.size then ({ s with g := chosen.2 }, .error .maxEntitiesReached)
  else
    let w1 := { s.w with entitySparseSet := s.w.entitySparseSet.add eid }
    let w2 := w1.notQueries.foldl (addIfMatch eid) w1
    ({ g := chosen.2, w := { w2 with entityComponents := mapSet w2.entityComponents eid [] } },
      .ok eid)

/-- `removeEntity`. -/
def removeEntity (s : State) (eid : Nat) : State :=
  if !s.w.entitySparseSet.has eid then s
  else
    let w1 := (List.range s.w.queries.length).foldl (fun w qid => queryRemoveEntity w qid eid) s.w
    let g1 :=
      if s.w.manualEntityRecycling then { s.g with recycled := s.g.recycled ++ [eid] }
      else { s.g with removed := s.g.removed ++ [eid] }
    { g := g1
      w := { w1 with
        entitySparseSet := w1.entitySparseSet.remove eid
        entityComponents := mapDelete w1.entityComponents eid
        entityMasks := w1.entityMasks.map fun m => m.set eid 0 } }

/-! ## `resetWorld` on an existing world -/

/-- The callback of `world[$entityArray].forEach` in `resetWorld` at index `k`:
`forEach` skips an index that the array no longer has. -/
def resetStep (s : State) (k : Nat) : State :=
  match s.w.entitySparseSet.dense[k]? with
  | none => s
  | some eid => removeEntity s eid

/-- `resetWorld` on an existing world: the size is set, `forEach` runs
`removeEntity` over the indices that the array of entities has when the loop
starts, and every field of the world is made new. -/
def resetWorld (s : State) (size : Nat) : State :=
  { g := ((List.range s.w.entitySparseSet.dense.length).foldl resetStep
      { s with w := { s.w with size := size } }).g
    w := createWorld size }

/-! ## Several worlds -/

/-- The module state of `src/Entity.js` together with the array `worlds` of
`src/World.js`, to which `createWorld` appends every world it makes. -/
structure Universe where
  g : Globals
  worlds : List World
deriving DecidableEq, Repr

/-! ## Definitions for the statements and proofs -/

/-- Well-formedness of an indexed set: `sparse` gives for every position of
`dense` the position itself, `sparse[dense[i]] = i`. -/
def SparseSet.WF (s : SparseSet) : Prop :=
  ∀ i v, s.dense[i]? = some v → jsGet s.sparse v = some i

/-- The bit test of `hasComponent` on a table of generation arrays and a
component map. -/
def hasBitAt (em : List (List Nat)) (cm : List (Component × Registration)) (c : Component)
    (e : Nat) : Bool :=
  match mapGet cm c with
  | none => false
  | some r => (readMask em r.generationId e &&& r.bitflag) == r.bitflag

/-- The loop of `queryCheckEntity` on the fields it reads. -/
def checkMasks (em : List (List Nat)) (generations : List Nat) (masks notMasks : List (Nat × Nat))
    (eid : Nat) : Bool :=
  generations.all fun generationId =>
    let qMask := mapGet masks generationId
    let qNotMask := mapGet notMasks generationId
    let eMask := readMask em generationId eid
    !(truthy qNotMask && (eMask &&& qNotMask.getD 0) != 0) &&
    !(truthy qMask && (eMask &&& qMask.getD 0) != qMask.getD 0)

/-- The mask a dictionary of masks holds for a generation, `0` when it holds none. -/
def maskOf (a : List (Nat × Nat)) (g : Nat) : Nat := (mapGet a g).getD 0

/-- The generation and bitflag a component map assigns to a component. -/
def regBits (cm : List (Component × Registration)) (c : Component) : Option (Nat × Nat) :=
  (mapGet cm c).map fun r => (r.generationId, r.bitflag)

/-- Correctness of the compiled masks of a query against a component map: on
every table of generation arrays the loop of `queryCheckEntity` accepts an
entity exactly when the bit of every required component is set and the bit of
every forbidden component is clear. -/
def QSem (cm : List (Component × Registration)) (components notComponents : List Component)
    (generations : List Nat) (masks notMasks : List (Nat × Nat)) : Prop :=
  ∀ em e, checkMasks em generations masks notMasks e = true ↔
    ((∀ c ∈ components, hasBitAt em cm c e = true) ∧
      (∀ c ∈ notComponents, hasBitAt em cm c e = false))

/-- `mapComponents` on a component map. -/
def recOf (cm : List (Component × Registration)) (c : Component) : Option ComponentRecord :=
  (mapGet cm c).map fun r =>
    { generationId := r.generationId, bitflag := r.bitflag, store := r.store }

/-- The `reduce` that builds `generations` in `registerQuery`. -/
def dedupGenerations (l : List Nat) : List Nat :=
  l.foldl (fun a v => if v ∈ a then a else a ++ [v]) []

/-- The component a term of a query requires, if any: one listed plainly or under
`Changed`. -/
def termRequired : QueryTerm → Option Component
  | .comp c => some c
  | .modifier c .changed => some c
  | _ => none

/-- The component a term of a query forbids, if any: one listed under `Not`. -/
def termForbidden : QueryTerm → Option Component
  | .modifier c .not => some c
  | _ => none

/-- The component a term of a query tracks, if any: one listed under `Changed`. -/
def termChanged : QueryTerm → Option Component
  | .modifier c .changed => some c
  | _ => none

/-- The component a term of a query names. -/
def termComponent : QueryTerm → Component
  | .comp c => c
  | .modifier c _ => c

/-- The components a query requires. -/
def requiredOf (qd : QueryDef) : List Component := qd.queryComponents.filterMap termRequired

/-- The components a query forbids. -/
def forbiddenOf (qd : QueryDef) : List Component := qd.queryComponents.filterMap termForbidden

/-- The components a query tracks for changes. -/
def changedOf (qd : QueryDef) : List Component := qd.queryComponents.filterMap termChanged

/-- A world after more components have been registered: nothing else has changed,
absent generation arrays read as zero, and the records present are kept. -/
structure RegExt (w w' : World) : Prop where
  size : w'.size = w.size
  entityComponents : w'.entityComponents = w.entityComponents
  entitySparseSet : w'.entitySparseSet = w.entitySparseSet
  queryMap : w'.queryMap = w.queryMap
  queries : w'.queries = w.queries
  notQueries : w'.notQueries = w.notQueries
  dirtyQueries : w'.dirtyQueries = w.dirtyQueries
  manualEntityRecycling : w'.manualEntityRecycling = w.manualEntityRecycling
  readMask : ∀ g e, readMask w'.entityMasks g e = readMask w.entityMasks g e
  keep : ∀ c r, mapGet w.componentMap c = some r → mapGet w'.componentMap c = some r

/-- The four indexed sets of a compiled query are well formed. -/
def Query.SetsWF (q : Query) : Prop :=
  q.live.WF ∧ q.toRemove.WF ∧ q.entered.WF ∧ q.exited.WF

/-- Registration invariant of a world: the cursor and every assigned bitflag are
single bits up to `2 ^ 30`, every generation array has the world's size, assigned
generations exist, assigned slots precede the cursor and are pairwise distinct. -/
structure RegInv (w : World) : Prop where
  bitflag_pow : ∃ k, k ≤ 30 ∧ w.bitflag = 2 ^ k
  masks_ne : w.entityMasks ≠ []
  masks_len : ∀ m ∈ w.entityMasks, m.length = w.size
  rec_ok : ∀ c r, mapGet w.componentMap c = some r →
    r.store = c ∧ r.generationId < w.entityMasks.length ∧
      ∃ j, j ≤ 30 ∧ r.bitflag = 2 ^ j ∧
        (r.generationId + 1 = w.entityMasks.length → r.bitflag < w.bitflag)
  rec_inj : ∀ c c' r r', mapGet w.componentMap c = some r → mapGet w.componentMap c' = some r' →
    r.generationId = r'.generationId → r.bitflag = r'.bitflag → c = c'

/-- Every query with a pending removal is in the dirty set. -/
def DirtyOK (w : World) : Prop :=
  ∀ (qid : Nat) (q : Query), w.queries[qid]? = some q → q.toRemove.dense ≠ [] → qid ∈ w.dirtyQueries

/-- The invariant of a world apart from the contents of the live sets. -/
structure WBase (w : World) : Prop where
  reg : RegInv w
  q_sem : ∀ (qid : Nat) (q : Query), w.queries[qid]? = some q →
    QSem w.componentMap q.components q.notComponents q.generations q.masks q.notMasks
  q_sub : ∀ (qid : Nat) (q : Query), w.queries[qid]? = some q → ∀ c ∈ q.components ++ q.notComponents,
    ∃ r, mapGet w.componentMap c = some r ∧ qid ∈ r.queries
  q_not : ∀ (qid : Nat) (q : Query), w.queries[qid]? = some q → q.notComponents ≠ [] → qid ∈ w.notQueries
  q_map : ∀ qd qid, mapGet w.queryMap qd = some qid → ∃ q, w.queries[qid]? = some q ∧
    q.components = requiredOf qd ∧ q.notComponents = forbiddenOf qd ∧
      q.changedComponents = changedOf qd
  exists_wf : w.entitySparseSet.WF
  sets_wf : ∀ (qid : Nat) (q : Query), w.queries[qid]? = some q → q.SetsWF
  dirty_ok : DirtyOK w
  masks_zero : ∀ e, w.entitySparseSet.has e = false → ∀ g, readMask w.entityMasks g e = 0
  held_ok : ∀ e, w.entitySparseSet.has e = true → (mapGet w.entityComponents e).isSome = true

/-- The live set of the query at position `qid` is right about entity `e`: `e` is a
member with no pending removal exactly when it exists and passes the check.
Queries that list no required and no forbidden component are exempt. -/
def LiveOK (w : World) (qid e : Nat) : Prop :=
  ∀ q : Query, w.queries[qid]? = some q → q.components ++ q.notComponents ≠ [] →
    ((q.live.has e = true ∧ q.toRemove.has e = false) ↔
      (w.entitySparseSet.has e = true ∧ queryCheckEntity w q e = true))

/-- The invariant of a world. -/
structure WInv (w : World) : Prop where
  base : WBase w
  live_ok : ∀ qid e, LiveOK w qid e

/-- The invariant of a state: the world invariant, every existing entity is below
the cursor, and the pooled identifiers are distinct, below the cursor and do not
exist in the world. -/
structure Inv (s : State) : Prop where
  winv : WInv s.w
  below_cursor : ∀ e, s.w.entitySparseSet.has e = true → e < s.g.globalEntityCursor
  pool_nodup : (s.g.removed ++ s.g.recycled).Nodup
  pool_free : ∀ e ∈ s.g.removed ++ s.g.recycled,
    s.w.entitySparseSet.has e = false ∧ e < s.g.globalEntityCursor

/-- An update of the query at position `qid` alone: its object becomes `f q` and,
when `d q` holds, the query joins the dirty set. -/
def updQ (f : Query → Query) (d : Query → Bool) (w : World) (qid : Nat) : World :=
  match w.queries[qid]? with
  | none => w
  | some q =>
    { w with
      queries := w.queries.set qid (f q)
      dirtyQueries := if d q then setAdd w.dirtyQueries qid else w.dirtyQueries }

/-- What `queryRemoveEntity` does to the query object. -/
def removeQ (e : Nat) (q : Query) : Query :=
  if !q.live.has e || q.toRemove.has e then q
  else { q with toRemove := q.toRemove.add e, exited := q.exited.add e }

/-- Whether `queryRemoveEntity` puts the query into the dirty set. -/
def removeDirty (e : Nat) (q : Query) : Bool :=
  !(!q.live.has e || q.toRemove.has e)

/-- What the callback of `addComponent` and `removeComponent` does to the query
object, on the generation arrays `em`. -/
def reevalQ (em : List (List Nat)) (e : Nat) (q : Query) : Query :=
  if checkMasks em q.generations q.masks q.notMasks e then
    queryAddEntity
      { q with toRemove := q.toRemove.remove e, exited := q.exited.remove e } e
  else
    removeQ e { q with toRemove := q.toRemove.remove e, entered := q.entered.remove e }

/-- Whether the callback of `addComponent` and `removeComponent` puts the query
into the dirty set. -/
def reevalDirty (em : List (List Nat)) (e : Nat) (q : Query) : Bool :=
  !checkMasks em q.generations q.masks q.notMasks e &&
    removeDirty e { q with toRemove := q.toRemove.remove e, entered := q.entered.remove e }

/-- What the callback of `addEntity` does to the query object. -/
def addQ (em : List (List Nat)) (e : Nat) (q : Query) : Query :=
  if checkMasks em q.generations q.masks q.notMasks e then queryAddEntity q e else q

/-- Two worlds differ at most in the query objects and the dirty set. -/
structure QFrame (w w' : World) : Prop where
  size : w'.size = w.size
  entityMasks : w'.entityMasks = w.entityMasks
  entityComponents : w'.entityComponents = w.entityComponents
  entitySparseSet : w'.entitySparseSet = w.entitySparseSet
  bitflag : w'.bitflag = w.bitflag
  componentMap : w'.componentMap = w.componentMap
  queryMap : w'.queryMap = w.queryMap
  notQueries : w'.notQueries = w.notQueries
  manualEntityRecycling : w'.manualEntityRecycling = w.manualEntityRecycling
  qlen : w'.queries.length = w.queries.length

/-- Two query objects have the same compiled fields. -/
structure SameStatic (q q' : Query) : Prop where
  components : q'.components = q.components
  notComponents : q'.notComponents = q.notComponents
  changedComponents : q'.changedComponents = q.changedComponents
  masks : q'.masks = q.masks
  notMasks : q'.notMasks = q.notMasks
  generations : q'.generations = q.generations

/-- A step of a query object that concerns entity `e` only: the compiled fields
are kept, the sets stay well formed, no other entity changes membership in any
of the four sets, and nothing leaves the live set. -/
structure QStep (e : Nat) (q q' : Query) : Prop where
  static : SameStatic q q'
  wf : q.SetsWF → q'.SetsWF
  others : q.SetsWF → ∀ e', e' ≠ e →
    q'.live.has e' = q.live.has e' ∧ q'.toRemove.has e' = q.toRemove.has e' ∧
      q'.entered.has e' = q.entered.has e' ∧ q'.exited.has e' = q.exited.has e'
  live_mono : q.SetsWF → ∀ e', q.live.has e' = true → q'.live.has e' = true

/-- What `queryCommitRemovals` does: it keeps the compiled fields and the two
logs, empties the pending removals and leaves in the live set the members that
were not pending. -/
structure Committed (q q' : Query) : Prop where
  static : SameStatic q q'
  entered : q'.entered = q.entered
  exited : q'.exited = q.exited
  pending : q'.toRemove.dense = []
  wf_toRemove : q'.toRemove.WF
  wf_live : q'.live.WF
  live : ∀ e, q'.live.has e = (q.live.has e && !q.toRemove.has e)

/-- The world of `registerQuery` before the initial scan: the compiled query is
stored, mapped and subscribed. -/
def preScan (w1 : World) (ls : QueryLists) (qd : QueryDef) : World :=
  { w1 with
    queryMap := mapSet w1.queryMap qd w1.queries.length
    queries := w1.queries ++ [compileQuery w1 ls]
    componentMap := (compileQuery w1 ls).allComponents.foldl (subscribe w1.queries.length)
      w1.componentMap
    notQueries :=
      if (compileQuery w1 ls).notComponents.length = 0 then w1.notQueries
      else setAdd w1.notQueries w1.queries.length }

/-- The calls of the interface that change the state. -/
inductive Op where
  | addEntity
  | removeEntity (eid : Nat)
  | addComponent (component : Component) (eid : Option Nat)
  | removeComponent (component : Component) (eid : Option Nat)
  | registerComponent (component : Component)
  | query (qd : QueryDef)
  | enterQuery (qd : QueryDef)
  | exitQuery (qd : QueryDef)
  | enableManualEntityRecycling
  | flushRemovedEntities
  | setRemovedRecycleThreshold (newThreshold : Double)
deriving DecidableEq, Repr

/-- The state a call leaves; a call that throws leaves the state it had reached. -/
def step (s : State) : Op → State
  | .addEntity => (addEntity s).1
  | .removeEntity eid => removeEntity s eid
  | .addComponent c eid =>
    match addComponent s.w c eid with
    | .ok w => { s with w := w }
    | .error _ => s
  | .removeComponent c eid =>
    match removeComponent s.w c eid with
    | .ok w => { s with w := w }
    | .error _ => s
  | .registerComponent c => { s with w := registerComponent s.w c }
  | .query qd => { s with w := (query s.g s.w qd).1 }
  | .enterQuery qd => { s with w := (enterQuery s.g s.w qd).1 }
  | .exitQuery qd => { s with w := (exitQuery s.g s.w qd).1 }
  | .enableManualEntityRecycling => { s with w := enableManualEntityRecycling s.w }
  | .flushRemovedEntities =>
    match flushRemovedEntities s with
    | .ok s1 => s1
    | .error _ => s
  | .setRemovedRecycleThreshold t => { s with g := setRemovedRecycleThreshold s.g t }

/-- A call is admitted when it registers no component a second time: an explicit
`registerComponent` is for a component the world has not registered. -/
def Op.Admitted (s : State) : Op → Prop
  | .registerComponent c => mapGet s.w.componentMap c = none
  | _ => True

/-- The states reached from a new world, of any size, created in a module state
with cursor `0` and empty pools, by admitted calls. -/
inductive Reachable : State → Prop where
  | init (globalSize : Nat) (threshold : Double) (size : Nat) :
    Reachable { g := initGlobals globalSize threshold, w := createWorld size }
  | step {s : State} (op : Op) : Reachable s → op.Admitted s → Reachable (step s op)

/-- The common tail of `addComponent` and `removeComponent`: the word of entity `e`
in the generation of the record `r` becomes `v`, the callbacks run over the
queries subscribed to the record, and the held components of `e` become their
image under `f`. -/
def mutated (w : World) (r : Registration) (e v : Nat) (f : List Component → List Component) :
    World :=
  { (r.queries.foldl (reevaluate e)
      { w with entityMasks := writeMask w.entityMasks r.generationId e v }) with
    entityComponents := updateHeld
      (r.queries.foldl (reevaluate e)
        { w with entityMasks := writeMask w.entityMasks r.generationId e v }).entityComponents
      e f }

/-- Equality of results is decidable. -/
instance instDecidableEqExcept {ε α : Type} [DecidableEq ε] [DecidableEq α] :
    DecidableEq (Except ε α) := fun a b =>
  match a, b with
  | .ok x, .ok y =>
    if h : x = y then isTrue (by rw [h]) else isFalse (fun h' => h (Except.ok.inj h'))
  | .error x, .error y =>
    if h : x = y then isTrue (by rw [h]) else isFalse (fun h' => h (Except.error.inj h'))
  | .ok _, .error _ => isFalse (fun h => Except.noConfusion h)
  | .error _, .ok _ => isFalse (fun h => Except.noConfusion h)

/-- The state after a sequence of calls. -/
def run (s : State) (ops : List Op) : State := ops.foldl step s

/-- Whether a call is admitted, as a Boolean. -/
def Op.admitted (s : State) : Op → Bool
  | .registerComponent c => (mapGet s.w.componentMap c).isNone
  | _ => true

/-- Whether every call of a sequence is admitted in the state it is made in. -/
def admittedRun : State → List Op → Bool
  | _, [] => true
  | s, op :: ops => op.admitted s && admittedRun (step s op) ops

/-- The state of a new module with the default sizes of `src/Entity.js` scaled
down: global size `globalSize`, the default reuse threshold, one world of `size`. -/
def newState (globalSize size : Nat) : State :=
  { g := initGlobals globalSize defaultRemovedReuseThreshold, w := createWorld size }

/-- The world of a result of `addComponent` or `removeComponent`, the given world
when the call threw. -/
def worldOf (r : Except Error World) (w : World) : World :=
  match r with
  | .ok w1 => w1
  | .error _ => w

/-- The query object stored at a position, a query compiled from nothing when the
position is empty. -/
def queryAt (w : World) (qid : Nat) : Query :=
  (w.queries[qid]?).getD
    (compileQuery (createWorld 0) { components := [], notComponents := [], changedComponents := [] })

/-- The query `defineQuery([A, B])` for the components `0` and `1`. -/
def queryAB : QueryDef := { uid := 0, queryComponents := [.comp 0, .comp 1] }

/-- The query `defineQuery([Not(A)])` for the component `0`. -/
def queryNotA : QueryDef := { uid := 1, queryComponents := [.modifier 0 .not] }

/-- A world of size `4` with the query over `[A, B]` compiled and read once, in
which entity `0` has `A` and `B` and entity `1` has `A`. -/
def stateAB : State :=
  run (newState 10 4)
    [.addEntity, .addEntity, .addComponent 0 (some 0), .addComponent 1 (some 0),
      .addComponent 0 (some 1), .query queryAB]

/-- A world of size `2` in which `addEntity` has returned `0`, `1` and `2`. -/
def stateFull : State := run (newState 10 2) [.addEntity, .addEntity, .addEntity]

/-- A world of size `2` in which the query over `[Not(A)]` was compiled and read
before `addEntity` returned `0`, `1` and `2`. -/
def stateNotA : State :=
  run (newState 10 2) [.query queryNotA, .addEntity, .addEntity, .addEntity]

/-- A world in which `32` components are registered, entity `0` has the first and
the last of them and a query over these two is compiled. -/
def stateGenerations : State :=
  run (newState 10 4)
    ((List.range 32).map Op.registerComponent ++
      [.addEntity, .addComponent 0 (some 0), .addComponent 31 (some 0),
        .query { uid := 0, queryComponents := [.comp 0, .comp 31] }])

/-- A call on the world at position `i` of the array `worlds`: the world and the
module state are those the call leaves. -/
def Universe.call (u : Universe) (i : Nat) (op : Op) : Universe :=
  match u.worlds[i]? with
  | none => u
  | some w =>
    { g := (step { g := u.g, w := w } op).g
      worlds := u.worlds.set i (step { g := u.g, w := w } op).w }

/-- The module states with their worlds that are reached from a new module, with
cursor `0`, empty pools and no world, by `createWorld` and by admitted calls on
the worlds. -/
inductive UReachable : Universe → Prop where
  | init (globalSize : Nat) (threshold : Double) :
    UReachable { g := initGlobals globalSize threshold, worlds := [] }
  | createWorld {u : Universe} (size : Nat) :
    UReachable u → UReachable { u with worlds := u.worlds ++ [createWorld size] }
  | call {u : Universe} (i : Nat) (op : Op) :
    UReachable u → (∀ w, u.worlds[i]? = some w → op.Admitted { g := u.g, w := w }) →
    UReachable (u.call i op)

/-- The invariant of a module state with several worlds: every world satisfies the
invariant of a world, every existing entity is below the cursor, the pooled
identifiers are distinct, below the cursor and exist in no world, and no entity
exists in two worlds. -/
structure UInv (u : Universe) : Prop where
  each : ∀ (i : Nat) (w : World), u.worlds[i]? = some w → WInv w
  below : ∀ (i : Nat) (w : World), u.worlds[i]? = some w →
    ∀ e, w.entitySparseSet.has e = true → e < u.g.globalEntityCursor
  pool_nodup : (u.g.removed ++ u.g.recycled).Nodup
  pool_below : ∀ e ∈ u.g.removed ++ u.g.recycled, e < u.g.globalEntityCursor
  pool_free : ∀ e ∈ u.g.removed ++ u.g.recycled, ∀ (i : Nat) (w : World),
    u.worlds[i]? = some w → w.entitySparseSet.has e = false
  disjoint : ∀ (i j : Nat) (w w' : World), i ≠ j → u.worlds[i]? = some w →
    u.worlds[j]? = some w' → ∀ e, w.entitySparseSet.has e = true → w'.entitySparseSet.has e = false

/-- Every shadow is as long as the column it shadows. -/
def ShadowsFit (flatProps : List Column) (shadows : List (Nat × Column)) : Prop :=
  ∀ pid sh, mapGet shadows pid = some sh →
    ∃ col, flatProps[pid]? = some col ∧ sh.length = col.length

/-- The shadow of column `pid` exists and agrees with the column at entity `e`. -/
def Synced (flatProps : List Column) (shadows : List (Nat × Column)) (pid e : Nat) : Prop :=
  ∃ sh col, mapGet shadows pid = some sh ∧ flatProps[pid]? = some col ∧ sh[e]? = col[e]?

/-- The exact product of the global size and the reuse threshold, as a numerator
over `2 ^ removedReuseThreshold.scale`; `sizeTimesThreshold` is this number
rounded to a double. -/
def exactProduct (g : Globals) : Nat := g.globalSize * g.removedReuseThreshold.mant

/-- A world of size `3` in a module of size `3` with reuse threshold `1 / 2`, in
which entities `0` and `1` have been added and removed. -/
def stateHalf : State :=
  run { g := initGlobals 3 { mant := 1, scale := 1 }, w := createWorld 3 }
    [.addEntity, .addEntity, .removeEntity 0, .removeEntity 1]

/-- The double the literal `0.35` denotes, `3152519739159347 / 2 ^ 53`, which is
below `35 / 100`. -/
def threshold035 : Double := { mant := 3152519739159347, scale := 53 }

/-- A world of size `10` in a module of size `10` with reuse threshold `0.35`, in
which five entities have been added and the first four removed. -/
def stateDouble : State :=
  run { g := initGlobals 10 threshold035, w := createWorld 10 }
    [.addEntity, .addEntity, .addEntity, .addEntity, .addEntity, .removeEntity 0,
      .removeEntity 1, .removeEntity 2, .removeEntity 3]

/-- The query `defineQuery([Changed(A)])` for the component `0`. -/
def queryChangedA : QueryDef := { uid := 2, queryComponents := [.modifier 0 .changed] }

/-- A world of size `4` in which entities `0` and `1` have the component `0`. -/
def stateTracked : State :=
  run (newState 10 4)
    [.addEntity, .addEntity, .addComponent 0 (some 0), .addComponent 0 (some 1)]

/-- Two worlds of size `4` in one module; `addEntity` was called on the first, on
the second and on the first again, then `removeEntity` of `0` on the first. -/
def twoWorlds : Universe :=
  ((((({ g := initGlobals 10 defaultRemovedReuseThreshold, worlds := [createWorld 4, createWorld 4] } : Universe).call
    0 .addEntity).call 1 .addEntity).call 0 .addEntity).call 0 (.removeEntity 0))

/-- The world at a position of the array `worlds`, a world of size `0` when the
position is empty. -/
def worldAt (u : Universe) (i : Nat) : World := (u.worlds[i]?).getD (createWorld 0)

/-- One tracked column of length `4`, with the values `5` and `7` for the entities
`0` and `1`. -/
def trackedColumns : List Column := [[5, 7, 0, 0]]

/-- The tracking fields of a query object that has not been read. -/
def noTracking : Tracking := { changed := [], shadows := [] }

/-- The indexed sets built from the empty one by `add` and `remove`. -/
inductive SparseSet.Built : SparseSet → Prop where
  | empty : SparseSet.Built SparseSet.empty
  | add {s : SparseSet} (v : Nat) : SparseSet.Built s → SparseSet.Built (s.add v)
  | remove {s : SparseSet} (v : Nat) : SparseSet.Built s → SparseSet.Built (s.remove v)

/-- The states reached from a new world by any calls, explicit registrations of
components that are already registered included. -/
inductive Reached : State → Prop where
  | init (globalSize : Nat) (threshold : Double) (size : Nat) :
    Reached { g := initGlobals globalSize threshold, w := createWorld size }
  | step {s : State} (op : Op) : Reached s → Reached (step s op)

/-- The comparison `prop[eid] !== shadow[eid]` of `diff` for column `pid` and
entity `e`, the shadow being the one stored or else the one `createShadow` makes. -/
def cellDiffers (cs : Column → Column) (P : List Column) (S : List (Nat × Column))
    (pid e : Nat) : Bool :=
  match P[pid]? with
  | none => false
  | some col => decide (col[e]? ≠ ((mapGet S pid).getD (cs col))[e]?)

/-- Whether some tracked column differs from its shadow at entity `e`. -/
def entityDiffers (cs : Column → Column) (P : List Column) (S : List (Nat × Column))
    (e : Nat) : Bool :=
  (List.range P.length).any fun pid => cellDiffers cs P S pid e

/-- A world of size `4` in which component `0` is registered and entity `0` has
it. -/
def stateRegistered : State :=
  run (newState 10 4) [.registerComponent 0, .addEntity, .addComponent 0 (some 0)]

/-- A world of size `4` with the entities `0`, `1` and `2`. -/
def stateThree : State := run (newState 10 4) [.addEntity, .addEntity, .addEntity]

/-- A world of size `4` with manual recycling in which entity `0` has been
removed and entity `1` exists. -/
def stateManual : State :=
  run (newState 10 4) [.enableManualEntityRecycling, .addEntity, .addEntity, .removeEntity 0]

/-- The query `defineQuery([Changed(A), B])` for the components `0` and `1`. -/
def queryChangedAB : QueryDef :=
  { uid := 3, queryComponents := [.modifier 0 .changed, .comp 1] }

/-- Stores for the components `0` and `1`, one column each, and tag stores for
the others. -/
def twoStores (b : Int) : Component → StoreView := fun c =>
  if c = 0 then { tagStore := false, storeFlattened := some [[5, 7, 0, 0]], column := [] }
  else if c = 1 then { tagStore := false, storeFlattened := some [[b, 2, 0, 0]], column := [] }
  else { tagStore := true, storeFlattened := none, column := [] }

/-! # Proofs -/

/-! ## Dictionaries -/

theorem mapGet_mapSet {α β : Type} [DecidableEq α] (m : List (α × β)) (a : α) (b : β) (x : α) :
    mapGet (mapSet m a b) x = if x = a then some b else mapGet m x := by
  induction m with
  | nil =>
    by_cases h : x = a
    · simp [mapSet, mapGet, h]
    · have h2 : ¬ a = x := fun e => h e.symm
      simp [mapSet, mapGet, h, h2]
  | cons p rest ih =>
    obtain ⟨k, v⟩ := p
    by_cases hk : k = a
    · subst hk
      by_cases h : x = k
      · subst h; simp [mapSet, mapGet]
      · have h2 : ¬ k = x := fun e => h e.symm
        simp [mapSet, mapGet, h, h2]
    · by_cases h : x = a
      · subst h
        simp [mapSet, mapGet, hk, ih]
      · by_cases h3 : k = x
        · simp [mapSet, mapGet, hk, h, h3]
        · simp [mapSet, mapGet, hk, h, h3, ih]

theorem mapGet_mapSet_self {α β : Type} [DecidableEq α] (m : List (α × β)) (a : α) (b : β) :
    mapGet (mapSet m a b) a = some b := by
  simp [mapGet_mapSet]

theorem mapGet_mapSet_ne {α β : Type} [DecidableEq α] (m : List (α × β)) (a : α) (b : β) (x : α)
    (h : x ≠ a) : mapGet (mapSet m a b) x = mapGet m x := by
  simp [mapGet_mapSet, h]

theorem mapGet_mapDelete_ne {α β : Type} [DecidableEq α] (m : List (α × β)) (a x : α)
    (h : x ≠ a) : mapGet (mapDelete m a) x = mapGet m x := by
  induction m with
  | nil => simp [mapDelete]
  | cons p rest ih =>
    obtain ⟨k, v⟩ := p
    by_cases hk : k = a
    · subst hk
      have h2 : ¬ k = x := fun e => h e.symm
      simp [mapDelete, mapGet, h2]
    · by_cases h3 : k = x
      · subst h3
        simp [mapDelete, mapGet, hk]
      · simp [mapDelete, mapGet, hk, h3, ih]

theorem mem_setAdd {α : Type} [DecidableEq α] (s : List α) (a x : α) :
    x ∈ setAdd s a ↔ x ∈ s ∨ x = a := by
  unfold setAdd
  split
  · constructor
    · intro h; exact Or.inl h
    · rintro (h | h)
      · exact h
      · subst h; assumption
  · simp

theorem jsGet_jsSet (a : List (Option Nat)) (i v j : Nat) :
    jsGet (jsSet a i v) j = if j = i then some v else jsGet a j := by
  unfold jsSet jsGet
  split
  · rename_i h
    by_cases hj : j = i
    · subst hj; simp [List.getD_eq_getElem?_getD, List.getElem?_set, h]
    · have : ¬ i = j := fun e => hj e.symm
      simp [List.getD_eq_getElem?_getD, List.getElem?_set, hj, this]
  · rename_i h
    have h : a.length ≤ i := Nat.le_of_not_lt h
    by_cases hj : j = i
    · subst hj
      simp [List.getD_eq_getElem?_getD, List.getElem?_append_right, h]
    · simp only [hj, if_false, List.getD_eq_getElem?_getD]
      by_cases hlt : j < a.length
      · rw [List.append_assoc, List.getElem?_append_left hlt]
      · have hle : a.length ≤ j := Nat.le_of_not_lt hlt
        rw [List.append_assoc, List.getElem?_append_right hle, List.getElem?_eq_none_iff.mpr hle]
        by_cases hlt2 : j - a.length < i - a.length
        · rw [List.getElem?_append_left (by simpa using hlt2)]
          simp [List.getElem?_replicate, hlt2]
        · have : (List.replicate (i - a.length) (none : Option Nat)).length ≤ j - a.length := by
            simpa using Nat.le_of_not_lt hlt2
          rw [List.getElem?_append_right this]
          have : j - a.length - (List.replicate (i - a.length) (none : Option Nat)).length ≠ 0 := by
            simp; omega
          obtain ⟨n, hn⟩ := Nat.exists_eq_succ_of_ne_zero this
          rw [hn]; simp

namespace SparseSet

theorem has_iff (s : SparseSet) (v : Nat) :
    s.has v = true ↔ ∃ i, jsGet s.sparse v = some i ∧ s.dense[i]? = some v := by
  unfold has
  cases h : jsGet s.sparse v with
  | none => simp
  | some i =>
    simp only [Bool.and_eq_true, decide_eq_true_eq, beq_iff_eq, Option.some.injEq, exists_eq_left']
    constructor
    · rintro ⟨_, h2⟩; exact h2
    · intro h2
      refine ⟨?_, h2⟩
      by_contra hlt
      rw [List.getElem?_eq_none_iff.mpr (Nat.le_of_not_lt hlt)] at h2
      exact Option.noConfusion h2

theorem has_mem (s : SparseSet) (v : Nat) (h : s.has v = true) : v ∈ s.dense := by
  obtain ⟨i, _, h2⟩ := (has_iff s v).mp h
  exact List.mem_iff_getElem?.mpr ⟨i, h2⟩

theorem WF.has_iff_mem {s : SparseSet} (hs : s.WF) (v : Nat) : s.has v = true ↔ v ∈ s.dense := by
  constructor
  · exact has_mem s v
  · intro h
    obtain ⟨i, hi⟩ := List.getElem?_of_mem h
    exact (has_iff s v).mpr ⟨i, hs i v hi, hi⟩

theorem WF.nodup {s : SparseSet} (hs : s.WF) : s.dense.Nodup := by
  rw [List.nodup_iff_injective_getElem]
  intro ⟨i, hi⟩ ⟨j, hj⟩ h
  simp only at h
  have h1 := hs i (s.dense[i]) (List.getElem?_eq_getElem hi)
  have h2 := hs j (s.dense[j]) (List.getElem?_eq_getElem hj)
  rw [h] at h1
  rw [h1] at h2
  exact Fin.ext (Option.some.inj h2)

theorem WF_empty : SparseSet.empty.WF := by
  intro i v h
  simp [SparseSet.empty] at h

theorem has_empty (v : Nat) : SparseSet.empty.has v = false := by
  simp [SparseSet.empty, has, jsGet]

theorem add_of_has {s : SparseSet} {v : Nat} (h : s.has v = true) : s.add v = s := by
  simp [add, h]

theorem remove_of_not_has {s : SparseSet} {v : Nat} (h : s.has v = false) : s.remove v = s := by
  simp [remove, h]

theorem has_add (s : SparseSet) (v w : Nat) :
    (s.add v).has w = (decide (w = v) || s.has w) := by
  by_cases hv : s.has v = true
  · rw [add_of_has hv]
    by_cases hw : w = v
    · subst hw; simp [hv]
    · simp [hw]
  · have hadd : s.add v = { dense := s.dense ++ [v], sparse := jsSet s.sparse v s.dense.length } := by
      simp [add, hv]
    rw [hadd]
    by_cases hw : w = v
    · subst hw
      simp [has, jsGet_jsSet]
    · simp only [hw, decide_False, Bool.false_or]
      rw [Bool.eq_iff_iff, has_iff, has_iff]
      simp only [jsGet_jsSet, hw, if_false]
      constructor
      · rintro ⟨i, h1, h2⟩
        refine ⟨i, h1, ?_⟩
        by_cases hlt : i < s.dense.length
        · rwa [List.getElem?_append_left hlt] at h2
        · have hle := Nat.le_of_not_lt hlt
          rw [List.getElem?_append_right hle] at h2
          cases hk : i - s.dense.length with
          | zero => rw [hk] at h2; simp at h2; exact absurd h2.symm hw
          | succ n => rw [hk] at h2; simp at h2
      · rintro ⟨i, h1, h2⟩
        refine ⟨i, h1, ?_⟩
        have hlt : i < s.dense.length := by
          by_contra hlt
          rw [List.getElem?_eq_none_iff.mpr (Nat.le_of_not_lt hlt)] at h2
          exact Option.noConfusion h2
        rwa [List.getElem?_append_left hlt]

theorem WF.add {s : SparseSet} (hs : s.WF) (v : Nat) : (s.add v).WF := by
  by_cases hv : s.has v = true
  · rw [add_of_has hv]; exact hs
  · have hadd : s.add v = { dense := s.dense ++ [v], sparse := jsSet s.sparse v s.dense.length } := by
      simp [SparseSet.add, hv]
    rw [hadd]
    intro i x hx
    simp only at hx
    simp only [jsGet_jsSet]
    by_cases hlt : i < s.dense.length
    · rw [List.getElem?_append_left hlt] at hx
      have hne : x ≠ v := by
        intro e
        subst e
        exact hv ((has_iff s x).mpr ⟨i, hs i x hx, hx⟩)
      simp [hne, hs i x hx]
    · have hle := Nat.le_of_not_lt hlt
      rw [List.getElem?_append_right hle] at hx
      cases hk : i - s.dense.length with
      | zero =>
        rw [hk] at hx
        simp at hx
        subst hx
        have : i = s.dense.length := by omega
        simp [this]
      | succ n => rw [hk] at hx; simp at hx

/-- The two shapes of the result of `remove` on a member. -/
theorem remove_eq {s : SparseSet} {v idx last : Nat} {d : List Nat} (hv : s.has v = true)
    (hd : s.dense = d ++ [last]) (hi : jsGet s.sparse v = some idx) :
    s.remove v =
      if idx < d.length then { dense := d.set idx last, sparse := jsSet s.sparse last idx }
      else { dense := d, sparse := s.sparse } := by
  unfold remove
  simp [hv, hi, hd]

theorem WF.has_remove {s : SparseSet} (hs : s.WF) (v w : Nat) :
    (s.remove v).has w = (decide (w ≠ v) && s.has w) := by
  by_cases hv : s.has v = true
  swap
  · rw [remove_of_not_has (by simpa using hv)]
    by_cases hw : w = v
    · subst hw; simp [hv]
    · simp [hw]
  obtain ⟨idx, hidx, hdv⟩ := (has_iff s v).mp hv
  rcases List.eq_nil_or_concat s.dense with hnil | ⟨d, last, hd⟩
  all_goals try rw [List.concat_eq_append] at hd
  · rw [hnil] at hdv; simp at hdv
  have hlastpos : jsGet s.sparse last = some d.length := by
    apply hs; rw [hd]; simp
  have hidxlt : idx < d.length + 1 := by
    by_contra hlt
    rw [hd, List.getElem?_eq_none_iff.mpr (by simp; omega)] at hdv
    exact Option.noConfusion hdv
  rw [remove_eq hv hd hidx]
  rw [Bool.eq_iff_iff]
  simp only [Bool.and_eq_true, decide_eq_true_eq]
  split
  · rename_i hlt
    have hvd : d[idx]? = some v := by
      rw [hd, List.getElem?_append_left hlt] at hdv; exact hdv
    have hlv : last ≠ v := by
      intro e
      rw [e, hidx] at hlastpos
      have := Option.some.inj hlastpos
      omega
    rw [has_iff, has_iff]
    simp only [jsGet_jsSet]
    by_cases hwl : w = last
    · subst hwl
      simp only [if_true]
      constructor
      · intro _
        exact ⟨hlv, d.length, hlastpos, by rw [hd]; simp⟩
      · intro _
        exact ⟨idx, rfl, by simp [List.getElem?_set, hlt]⟩
    · simp only [hwl, if_false]
      constructor
      · rintro ⟨i, h1, h2⟩
        have hilt : i < d.length := by
          by_contra hc
          rw [List.getElem?_eq_none_iff.mpr (by simpa using Nat.le_of_not_lt hc)] at h2
          exact Option.noConfusion h2
        by_cases hii : idx = i
        · subst hii
          simp [List.getElem?_set, hilt] at h2
          exact absurd h2.symm hwl
        · rw [List.getElem?_set_ne hii] at h2
          refine ⟨?_, i, h1, by rw [hd, List.getElem?_append_left hilt]; exact h2⟩
          intro e
          subst e
          rw [hidx] at h1
          exact hii (Option.some.inj h1)
      · rintro ⟨hwv, i, h1, h2⟩
        refine ⟨i, h1, ?_⟩
        have hilt : i < d.length := by
          by_contra hc
          have hle := Nat.le_of_not_lt hc
          rw [hd, List.getElem?_append_right hle] at h2
          cases hk : i - d.length with
          | zero => rw [hk] at h2; simp at h2; exact hwl h2.symm
          | succ n => rw [hk] at h2; simp at h2
        have hii : idx ≠ i := by
          intro e
          subst e
          rw [hd, List.getElem?_append_left hilt] at h2
          rw [hvd] at h2
          exact hwv (Option.some.inj h2).symm
        rw [List.getElem?_set_ne hii]
        rw [hd, List.getElem?_append_left hilt] at h2
        exact h2
  · rename_i hge
    have hidxeq : idx = d.length := by omega
    subst hidxeq
    have hvl : v = last := by
      rw [hd] at hdv; simp at hdv; exact hdv.symm
    subst hvl
    rw [has_iff, has_iff]
    constructor
    · rintro ⟨i, h1, h2⟩
      have hilt : i < d.length := by
        by_contra hc
        rw [List.getElem?_eq_none_iff.mpr (by simpa using Nat.le_of_not_lt hc)] at h2
        exact Option.noConfusion h2
      refine ⟨?_, i, h1, by rw [hd, List.getElem?_append_left hilt]; exact h2⟩
      intro e
      subst e
      rw [hidx] at h1
      have := Option.some.inj h1
      omega
    · rintro ⟨hwv, i, h1, h2⟩
      refine ⟨i, h1, ?_⟩
      have hilt : i < d.length := by
        by_contra hc
        have hle := Nat.le_of_not_lt hc
        rw [hd, List.getElem?_append_right hle] at h2
        cases hk : i - d.length with
        | zero => rw [hk] at h2; simp at h2; exact hwv h2.symm
        | succ n => rw [hk] at h2; simp at h2
      rw [hd, List.getElem?_append_left hilt] at h2
      exact h2

theorem WF.remove {s : SparseSet} (hs : s.WF) (v : Nat) : (s.remove v).WF := by
  by_cases hv : s.has v = true
  swap
  · rw [remove_of_not_has (by simpa using hv)]; exact hs
  obtain ⟨idx, hidx, hdv⟩ := (has_iff s v).mp hv
  rcases List.eq_nil_or_concat s.dense with hnil | ⟨d, last, hd⟩
  all_goals try rw [List.concat_eq_append] at hd
  · rw [hnil] at hdv; simp at hdv
  have hlastpos : jsGet s.sparse last = some d.length := by
    apply hs; rw [hd]; simp
  rw [remove_eq hv hd hidx]
  split
  · rename_i hlt
    intro i x hx
    simp only at hx
    simp only [jsGet_jsSet]
    have hilt : i < d.length := by
      by_contra hc
      rw [List.getElem?_eq_none_iff.mpr (by simpa using Nat.le_of_not_lt hc)] at hx
      exact Option.noConfusion hx
    by_cases hii : idx = i
    · subst hii
      simp [List.getElem?_set, hilt] at hx
      simp [hx]
    · rw [List.getElem?_set_ne hii] at hx
      have hx2 : s.dense[i]? = some x := by
        rw [hd, List.getElem?_append_left hilt]; exact hx
      have hne : x ≠ last := by
        intro e
        rw [e] at hx2
        have := hs i last hx2
        rw [hlastpos] at this
        have := Option.some.inj this
        omega
      simp [hne, hs i x hx2]
  · intro i x hx
    simp only at hx
    have hilt : i < d.length := by
      by_contra hc
      rw [List.getElem?_eq_none_iff.mpr (by simpa using Nat.le_of_not_lt hc)] at hx
      exact Option.noConfusion hx
    apply hs
    rw [hd, List.getElem?_append_left hilt]; exact hx

end SparseSet

/-! ## Bit masks -/

theorem land_two_pow_eq_iff (m j : Nat) : (m &&& 2 ^ j = 2 ^ j) ↔ m.testBit j = true := by
  constructor
  · intro h
    have := congrArg (fun x => x.testBit j) h
    simpa [Nat.testBit_two_pow_self] using this
  · intro h
    apply Nat.eq_of_testBit_eq
    intro i
    by_cases hij : j = i
    · subst hij; simp [h, Nat.testBit_two_pow_self]
    · simp [Nat.testBit_two_pow_of_ne hij]

theorem land_two_pow_eq_zero_iff (m j : Nat) : (m &&& 2 ^ j = 0) ↔ m.testBit j = false := by
  constructor
  · intro h
    have := congrArg (fun x => x.testBit j) h
    simpa [Nat.testBit_two_pow_self] using this
  · intro h
    apply Nat.eq_of_testBit_eq
    intro i
    by_cases hij : j = i
    · subst hij; simp [h]
    · simp [Nat.testBit_two_pow_of_ne hij]

theorem land_eq_self_iff (e M : Nat) :
    (e &&& M = M) ↔ ∀ j, M.testBit j = true → e.testBit j = true := by
  constructor
  · intro h j hj
    have := congrArg (fun x => x.testBit j) h
    simp only [Nat.testBit_and, hj, Bool.and_true] at this
    exact this
  · intro h
    apply Nat.eq_of_testBit_eq
    intro i
    rw [Nat.testBit_and]
    cases hM : M.testBit i with
    | false => simp
    | true => simp [h i hM]

theorem land_eq_zero_iff (e N : Nat) :
    (e &&& N = 0) ↔ ∀ j, N.testBit j = true → e.testBit j = false := by
  constructor
  · intro h j hj
    have := congrArg (fun x => x.testBit j) h
    simp only [Nat.testBit_and, hj, Bool.and_true, Nat.zero_testBit] at this
    exact this
  · intro h
    apply Nat.eq_of_testBit_eq
    intro i
    rw [Nat.testBit_and]
    cases hM : N.testBit i with
    | false => simp
    | true => simp [h i hM]

theorem testBit_setBit (m j i : Nat) (hi : i < 32) :
    ((m ||| 2 ^ j) % 2 ^ 32).testBit i = (m.testBit i || decide (j = i)) := by
  rw [Nat.testBit_mod_two_pow, Nat.testBit_or, Nat.testBit_two_pow]
  simp [hi]

theorem testBit_clearBit (m j i : Nat) (_hj : j < 32) (hi : i < 32) :
    ((m &&& ((2 ^ 32 - 1) ^^^ 2 ^ j)) % 2 ^ 32).testBit i = (m.testBit i && decide (j ≠ i)) := by
  rw [Nat.testBit_mod_two_pow, Nat.testBit_and, Nat.testBit_xor, Nat.testBit_two_pow_sub_one,
    Nat.testBit_two_pow]
  by_cases hij : j = i
  · subst hij; simp [hi]
  · simp [hi, hij]

/-! ## Generation arrays -/

theorem readMask_writeMask (em : List (List Nat)) (g e v g' e' : Nat) :
    readMask (writeMask em g e v) g' e' =
      if g' = g ∧ e' = e ∧ g < em.length ∧ e < (em.getD g []).length then v % 2 ^ 32
      else readMask em g' e' := by
  unfold readMask writeMask
  by_cases hg : g' = g
  · subst hg
    by_cases hlt : g' < em.length
    · have hrow : em.getD g' [] = em[g'] := by
        rw [List.getD_eq_getElem?_getD, List.getElem?_eq_getElem hlt]; rfl
      have hrow2 : (em.set g' ((em.getD g' []).set e (v % 2 ^ 32))).getD g' [] =
          (em[g']).set e (v % 2 ^ 32) := by
        rw [List.getD_eq_getElem?_getD, List.getElem?_set]
        simp [hlt, hrow]
      rw [hrow2, hrow]
      by_cases he : e' = e
      · subst he
        by_cases helt : e' < (em[g']).length
        · rw [List.getD_eq_getElem?_getD, List.getElem?_set]
          simp [hlt, helt]
        · rw [List.set_eq_of_length_le (Nat.le_of_not_lt helt)]
          simp [helt]
      · have : ¬ e = e' := fun h => he h.symm
        rw [List.getD_eq_getElem?_getD, List.getElem?_set_ne this]
        simp [he, List.getD_eq_getElem?_getD]
    · rw [List.set_eq_of_length_le (Nat.le_of_not_lt hlt)]
      simp [hlt]
  · have : ¬ g = g' := fun h => hg h.symm
    simp only [List.getD_eq_getElem?_getD, List.getElem?_set_ne this, hg, false_and, if_false]

theorem writeMask_length (em : List (List Nat)) (g e v : Nat) :
    (writeMask em g e v).length = em.length := by
  simp [writeMask]

theorem writeMask_row_length (em : List (List Nat)) (g e v n : Nat)
    (h : ∀ m ∈ em, m.length = n) : ∀ m ∈ writeMask em g e v, m.length = n := by
  intro m hm
  unfold writeMask at hm
  rcases List.mem_or_eq_of_mem_set hm with h1 | h1
  · exact h m h1
  · subst h1
    rw [List.length_set]
    by_cases hg : g < em.length
    · apply h
      rw [List.getD_eq_getElem?_getD, List.getElem?_eq_getElem hg]
      exact List.getElem_mem hg
    · rw [List.set_eq_of_length_le (Nat.le_of_not_lt hg)] at hm
      have := h _ hm
      rw [List.length_set] at this
      exact this

theorem hasComponent_eq (w : World) (c : Component) (e : Nat) :
    hasComponent w c e = hasBitAt w.entityMasks w.componentMap c e := rfl

theorem queryCheckEntity_eq (w : World) (q : Query) (e : Nat) :
    queryCheckEntity w q e = checkMasks w.entityMasks q.generations q.masks q.notMasks e := rfl

theorem hasBitAt_of_pow {em : List (List Nat)} {cm : List (Component × Registration)}
    {c : Component} {r : Registration} {j : Nat} (hr : mapGet cm c = some r)
    (hj : r.bitflag = 2 ^ j) (e : Nat) :
    hasBitAt em cm c e = (readMask em r.generationId e).testBit j := by
  unfold hasBitAt
  rw [hr]
  simp only [hj]
  rw [Bool.eq_iff_iff, beq_iff_eq, land_two_pow_eq_iff]

theorem hasBitAt_congr {em : List (List Nat)} {cm cm' : List (Component × Registration)}
    {c : Component} (h : regBits cm' c = regBits cm c) (e : Nat) :
    hasBitAt em cm' c e = hasBitAt em cm c e := by
  unfold hasBitAt
  unfold regBits at h
  cases h1 : mapGet cm c with
  | none =>
    rw [h1] at h
    cases h2 : mapGet cm' c with
    | none => rfl
    | some r => rw [h2] at h; simp at h
  | some r =>
    rw [h1] at h
    cases h2 : mapGet cm' c with
    | none => rw [h2] at h; simp at h
    | some r' =>
      rw [h2] at h
      simp at h
      simp [h.1, h.2]

/-! ## Compiled masks -/

theorem maskOf_mapSet (a : List (Nat × Nat)) (g v x : Nat) :
    maskOf (mapSet a g v) x = if x = g then v else maskOf a x := by
  unfold maskOf
  rw [mapGet_mapSet]
  split <;> rfl

theorem maskOf_of_not_truthy {a : List (Nat × Nat)} {g : Nat}
    (h : truthy (mapGet a g) = false) : maskOf a g = 0 := by
  unfold maskOf
  cases h1 : mapGet a g with
  | none => rfl
  | some n =>
    rw [h1] at h
    simpa [truthy] using h

theorem truthy_iff_maskOf (a : List (Nat × Nat)) (g : Nat) :
    truthy (mapGet a g) = true ↔ maskOf a g ≠ 0 := by
  unfold maskOf
  cases h1 : mapGet a g with
  | none => simp [truthy]
  | some n => simp [truthy]

theorem maskOf_reduceBitflags (a : List (Nat × Nat)) (c : ComponentRecord) (g : Nat) :
    maskOf (reduceBitflags a c) g =
      if g = c.generationId then maskOf a g ||| c.bitflag else maskOf a g := by
  unfold reduceBitflags
  by_cases ht : truthy (mapGet a c.generationId) = true
  · simp only [ht, if_true]
    rw [maskOf_mapSet]
    by_cases hg : g = c.generationId
    · subst hg; simp [maskOf]
    · simp [hg]
  · have ht2 : truthy (mapGet a c.generationId) = false := by simpa using ht
    simp only [ht2, Bool.false_eq_true, if_false]
    rw [maskOf_mapSet]
    by_cases hg : g = c.generationId
    · subst hg
      simp [mapGet_mapSet_self, maskOf_of_not_truthy ht2]
    · simp [hg, maskOf_mapSet]

theorem testBit_maskOf_foldl (recs : List ComponentRecord) (a : List (Nat × Nat)) (g j : Nat) :
    (maskOf (recs.foldl reduceBitflags a) g).testBit j = true ↔
      ((maskOf a g).testBit j = true ∨
        ∃ r ∈ recs, r.generationId = g ∧ r.bitflag.testBit j = true) := by
  induction recs generalizing a with
  | nil => simp
  | cons r rest ih =>
    rw [List.foldl_cons, ih, maskOf_reduceBitflags]
    by_cases hg : g = r.generationId
    · subst hg
      simp only [if_true, Nat.testBit_or, Bool.or_eq_true, List.mem_cons, exists_eq_or_imp,
        true_and]
      tauto
    · have hg2 : ¬ r.generationId = g := fun h => hg h.symm
      simp only [hg, if_false, List.mem_cons, exists_eq_or_imp, hg2, false_and, false_or]

theorem maskOf_nil (g : Nat) : maskOf [] g = 0 := rfl

theorem checkMasks_iff (em : List (List Nat)) (gens : List Nat) (masks notMasks : List (Nat × Nat))
    (e : Nat) :
    checkMasks em gens masks notMasks e = true ↔
      ∀ g ∈ gens, (readMask em g e &&& maskOf notMasks g = 0) ∧
        (readMask em g e &&& maskOf masks g = maskOf masks g) := by
  unfold checkMasks
  rw [List.all_eq_true]
  apply forall_congr'
  intro g
  apply imp_congr_right
  intro _
  simp only [Bool.and_eq_true, Bool.not_eq_true', Bool.and_eq_false_imp, bne_eq_false_iff_eq]
  have e1 : ∀ (o : Option Nat) (x : Nat),
      (truthy o = true → x &&& o.getD 0 = 0) ↔ x &&& o.getD 0 = 0 := by
    intro o x
    constructor
    · intro h
      by_cases ht : truthy o = true
      · exact h ht
      · cases o with
        | none => simp
        | some n =>
          have : n = 0 := by simpa [truthy] using ht
          subst this; simp
    · intro h _; exact h
  have e2 : ∀ (o : Option Nat) (x : Nat),
      (truthy o = true → x &&& o.getD 0 = o.getD 0) ↔ x &&& o.getD 0 = o.getD 0 := by
    intro o x
    constructor
    · intro h
      by_cases ht : truthy o = true
      · exact h ht
      · cases o with
        | none => simp
        | some n =>
          have : n = 0 := by simpa [truthy] using ht
          subst this; simp
    · intro h _; exact h
  rw [e1, e2]
  rfl

theorem mem_dedupGenerations (l : List Nat) (g : Nat) : g ∈ dedupGenerations l ↔ g ∈ l := by
  unfold dedupGenerations
  suffices h : ∀ (a : List Nat),
      g ∈ l.foldl (fun a v => if v ∈ a then a else a ++ [v]) a ↔ g ∈ a ∨ g ∈ l by
    simpa using h []
  induction l with
  | nil => intro a; simp
  | cons x rest ih =>
    intro a
    rw [List.foldl_cons, ih]
    by_cases hx : x ∈ a
    · simp only [hx, if_true, List.mem_cons]
      constructor
      · rintro (h | h)
        · exact Or.inl h
        · exact Or.inr (Or.inr h)
      · rintro (h | h | h)
        · exact Or.inl h
        · subst h; exact Or.inl hx
        · exact Or.inr h
    · simp only [hx, if_false, List.mem_append, List.mem_singleton, List.mem_cons]
      tauto

theorem mem_filterMap_recOf (cm : List (Component × Registration)) (cs : List Component)
    (r : ComponentRecord) :
    r ∈ cs.filterMap (recOf cm) ↔ ∃ c ∈ cs, recOf cm c = some r := by
  simp [List.mem_filterMap]

/-- The masks `registerQuery` compiles are correct whenever every listed component
is registered with a one-bit flag. -/
theorem qsem_compile (cm : List (Component × Registration)) (comps notComps : List Component)
    (hreg : ∀ c ∈ comps ++ notComps, ∃ r j, mapGet cm c = some r ∧ r.bitflag = 2 ^ j) :
    QSem cm comps notComps
      (dedupGenerations (((comps ++ notComps).filterMap (recOf cm)).map (·.generationId)))
      ((comps.filterMap (recOf cm)).foldl reduceBitflags [])
      ((notComps.filterMap (recOf cm)).foldl reduceBitflags []) := by
  intro em e
  rw [checkMasks_iff]
  constructor
  · intro h
    constructor
    · intro c hc
      obtain ⟨r, j, hr, hj⟩ := hreg c (List.mem_append_left _ hc)
      rw [hasBitAt_of_pow hr hj]
      have hrc : recOf cm c = some
          { generationId := r.generationId, bitflag := r.bitflag, store := r.store } := by
        simp [recOf, hr]
      have hg : r.generationId ∈ dedupGenerations
          (((comps ++ notComps).filterMap (recOf cm)).map (·.generationId)) := by
        rw [mem_dedupGenerations, List.mem_map]
        exact ⟨_, (mem_filterMap_recOf cm _ _).mpr ⟨c, List.mem_append_left _ hc, hrc⟩, rfl⟩
      have h2 := (h _ hg).2
      rw [land_eq_self_iff] at h2
      apply h2
      rw [testBit_maskOf_foldl]
      right
      refine ⟨_, (mem_filterMap_recOf cm _ _).mpr ⟨c, hc, hrc⟩, rfl, ?_⟩
      simp [hj, Nat.testBit_two_pow_self]
    · intro c hc
      obtain ⟨r, j, hr, hj⟩ := hreg c (List.mem_append_right _ hc)
      rw [hasBitAt_of_pow hr hj]
      have hrc : recOf cm c = some
          { generationId := r.generationId, bitflag := r.bitflag, store := r.store } := by
        simp [recOf, hr]
      have hg : r.generationId ∈ dedupGenerations
          (((comps ++ notComps).filterMap (recOf cm)).map (·.generationId)) := by
        rw [mem_dedupGenerations, List.mem_map]
        exact ⟨_, (mem_filterMap_recOf cm _ _).mpr ⟨c, List.mem_append_right _ hc, hrc⟩, rfl⟩
      have h2 := (h _ hg).1
      rw [land_eq_zero_iff] at h2
      apply h2
      rw [testBit_maskOf_foldl]
      right
      refine ⟨_, (mem_filterMap_recOf cm _ _).mpr ⟨c, hc, hrc⟩, rfl, ?_⟩
      simp [hj, Nat.testBit_two_pow_self]
  · rintro ⟨h1, h2⟩ g _
    constructor
    · rw [land_eq_zero_iff]
      intro j hj
      rw [testBit_maskOf_foldl] at hj
      rcases hj with hj | ⟨r, hr, hrg, hrj⟩
      · simp [maskOf_nil] at hj
      · obtain ⟨c, hc, hrec⟩ := (mem_filterMap_recOf cm _ _).mp hr
        obtain ⟨r0, j0, hr0, hj0⟩ := hreg c (List.mem_append_right _ hc)
        have hrr : r = { generationId := r0.generationId, bitflag := r0.bitflag, store := r0.store } := by
          simpa [recOf, hr0] using hrec.symm
        have hb := h2 c hc
        rw [hasBitAt_of_pow hr0 hj0] at hb
        subst hrr
        simp only at hrg hrj
        rw [hj0, Nat.testBit_two_pow] at hrj
        have : j0 = j := by simpa using hrj
        subst this
        rw [← hrg]; exact hb
    · rw [land_eq_self_iff]
      intro j hj
      rw [testBit_maskOf_foldl] at hj
      rcases hj with hj | ⟨r, hr, hrg, hrj⟩
      · simp [maskOf_nil] at hj
      · obtain ⟨c, hc, hrec⟩ := (mem_filterMap_recOf cm _ _).mp hr
        obtain ⟨r0, j0, hr0, hj0⟩ := hreg c (List.mem_append_left _ hc)
        have hrr : r = { generationId := r0.generationId, bitflag := r0.bitflag, store := r0.store } := by
          simpa [recOf, hr0] using hrec.symm
        have hb := h1 c hc
        rw [hasBitAt_of_pow hr0 hj0] at hb
        subst hrr
        simp only at hrg hrj
        rw [hj0, Nat.testBit_two_pow] at hrj
        have : j0 = j := by simpa using hrj
        subst this
        rw [← hrg]; exact hb

theorem QSem.sem_congr {cm cm' : List (Component × Registration)} {comps notComps : List Component}
    {gens : List Nat} {masks notMasks : List (Nat × Nat)}
    (h : QSem cm comps notComps gens masks notMasks)
    (hb : ∀ c ∈ comps ++ notComps, regBits cm' c = regBits cm c) :
    QSem cm' comps notComps gens masks notMasks := by
  intro em e
  rw [h em e]
  constructor
  · rintro ⟨h1, h2⟩
    refine ⟨fun c hc => ?_, fun c hc => ?_⟩
    · rw [hasBitAt_congr (hb c (List.mem_append_left _ hc))]; exact h1 c hc
    · rw [hasBitAt_congr (hb c (List.mem_append_right _ hc))]; exact h2 c hc
  · rintro ⟨h1, h2⟩
    refine ⟨fun c hc => ?_, fun c hc => ?_⟩
    · rw [← hasBitAt_congr (hb c (List.mem_append_left _ hc))]; exact h1 c hc
    · rw [← hasBitAt_congr (hb c (List.mem_append_right _ hc))]; exact h2 c hc

/-! ## Registration -/

theorem checkMasks_congr {em em' : List (List Nat)} (gens : List Nat)
    (masks notMasks : List (Nat × Nat)) (e : Nat)
    (h : ∀ g, readMask em' g e = readMask em g e) :
    checkMasks em' gens masks notMasks e = checkMasks em gens masks notMasks e := by
  unfold checkMasks
  simp only [h]

theorem hasBitAt_congr_masks {em em' : List (List Nat)} (cm : List (Component × Registration))
    (c : Component) (e : Nat) (h : ∀ g, readMask em' g e = readMask em g e) :
    hasBitAt em' cm c e = hasBitAt em cm c e := by
  unfold hasBitAt
  cases mapGet cm c with
  | none => rfl
  | some r => simp only [h]

theorem readMask_append_zeros (em : List (List Nat)) (n g e : Nat) :
    readMask (em ++ [List.replicate n 0]) g e = readMask em g e := by
  unfold readMask
  by_cases hg : g < em.length
  · simp [List.getD_eq_getElem?_getD, List.getElem?_append_left hg]
  · have hle := Nat.le_of_not_lt hg
    rw [List.getD_eq_getElem?_getD, List.getD_eq_getElem?_getD, List.getD_eq_getElem?_getD,
      List.getD_eq_getElem?_getD, List.getElem?_append_right hle,
      List.getElem?_eq_none_iff.mpr hle]
    cases hk : g - em.length with
    | zero =>
      simp only [List.getElem?_cons_zero, Option.getD_some, Option.getD_none]
      by_cases he : e < n
      · simp [List.getElem?_replicate, he]
      · simp [List.getElem?_replicate, he]
    | succ k => simp

/-- The record `registerComponent` stores. -/
theorem registerComponent_componentMap (w : World) (c : Component) :
    (registerComponent w c).componentMap = mapSet w.componentMap c
      { generationId := w.entityMasks.length - 1, bitflag := w.bitflag, store := c,
        queries := [] } := by
  unfold registerComponent incrementBitflag
  simp only
  split <;>
  · simp only
    congr 2
    rw [List.filter_eq_nil_iff]
    intro i _
    cases w.queries[i]? with
    | none => simp
    | some q => simp [allComponentsIncludes]

theorem registerComponent_frame (w : World) (c : Component) :
    (registerComponent w c).size = w.size ∧
    (registerComponent w c).entityComponents = w.entityComponents ∧
    (registerComponent w c).entitySparseSet = w.entitySparseSet ∧
    (registerComponent w c).queryMap = w.queryMap ∧
    (registerComponent w c).queries = w.queries ∧
    (registerComponent w c).notQueries = w.notQueries ∧
    (registerComponent w c).dirtyQueries = w.dirtyQueries ∧
    (registerComponent w c).manualEntityRecycling = w.manualEntityRecycling := by
  unfold registerComponent incrementBitflag
  simp only
  split <;> simp

theorem registerComponent_masks (w : World) (c : Component) :
    (registerComponent w c).entityMasks =
      if w.bitflag * 2 ≥ 2 ^ 31 then w.entityMasks ++ [List.replicate w.size 0]
      else w.entityMasks := by
  unfold registerComponent incrementBitflag
  simp only
  split <;> rfl

theorem registerComponent_bitflag (w : World) (c : Component) :
    (registerComponent w c).bitflag = if w.bitflag * 2 ≥ 2 ^ 31 then 1 else w.bitflag * 2 := by
  unfold registerComponent incrementBitflag
  simp only
  split <;> rfl

theorem registerComponent_readMask (w : World) (c : Component) (g e : Nat) :
    readMask (registerComponent w c).entityMasks g e = readMask w.entityMasks g e := by
  rw [registerComponent_masks]
  split
  · exact readMask_append_zeros _ _ _ _
  · rfl

theorem registerComponent_mapGet_ne (w : World) (c c' : Component) (h : c' ≠ c) :
    mapGet (registerComponent w c).componentMap c' = mapGet w.componentMap c' := by
  rw [registerComponent_componentMap, mapGet_mapSet_ne _ _ _ _ h]

theorem registerComponent_mapGet_self (w : World) (c : Component) :
    mapGet (registerComponent w c).componentMap c = some
      { generationId := w.entityMasks.length - 1, bitflag := w.bitflag, store := c,
        queries := [] } := by
  rw [registerComponent_componentMap, mapGet_mapSet_self]

theorem two_pow_lt_two_pow_31 {k : Nat} (hk : k ≤ 30) : 2 ^ k * 2 ≥ 2 ^ 31 ↔ k = 30 := by
  constructor
  · intro h
    by_contra hne
    have hk2 : k + 1 ≤ 30 := by omega
    have : 2 ^ (k + 1) ≤ 2 ^ 30 := Nat.pow_le_pow_right (by norm_num) hk2
    rw [Nat.pow_succ] at this
    omega
  · intro h; subst h; norm_num

theorem RegInv.reg_registerComponent {w : World} (h : RegInv w) (c : Component)
    (hc : mapGet w.componentMap c = none) : RegInv (registerComponent w c) := by
  obtain ⟨k, hk, hbk⟩ := h.bitflag_pow
  have hlen : 0 < w.entityMasks.length := List.length_pos.mpr h.masks_ne
  have hwrap : w.bitflag * 2 ≥ 2 ^ 31 ↔ k = 30 := by rw [hbk]; exact two_pow_lt_two_pow_31 hk
  have hbpos : 0 < w.bitflag := by rw [hbk]; exact Nat.two_pow_pos k
  refine ⟨?_, ?_, ?_, ?_, ?_⟩
  · rw [registerComponent_bitflag]
    by_cases hw : w.bitflag * 2 ≥ 2 ^ 31
    · exact ⟨0, by omega, by rw [if_pos hw]; rfl⟩
    · refine ⟨k + 1, ?_, by rw [if_neg hw, hbk, Nat.pow_succ]⟩
      have : k ≠ 30 := fun e => hw (hwrap.mpr e)
      omega
  · rw [registerComponent_masks]
    split
    · simp
    · exact h.masks_ne
  · rw [registerComponent_masks, (registerComponent_frame w c).1]
    split
    · intro m hm
      rcases List.mem_append.mp hm with h1 | h1
      · exact h.masks_len m h1
      · simp at h1; subst h1; simp
    · exact h.masks_len
  · intro c' r hr
    by_cases hcc : c' = c
    · subst hcc
      rw [registerComponent_mapGet_self] at hr
      have hr := (Option.some.inj hr).symm
      subst hr
      refine ⟨rfl, ?_, k, hk, hbk, ?_⟩
      · rw [registerComponent_masks]
        split
        · simp; omega
        · simp only; omega
      · rw [registerComponent_masks, registerComponent_bitflag]
        by_cases hw : w.bitflag * 2 ≥ 2 ^ 31
        · simp only [hw, if_true, List.length_append, List.length_singleton]
          intro hh; omega
        · simp only [hw, if_false]
          intro _; omega
    · rw [registerComponent_mapGet_ne _ _ _ hcc] at hr
      obtain ⟨h1, h2, j, hj, hbj, hlt⟩ := h.rec_ok c' r hr
      refine ⟨h1, ?_, j, hj, hbj, ?_⟩
      · rw [registerComponent_masks]
        split
        · simp; omega
        · exact h2
      · rw [registerComponent_masks, registerComponent_bitflag]
        by_cases hw : w.bitflag * 2 ≥ 2 ^ 31
        · simp only [hw, if_true, List.length_append, List.length_singleton]
          intro hh; omega
        · simp only [hw, if_false]
          intro hh
          have := hlt hh
          omega
  · intro c1 c2 r1 r2 hr1 hr2 hg hb
    by_cases h1 : c1 = c
    · by_cases h2 : c2 = c
      · rw [h1, h2]
      · subst h1
        rw [registerComponent_mapGet_self] at hr1
        rw [registerComponent_mapGet_ne _ _ _ h2] at hr2
        have hr1 := (Option.some.inj hr1).symm
        subst hr1
        simp only at hg hb
        obtain ⟨_, h22, j, _, _, hlt⟩ := h.rec_ok c2 r2 hr2
        have := hlt (by omega)
        omega
    · by_cases h2 : c2 = c
      · subst h2
        rw [registerComponent_mapGet_self] at hr2
        rw [registerComponent_mapGet_ne _ _ _ h1] at hr1
        have hr2 := (Option.some.inj hr2).symm
        subst hr2
        simp only at hg hb
        obtain ⟨_, h22, j, _, _, hlt⟩ := h.rec_ok c1 r1 hr1
        have := hlt (by omega)
        omega
      · rw [registerComponent_mapGet_ne _ _ _ h1] at hr1
        rw [registerComponent_mapGet_ne _ _ _ h2] at hr2
        exact h.rec_inj c1 c2 r1 r2 hr1 hr2 hg hb

theorem regBits_registerComponent_ne (w : World) (c c' : Component) (h : c' ≠ c) :
    regBits (registerComponent w c).componentMap c' = regBits w.componentMap c' := by
  unfold regBits
  rw [registerComponent_mapGet_ne _ _ _ h]

theorem queryCheckEntity_registerComponent (w : World) (c : Component) (q : Query) (e : Nat) :
    queryCheckEntity (registerComponent w c) q e = queryCheckEntity w q e := by
  rw [queryCheckEntity_eq, queryCheckEntity_eq]
  exact checkMasks_congr _ _ _ _ (fun g => registerComponent_readMask w c g e)

theorem WBase.base_registerComponent {w : World} (h : WBase w) (c : Component)
    (hc : mapGet w.componentMap c = none) : WBase (registerComponent w c) := by
  obtain ⟨f1, f2, f3, f4, f5, f6, f7, f8⟩ := registerComponent_frame w c
  have hne : ∀ (qid : Nat) (q : Query), w.queries[qid]? = some q →
      ∀ c' ∈ q.components ++ q.notComponents, c' ≠ c := by
    intro qid q hq c' hc' e
    obtain ⟨r, hr, _⟩ := h.q_sub qid q hq c' hc'
    rw [e, hc] at hr
    exact Option.noConfusion hr
  refine ⟨h.reg.reg_registerComponent c hc, ?_, ?_, ?_, ?_, ?_, ?_, ?_, ?_, ?_⟩
  · intro qid q hq
    rw [f5] at hq
    exact (h.q_sem qid q hq).sem_congr
      (fun c' hc' => regBits_registerComponent_ne w c c' (hne qid q hq c' hc'))
  · intro qid q hq c' hc'
    rw [f5] at hq
    rw [registerComponent_mapGet_ne _ _ _ (hne qid q hq c' hc')]
    exact h.q_sub qid q hq c' hc'
  · intro qid q hq
    rw [f5] at hq
    rw [f6]
    exact h.q_not qid q hq
  · intro qd qid hqd
    rw [f4] at hqd
    rw [f5]
    exact h.q_map qd qid hqd
  · rw [f3]; exact h.exists_wf
  · intro qid q hq
    rw [f5] at hq
    exact h.sets_wf qid q hq
  · intro qid q hq
    rw [f5] at hq
    rw [f7]
    exact h.dirty_ok qid q hq
  · intro e he g
    rw [f3] at he
    rw [registerComponent_readMask]
    exact h.masks_zero e he g
  · intro e he
    rw [f3] at he
    rw [f2]
    exact h.held_ok e he

theorem LiveOK.live_registerComponent {w : World} {qid e : Nat} (h : LiveOK w qid e) (c : Component) :
    LiveOK (registerComponent w c) qid e := by
  obtain ⟨f1, f2, f3, f4, f5, f6, f7, f8⟩ := registerComponent_frame w c
  intro q hq hne
  rw [f5] at hq
  rw [f3, queryCheckEntity_registerComponent]
  exact h q hq hne

theorem WInv.inv_registerComponent {w : World} (h : WInv w) (c : Component)
    (hc : mapGet w.componentMap c = none) : WInv (registerComponent w c) :=
  ⟨h.base.base_registerComponent c hc, fun qid e => (h.live_ok qid e).live_registerComponent c⟩

/-! ## Updates of one query object -/

theorem SparseSet.dense_of_remove_ne_nil {s : SparseSet} {e : Nat}
    (h : (s.remove e).dense ≠ []) : s.dense ≠ [] := by
  intro hnil
  have hh : s.has e = false := by
    cases hb : s.has e with
    | false => rfl
    | true =>
      have := SparseSet.has_mem s e hb
      rw [hnil] at this
      simp at this
  rw [SparseSet.remove_of_not_has hh] at h
  exact h hnil

theorem SparseSet.has_add_self (s : SparseSet) (e : Nat) : (s.add e).has e = true := by
  rw [SparseSet.has_add]; simp

theorem SparseSet.dense_add_ne_nil (s : SparseSet) (e : Nat) : (s.add e).dense ≠ [] := by
  intro h
  have := SparseSet.has_mem _ _ (SparseSet.has_add_self s e)
  rw [h] at this
  simp at this

theorem SparseSet.WF.has_remove_self {s : SparseSet} (hs : s.WF) (e : Nat) :
    (s.remove e).has e = false := by
  rw [hs.has_remove]; simp

theorem SameStatic.static_refl (q : Query) : SameStatic q q := ⟨rfl, rfl, rfl, rfl, rfl, rfl⟩

theorem SameStatic.static_trans {q q' q'' : Query} (h1 : SameStatic q q') (h2 : SameStatic q' q'') :
    SameStatic q q'' :=
  ⟨h2.components.trans h1.components, h2.notComponents.trans h1.notComponents,
    h2.changedComponents.trans h1.changedComponents, h2.masks.trans h1.masks,
    h2.notMasks.trans h1.notMasks, h2.generations.trans h1.generations⟩

theorem QStep.step_refl (e : Nat) (q : Query) : QStep e q q :=
  ⟨SameStatic.static_refl q, fun h => h, fun _ _ _ => ⟨rfl, rfl, rfl, rfl⟩, fun _ _ h => h⟩

theorem QStep.step_trans {e : Nat} {q q' q'' : Query} (h1 : QStep e q q') (h2 : QStep e q' q'') :
    QStep e q q'' := by
  refine ⟨h1.static.static_trans h2.static, fun h => h2.wf (h1.wf h), ?_, ?_⟩
  · intro h e' he'
    obtain ⟨a1, a2, a3, a4⟩ := h1.others h e' he'
    obtain ⟨b1, b2, b3, b4⟩ := h2.others (h1.wf h) e' he'
    exact ⟨b1.trans a1, b2.trans a2, b3.trans a3, b4.trans a4⟩
  · intro h e' he'
    exact h2.live_mono (h1.wf h) e' (h1.live_mono h e' he')

theorem QStep.iterate {e : Nat} {f : Query → Query} (hf : ∀ q, QStep e q (f q)) (n : Nat)
    (q : Query) : QStep e q (f^[n] q) := by
  induction n generalizing q with
  | zero => exact QStep.step_refl e q
  | succ n ih =>
    rw [Function.iterate_succ_apply]
    exact (hf q).step_trans (ih (f q))

theorem has_remove_ne {s : SparseSet} (hs : s.WF) {e e' : Nat} (h : e' ≠ e) :
    (s.remove e).has e' = s.has e' := by
  rw [hs.has_remove]; simp [h]

theorem has_add_ne (s : SparseSet) {e e' : Nat} (h : e' ≠ e) :
    (s.add e).has e' = s.has e' := by
  rw [SparseSet.has_add]; simp [h]

theorem has_add_mono (s : SparseSet) (e e' : Nat) (h : s.has e' = true) :
    (s.add e).has e' = true := by
  rw [SparseSet.has_add]; simp [h]

theorem QStep_queryAddEntity (e : Nat) (q : Query) : QStep e q (queryAddEntity q e) := by
  unfold queryAddEntity
  refine ⟨⟨rfl, rfl, rfl, rfl, rfl, rfl⟩, ?_, ?_, ?_⟩
  · rintro ⟨h1, h2, h3, h4⟩
    exact ⟨h1.add e, h2.remove e, h3.add e, h4⟩
  · rintro ⟨h1, h2, h3, h4⟩ e' he'
    exact ⟨has_add_ne _ he', has_remove_ne h2 he', has_add_ne _ he', rfl⟩
  · intro _ e' he'
    exact has_add_mono _ _ _ he'

theorem QStep_removeQ (e : Nat) (q : Query) : QStep e q (removeQ e q) := by
  unfold removeQ
  split
  · exact QStep.step_refl e q
  · refine ⟨⟨rfl, rfl, rfl, rfl, rfl, rfl⟩, ?_, ?_, ?_⟩
    · rintro ⟨h1, h2, h3, h4⟩
      exact ⟨h1, h2.add e, h3, h4.add e⟩
    · rintro ⟨h1, h2, h3, h4⟩ e' he'
      exact ⟨rfl, has_add_ne _ he', rfl, has_add_ne _ he'⟩
    · intro _ e' he'
      exact he'

theorem QStep_clear_exited (e : Nat) (q : Query) :
    QStep e q { q with toRemove := q.toRemove.remove e, exited := q.exited.remove e } := by
  refine ⟨⟨rfl, rfl, rfl, rfl, rfl, rfl⟩, ?_, ?_, ?_⟩
  · rintro ⟨h1, h2, h3, h4⟩
    exact ⟨h1, h2.remove e, h3, h4.remove e⟩
  · rintro ⟨h1, h2, h3, h4⟩ e' he'
    exact ⟨rfl, has_remove_ne h2 he', rfl, has_remove_ne h4 he'⟩
  · intro _ e' he'
    exact he'

theorem QStep_clear_entered (e : Nat) (q : Query) :
    QStep e q { q with toRemove := q.toRemove.remove e, entered := q.entered.remove e } := by
  refine ⟨⟨rfl, rfl, rfl, rfl, rfl, rfl⟩, ?_, ?_, ?_⟩
  · rintro ⟨h1, h2, h3, h4⟩
    exact ⟨h1, h2.remove e, h3.remove e, h4⟩
  · rintro ⟨h1, h2, h3, h4⟩ e' he'
    exact ⟨rfl, has_remove_ne h2 he', has_remove_ne h3 he', rfl⟩
  · intro _ e' he'
    exact he'

theorem QStep_reevalQ (em : List (List Nat)) (e : Nat) (q : Query) :
    QStep e q (reevalQ em e q) := by
  unfold reevalQ
  split
  · exact (QStep_clear_exited e q).step_trans (QStep_queryAddEntity e _)
  · exact (QStep_clear_entered e q).step_trans (QStep_removeQ e _)

theorem QStep_addQ (em : List (List Nat)) (e : Nat) (q : Query) : QStep e q (addQ em e q) := by
  unfold addQ
  split
  · exact QStep_queryAddEntity e q
  · exact QStep.step_refl e q

/-! ### What the updates establish for the entity itself -/

theorem removeQ_post (e : Nat) (q : Query) :
    (removeQ e q).live.has e = true → (removeQ e q).toRemove.has e = true := by
  unfold removeQ
  by_cases h1 : q.live.has e = true
  · by_cases h2 : q.toRemove.has e = true
    · simp [h1, h2]
    · simp [h1, h2, SparseSet.has_add_self]
  · simp [h1]

theorem removeQ_exited (e : Nat) (q : Query) (hl : q.live.has e = true)
    (ht : q.toRemove.has e = false) :
    (removeQ e q).live.has e = true ∧ (removeQ e q).toRemove.has e = true ∧
      (removeQ e q).exited.has e = true ∧ removeDirty e q = true := by
  unfold removeQ removeDirty
  simp [hl, ht, SparseSet.has_add_self]

theorem reevalQ_static_check (em : List (List Nat)) (e : Nat) (q : Query) :
    checkMasks em (reevalQ em e q).generations (reevalQ em e q).masks (reevalQ em e q).notMasks e
      = checkMasks em q.generations q.masks q.notMasks e := by
  have h := (QStep_reevalQ em e q).static
  rw [h.generations, h.masks, h.notMasks]

/-- After the callback the entity is in the live set with no pending removal
exactly when it passes the check. -/
theorem reevalQ_post (em : List (List Nat)) (e : Nat) (q : Query) (hwf : q.SetsWF) :
    ((reevalQ em e q).live.has e = true ∧ (reevalQ em e q).toRemove.has e = false) ↔
      checkMasks em q.generations q.masks q.notMasks e = true := by
  obtain ⟨h1, h2, h3, h4⟩ := hwf
  unfold reevalQ
  by_cases hc : checkMasks em q.generations q.masks q.notMasks e = true
  · simp only [hc, if_true, iff_true]
    unfold queryAddEntity
    simp only
    exact ⟨SparseSet.has_add_self _ _, (h2.remove e).has_remove_self e⟩
  · simp only [hc, if_false, iff_false, not_and, Bool.not_eq_false, Bool.false_eq_true]
    intro hl
    apply removeQ_post
    exact hl

/-- When the check passes the callback leaves the entity in the live set and in
the entered log, out of the pending removals and out of the exited log. -/
theorem reevalQ_match (em : List (List Nat)) (e : Nat) (q : Query) (hwf : q.SetsWF)
    (hc : checkMasks em q.generations q.masks q.notMasks e = true) :
    (reevalQ em e q).live.has e = true ∧ (reevalQ em e q).entered.has e = true ∧
      (reevalQ em e q).toRemove.has e = false ∧ (reevalQ em e q).exited.has e = false := by
  obtain ⟨h1, h2, h3, h4⟩ := hwf
  unfold reevalQ
  simp only [hc, if_true]
  unfold queryAddEntity
  simp only
  exact ⟨SparseSet.has_add_self _ _, SparseSet.has_add_self _ _,
    (h2.remove e).has_remove_self e, h4.has_remove_self e⟩

/-- When the check fails the callback leaves a member of the live set in the live
set, pending removal and in the exited log. -/
theorem reevalQ_fail (em : List (List Nat)) (e : Nat) (q : Query) (hwf : q.SetsWF)
    (hc : checkMasks em q.generations q.masks q.notMasks e = false)
    (hl : q.live.has e = true) :
    (reevalQ em e q).live.has e = true ∧ (reevalQ em e q).toRemove.has e = true ∧
      (reevalQ em e q).exited.has e = true ∧ reevalDirty em e q = true := by
  obtain ⟨h1, h2, h3, h4⟩ := hwf
  unfold reevalQ reevalDirty
  simp only [hc, Bool.false_eq_true, if_false, Bool.not_false, Bool.true_and]
  exact removeQ_exited e _ hl (h2.has_remove_self e)

/-! ### Pending removals and the dirty set -/

theorem removeQ_dirty (e : Nat) (q : Query) (h : (removeQ e q).toRemove.dense ≠ []) :
    q.toRemove.dense ≠ [] ∨ removeDirty e q = true := by
  unfold removeQ at h
  unfold removeDirty
  split at h
  · exact Or.inl h
  · rename_i hh
    right
    simpa using hh

theorem reevalQ_dirty (em : List (List Nat)) (e : Nat) (q : Query)
    (h : (reevalQ em e q).toRemove.dense ≠ []) :
    q.toRemove.dense ≠ [] ∨ reevalDirty em e q = true := by
  unfold reevalQ at h
  unfold reevalDirty
  split at h
  · left
    unfold queryAddEntity at h
    simp only at h
    exact SparseSet.dense_of_remove_ne_nil (SparseSet.dense_of_remove_ne_nil h)
  · rename_i hc
    rcases removeQ_dirty e _ h with h1 | h1
    · left
      exact SparseSet.dense_of_remove_ne_nil h1
    · right
      simp only [Bool.not_eq_true] at hc
      simp [hc, h1]

theorem addQ_dirty (em : List (List Nat)) (e : Nat) (q : Query)
    (h : (addQ em e q).toRemove.dense ≠ []) : q.toRemove.dense ≠ [] ∨ false = true := by
  left
  unfold addQ at h
  split at h
  · unfold queryAddEntity at h
    exact SparseSet.dense_of_remove_ne_nil h
  · exact h

/-! ## Updates of the queries of a world -/

theorem set_eq_self_of_getElem? {α : Type} (l : List α) (i : Nat) (a : α) (h : l[i]? = some a) :
    l.set i a = l := by
  apply List.ext_getElem?
  intro j
  rw [List.getElem?_set]
  by_cases hij : i = j
  · subst hij
    have hlt : i < l.length := by
      by_contra hc
      rw [List.getElem?_eq_none_iff.mpr (Nat.le_of_not_lt hc)] at h
      exact Option.noConfusion h
    simp [hlt, h]
  · simp [hij]

theorem setAdd_of_mem {α : Type} [DecidableEq α] {s : List α} {a : α} (h : a ∈ s) :
    setAdd s a = s := by
  simp [setAdd, h]

theorem QFrame.frame_refl (w : World) : QFrame w w := ⟨rfl, rfl, rfl, rfl, rfl, rfl, rfl, rfl, rfl, rfl⟩

theorem QFrame.frame_trans {w w' w'' : World} (h1 : QFrame w w') (h2 : QFrame w' w'') : QFrame w w'' :=
  ⟨h2.size.trans h1.size, h2.entityMasks.trans h1.entityMasks,
    h2.entityComponents.trans h1.entityComponents, h2.entitySparseSet.trans h1.entitySparseSet,
    h2.bitflag.trans h1.bitflag, h2.componentMap.trans h1.componentMap,
    h2.queryMap.trans h1.queryMap, h2.notQueries.trans h1.notQueries,
    h2.manualEntityRecycling.trans h1.manualEntityRecycling, h2.qlen.trans h1.qlen⟩

theorem updQ_frame (f : Query → Query) (d : Query → Bool) (w : World) (qid : Nat) :
    QFrame w (updQ f d w qid) := by
  unfold updQ
  cases h : w.queries[qid]? with
  | none => exact QFrame.frame_refl w
  | some q => exact ⟨rfl, rfl, rfl, rfl, rfl, rfl, rfl, rfl, rfl, by simp⟩

theorem updQ_get (f : Query → Query) (d : Query → Bool) (w : World) (qid i : Nat) :
    (updQ f d w qid).queries[i]? =
      if i = qid then (w.queries[i]?).map f else w.queries[i]? := by
  unfold updQ
  cases h : w.queries[qid]? with
  | none =>
    by_cases hi : i = qid
    · subst hi; simp [h]
    · simp [hi]
  | some q =>
    simp only
    rw [List.getElem?_set]
    by_cases hi : i = qid
    · subst hi
      have hlt : i < w.queries.length := by
        by_contra hc
        rw [List.getElem?_eq_none_iff.mpr (Nat.le_of_not_lt hc)] at h
        exact Option.noConfusion h
      simp [hlt, h]
    · have : ¬ qid = i := fun e => hi e.symm
      simp [hi, this]

theorem updQ_dirty (f : Query → Query) (d : Query → Bool) (w : World) (qid x : Nat) :
    x ∈ (updQ f d w qid).dirtyQueries ↔
      (x ∈ w.dirtyQueries ∨ (x = qid ∧ ∃ q, w.queries[qid]? = some q ∧ d q = true)) := by
  unfold updQ
  cases h : w.queries[qid]? with
  | none => simp
  | some q =>
    simp only
    by_cases hd : d q = true
    · simp [hd, mem_setAdd]
    · simp [hd]

theorem foldl_updQ_frame (f : Query → Query) (d : Query → Bool) (l : List Nat) (w : World) :
    QFrame w (l.foldl (updQ f d) w) := by
  induction l generalizing w with
  | nil => exact QFrame.frame_refl w
  | cons a rest ih => exact (updQ_frame f d w a).frame_trans (ih _)

theorem foldl_updQ_get (f : Query → Query) (d : Query → Bool) (l : List Nat) (w : World)
    (i : Nat) :
    (l.foldl (updQ f d) w).queries[i]? = (w.queries[i]?).map (f^[l.count i]) := by
  induction l generalizing w with
  | nil => simp
  | cons a rest ih =>
    rw [List.foldl_cons, ih, updQ_get]
    by_cases hi : i = a
    · subst hi
      simp only [if_true, List.count_cons_self, Option.map_map]
      congr 1
    · have : ¬ a = i := fun e => hi e.symm
      simp [hi, List.count_cons, this]

theorem foldl_updQ_dirty_mono (f : Query → Query) (d : Query → Bool) (l : List Nat) (w : World)
    (x : Nat) (h : x ∈ w.dirtyQueries) : x ∈ (l.foldl (updQ f d) w).dirtyQueries := by
  induction l generalizing w with
  | nil => exact h
  | cons a rest ih =>
    rw [List.foldl_cons]
    apply ih
    rw [updQ_dirty]
    exact Or.inl h

theorem updQ_dirtyOK (f : Query → Query) (d : Query → Bool)
    (hd : ∀ q, (f q).toRemove.dense ≠ [] → q.toRemove.dense ≠ [] ∨ d q = true)
    (w : World) (qid : Nat) (h : DirtyOK w) : DirtyOK (updQ f d w qid) := by
  intro i q' hq' hne
  rw [updQ_get] at hq'
  rw [updQ_dirty]
  by_cases hi : i = qid
  · subst hi
    simp only [if_true] at hq'
    cases hq : w.queries[i]? with
    | none => rw [hq] at hq'; simp at hq'
    | some q =>
      rw [hq] at hq'
      simp only [Option.map_some', Option.some.injEq] at hq'
      subst hq'
      rcases hd q hne with h1 | h1
      · exact Or.inl (h i q hq h1)
      · exact Or.inr ⟨rfl, q, rfl, h1⟩
  · simp only [hi, if_false] at hq'
    exact Or.inl (h i q' hq' hne)

theorem foldl_updQ_dirtyOK (f : Query → Query) (d : Query → Bool)
    (hd : ∀ q, (f q).toRemove.dense ≠ [] → q.toRemove.dense ≠ [] ∨ d q = true)
    (l : List Nat) (w : World) (h : DirtyOK w) : DirtyOK (l.foldl (updQ f d) w) := by
  induction l generalizing w with
  | nil => exact h
  | cons a rest ih =>
    rw [List.foldl_cons]
    exact ih _ (updQ_dirtyOK f d hd w a h)

/-! ### The callbacks as updates -/

theorem world_eta_queries (w : World) (qs : List Query) (ds : List Nat) (h1 : qs = w.queries)
    (h2 : ds = w.dirtyQueries) : { w with queries := qs, dirtyQueries := ds } = w := by
  subst h1 h2
  rfl

theorem queryRemoveEntity_eq (w : World) (qid e : Nat) :
    queryRemoveEntity w qid e = updQ (removeQ e) (removeDirty e) w qid := by
  unfold queryRemoveEntity updQ
  cases h : w.queries[qid]? with
  | none => rfl
  | some q =>
    simp only
    unfold removeQ removeDirty
    by_cases hc : (!q.live.has e || q.toRemove.has e) = true
    · simp only [hc, if_true, Bool.not_true, Bool.false_eq_true, if_false]
      exact (world_eta_queries w _ _ (set_eq_self_of_getElem? _ _ _ h) rfl).symm
    · simp only [hc, if_false, Bool.not_eq_true] at *
      simp [hc]

theorem reevaluate_eq (e : Nat) (w : World) (qid : Nat) :
    reevaluate e w qid = updQ (reevalQ w.entityMasks e) (reevalDirty w.entityMasks e) w qid := by
  unfold reevaluate
  cases h : w.queries[qid]? with
  | none => simp [updQ, h]
  | some q =>
    simp only
    rw [queryCheckEntity_eq]
    simp only
    by_cases hc : checkMasks w.entityMasks q.generations q.masks q.notMasks e = true
    · simp only [hc, if_true]
      unfold updQ
      simp only [h, reevalQ, reevalDirty, hc, if_true, Bool.not_true, Bool.false_and,
        Bool.false_eq_true, if_false]
    · simp only [hc, if_false]
      rw [queryRemoveEntity_eq]
      have hlt : qid < w.queries.length := by
        by_contra hc
        rw [List.getElem?_eq_none_iff.mpr (Nat.le_of_not_lt hc)] at h
        exact Option.noConfusion h
      unfold updQ
      simp only [List.getElem?_set, hlt, if_true, h, reevalQ, reevalDirty, hc, if_false,
        List.set_set, Bool.not_eq_true] at *
      simp [hc]

theorem foldl_reevaluate_eq (e : Nat) (l : List Nat) (w : World) :
    l.foldl (reevaluate e) w =
      l.foldl (updQ (reevalQ w.entityMasks e) (reevalDirty w.entityMasks e)) w := by
  induction l generalizing w with
  | nil => rfl
  | cons a rest ih =>
    rw [List.foldl_cons, List.foldl_cons, ih, reevaluate_eq]
    rw [(updQ_frame _ _ w a).entityMasks]

theorem foldl_queryRemoveEntity_eq (e : Nat) (l : List Nat) (w : World) :
    l.foldl (fun w qid => queryRemoveEntity w qid e) w =
      l.foldl (updQ (removeQ e) (removeDirty e)) w := by
  induction l generalizing w with
  | nil => rfl
  | cons a rest ih =>
    rw [List.foldl_cons, List.foldl_cons, ih, queryRemoveEntity_eq]

theorem addIfMatch_eq (e : Nat) (w : World) (qid : Nat) :
    addIfMatch e w qid = updQ (addQ w.entityMasks e) (fun _ => false) w qid := by
  unfold updQ addIfMatch
  cases h : w.queries[qid]? with
  | none => rfl
  | some q =>
    simp only
    rw [queryCheckEntity_eq]
    unfold addQ
    by_cases hc : checkMasks w.entityMasks q.generations q.masks q.notMasks e = true
    · simp [hc]
    · simp only [hc, if_false, Bool.false_eq_true]
      exact (world_eta_queries w _ _ (set_eq_self_of_getElem? _ _ _ h) rfl).symm

/-! ## Transfer of the invariant -/

theorem getElem?_of_frame {w w' : World} (hfr : QFrame w w') {i : Nat} {q' : Query}
    (h : w'.queries[i]? = some q') : ∃ q, w.queries[i]? = some q := by
  have hlt : i < w.queries.length := by
    rw [← hfr.qlen]
    by_contra hc
    rw [List.getElem?_eq_none_iff.mpr (Nat.le_of_not_lt hc)] at h
    exact Option.noConfusion h
  exact ⟨w.queries[i], List.getElem?_eq_getElem hlt⟩

/-- The base invariant survives a change of the query objects that keeps their
compiled fields and the well-formedness of their sets. -/
theorem WBase.of_queries {w w' : World} (h : WBase w) (hfr : QFrame w w')
    (hq : ∀ (i : Nat) (q' : Query), w'.queries[i]? = some q' →
      ∃ q, w.queries[i]? = some q ∧ SameStatic q q' ∧ (q.SetsWF → q'.SetsWF))
    (hd : DirtyOK w') : WBase w' := by
  refine ⟨⟨?_, ?_, ?_, ?_, ?_⟩, ?_, ?_, ?_, ?_, ?_, ?_, hd, ?_, ?_⟩
  · rw [hfr.bitflag]; exact h.reg.bitflag_pow
  · rw [hfr.entityMasks]; exact h.reg.masks_ne
  · rw [hfr.entityMasks, hfr.size]; exact h.reg.masks_len
  · rw [hfr.entityMasks, hfr.componentMap, hfr.bitflag]; exact h.reg.rec_ok
  · rw [hfr.componentMap]; exact h.reg.rec_inj
  · intro i q' hq'
    obtain ⟨q, hq0, hs, _⟩ := hq i q' hq'
    rw [hfr.componentMap, hs.components, hs.notComponents, hs.generations, hs.masks, hs.notMasks]
    exact h.q_sem i q hq0
  · intro i q' hq'
    obtain ⟨q, hq0, hs, _⟩ := hq i q' hq'
    rw [hfr.componentMap, hs.components, hs.notComponents]
    exact h.q_sub i q hq0
  · intro i q' hq'
    obtain ⟨q, hq0, hs, _⟩ := hq i q' hq'
    rw [hfr.notQueries, hs.notComponents]
    exact h.q_not i q hq0
  · intro qd qid hqd
    rw [hfr.queryMap] at hqd
    obtain ⟨q, hq0, h1, h2, h3⟩ := h.q_map qd qid hqd
    have hlt : qid < w'.queries.length := by
      rw [hfr.qlen]
      by_contra hc
      rw [List.getElem?_eq_none_iff.mpr (Nat.le_of_not_lt hc)] at hq0
      exact Option.noConfusion hq0
    refine ⟨w'.queries[qid], List.getElem?_eq_getElem hlt, ?_⟩
    obtain ⟨q1, hq1, hs, _⟩ := hq qid _ (List.getElem?_eq_getElem hlt)
    rw [hq0] at hq1
    have := Option.some.inj hq1
    subst this
    rw [hs.components, hs.notComponents, hs.changedComponents]
    exact ⟨h1, h2, h3⟩
  · rw [hfr.entitySparseSet]; exact h.exists_wf
  · intro i q' hq'
    obtain ⟨q, hq0, _, hwf⟩ := hq i q' hq'
    exact hwf (h.sets_wf i q hq0)
  · rw [hfr.entitySparseSet, hfr.entityMasks]; exact h.masks_zero
  · rw [hfr.entitySparseSet, hfr.entityComponents]; exact h.held_ok

/-- The base invariant after a fold of updates that are steps for one entity. -/
theorem WBase.foldl_updQ {w : World} (h : WBase w) (e : Nat) (f : Query → Query)
    (d : Query → Bool) (hf : ∀ q, QStep e q (f q))
    (hd : ∀ q, (f q).toRemove.dense ≠ [] → q.toRemove.dense ≠ [] ∨ d q = true) (l : List Nat) :
    WBase (l.foldl (updQ f d) w) := by
  apply h.of_queries (foldl_updQ_frame f d l w)
  · intro i q' hq'
    rw [foldl_updQ_get] at hq'
    cases hq : w.queries[i]? with
    | none => rw [hq] at hq'; simp at hq'
    | some q =>
      rw [hq] at hq'
      simp only [Option.map_some', Option.some.injEq] at hq'
      subst hq'
      have hs := QStep.iterate hf (List.count i l) q
      exact ⟨q, rfl, hs.static, hs.wf⟩
  · exact foldl_updQ_dirtyOK f d hd l w h.dirty_ok

theorem queryCheckEntity_static {w w' : World} {q q' : Query} (hs : SameStatic q q')
    (hm : w'.entityMasks = w.entityMasks) (e : Nat) :
    queryCheckEntity w' q' e = queryCheckEntity w q e := by
  rw [queryCheckEntity_eq, queryCheckEntity_eq, hm, hs.generations, hs.masks, hs.notMasks]

/-- The live set stays right about an entity other than the one a fold of steps
concerns. -/
theorem LiveOK.foldl_updQ_ne {w : World} {qid e' : Nat} (h : LiveOK w qid e')
    (hwf : ∀ (i : Nat) (q : Query), w.queries[i]? = some q → q.SetsWF) (e : Nat)
    (f : Query → Query) (d : Query → Bool) (hf : ∀ q, QStep e q (f q)) (l : List Nat)
    (hne : e' ≠ e) : LiveOK (l.foldl (updQ f d) w) qid e' := by
  have hfr := foldl_updQ_frame f d l w
  intro q' hq' hne'
  rw [foldl_updQ_get] at hq'
  cases hq : w.queries[qid]? with
  | none => rw [hq] at hq'; simp at hq'
  | some q =>
    rw [hq] at hq'
    simp only [Option.map_some', Option.some.injEq] at hq'
    subst hq'
    have hs := QStep.iterate hf (List.count qid l) q
    obtain ⟨a1, a2, _, _⟩ := hs.others (hwf qid q hq) e' hne
    rw [a1, a2, hfr.entitySparseSet, queryCheckEntity_static hs.static hfr.entityMasks]
    apply h q hq
    rw [← hs.static.components, ← hs.static.notComponents]
    exact hne'

/-- The live set stays right about an entity when the query object, the
existence of the entity and the outcome of the check are unchanged. -/
theorem LiveOK.live_congr {w w' : World} {qid e : Nat} (h : LiveOK w qid e)
    (hq : w'.queries[qid]? = w.queries[qid]?)
    (hex : w'.entitySparseSet.has e = w.entitySparseSet.has e)
    (hchk : ∀ q : Query, w.queries[qid]? = some q →
      queryCheckEntity w' q e = queryCheckEntity w q e) : LiveOK w' qid e := by
  intro q hq' hne
  rw [hq] at hq'
  rw [hex, hchk q hq']
  exact h q hq' hne

theorem iterate_pos_eq {f : Query → Query} {n : Nat} (hn : 0 < n) (q : Query) :
    f^[n] q = f (f^[n - 1] q) := by
  obtain ⟨m, rfl⟩ := Nat.exists_eq_succ_of_ne_zero (Nat.pos_iff_ne_zero.mp hn)
  rw [Function.iterate_succ_apply']
  rfl

/-- After the callbacks of `addComponent` or `removeComponent` have run over a list
of queries, every query of the list is right about the entity. -/
theorem LiveOK.foldl_reevaluate_mem {w : World} {qid e : Nat}
    (hwf : ∀ (i : Nat) (q : Query), w.queries[i]? = some q → q.SetsWF)
    (hex : w.entitySparseSet.has e = true) (l : List Nat) (hmem : qid ∈ l) :
    LiveOK (l.foldl (reevaluate e) w) qid e := by
  rw [foldl_reevaluate_eq]
  have hfr := foldl_updQ_frame (reevalQ w.entityMasks e) (reevalDirty w.entityMasks e) l w
  intro q' hq' _
  rw [foldl_updQ_get] at hq'
  cases hq : w.queries[qid]? with
  | none => rw [hq] at hq'; simp at hq'
  | some q =>
    rw [hq] at hq'
    simp only [Option.map_some', Option.some.injEq] at hq'
    have hpos : 0 < List.count qid l := List.count_pos_iff.mpr hmem
    rw [iterate_pos_eq hpos] at hq'
    subst hq'
    have hs := QStep.iterate (QStep_reevalQ w.entityMasks e) (List.count qid l - 1) q
    rw [reevalQ_post _ _ _ (hs.wf (hwf qid q hq)), hfr.entitySparseSet, hex,
      queryCheckEntity_eq, hfr.entityMasks, reevalQ_static_check]
    simp

/-! ## Writing one bit of one entity -/

theorem WBase.base_set_masks {w : World} (h : WBase w) (em' : List (List Nat))
    (hlen : em'.length = w.entityMasks.length) (hrows : ∀ m ∈ em', m.length = w.size)
    (hzero : ∀ e', w.entitySparseSet.has e' = false → ∀ g, readMask em' g e' = 0) :
    WBase { w with entityMasks := em' } := by
  refine ⟨⟨h.reg.bitflag_pow, ?_, hrows, ?_, h.reg.rec_inj⟩, h.q_sem, h.q_sub, h.q_not, h.q_map,
    h.exists_wf, h.sets_wf, h.dirty_ok, hzero, h.held_ok⟩
  · intro hnil
    have hnil' : em' = [] := hnil
    have : em'.length = 0 := by simp [hnil']
    rw [hlen] at this
    exact h.reg.masks_ne (List.length_eq_zero.mp this)
  · intro c r hr
    have := h.reg.rec_ok c r hr
    simp only [hlen]
    exact this

theorem WBase.set_entityComponents {w : World} (h : WBase w) (ec' : List (Nat × List Component))
    (hheld : ∀ e, w.entitySparseSet.has e = true → (mapGet ec' e).isSome = true) :
    WBase { w with entityComponents := ec' } :=
  ⟨⟨h.reg.bitflag_pow, h.reg.masks_ne, h.reg.masks_len, h.reg.rec_ok, h.reg.rec_inj⟩,
    h.q_sem, h.q_sub, h.q_not, h.q_map, h.exists_wf, h.sets_wf, h.dirty_ok, h.masks_zero, hheld⟩

theorem readMask_write_other_entity (em : List (List Nat)) (g e v g' e' : Nat) (h : e' ≠ e) :
    readMask (writeMask em g e v) g' e' = readMask em g' e' := by
  rw [readMask_writeMask]
  simp [h]

/-- A write to the word of entity `e` in the generation of component `c` that
keeps every bit but the one of `c` changes `hasComponent` for no other component. -/
theorem hasBitAt_write_other {w : World} (h : RegInv w) {c c' : Component} {r : Registration}
    (hr : mapGet w.componentMap c = some r) (e v : Nat)
    (hv : ∀ j', j' ≤ 30 → r.bitflag ≠ 2 ^ j' →
      (v % 2 ^ 32).testBit j' = (readMask w.entityMasks r.generationId e).testBit j')
    (hne : c' ≠ c) (e' : Nat) :
    hasBitAt (writeMask w.entityMasks r.generationId e v) w.componentMap c' e' =
      hasBitAt w.entityMasks w.componentMap c' e' := by
  cases hr' : mapGet w.componentMap c' with
  | none => simp [hasBitAt, hr']
  | some r' =>
    obtain ⟨_, _, j', hj', hb', _⟩ := h.rec_ok c' r' hr'
    rw [hasBitAt_of_pow hr' hb', hasBitAt_of_pow hr' hb', readMask_writeMask]
    split
    · rename_i hcond
      obtain ⟨hg, he, _, _⟩ := hcond
      rw [hg, he]
      subst he
      apply hv j' hj'
      intro hb
      apply hne
      exact h.rec_inj c' c r' r hr' hr hg (by rw [hb', hb])
    · rfl

theorem set_hv (old j : Nat) (b : Nat) (hb : b = 2 ^ j) :
    ∀ j', j' ≤ 30 → b ≠ 2 ^ j' → ((old ||| b) % 2 ^ 32).testBit j' = old.testBit j' := by
  intro j' hj' hne
  subst hb
  rw [testBit_setBit _ _ _ (by omega)]
  have : ¬ j = j' := fun e => hne (by rw [e])
  simp [this]

theorem clear_hv (old j : Nat) (b : Nat) (hj : j ≤ 30) (hb : b = 2 ^ j) :
    ∀ j', j' ≤ 30 → b ≠ 2 ^ j' →
      ((old &&& ((2 ^ 32 - 1) ^^^ b)) % 2 ^ 32).testBit j' = old.testBit j' := by
  intro j' hj' hne
  subst hb
  rw [testBit_clearBit _ _ _ (by omega) (by omega)]
  have : ¬ j = j' := fun e => hne (by rw [e])
  simp [this]

/-- The invariant after the common tail of `addComponent` and `removeComponent`:
a write to the bit of `c` in the word of the existing entity `e`, the callbacks
over the queries subscribed to `c`, and an update of the held components. -/
theorem WInv.mutate {w : World} (h : WInv w) {c : Component} {r : Registration} {e v : Nat}
    (hr : mapGet w.componentMap c = some r) (hex : w.entitySparseSet.has e = true)
    (hv : ∀ j', j' ≤ 30 → r.bitflag ≠ 2 ^ j' →
      (v % 2 ^ 32).testBit j' = (readMask w.entityMasks r.generationId e).testBit j')
    (ec' : World → List (Nat × List Component))
    (hheld : ∀ w3 : World, w3.entityComponents = w.entityComponents →
      ∀ e', w.entitySparseSet.has e' = true → (mapGet (ec' w3) e').isSome = true) :
    WInv { (r.queries.foldl (reevaluate e)
        { w with entityMasks := writeMask w.entityMasks r.generationId e v }) with
      entityComponents := ec' (r.queries.foldl (reevaluate e)
        { w with entityMasks := writeMask w.entityMasks r.generationId e v }) } := by
  have hb2 : WBase { w with entityMasks := writeMask w.entityMasks r.generationId e v } := by
    apply h.base.base_set_masks _ (writeMask_length _ _ _ _)
      (writeMask_row_length _ _ _ _ _ h.base.reg.masks_len)
    intro e' he' g
    have hne : e' ≠ e := by
      intro heq; subst heq; rw [hex] at he'; exact Bool.noConfusion he'
    rw [readMask_write_other_entity _ _ _ _ _ _ hne]
    exact h.base.masks_zero e' he' g
  have hlive2 : ∀ qid e', (e' ≠ e ∨ qid ∉ r.queries) →
      LiveOK { w with entityMasks := writeMask w.entityMasks r.generationId e v } qid e' := by
    intro qid e' hcase
    refine (h.live_ok qid e').live_congr ?_ ?_ ?_
    · rfl
    · rfl
    intro q hq
    by_cases hne : e' = e
    swap
    · rw [queryCheckEntity_eq, queryCheckEntity_eq]
      exact checkMasks_congr _ _ _ _
        (fun g => readMask_write_other_entity _ _ _ _ _ _ hne)
    · subst hne
      have hnotmem : qid ∉ r.queries := by
        rcases hcase with h1 | h1
        · exact absurd rfl h1
        · exact h1
      have hcne : ∀ c' ∈ q.components ++ q.notComponents, c' ≠ c := by
        intro c' hc' heq
        subst heq
        obtain ⟨r', hr', hm⟩ := h.base.q_sub qid q hq c' hc'
        rw [hr] at hr'
        have := Option.some.inj hr'
        subst this
        exact hnotmem hm
      have hsem := h.base.q_sem qid q hq
      rw [Bool.eq_iff_iff, queryCheckEntity_eq, queryCheckEntity_eq, hsem, hsem]
      simp only
      constructor
      · rintro ⟨a1, a2⟩
        refine ⟨fun c' hc' => ?_, fun c' hc' => ?_⟩
        · rw [← hasBitAt_write_other h.base.reg hr e' v hv
            (hcne c' (List.mem_append_left _ hc'))]
          exact a1 c' hc'
        · rw [← hasBitAt_write_other h.base.reg hr e' v hv
            (hcne c' (List.mem_append_right _ hc'))]
          exact a2 c' hc'
      · rintro ⟨a1, a2⟩
        refine ⟨fun c' hc' => ?_, fun c' hc' => ?_⟩
        · rw [hasBitAt_write_other h.base.reg hr e' v hv
            (hcne c' (List.mem_append_left _ hc'))]
          exact a1 c' hc'
        · rw [hasBitAt_write_other h.base.reg hr e' v hv
            (hcne c' (List.mem_append_right _ hc'))]
          exact a2 c' hc'
  generalize hw2 : ({ w with entityMasks := writeMask w.entityMasks r.generationId e v } : World)
    = w2 at hb2 hlive2
  have hex2 : w2.entitySparseSet.has e = true := by rw [← hw2]; exact hex
  have hfr3 : QFrame w2 (r.queries.foldl (reevaluate e) w2) := by
    rw [foldl_reevaluate_eq]; exact foldl_updQ_frame _ _ _ _
  have hb3 : WBase (r.queries.foldl (reevaluate e) w2) := by
    rw [foldl_reevaluate_eq]
    exact hb2.foldl_updQ e _ _ (QStep_reevalQ _ e) (reevalQ_dirty _ e) _
  have hlive3 : ∀ qid e', LiveOK (r.queries.foldl (reevaluate e) w2) qid e' := by
    intro qid e'
    by_cases hne : e' = e
    swap
    · rw [foldl_reevaluate_eq]
      exact (hlive2 qid e' (Or.inl hne)).foldl_updQ_ne hb2.sets_wf e _ _
        (QStep_reevalQ _ e) _ hne
    · subst hne
      by_cases hm : qid ∈ r.queries
      · exact LiveOK.foldl_reevaluate_mem hb2.sets_wf hex2 _ hm
      · apply (hlive2 qid e' (Or.inr hm)).live_congr
        · rw [foldl_reevaluate_eq, foldl_updQ_get, List.count_eq_zero_of_not_mem hm]
          simp
        · rw [hfr3.entitySparseSet]
        · intro q _
          exact queryCheckEntity_static (SameStatic.static_refl q) hfr3.entityMasks e'
  generalize hw3 : r.queries.foldl (reevaluate e) w2 = w3 at hfr3 hb3 hlive3
  refine ⟨hb3.set_entityComponents _ ?_, ?_⟩
  · intro e' he'
    apply hheld w3
    · rw [hfr3.entityComponents, ← hw2]
    · rw [hfr3.entitySparseSet, ← hw2] at he'
      exact he'
  · intro qid e'
    refine (hlive3 qid e').live_congr ?_ ?_ ?_
    · rfl
    · rfl
    · intro q _; rfl

/-! ## `addComponent` and `removeComponent` keep the invariant -/

theorem held_update_isSome (ec : List (Nat × List Component)) (e : Nat)
    (f : List Component → List Component) (e' : Nat) (h : (mapGet ec e').isSome = true) :
    (mapGet (updateHeld ec e f) e').isSome = true := by
  unfold updateHeld
  cases he : mapGet ec e with
  | none => exact h
  | some held =>
    simp only
    rw [mapGet_mapSet]
    split
    · rfl
    · exact h

theorem WInv.registerIfNew {w : World} (h : WInv w) (c : Component) : WInv (registerIfNew w c) := by
  unfold ECS.registerIfNew
  cases hc : mapGet w.componentMap c with
  | none => simpa using h.inv_registerComponent c hc
  | some r => simpa using h

theorem registerIfNew_has (w : World) (c : Component) :
    (registerIfNew w c).entitySparseSet = w.entitySparseSet := by
  unfold ECS.registerIfNew
  split
  · exact (registerComponent_frame w c).2.2.1
  · rfl

theorem registerIfNew_isSome (w : World) (c : Component) :
    ∃ r, mapGet (registerIfNew w c).componentMap c = some r := by
  unfold ECS.registerIfNew
  cases hc : mapGet w.componentMap c with
  | none => simp only [Option.isNone_none, if_true]; exact ⟨_, registerComponent_mapGet_self w c⟩
  | some r => simp only [Option.isNone_some, Bool.false_eq_true, if_false]; exact ⟨r, hc⟩

/-- The shape of a successful `addComponent`. -/
theorem addComponent_ok {w w' : World} {c : Component} {eid : Option Nat}
    (h : addComponent w c eid = .ok w') :
    ∃ e, eid = some e ∧ w.entitySparseSet.has e = true ∧
      ((hasComponent (registerIfNew w c) c e = true ∧ w' = registerIfNew w c) ∨
        (hasComponent (registerIfNew w c) c e = false ∧
          ∃ r, mapGet (registerIfNew w c).componentMap c = some r ∧
            w' = { (r.queries.foldl (reevaluate e)
                { registerIfNew w c with
                  entityMasks := writeMask (registerIfNew w c).entityMasks r.generationId e
                    (readMask (registerIfNew w c).entityMasks r.generationId e ||| r.bitflag) }) with
              entityComponents :=
                (fun w3 : World => updateHeld w3.entityComponents e fun held => setAdd held c)
                (r.queries.foldl (reevaluate e)
                  { registerIfNew w c with
                    entityMasks := writeMask (registerIfNew w c).entityMasks r.generationId e
                      (readMask (registerIfNew w c).entityMasks r.generationId e ||| r.bitflag) }) })) := by
  unfold addComponent at h
  cases eid with
  | none => simp at h
  | some e =>
    refine ⟨e, rfl, ?_⟩
    simp only at h
    by_cases hex : w.entitySparseSet.has e = true
    swap
    · simp [hex] at h
    refine ⟨hex, ?_⟩
    simp only [hex, Bool.not_true, Bool.false_eq_true, if_false] at h
    change (if hasComponent (registerIfNew w c) c e = true then Except.ok (registerIfNew w c) else _) = _ at h
    by_cases hhc : hasComponent (registerIfNew w c) c e = true
    · left
      simp only [hhc, if_true] at h
      exact ⟨hhc, (Except.ok.inj h).symm⟩
    · right
      simp only [hhc, if_false] at h
      obtain ⟨r, hr⟩ := registerIfNew_isSome w c
      refine ⟨by simpa using hhc, r, hr, ?_⟩
      change (match mapGet (registerIfNew w c).componentMap c with
        | none => _
        | some c_1 => _) = _ at h
      rw [hr] at h
      exact (Except.ok.inj h).symm

theorem WInv.addComponent {w w' : World} (h : WInv w) {c : Component} {eid : Option Nat}
    (hok : addComponent w c eid = .ok w') : WInv w' := by
  obtain ⟨e, _, hex, hcase⟩ := addComponent_ok hok
  have h1 := h.registerIfNew c
  rcases hcase with ⟨_, rfl⟩ | ⟨_, r, hr, rfl⟩
  · exact h1
  · obtain ⟨_, _, j, hj, hb, _⟩ := h1.base.reg.rec_ok c r hr
    refine h1.mutate hr (by rw [registerIfNew_has]; exact hex) (set_hv _ j _ hb)
      (fun w3 : World => updateHeld w3.entityComponents e fun held => setAdd held c) ?_
    intro w3 hw3 e' he'
    simp only
    apply held_update_isSome
    rw [hw3]
    exact h1.base.held_ok e' he'

/-- The shape of a successful `removeComponent`. -/
theorem removeComponent_ok {w w' : World} {c : Component} {eid : Option Nat}
    (h : removeComponent w c eid = .ok w') :
    ∃ e, eid = some e ∧ w.entitySparseSet.has e = true ∧
      ((hasComponent w c e = false ∧ w' = w) ∨
        (hasComponent w c e = true ∧
          ∃ r, mapGet w.componentMap c = some r ∧
            w' = { (r.queries.foldl (reevaluate e)
                { w with
                  entityMasks := writeMask w.entityMasks r.generationId e
                    (readMask w.entityMasks r.generationId e &&& ((2 ^ 32 - 1) ^^^ r.bitflag)) }) with
              entityComponents :=
                (fun w3 : World => updateHeld w3.entityComponents e fun held => setDelete held c)
                (r.queries.foldl (reevaluate e)
                  { w with
                    entityMasks := writeMask w.entityMasks r.generationId e
                      (readMask w.entityMasks r.generationId e &&&
                        ((2 ^ 32 - 1) ^^^ r.bitflag)) }) })) := by
  unfold removeComponent at h
  cases eid with
  | none => simp at h
  | some e =>
    refine ⟨e, rfl, ?_⟩
    simp only at h
    by_cases hex : w.entitySparseSet.has e = true
    swap
    · simp [hex] at h
    refine ⟨hex, ?_⟩
    simp only [hex, Bool.not_true, Bool.false_eq_true, if_false] at h
    by_cases hhc : hasComponent w c e = true
    swap
    · left
      simp only [hhc, Bool.not_false, if_true] at h
      exact ⟨by simpa using hhc, (Except.ok.inj h).symm⟩
    · right
      simp only [hhc, Bool.not_true, Bool.false_eq_true, if_false] at h
      have hreg : ∃ r, mapGet w.componentMap c = some r := by
        unfold hasComponent at hhc
        cases hm : mapGet w.componentMap c with
        | none => rw [hm] at hhc; simp at hhc
        | some r => exact ⟨r, rfl⟩
      obtain ⟨r, hr⟩ := hreg
      refine ⟨hhc, r, hr, ?_⟩
      rw [hr] at h
      exact (Except.ok.inj h).symm

theorem WInv.removeComponent {w w' : World} (h : WInv w) {c : Component} {eid : Option Nat}
    (hok : removeComponent w c eid = .ok w') : WInv w' := by
  obtain ⟨e, _, hex, hcase⟩ := removeComponent_ok hok
  rcases hcase with ⟨_, rfl⟩ | ⟨_, r, hr, rfl⟩
  · exact h
  · obtain ⟨_, _, j, hj, hb, _⟩ := h.base.reg.rec_ok c r hr
    refine h.mutate hr hex (clear_hv _ j _ hj hb)
      (fun w3 : World => updateHeld w3.entityComponents e fun held => setDelete held c) ?_
    intro w3 hw3 e' he'
    simp only
    apply held_update_isSome
    rw [hw3]
    exact h.base.held_ok e' he'

/-! ## `addEntity` keeps the invariant -/

/-- The two ways `addEntity` chooses an identifier. -/
theorem chooseEid_cases (g : Globals) (m : Bool) :
    (∃ rest, g.removed = (chooseEid g m).1 :: rest ∧
        (chooseEid g m).2 = { g with removed := rest }) ∨
      ((chooseEid g m).1 = g.globalEntityCursor ∧
        (chooseEid g m).2 = { g with globalEntityCursor := g.globalEntityCursor + 1 }) := by
  unfold chooseEid
  simp only
  cases hrec : (if m = true then decide (g.removed.length ≠ 0)
      else decide (g.removed.length > reuseLimit g)) with
  | false => right; exact ⟨rfl, rfl⟩
  | true =>
    cases hrem : g.removed with
    | nil => right; exact ⟨rfl, rfl⟩
    | cons x rest => left; exact ⟨rest, rfl, rfl⟩

theorem foldl_updQ_entityComponents (f : Query → Query) (d : Query → Bool) (l : List Nat)
    (w : World) (X : List (Nat × List Component)) :
    l.foldl (updQ f d) { w with entityComponents := X } =
      { (l.foldl (updQ f d) w) with entityComponents := X } := by
  induction l generalizing w with
  | nil => rfl
  | cons a rest ih =>
    rw [List.foldl_cons, List.foldl_cons, ← ih]
    congr 1
    unfold updQ
    cases h : w.queries[a]? with
    | none => simp [h]
    | some q => simp [h]

theorem foldl_addIfMatch_eq (e : Nat) (l : List Nat) (w : World) :
    l.foldl (addIfMatch e) w = l.foldl (updQ (addQ w.entityMasks e) (fun _ => false)) w := by
  induction l generalizing w with
  | nil => rfl
  | cons a rest ih =>
    rw [List.foldl_cons, List.foldl_cons, addIfMatch_eq, ih,
      (updQ_frame _ _ w a).entityMasks]

theorem addQ_of_not_check {em : List (List Nat)} {e : Nat} {q : Query}
    (h : checkMasks em q.generations q.masks q.notMasks e = false) (n : Nat) :
    (addQ em e)^[n] q = q := by
  induction n with
  | zero => rfl
  | succ n ih =>
    rw [Function.iterate_succ_apply', ih]
    simp [addQ, h]

theorem addQ_post_of_check {em : List (List Nat)} {e : Nat} {q : Query} (hwf : q.SetsWF)
    (h : checkMasks em q.generations q.masks q.notMasks e = true) :
    (addQ em e q).live.has e = true ∧ (addQ em e q).toRemove.has e = false := by
  unfold addQ queryAddEntity
  simp only [h, if_true]
  exact ⟨SparseSet.has_add_self _ _, hwf.2.1.has_remove_self e⟩

/-- With every bit of the entity clear, a query that requires some component
rejects the entity. -/
theorem check_false_of_zero {w : World} (h : WBase w) {qid : Nat} {q : Query}
    (hq : w.queries[qid]? = some q) (hne : q.components ≠ []) {e : Nat} (em : List (List Nat))
    (hz : ∀ g, readMask em g e = 0) :
    checkMasks em q.generations q.masks q.notMasks e = false := by
  cases hc : checkMasks em q.generations q.masks q.notMasks e with
  | false => rfl
  | true =>
    exfalso
    obtain ⟨c, hcm⟩ := List.exists_mem_of_ne_nil _ hne
    have := ((h.q_sem qid q hq em e).mp hc).1 c hcm
    obtain ⟨r, hr, _⟩ := h.q_sub qid q hq c (List.mem_append_left _ hcm)
    obtain ⟨_, _, j, _, hb, _⟩ := h.reg.rec_ok c r hr
    rw [hasBitAt_of_pow hr hb, hz] at this
    simp at this

theorem WBase.add_exists {w : World} (h : WBase w) (e : Nat) :
    WBase { w with
      entitySparseSet := w.entitySparseSet.add e
      entityComponents := mapSet w.entityComponents e [] } := by
  refine ⟨⟨h.reg.bitflag_pow, h.reg.masks_ne, h.reg.masks_len, h.reg.rec_ok, h.reg.rec_inj⟩,
    h.q_sem, h.q_sub, h.q_not, h.q_map, h.exists_wf.add e, h.sets_wf, h.dirty_ok, ?_, ?_⟩
  · intro e' he' g
    simp only [SparseSet.has_add, Bool.or_eq_false_iff] at he'
    exact h.masks_zero e' he'.2 g
  · intro e' he'
    simp only [SparseSet.has_add, Bool.or_eq_true, decide_eq_true_eq] at he'
    simp only
    rw [mapGet_mapSet]
    by_cases hee : e' = e
    · simp [hee]
    · simp only [hee, if_false]
      rcases he' with h1 | h1
      · exact absurd h1 hee
      · exact h.held_ok e' h1

/-- The world `addEntity` leaves when it succeeds. -/
theorem addEntity_ok_world (s : State) (h : ¬ (chooseEid s.g s.w.manualEntityRecycling).1 > s.w.size) :
    (addEntity s).1.w =
      (s.w.notQueries.foldl
        (updQ (addQ s.w.entityMasks (chooseEid s.g s.w.manualEntityRecycling).1) (fun _ => false))
        { s.w with
          entitySparseSet :=
            s.w.entitySparseSet.add (chooseEid s.g s.w.manualEntityRecycling).1
          entityComponents :=
            mapSet s.w.entityComponents (chooseEid s.g s.w.manualEntityRecycling).1 [] }) ∧
    (addEntity s).1.g = (chooseEid s.g s.w.manualEntityRecycling).2 ∧
    (addEntity s).2 = .ok (chooseEid s.g s.w.manualEntityRecycling).1 := by
  have hshape : addEntity s =
      ({ g := (chooseEid s.g s.w.manualEntityRecycling).2,
         w := { (s.w.notQueries.foldl (addIfMatch (chooseEid s.g s.w.manualEntityRecycling).1)
              { s.w with entitySparseSet :=
                  s.w.entitySparseSet.add (chooseEid s.g s.w.manualEntityRecycling).1 }) with
            entityComponents := mapSet
              (s.w.notQueries.foldl (addIfMatch (chooseEid s.g s.w.manualEntityRecycling).1)
                { s.w with entitySparseSet :=
                    s.w.entitySparseSet.add (chooseEid s.g s.w.manualEntityRecycling).1
                  }).entityComponents
              (chooseEid s.g s.w.manualEntityRecycling).1 [] } },
        .ok (chooseEid s.g s.w.manualEntityRecycling).1) := by
    unfold addEntity
    simp only [h, if_false]
  rw [hshape]
  refine ⟨?_, rfl, rfl⟩
  simp only
  rw [foldl_addIfMatch_eq]
  have := foldl_updQ_entityComponents
    (addQ s.w.entityMasks (chooseEid s.g s.w.manualEntityRecycling).1) (fun _ => false)
    s.w.notQueries
    { s.w with entitySparseSet :=
        s.w.entitySparseSet.add (chooseEid s.g s.w.manualEntityRecycling).1 }
    (mapSet s.w.entityComponents (chooseEid s.g s.w.manualEntityRecycling).1 [])
  simp only at this
  rw [this]
  have hfr := foldl_updQ_frame
    (addQ s.w.entityMasks (chooseEid s.g s.w.manualEntityRecycling).1) (fun _ => false)
    s.w.notQueries
    { s.w with entitySparseSet :=
        s.w.entitySparseSet.add (chooseEid s.g s.w.manualEntityRecycling).1 }
  rw [hfr.entityComponents]

theorem addEntity_error (s : State) (h : (chooseEid s.g s.w.manualEntityRecycling).1 > s.w.size) :
    addEntity s = ({ s with g := (chooseEid s.g s.w.manualEntityRecycling).2 },
      .error .maxEntitiesReached) := by
  unfold addEntity
  simp only [h, if_true]

/-- The identifier `addEntity` chooses does not exist in the world and is below
the cursor it leaves; the pools it leaves are within the old ones. -/
theorem inv_chooseEid {s : State} (h : Inv s) :
    s.w.entitySparseSet.has (chooseEid s.g s.w.manualEntityRecycling).1 = false ∧
    (chooseEid s.g s.w.manualEntityRecycling).1 <
      (chooseEid s.g s.w.manualEntityRecycling).2.globalEntityCursor ∧
    s.g.globalEntityCursor ≤ (chooseEid s.g s.w.manualEntityRecycling).2.globalEntityCursor ∧
    ((chooseEid s.g s.w.manualEntityRecycling).2.removed ++
      (chooseEid s.g s.w.manualEntityRecycling).2.recycled).Nodup ∧
    (∀ e ∈ (chooseEid s.g s.w.manualEntityRecycling).2.removed ++
        (chooseEid s.g s.w.manualEntityRecycling).2.recycled,
      e ∈ s.g.removed ++ s.g.recycled ∧ e ≠ (chooseEid s.g s.w.manualEntityRecycling).1) := by
  have hnodup := h.pool_nodup
  have hfree := h.pool_free
  rcases chooseEid_cases s.g s.w.manualEntityRecycling with ⟨rest, h1, h2⟩ | ⟨h1, h2⟩
  · rw [h2]
    simp only
    rw [h1] at hnodup hfree
    have hmem : (chooseEid s.g s.w.manualEntityRecycling).1 ∈
        (chooseEid s.g s.w.manualEntityRecycling).1 :: rest ++ s.g.recycled := by simp
    obtain ⟨a1, a2⟩ := hfree _ hmem
    rw [List.cons_append, List.nodup_cons] at hnodup
    refine ⟨a1, a2, Nat.le_refl _, hnodup.2, ?_⟩
    intro e he
    rw [h1]
    refine ⟨by rw [List.cons_append]; exact List.mem_cons_of_mem _ he, ?_⟩
    intro heq
    rw [heq] at he
    exact hnodup.1 he
  · rw [h2, h1]
    simp only
    refine ⟨?_, Nat.lt_succ_self _, Nat.le_succ _, hnodup, ?_⟩
    · cases hb : s.w.entitySparseSet.has s.g.globalEntityCursor with
      | false => rfl
      | true => exact absurd (h.below_cursor _ hb) (Nat.lt_irrefl _)
    · intro e he
      refine ⟨he, ?_⟩
      intro heq
      have := (hfree e he).2
      omega

theorem inv_addEntity {s : State} (h : Inv s) : Inv (addEntity s).1 := by
  obtain ⟨hfresh, hlt, hle, hnd, hsub⟩ := inv_chooseEid h
  by_cases herr : (chooseEid s.g s.w.manualEntityRecycling).1 > s.w.size
  · rw [addEntity_error s herr]
    refine ⟨h.winv, ?_, hnd, ?_⟩
    · intro e he
      exact Nat.lt_of_lt_of_le (h.below_cursor e he) hle
    · intro e he
      obtain ⟨a1, _⟩ := hsub e he
      exact ⟨(h.pool_free e a1).1, Nat.lt_of_lt_of_le (h.pool_free e a1).2 hle⟩
  · obtain ⟨hw, hg, _⟩ := addEntity_ok_world s herr
    generalize (chooseEid s.g s.w.manualEntityRecycling).1 = eid at *
    generalize (chooseEid s.g s.w.manualEntityRecycling).2 = g' at *
    have hb1 := h.winv.base.add_exists eid
    have hfr := foldl_updQ_frame (addQ s.w.entityMasks eid) (fun _ => false) s.w.notQueries
      { s.w with entitySparseSet := s.w.entitySparseSet.add eid
                 entityComponents := mapSet s.w.entityComponents eid [] }
    have hexists : ∀ e, (addEntity s).1.w.entitySparseSet.has e =
        (decide (e = eid) || s.w.entitySparseSet.has e) := by
      intro e
      rw [hw, hfr.entitySparseSet]
      exact SparseSet.has_add _ _ _
    refine ⟨⟨?_, ?_⟩, ?_, ?_, ?_⟩
    · rw [hw]
      exact hb1.foldl_updQ eid _ _ (QStep_addQ _ eid) (addQ_dirty _ eid) _
    · intro qid e
      rw [hw]
      by_cases hne : e = eid
      swap
      · refine LiveOK.foldl_updQ_ne ?_ hb1.sets_wf eid _ _ (QStep_addQ _ eid) _ hne
        refine (h.winv.live_ok qid e).live_congr ?_ ?_ ?_
        · rfl
        · exact has_add_ne _ hne
        · intro q _; rfl
      · subst hne
        intro q' hq' hne'
        rw [foldl_updQ_get] at hq'
        change Option.map _ (s.w.queries[qid]?) = _ at hq'
        cases hq : s.w.queries[qid]? with
        | none => rw [hq] at hq'; simp at hq'
        | some q =>
          rw [hq] at hq'
          simp only [Option.map_some', Option.some.injEq] at hq'
          have hs := QStep.iterate (QStep_addQ s.w.entityMasks e) (List.count qid s.w.notQueries) q
          have hwfq := h.winv.base.sets_wf qid q hq
          have hne0 : q.components ++ q.notComponents ≠ [] := by
            rw [← hq', hs.static.components, hs.static.notComponents] at hne'
            exact hne'
          have hbefore := h.winv.live_ok qid e q hq hne0
          rw [hfresh] at hbefore
          have hchk : queryCheckEntity
              (s.w.notQueries.foldl (updQ (addQ s.w.entityMasks e) (fun _ => false))
                { s.w with entitySparseSet := s.w.entitySparseSet.add e
                           entityComponents := mapSet s.w.entityComponents e [] }) q' e =
              checkMasks s.w.entityMasks q.generations q.masks q.notMasks e := by
            rw [queryCheckEntity_eq, hfr.entityMasks, ← hq', hs.static.generations,
              hs.static.masks, hs.static.notMasks]
          rw [hchk, hfr.entitySparseSet]
          simp only [SparseSet.has_add_self, true_and]
          cases hc : checkMasks s.w.entityMasks q.generations q.masks q.notMasks e with
          | false =>
            rw [addQ_of_not_check hc] at hq'
            subst hq'
            simp only [Bool.false_eq_true, iff_false]
            simpa using hbefore
          | true =>
            simp only [iff_true]
            have hmem : qid ∈ s.w.notQueries := by
              apply h.winv.base.q_not qid q hq
              intro hnil
              have hcne : q.components ≠ [] := by
                intro hcn
                apply hne0
                rw [hcn, hnil]; rfl
              have := check_false_of_zero h.winv.base hq hcne s.w.entityMasks
                (h.winv.base.masks_zero e hfresh)
              rw [hc] at this
              exact Bool.noConfusion this
            have hpos : 0 < List.count qid s.w.notQueries := List.count_pos_iff.mpr hmem
            rw [iterate_pos_eq hpos] at hq'
            subst hq'
            have hs1 := QStep.iterate (QStep_addQ s.w.entityMasks e)
              (List.count qid s.w.notQueries - 1) q
            apply addQ_post_of_check (hs1.wf hwfq)
            rw [hs1.static.generations, hs1.static.masks, hs1.static.notMasks]
            exact hc
    · intro e he
      rw [hexists] at he
      rw [hg]
      simp only [Bool.or_eq_true, decide_eq_true_eq] at he
      rcases he with h1 | h1
      · rw [h1]; exact hlt
      · exact Nat.lt_of_lt_of_le (h.below_cursor e h1) hle
    · rw [hg]; exact hnd
    · intro e he
      rw [hg] at he ⊢
      obtain ⟨a1, a2⟩ := hsub e he
      rw [hexists]
      refine ⟨?_, Nat.lt_of_lt_of_le (h.pool_free e a1).2 hle⟩
      simp [a2, (h.pool_free e a1).1]

/-! ## `removeEntity` keeps the invariant -/

theorem readMask_map_set_zero (em : List (List Nat)) (e g e' : Nat) :
    readMask (em.map fun m => m.set e 0) g e' = if e' = e then 0 else readMask em g e' := by
  unfold readMask
  rw [List.getD_eq_getElem?_getD, List.getD_eq_getElem?_getD, List.getD_eq_getElem?_getD,
    List.getD_eq_getElem?_getD, List.getElem?_map]
  cases hg : em[g]? with
  | none => simp
  | some row =>
    simp only [Option.map_some', Option.getD_some]
    rw [List.getElem?_set]
    by_cases he : e' = e
    · subst he
      by_cases hlt : e' < row.length
      · simp [hlt]
      · simp [hlt]
    · have : ¬ e = e' := fun h => he h.symm
      simp [he, this]

theorem WBase.remove_exists {w : World} (h : WBase w) (e : Nat) :
    WBase { w with
      entitySparseSet := w.entitySparseSet.remove e
      entityComponents := mapDelete w.entityComponents e
      entityMasks := w.entityMasks.map fun m => m.set e 0 } := by
  refine ⟨⟨h.reg.bitflag_pow, ?_, ?_, ?_, h.reg.rec_inj⟩,
    h.q_sem, h.q_sub, h.q_not, h.q_map, h.exists_wf.remove e, h.sets_wf, h.dirty_ok, ?_, ?_⟩
  · intro hnil
    have hnil' : (w.entityMasks.map fun m => m.set e 0) = [] := hnil
    exact h.reg.masks_ne (List.map_eq_nil_iff.mp hnil')
  · intro m hm
    have hm' : m ∈ w.entityMasks.map fun m => m.set e 0 := hm
    obtain ⟨m0, hm0, rfl⟩ := List.mem_map.mp hm'
    rw [List.length_set]
    exact h.reg.masks_len m0 hm0
  · intro c r hr
    have := h.reg.rec_ok c r hr
    simp only [List.length_map]
    exact this
  · intro e' he' g
    simp only
    rw [readMask_map_set_zero]
    by_cases hee : e' = e
    · simp [hee]
    · simp only [hee, if_false]
      apply h.masks_zero
      rw [has_remove_ne h.exists_wf hee] at he'
      exact he'
  · intro e' he'
    simp only [h.exists_wf.has_remove, Bool.and_eq_true, decide_eq_true_eq] at he'
    simp only
    rw [mapGet_mapDelete_ne _ _ _ he'.1]
    exact h.held_ok e' he'.2

theorem removeQ_iterate_post (e : Nat) (q : Query) {n : Nat} (hn : 0 < n) :
    ((removeQ e)^[n] q).live.has e = true → ((removeQ e)^[n] q).toRemove.has e = true := by
  rw [iterate_pos_eq hn]
  exact removeQ_post e _

/-- The state `removeEntity` leaves for an entity of the world. -/
theorem removeEntity_exists (s : State) (e : Nat) (h : s.w.entitySparseSet.has e = true) :
    removeEntity s e =
      { g := if s.w.manualEntityRecycling then { s.g with recycled := s.g.recycled ++ [e] }
          else { s.g with removed := s.g.removed ++ [e] }
        w := { ((List.range s.w.queries.length).foldl (updQ (removeQ e) (removeDirty e)) s.w) with
          entitySparseSet := s.w.entitySparseSet.remove e
          entityComponents := mapDelete s.w.entityComponents e
          entityMasks := s.w.entityMasks.map fun m => m.set e 0 } } := by
  unfold removeEntity
  simp only [h, Bool.not_true, Bool.false_eq_true, if_false]
  rw [foldl_queryRemoveEntity_eq]
  have hfr := foldl_updQ_frame (removeQ e) (removeDirty e) (List.range s.w.queries.length) s.w
  rw [hfr.entitySparseSet, hfr.entityComponents, hfr.entityMasks]

theorem removeEntity_absent (s : State) (e : Nat) (h : s.w.entitySparseSet.has e = false) :
    removeEntity s e = s := by
  unfold removeEntity
  simp [h]

/-- The invariant of a world when the query objects take steps for entity `e` and
`e` is then deleted from the world. -/
theorem WInv.remove_entity {w : World} (h : WInv w) (e : Nat) :
    WInv { ((List.range w.queries.length).foldl (updQ (removeQ e) (removeDirty e)) w) with
      entitySparseSet := w.entitySparseSet.remove e
      entityComponents := mapDelete w.entityComponents e
      entityMasks := w.entityMasks.map fun m => m.set e 0 } := by
  have hfr := foldl_updQ_frame (removeQ e) (removeDirty e) (List.range w.queries.length) w
  have hb1 : WBase ((List.range w.queries.length).foldl (updQ (removeQ e) (removeDirty e)) w) :=
    h.base.foldl_updQ e _ _ (QStep_removeQ e) (removeQ_dirty e) _
  have hb2 := hb1.remove_exists e
  rw [hfr.entitySparseSet, hfr.entityComponents, hfr.entityMasks] at hb2
  refine ⟨hb2, ?_⟩
  intro qid e'
  by_cases hne : e' = e
  swap
  · have h1 : LiveOK ((List.range w.queries.length).foldl (updQ (removeQ e) (removeDirty e)) w)
        qid e' :=
      (h.live_ok qid e').foldl_updQ_ne h.base.sets_wf e _ _ (QStep_removeQ e) _ hne
    refine h1.live_congr ?_ ?_ ?_
    · rfl
    · simp only
      rw [has_remove_ne h.base.exists_wf hne, hfr.entitySparseSet]
    · intro q _
      rw [queryCheckEntity_eq, queryCheckEntity_eq, hfr.entityMasks]
      apply checkMasks_congr
      intro g
      simp only
      rw [readMask_map_set_zero]
      simp [hne]
  · subst hne
    intro q' hq' _
    simp only [h.base.exists_wf.has_remove_self, Bool.false_eq_true, false_and, iff_false,
      not_and, Bool.not_eq_false]
    have hq'' : ((List.range w.queries.length).foldl
        (updQ (removeQ e') (removeDirty e')) w).queries[qid]? = some q' := hq'
    rw [foldl_updQ_get] at hq''
    cases hq : w.queries[qid]? with
    | none => rw [hq] at hq''; simp at hq''
    | some q =>
      rw [hq] at hq''
      simp only [Option.map_some', Option.some.injEq] at hq''
      subst hq''
      have hlt : qid < w.queries.length := by
        by_contra hc
        rw [List.getElem?_eq_none_iff.mpr (Nat.le_of_not_lt hc)] at hq
        exact Option.noConfusion hq
      have hpos : 0 < List.count qid (List.range w.queries.length) :=
        List.count_pos_iff.mpr (List.mem_range.mpr hlt)
      exact removeQ_iterate_post e' q hpos

theorem inv_removeEntity {s : State} (h : Inv s) (e : Nat) : Inv (removeEntity s e) := by
  cases hex : s.w.entitySparseSet.has e with
  | false => rw [removeEntity_absent s e hex]; exact h
  | true =>
    rw [removeEntity_exists s e hex]
    have hnotin : e ∉ s.g.removed ++ s.g.recycled := by
      intro hmem
      have := (h.pool_free e hmem).1
      rw [hex] at this
      exact Bool.noConfusion this
    have hlt := h.below_cursor e hex
    have hhas : ∀ e', (s.w.entitySparseSet.remove e).has e' =
        (decide (e' ≠ e) && s.w.entitySparseSet.has e') := h.winv.base.exists_wf.has_remove e
    refine ⟨h.winv.remove_entity e, ?_, ?_, ?_⟩
    · intro e' he'
      simp only [hhas, Bool.and_eq_true] at he'
      have := h.below_cursor e' he'.2
      split <;> exact this
    · have hnd := h.pool_nodup
      rw [List.mem_append, not_or] at hnotin
      split
      · simp only
        rw [← List.append_assoc]
        rw [List.nodup_append] at hnd ⊢
        refine ⟨List.nodup_append.mpr ⟨hnd.1, hnd.2.1, ?_⟩, by simp, ?_⟩
        · intro a ha hb
          exact hnd.2.2 ha hb
        · intro a ha hb
          simp only [List.mem_singleton] at hb
          subst hb
          rcases List.mem_append.mp ha with h1 | h1
          · exact hnotin.1 h1
          · exact hnotin.2 h1
      · simp only
        rw [List.nodup_append] at hnd ⊢
        refine ⟨?_, hnd.2.1, ?_⟩
        · rw [List.nodup_append]
          refine ⟨hnd.1, by simp, ?_⟩
          intro a ha hb
          simp only [List.mem_singleton] at hb
          subst hb
          exact hnotin.1 ha
        · intro a ha hb
          rcases List.mem_append.mp ha with h1 | h1
          · exact hnd.2.2 h1 hb
          · simp only [List.mem_singleton] at h1
            subst h1
            exact hnotin.2 hb
    · intro e' he'
      have hmem : e' ∈ s.g.removed ++ s.g.recycled ∨ e' = e := by
        split at he'
        · simp only [List.mem_append, List.mem_singleton] at he' ⊢
          tauto
        · simp only [List.mem_append, List.mem_singleton] at he' ⊢
          tauto
      simp only [hhas]
      rcases hmem with h1 | h1
      · obtain ⟨a1, a2⟩ := h.pool_free e' h1
        refine ⟨by simp [a1], ?_⟩
        split <;> exact a2
      · subst h1
        refine ⟨by simp, ?_⟩
        split <;> exact hlt

/-! ## `commitRemovals` -/

theorem SparseSet.WF.remove_last {s : SparseSet} (hs : s.WF) {d : List Nat} {x : Nat}
    (hd : s.dense = d ++ [x]) : (s.remove x).dense = d := by
  have hx : s.dense[d.length]? = some x := by rw [hd]; simp
  have hidx := hs _ _ hx
  have hhas : s.has x = true := (SparseSet.has_iff s x).mpr ⟨_, hidx, hx⟩
  rw [SparseSet.remove_eq hhas hd hidx]
  simp

theorem SparseSet.has_of_dense_nil {s : SparseSet} (h : s.dense = []) (e : Nat) :
    s.has e = false := by
  cases hb : s.has e with
  | false => rfl
  | true =>
    have := SparseSet.has_mem s e hb
    rw [h] at this
    simp at this

theorem commit_loop (k : Nat) (q : Query) (h1 : q.toRemove.WF) (h2 : q.live.WF)
    (hk : q.toRemove.dense.length = k) :
    Committed q ((List.range k).reverse.foldl
      (fun q i =>
        match q.toRemove.dense[i]? with
        | none => q
        | some eid => { q with toRemove := q.toRemove.remove eid, live := q.live.remove eid })
      q) := by
  induction k generalizing q with
  | zero =>
    have hnil : q.toRemove.dense = [] := List.length_eq_zero.mp hk
    simp only [List.range_zero, List.reverse_nil, List.foldl_nil]
    exact ⟨SameStatic.static_refl q, rfl, rfl, hnil, h1, h2, fun e => by
      simp [SparseSet.has_of_dense_nil hnil e]⟩
  | succ k ih =>
    rw [List.range_succ, List.reverse_append, List.reverse_singleton, List.singleton_append,
      List.foldl_cons]
    rcases List.eq_nil_or_concat q.toRemove.dense with hnil | ⟨d, x, hd⟩
    · rw [hnil] at hk; simp at hk
    rw [List.concat_eq_append] at hd
    have hdl : d.length = k := by
      rw [hd] at hk; simpa using hk
    have hx : q.toRemove.dense[k]? = some x := by rw [hd, ← hdl]; simp
    simp only [hx]
    have hrem := h1.remove_last hd
    have hc := ih { q with toRemove := q.toRemove.remove x, live := q.live.remove x }
      (h1.remove x) (h2.remove x) (by simp only; rw [hrem, hdl])
    refine ⟨⟨hc.static.components, hc.static.notComponents, hc.static.changedComponents,
      hc.static.masks, hc.static.notMasks, hc.static.generations⟩, hc.entered, hc.exited,
      hc.pending, hc.wf_toRemove, hc.wf_live, ?_⟩
    intro e
    rw [hc.live e]
    simp only
    rw [h2.has_remove, h1.has_remove]
    by_cases hex : e = x
    · subst hex
      have : q.toRemove.has e = true := by
        rw [h1.has_iff_mem, hd]; simp
      simp [this]
    · simp [hex]

theorem queryCommitRemovals_spec (q : Query) (h1 : q.toRemove.WF) (h2 : q.live.WF) :
    Committed q (queryCommitRemovals q) :=
  commit_loop _ q h1 h2 rfl

theorem queryCommitRemovals_of_nil (q : Query) (h : q.toRemove.dense = []) :
    queryCommitRemovals q = q := by
  unfold queryCommitRemovals
  rw [h]
  rfl

theorem committed_iterate (q : Query) (h1 : q.toRemove.WF) (h2 : q.live.WF) {n : Nat}
    (hn : 0 < n) : queryCommitRemovals^[n] q = queryCommitRemovals q := by
  induction n with
  | zero => exact absurd hn (Nat.lt_irrefl 0)
  | succ n ih =>
    rw [Function.iterate_succ_apply']
    by_cases hz : n = 0
    · subst hz; rfl
    · rw [ih (Nat.pos_of_ne_zero hz)]
      exact queryCommitRemovals_of_nil _ (queryCommitRemovals_spec q h1 h2).pending

theorem modifyQuery_get (f : Query → Query) (qs : List Query) (a i : Nat) :
    (modifyQuery qs a f)[i]? = if i = a then (qs[i]?).map f else qs[i]? := by
  unfold modifyQuery
  cases hq : qs[a]? with
  | none =>
    by_cases hi : i = a
    · subst hi; simp [hq]
    · simp [hi]
  | some q =>
    simp only
    rw [List.getElem?_set]
    have hlt : a < qs.length := by
      by_contra hc
      rw [List.getElem?_eq_none_iff.mpr (Nat.le_of_not_lt hc)] at hq
      exact Option.noConfusion hq
    by_cases hi : i = a
    · subst hi; simp [hlt, hq]
    · have : ¬ a = i := fun e => hi e.symm
      simp [hi, this]

theorem modifyQuery_length (f : Query → Query) (qs : List Query) (a : Nat) :
    (modifyQuery qs a f).length = qs.length := by
  unfold modifyQuery
  cases hq : qs[a]? with
  | none => rfl
  | some q => simp

theorem foldl_set_get (f : Query → Query) (l : List Nat) (qs : List Query) (i : Nat) :
    (l.foldl (fun qs qid => modifyQuery qs qid f) qs)[i]? = (qs[i]?).map (f^[l.count i]) := by
  induction l generalizing qs with
  | nil => simp
  | cons a rest ih =>
    rw [List.foldl_cons, ih, modifyQuery_get]
    by_cases hi : i = a
    · subst hi
      simp only [if_true, List.count_cons_self, Option.map_map]
      congr 1
    · have : ¬ a = i := fun e => hi e.symm
      simp [hi, List.count_cons, this]

theorem foldl_set_length (f : Query → Query) (l : List Nat) (qs : List Query) :
    (l.foldl (fun qs qid => modifyQuery qs qid f) qs).length = qs.length := by
  induction l generalizing qs with
  | nil => rfl
  | cons a rest ih => rw [List.foldl_cons, ih, modifyQuery_length]

/-- What `commitRemovals` does to each query object. -/
theorem commitRemovals_get {w : World} (h : WBase w) (i : Nat) (q : Query)
    (hq : w.queries[i]? = some q) :
    ∃ q', (commitRemovals w).queries[i]? = some q' ∧ Committed q q' ∧
      (i ∉ w.dirtyQueries → q' = q) ∧ (i ∈ w.dirtyQueries → q' = queryCommitRemovals q) := by
  obtain ⟨a1, a2, a3, a4⟩ := h.sets_wf i q hq
  have hnotdirty : i ∉ w.dirtyQueries → Committed q q := by
    intro hnd
    have hnil : q.toRemove.dense = [] := by
      by_contra hne
      exact hnd (h.dirty_ok i q hq hne)
    exact ⟨SameStatic.static_refl q, rfl, rfl, hnil, a2, a1, fun e => by
      simp [SparseSet.has_of_dense_nil hnil e]⟩
  unfold commitRemovals
  by_cases hd : w.dirtyQueries.length = 0
  · simp only [hd, if_true]
    have hdn : w.dirtyQueries = [] := List.length_eq_zero.mp hd
    have : i ∉ w.dirtyQueries := by rw [hdn]; simp
    exact ⟨q, hq, hnotdirty this, fun _ => rfl, fun hm => absurd hm this⟩
  · simp only [hd, if_false]
    rw [foldl_set_get, hq]
    refine ⟨_, rfl, ?_, ?_, ?_⟩
    · by_cases hm : i ∈ w.dirtyQueries
      · rw [committed_iterate q a2 a1 (List.count_pos_iff.mpr hm)]
        exact queryCommitRemovals_spec q a2 a1
      · rw [List.count_eq_zero_of_not_mem hm]
        exact hnotdirty hm
    · intro hm
      rw [List.count_eq_zero_of_not_mem hm]
      rfl
    · intro hm
      exact committed_iterate q a2 a1 (List.count_pos_iff.mpr hm)

theorem commitRemovals_frame (w : World) : QFrame w (commitRemovals w) := by
  unfold commitRemovals
  split
  · exact QFrame.frame_refl w
  · exact ⟨rfl, rfl, rfl, rfl, rfl, rfl, rfl, rfl, rfl, foldl_set_length _ _ _⟩

theorem commitRemovals_get_back {w : World} (h : WBase w) (i : Nat) (q' : Query)
    (hq' : (commitRemovals w).queries[i]? = some q') :
    ∃ q, w.queries[i]? = some q ∧ Committed q q' := by
  obtain ⟨q, hq⟩ := getElem?_of_frame (commitRemovals_frame w) hq'
  obtain ⟨q'', h1, h2, _⟩ := commitRemovals_get h i q hq
  rw [hq'] at h1
  have := Option.some.inj h1
  subst this
  exact ⟨q, hq, h2⟩

theorem WInv.commitRemovals {w : World} (h : WInv w) : WInv (commitRemovals w) := by
  have hfr := commitRemovals_frame w
  refine ⟨?_, ?_⟩
  · apply h.base.of_queries hfr
    · intro i q' hq'
      obtain ⟨q, hq, hc⟩ := commitRemovals_get_back h.base i q' hq'
      refine ⟨q, hq, hc.static, ?_⟩
      rintro ⟨_, _, b3, b4⟩
      exact ⟨hc.wf_live, hc.wf_toRemove, by rw [hc.entered]; exact b3,
        by rw [hc.exited]; exact b4⟩
    · intro i q' hq' hne
      obtain ⟨q, hq, hc⟩ := commitRemovals_get_back h.base i q' hq'
      exact absurd hc.pending hne
  · intro i e q' hq' hne
    obtain ⟨q, hq, hc⟩ := commitRemovals_get_back h.base i q' hq'
    rw [hfr.entitySparseSet, queryCheckEntity_static hc.static hfr.entityMasks,
      hc.live e, SparseSet.has_of_dense_nil hc.pending e]
    have := h.live_ok i e q hq (by
      rw [← hc.static.components, ← hc.static.notComponents]; exact hne)
    rw [← this]
    simp

/-! ## `registerQuery`: the components of the query -/

theorem RegExt.ext_refl (w : World) : RegExt w w :=
  ⟨rfl, rfl, rfl, rfl, rfl, rfl, rfl, rfl, fun _ _ => rfl, fun _ _ h => h⟩

theorem RegExt.ext_trans {w w' w'' : World} (h1 : RegExt w w') (h2 : RegExt w' w'') :
    RegExt w w'' :=
  ⟨h2.size.trans h1.size, h2.entityComponents.trans h1.entityComponents,
    h2.entitySparseSet.trans h1.entitySparseSet, h2.queryMap.trans h1.queryMap,
    h2.queries.trans h1.queries, h2.notQueries.trans h1.notQueries,
    h2.dirtyQueries.trans h1.dirtyQueries,
    h2.manualEntityRecycling.trans h1.manualEntityRecycling,
    fun g e => (h2.readMask g e).trans (h1.readMask g e),
    fun c r h => h2.keep c r (h1.keep c r h)⟩

theorem registerIfNew_regExt (w : World) (c : Component) : RegExt w (registerIfNew w c) := by
  unfold registerIfNew
  cases hc : mapGet w.componentMap c with
  | some r => simp only [Option.isNone_some, Bool.false_eq_true, if_false]; exact RegExt.ext_refl w
  | none =>
    simp only [Option.isNone_none, if_true]
    obtain ⟨f1, f2, f3, f4, f5, f6, f7, f8⟩ := registerComponent_frame w c
    refine ⟨f1, f2, f3, f4, f5, f6, f7, f8, registerComponent_readMask w c, ?_⟩
    intro c' r hr
    have hne : c' ≠ c := by
      intro e; rw [e, hc] at hr; exact Option.noConfusion hr
    rw [registerComponent_mapGet_ne _ _ _ hne]
    exact hr

theorem resolveTerm_fst (acc : World × QueryLists) (t : QueryTerm) :
    (resolveTerm acc t).1 = registerIfNew acc.1 (termComponent t) := by
  unfold resolveTerm
  cases t with
  | comp c => rfl
  | modifier c m => cases m <;> rfl

theorem resolveTerm_components (acc : World × QueryLists) (t : QueryTerm) :
    (resolveTerm acc t).2.components = acc.2.components ++ (termRequired t).toList ∧
    (resolveTerm acc t).2.notComponents = acc.2.notComponents ++ (termForbidden t).toList ∧
    (resolveTerm acc t).2.changedComponents =
      acc.2.changedComponents ++ (termChanged t).toList := by
  unfold resolveTerm
  cases t with
  | comp c => simp [termRequired, termForbidden, termChanged]
  | modifier c m => cases m <;> simp [termRequired, termForbidden, termChanged]

theorem filterMap_cons_toList {α β : Type} (f : α → Option β) (a : α) (l : List α) :
    (a :: l).filterMap f = (f a).toList ++ l.filterMap f := by
  rw [List.filterMap_cons]
  cases f a <;> rfl

/-- The first loop of `registerQuery`: every component named is registered, the
invariant is kept, and the lists built are those of the query. -/
theorem resolve_fold (terms : List QueryTerm) (w : World) (ls : QueryLists) (h : WInv w) :
    WInv (terms.foldl resolveTerm (w, ls)).1 ∧
    RegExt w (terms.foldl resolveTerm (w, ls)).1 ∧
    (terms.foldl resolveTerm (w, ls)).2.components =
      ls.components ++ terms.filterMap termRequired ∧
    (terms.foldl resolveTerm (w, ls)).2.notComponents =
      ls.notComponents ++ terms.filterMap termForbidden ∧
    (terms.foldl resolveTerm (w, ls)).2.changedComponents =
      ls.changedComponents ++ terms.filterMap termChanged ∧
    (∀ t ∈ terms, ∃ r, mapGet (terms.foldl resolveTerm (w, ls)).1.componentMap
      (termComponent t) = some r) := by
  induction terms generalizing w ls with
  | nil => exact ⟨h, RegExt.ext_refl w, by simp, by simp, by simp, by simp⟩
  | cons t rest ih =>
    rw [List.foldl_cons]
    have hfst := resolveTerm_fst (w, ls) t
    obtain ⟨c1, c2, c3⟩ := resolveTerm_components (w, ls) t
    have hw1 : WInv (resolveTerm (w, ls) t).1 := by rw [hfst]; exact h.registerIfNew _
    have hext : RegExt w (resolveTerm (w, ls) t).1 := by
      rw [hfst]; exact registerIfNew_regExt _ _
    obtain ⟨i1, i2, i3, i4, i5, i6⟩ := ih (resolveTerm (w, ls) t).1 (resolveTerm (w, ls) t).2 hw1
    refine ⟨i1, hext.ext_trans i2, ?_, ?_, ?_, ?_⟩
    · rw [i3, c1, filterMap_cons_toList, List.append_assoc]
    · rw [i4, c2, filterMap_cons_toList, List.append_assoc]
    · rw [i5, c3, filterMap_cons_toList, List.append_assoc]
    · intro t' ht'
      rcases List.mem_cons.mp ht' with h1 | h1
      · subst h1
        obtain ⟨r, hr⟩ := registerIfNew_isSome w (termComponent t')
        refine ⟨r, i2.keep _ r ?_⟩
        rw [hfst]
        exact hr
      · exact i6 t' h1

theorem termComponent_of_required {t : QueryTerm} {c : Component} (h : termRequired t = some c) :
    termComponent t = c := by
  cases t with
  | comp c' => simpa [termRequired, termComponent] using h
  | modifier c' m => cases m <;> simp [termRequired, termComponent] at h ⊢; exact h

theorem termComponent_of_forbidden {t : QueryTerm} {c : Component}
    (h : termForbidden t = some c) : termComponent t = c := by
  cases t with
  | comp c' => simp [termForbidden] at h
  | modifier c' m => cases m <;> simp [termForbidden, termComponent] at h ⊢; exact h

theorem named_of_mem_lists (qd : QueryDef) (c : Component)
    (hc : c ∈ requiredOf qd ++ forbiddenOf qd) :
    ∃ t ∈ qd.queryComponents, termComponent t = c := by
  rcases List.mem_append.mp hc with h1 | h1
  · obtain ⟨t, ht, htc⟩ := List.mem_filterMap.mp h1
    exact ⟨t, ht, termComponent_of_required htc⟩
  · obtain ⟨t, ht, htc⟩ := List.mem_filterMap.mp h1
    exact ⟨t, ht, termComponent_of_forbidden htc⟩

/-! ## `registerQuery`: the subscriptions -/

theorem setAdd_setAdd {α : Type} [DecidableEq α] (s : List α) (a : α) :
    setAdd (setAdd s a) a = setAdd s a := by
  apply setAdd_of_mem
  rw [mem_setAdd]
  exact Or.inr rfl

/-- The record of every component after the subscription loop: the same record,
with the query added to its set when the component is among those of the query. -/
theorem mapGet_foldl_subscribe (qid : Nat) (recs : List ComponentRecord)
    (cm : List (Component × Registration)) (c : Component) :
    mapGet (recs.foldl (subscribe qid) cm) c =
      (mapGet cm c).map fun r =>
        if c ∈ recs.map (·.store) then { r with queries := setAdd r.queries qid } else r := by
  induction recs generalizing cm with
  | nil => simp
  | cons r0 rest ih =>
    rw [List.foldl_cons, ih]
    unfold subscribe
    by_cases hc : c = r0.store
    · subst hc
      cases hm : mapGet cm r0.store with
      | none => simp [hm]
      | some r =>
        simp only [mapGet_mapSet_self, Option.map_some', List.map_cons, List.mem_cons, true_or,
          if_true, Option.some.injEq]
        split
        · simp [setAdd_setAdd]
        · rfl
    · have hne : ¬ r0.store = c := fun e => hc e.symm
      cases hm : mapGet cm r0.store with
      | none => simp [hc]
      | some r =>
        simp only
        rw [mapGet_mapSet_ne _ _ _ _ hc]
        simp [hc]

/-! ## `registerQuery`: the initial scan -/

theorem SparseSet.remove_of_dense_nil {s : SparseSet} (h : s.dense = []) (e : Nat) :
    s.remove e = s :=
  SparseSet.remove_of_not_has (SparseSet.has_of_dense_nil h e)

theorem scanEntity_eq (qid : Nat) (w : World) (eid : Nat) :
    scanEntity qid w eid =
      updQ (if w.entitySparseSet.has eid then addQ w.entityMasks eid else id) (fun _ => false)
        w qid := by
  unfold scanEntity
  cases hex : w.entitySparseSet.has eid with
  | true => simp only [Bool.not_true, Bool.false_eq_true, if_false, if_true]; exact addIfMatch_eq _ _ _
  | false =>
    simp only [Bool.not_false, if_true, Bool.false_eq_true, if_false]
    unfold updQ
    cases hq : w.queries[qid]? with
    | none => rfl
    | some q =>
      simp only [id]
      exact (world_eta_queries w _ _ (set_eq_self_of_getElem? _ _ _ hq) rfl).symm

/-- The initial scan of `registerQuery` touches the new query only and puts into
its live set the existing entities below the bound that pass the check. -/
theorem scan_spec (qid : Nat) (w : World) (n : Nat) :
    QFrame w ((List.range n).foldl (scanEntity qid) w) ∧
    ((List.range n).foldl (scanEntity qid) w).dirtyQueries = w.dirtyQueries ∧
    (∀ i, i ≠ qid → ((List.range n).foldl (scanEntity qid) w).queries[i]? = w.queries[i]?) ∧
    (∀ q, w.queries[qid]? = some q → q.SetsWF → q.toRemove.dense = [] →
      ∃ q', ((List.range n).foldl (scanEntity qid) w).queries[qid]? = some q' ∧
        SameStatic q q' ∧ q'.SetsWF ∧ q'.toRemove.dense = [] ∧
        ∀ e, q'.live.has e = (q.live.has e ||
          (decide (e < n) && w.entitySparseSet.has e &&
            checkMasks w.entityMasks q.generations q.masks q.notMasks e))) := by
  induction n with
  | zero =>
    rw [List.range_zero]
    refine ⟨QFrame.frame_refl w, rfl, fun _ _ => rfl, ?_⟩
    intro q hq hwf hnil
    exact ⟨q, hq, SameStatic.static_refl q, hwf, hnil, fun e => by simp⟩
  | succ n ih =>
    obtain ⟨hfr, hd, hother, hnew⟩ := ih
    rw [List.range_succ, List.foldl_append, List.foldl_cons, List.foldl_nil]
    generalize (List.range n).foldl (scanEntity qid) w = wn at hfr hd hother hnew
    rw [scanEntity_eq]
    have hfr2 := updQ_frame
      (if wn.entitySparseSet.has n then addQ wn.entityMasks n else id) (fun _ => false) wn qid
    refine ⟨hfr.frame_trans hfr2, ?_, ?_, ?_⟩
    · rw [← hd]
      unfold updQ
      cases wn.queries[qid]? <;> simp
    · intro i hi
      rw [updQ_get]
      simp only [hi, if_false]
      exact hother i hi
    · intro q hq hwf hnil
      obtain ⟨qn, hqn, hs, hwfn, hniln, hlive⟩ := hnew q hq hwf hnil
      rw [updQ_get]
      simp only [if_true, hqn, Option.map_some']
      rw [hfr.entitySparseSet, hfr.entityMasks]
      cases hex : w.entitySparseSet.has n with
      | false =>
        simp only [Bool.false_eq_true, if_false, id]
        refine ⟨qn, rfl, hs, hwfn, hniln, ?_⟩
        intro e
        rw [hlive e]
        by_cases hen : e = n
        · subst hen; simp [hex]
        · have : (e < n + 1) ↔ (e < n) := by omega
          simp [this]
      | true =>
        simp only [if_true]
        unfold addQ
        rw [hs.generations, hs.masks, hs.notMasks]
        cases hc : checkMasks w.entityMasks q.generations q.masks q.notMasks n with
        | false =>
          simp only [Bool.false_eq_true, if_false]
          refine ⟨qn, rfl, hs, hwfn, hniln, ?_⟩
          intro e
          rw [hlive e]
          by_cases hen : e = n
          · subst hen; simp [hc]
          · have : (e < n + 1) ↔ (e < n) := by omega
            simp [this]
        | true =>
          simp only [if_true]
          have hq1 := QStep_queryAddEntity n qn
          refine ⟨_, rfl, hs.static_trans hq1.static, hq1.wf hwfn, ?_, ?_⟩
          · unfold queryAddEntity
            simp only
            rw [SparseSet.remove_of_dense_nil hniln]
            exact hniln
          · intro e
            unfold queryAddEntity
            simp only
            rw [SparseSet.has_add, hlive e]
            by_cases hen : e = n
            · subst hen; simp [hex, hc]
            · have : (e < n + 1) ↔ (e < n) := by omega
              simp [hen, this]

/-! ## `registerQuery` keeps the invariant -/

theorem getElem?_append_singleton {α : Type} (l : List α) (a x : α) (i : Nat) :
    (l ++ [a])[i]? = some x ↔ (l[i]? = some x ∨ (i = l.length ∧ x = a)) := by
  by_cases hlt : i < l.length
  · rw [List.getElem?_append_left hlt]
    constructor
    · intro h; exact Or.inl h
    · rintro (h | ⟨h, _⟩)
      · exact h
      · omega
  · have hle := Nat.le_of_not_lt hlt
    rw [List.getElem?_append_right hle, List.getElem?_eq_none_iff.mpr hle]
    by_cases heq : i = l.length
    · subst heq
      simp [eq_comm]
    · have : i - l.length ≠ 0 := by omega
      obtain ⟨n, hn⟩ := Nat.exists_eq_succ_of_ne_zero this
      rw [hn]
      simp [heq]

theorem regBits_foldl_subscribe (qid : Nat) (recs : List ComponentRecord)
    (cm : List (Component × Registration)) (c : Component) :
    regBits (recs.foldl (subscribe qid) cm) c = regBits cm c := by
  unfold regBits
  rw [mapGet_foldl_subscribe]
  cases mapGet cm c with
  | none => rfl
  | some r =>
    simp only [Option.map_some']
    split <;> rfl

/-- A record after the subscription loop comes from a record before it, with the
same generation, bitflag and store and at least the same subscribed queries. -/
theorem subscribe_record {qid : Nat} {recs : List ComponentRecord}
    {cm : List (Component × Registration)} {c : Component} {r' : Registration}
    (h : mapGet (recs.foldl (subscribe qid) cm) c = some r') :
    ∃ r, mapGet cm c = some r ∧ r'.generationId = r.generationId ∧ r'.bitflag = r.bitflag ∧
      r'.store = r.store ∧ (∀ x ∈ r.queries, x ∈ r'.queries) ∧
      (c ∈ recs.map (·.store) → qid ∈ r'.queries) := by
  rw [mapGet_foldl_subscribe] at h
  cases hm : mapGet cm c with
  | none => rw [hm] at h; simp at h
  | some r =>
    rw [hm] at h
    simp only [Option.map_some', Option.some.injEq] at h
    refine ⟨r, rfl, ?_⟩
    by_cases hc : c ∈ recs.map (·.store)
    · simp only [hc, if_true] at h
      subst h
      refine ⟨rfl, rfl, rfl, ?_, ?_⟩
      · intro x hx; simp only; rw [mem_setAdd]; exact Or.inl hx
      · intro _; simp only; rw [mem_setAdd]; exact Or.inr rfl
    · simp only [hc, if_false] at h
      subst h
      exact ⟨rfl, rfl, rfl, fun x hx => hx, fun hc' => absurd hc' hc⟩

theorem subscribe_record_of (qid : Nat) (recs : List ComponentRecord)
    {cm : List (Component × Registration)} {c : Component} {r : Registration}
    (h : mapGet cm c = some r) :
    ∃ r', mapGet (recs.foldl (subscribe qid) cm) c = some r' := by
  rw [mapGet_foldl_subscribe, h]
  exact ⟨_, rfl⟩

theorem compileQuery_fields (w : World) (ls : QueryLists) :
    (compileQuery w ls).components = ls.components ∧
    (compileQuery w ls).notComponents = ls.notComponents ∧
    (compileQuery w ls).changedComponents = ls.changedComponents ∧
    (compileQuery w ls).live = SparseSet.empty ∧
    (compileQuery w ls).toRemove = SparseSet.empty ∧
    (compileQuery w ls).entered = SparseSet.empty ∧
    (compileQuery w ls).exited = SparseSet.empty ∧
    (compileQuery w ls).allComponents =
      (ls.components ++ ls.notComponents).filterMap (recOf w.componentMap) :=
  ⟨rfl, rfl, rfl, rfl, rfl, rfl, rfl, rfl⟩

theorem compileQuery_sem (w : World) (ls : QueryLists)
    (hreg : ∀ c ∈ ls.components ++ ls.notComponents,
      ∃ r j, mapGet w.componentMap c = some r ∧ r.bitflag = 2 ^ j) :
    QSem w.componentMap (compileQuery w ls).components (compileQuery w ls).notComponents
      (compileQuery w ls).generations (compileQuery w ls).masks (compileQuery w ls).notMasks :=
  qsem_compile w.componentMap ls.components ls.notComponents hreg

theorem compileQuery_setsWF (w : World) (ls : QueryLists) : (compileQuery w ls).SetsWF :=
  ⟨SparseSet.WF_empty, SparseSet.WF_empty, SparseSet.WF_empty, SparseSet.WF_empty⟩

theorem registerQuery_eq (g : Globals) (w : World) (qd : QueryDef) :
    registerQuery g w qd =
      (List.range g.globalEntityCursor).foldl
        (scanEntity (qd.queryComponents.foldl resolveTerm
          (w, { components := [], notComponents := [], changedComponents := [] })).1.queries.length)
        (preScan
          (qd.queryComponents.foldl resolveTerm
            (w, { components := [], notComponents := [], changedComponents := [] })).1
          (qd.queryComponents.foldl resolveTerm
            (w, { components := [], notComponents := [], changedComponents := [] })).2 qd) := rfl

/-- The world before the initial scan satisfies the base invariant, and its old
queries are as right as they were. -/
theorem preScan_spec {w1 : World} (h : WInv w1) (ls : QueryLists) (qd : QueryDef)
    (hreg : ∀ c ∈ ls.components ++ ls.notComponents, ∃ r, mapGet w1.componentMap c = some r)
    (hc : ls.components = requiredOf qd) (hn : ls.notComponents = forbiddenOf qd)
    (hch : ls.changedComponents = changedOf qd) :
    WBase (preScan w1 ls qd) ∧
      (∀ i e, i ≠ w1.queries.length → LiveOK (preScan w1 ls qd) i e) := by
  obtain ⟨k1, k2, k3, k4, k5, k6, k7, k8⟩ := compileQuery_fields w1 ls
  have hreg2 : ∀ c ∈ ls.components ++ ls.notComponents,
      ∃ r j, mapGet w1.componentMap c = some r ∧ r.bitflag = 2 ^ j := by
    intro c hcm
    obtain ⟨r, hr⟩ := hreg c hcm
    obtain ⟨_, _, j, _, hb, _⟩ := h.base.reg.rec_ok c r hr
    exact ⟨r, j, hr, hb⟩
  have hstore : ∀ c ∈ ls.components ++ ls.notComponents,
      c ∈ (compileQuery w1 ls).allComponents.map (·.store) := by
    intro c hcm
    obtain ⟨r, hr⟩ := hreg c hcm
    obtain ⟨hs, _⟩ := h.base.reg.rec_ok c r hr
    rw [k8, List.mem_map]
    refine ⟨{ generationId := r.generationId, bitflag := r.bitflag, store := r.store }, ?_, hs⟩
    rw [mem_filterMap_recOf]
    exact ⟨c, hcm, by simp [recOf, hr]⟩
  have hqs : ∀ (i : Nat) (q : Query), (preScan w1 ls qd).queries[i]? = some q →
      (w1.queries[i]? = some q ∨ (i = w1.queries.length ∧ q = compileQuery w1 ls)) := by
    intro i q hq
    exact (getElem?_append_singleton _ _ _ _).mp hq
  have hbits : ∀ c, regBits (preScan w1 ls qd).componentMap c = regBits w1.componentMap c :=
    fun c => regBits_foldl_subscribe _ _ _ c
  constructor
  · refine ⟨⟨h.base.reg.bitflag_pow, h.base.reg.masks_ne, h.base.reg.masks_len, ?_, ?_⟩,
      ?_, ?_, ?_, ?_, h.base.exists_wf, ?_, ?_, h.base.masks_zero, h.base.held_ok⟩
    · intro c r' hr'
      obtain ⟨r, hr, e1, e2, e3, _, _⟩ := subscribe_record hr'
      have := h.base.reg.rec_ok c r hr
      rw [e1, e2, e3]
      exact this
    · intro c c' r1 r2 hr1 hr2 hg hb
      obtain ⟨r, hr, e1, e2, _, _, _⟩ := subscribe_record hr1
      obtain ⟨r0, hr0, e1', e2', _, _, _⟩ := subscribe_record hr2
      exact h.base.reg.rec_inj c c' r r0 hr hr0 (by rw [← e1, ← e1', hg]) (by rw [← e2, ← e2', hb])
    · intro i q hq
      rcases hqs i q hq with h1 | ⟨_, h1⟩
      · exact (h.base.q_sem i q h1).sem_congr (fun c _ => hbits c)
      · subst h1
        exact (compileQuery_sem w1 ls hreg2).sem_congr (fun c _ => hbits c)
    · intro i q hq c hcm
      rcases hqs i q hq with h1 | ⟨h0, h1⟩
      · obtain ⟨r, hr, hm⟩ := h.base.q_sub i q h1 c hcm
        obtain ⟨r', hr'⟩ := subscribe_record_of w1.queries.length
          (compileQuery w1 ls).allComponents hr
        obtain ⟨r0, hr0, _, _, _, hsub, _⟩ := subscribe_record hr'
        rw [hr] at hr0
        have := Option.some.inj hr0
        subst this
        exact ⟨r', hr', hsub i hm⟩
      · subst h1
        rw [k1, k2] at hcm
        obtain ⟨r, hr⟩ := hreg c hcm
        obtain ⟨r', hr'⟩ := subscribe_record_of w1.queries.length
          (compileQuery w1 ls).allComponents hr
        obtain ⟨_, _, _, _, _, _, hnew⟩ := subscribe_record hr'
        refine ⟨r', hr', ?_⟩
        rw [h0]
        exact hnew (hstore c hcm)
    · intro i q hq hne
      have hnq : (preScan w1 ls qd).notQueries =
          if (compileQuery w1 ls).notComponents.length = 0 then w1.notQueries
          else setAdd w1.notQueries w1.queries.length := rfl
      rw [hnq]
      rcases hqs i q hq with h1 | ⟨h0, h1⟩
      · have := h.base.q_not i q h1 hne
        split
        · exact this
        · rw [mem_setAdd]; exact Or.inl this
      · subst h1
        have : ¬ (compileQuery w1 ls).notComponents.length = 0 := by
          intro hz; exact hne (List.length_eq_zero.mp hz)
        simp only [this, if_false]
        rw [mem_setAdd]
        exact Or.inr h0
    · intro qd' qid hqd'
      have hqm : mapGet (mapSet w1.queryMap qd w1.queries.length) qd' = some qid := hqd'
      rw [mapGet_mapSet] at hqm
      by_cases hq : qd' = qd
      · subst hq
        simp only [if_true, Option.some.injEq] at hqm
        subst hqm
        refine ⟨compileQuery w1 ls, ?_, ?_, ?_, ?_⟩
        · exact (getElem?_append_singleton _ _ _ _).mpr (Or.inr ⟨rfl, rfl⟩)
        · rw [k1, hc]
        · rw [k2, hn]
        · rw [k3, hch]
      · simp only [hq, if_false] at hqm
        obtain ⟨q, hq0, a1, a2, a3⟩ := h.base.q_map qd' qid hqm
        exact ⟨q, (getElem?_append_singleton _ _ _ _).mpr (Or.inl hq0), a1, a2, a3⟩
    · intro i q hq
      rcases hqs i q hq with h1 | ⟨_, h1⟩
      · exact h.base.sets_wf i q h1
      · subst h1; exact compileQuery_setsWF w1 ls
    · intro i q hq hne
      rcases hqs i q hq with h1 | ⟨_, h1⟩
      · exact h.base.dirty_ok i q h1 hne
      · subst h1
        rw [k5] at hne
        exact absurd rfl hne
  · intro i e hi q hq hne
    rcases hqs i q hq with h1 | ⟨h0, _⟩
    · exact h.live_ok i e q h1 hne
    · exact absurd h0 hi

/-- `registerQuery` keeps the invariant of the world, maps the query to the new
position, and changes neither the entities, nor what the generation arrays read,
nor the bits of the registered components, nor the other query objects. -/
theorem registerQuery_spec {w : World} (h : WInv w) (g : Globals)
    (hcur : ∀ e, w.entitySparseSet.has e = true → e < g.globalEntityCursor) (qd : QueryDef) :
    WInv (registerQuery g w qd) ∧
    (registerQuery g w qd).entitySparseSet = w.entitySparseSet ∧
    (registerQuery g w qd).entityComponents = w.entityComponents ∧
    (registerQuery g w qd).size = w.size ∧
    (registerQuery g w qd).manualEntityRecycling = w.manualEntityRecycling ∧
    mapGet (registerQuery g w qd).queryMap qd = some w.queries.length ∧
    (∀ gen e, readMask (registerQuery g w qd).entityMasks gen e = readMask w.entityMasks gen e) ∧
    (∀ c r, mapGet w.componentMap c = some r →
      regBits (registerQuery g w qd).componentMap c = regBits w.componentMap c) ∧
    (∀ (i : Nat) (q : Query), w.queries[i]? = some q →
      (registerQuery g w qd).queries[i]? = some q) ∧
    (registerQuery g w qd).dirtyQueries = w.dirtyQueries := by
  obtain ⟨hw1, hext, hc, hn, hch, hregd⟩ := resolve_fold qd.queryComponents w
    { components := [], notComponents := [], changedComponents := [] } h
  rw [registerQuery_eq]
  generalize qd.queryComponents.foldl resolveTerm
    (w, { components := [], notComponents := [], changedComponents := [] }) = R at *
  obtain ⟨w1, ls⟩ := R
  simp only at hw1 hext hc hn hch hregd ⊢
  have hc' : ls.components = requiredOf qd := by rw [hc]; rfl
  have hn' : ls.notComponents = forbiddenOf qd := by rw [hn]; rfl
  have hch' : ls.changedComponents = changedOf qd := by rw [hch]; rfl
  have hreg : ∀ c ∈ ls.components ++ ls.notComponents,
      ∃ r, mapGet w1.componentMap c = some r := by
    intro c hcm
    rw [hc', hn'] at hcm
    obtain ⟨t, ht, htc⟩ := named_of_mem_lists qd c hcm
    rw [← htc]
    exact hregd t ht
  obtain ⟨hb2, hl2⟩ := preScan_spec hw1 ls qd hreg hc' hn' hch'
  obtain ⟨hfr, hd, hother, hnew⟩ :=
    scan_spec w1.queries.length (preScan w1 ls qd) g.globalEntityCursor
  have hq0 : (preScan w1 ls qd).queries[w1.queries.length]? = some (compileQuery w1 ls) :=
    (getElem?_append_singleton _ _ _ _).mpr (Or.inr ⟨rfl, rfl⟩)
  obtain ⟨q3, hq3, hs3, hwf3, hnil3, hlive3⟩ :=
    hnew (compileQuery w1 ls) hq0 (compileQuery_setsWF w1 ls) rfl
  generalize (List.range g.globalEntityCursor).foldl (scanEntity w1.queries.length)
    (preScan w1 ls qd) = w3 at hfr hd hother hq3
  have hback : ∀ (i : Nat) (q' : Query), w3.queries[i]? = some q' →
      ∃ q, (preScan w1 ls qd).queries[i]? = some q ∧ SameStatic q q' ∧
        (q.SetsWF → q'.SetsWF) ∧ (q'.toRemove.dense ≠ [] → q.toRemove.dense ≠ []) := by
    intro i q' hq'
    by_cases hi : i = w1.queries.length
    · subst hi
      rw [hq3] at hq'
      have := Option.some.inj hq'
      subst this
      exact ⟨_, hq0, hs3, fun _ => hwf3, fun hne => absurd hnil3 hne⟩
    · rw [hother i hi] at hq'
      exact ⟨q', hq', SameStatic.static_refl q', fun x => x, fun x => x⟩
  have hb3 : WBase w3 := by
    apply hb2.of_queries hfr
    · intro i q' hq'
      obtain ⟨q, a1, a2, a3, _⟩ := hback i q' hq'
      exact ⟨q, a1, a2, a3⟩
    · intro i q' hq' hne
      obtain ⟨q, a1, _, _, a4⟩ := hback i q' hq'
      rw [hd]
      exact hb2.dirty_ok i q a1 (a4 hne)
  have hex1 : (preScan w1 ls qd).entitySparseSet = w.entitySparseSet := hext.entitySparseSet
  refine ⟨⟨hb3, ?_⟩, ?_, ?_, ?_, ?_, ?_, ?_, ?_, ?_, ?_⟩
  · intro i e
    by_cases hi : i = w1.queries.length
    swap
    · refine (hl2 i e hi).live_congr (hother i hi) ?_ ?_
      · rw [hfr.entitySparseSet]
      · intro q _
        exact queryCheckEntity_static (SameStatic.static_refl q) hfr.entityMasks e
    · subst hi
      intro q' hq' _
      rw [hq3] at hq'
      have := Option.some.inj hq'
      subst this
      rw [hlive3 e, SparseSet.has_of_dense_nil hnil3 e, queryCheckEntity_eq, hfr.entityMasks,
        hfr.entitySparseSet, hs3.generations, hs3.masks, hs3.notMasks]
      have hemp : (compileQuery w1 ls).live.has e = false := SparseSet.has_empty e
      rw [hemp]
      simp only [Bool.false_or, Bool.and_eq_true, decide_eq_true_eq, and_true]
      constructor
      · rintro ⟨⟨_, a2⟩, a3⟩; exact ⟨a2, a3⟩
      · rintro ⟨a2, a3⟩
        refine ⟨⟨hcur e ?_, a2⟩, a3⟩
        rw [← hex1]; exact a2
  · rw [hfr.entitySparseSet]; exact hex1
  · rw [hfr.entityComponents]; exact hext.entityComponents
  · rw [hfr.size]; exact hext.size
  · rw [hfr.manualEntityRecycling]; exact hext.manualEntityRecycling
  · rw [hfr.queryMap]
    have : mapGet (mapSet w1.queryMap qd w1.queries.length) qd = some w1.queries.length :=
      mapGet_mapSet_self _ _ _
    rw [← hext.queries]
    exact this
  · intro gen e
    rw [hfr.entityMasks]
    exact hext.readMask gen e
  · intro c r hr
    rw [hfr.componentMap]
    have h1 : regBits (preScan w1 ls qd).componentMap c = regBits w1.componentMap c :=
      regBits_foldl_subscribe _ _ _ c
    rw [h1]
    unfold regBits
    rw [hext.keep c r hr, hr]
  · intro i q hq
    have hlt : i < w1.queries.length := by
      rw [hext.queries]
      by_contra hcn
      rw [List.getElem?_eq_none_iff.mpr (Nat.le_of_not_lt hcn)] at hq
      exact Option.noConfusion hq
    rw [hother i (Nat.ne_of_lt hlt)]
    apply (getElem?_append_singleton _ _ _ _).mpr
    left
    rw [hext.queries]
    exact hq
  · rw [hd]
    exact hext.dirtyQueries

/-! ## Reads keep the invariant -/

/-- The compilation that opens a read keeps the invariant and the entities, and
leaves the query mapped to a compiled object. -/
theorem registerQueryIfNew_spec {w : World} (h : WInv w) (g : Globals)
    (hcur : ∀ e, w.entitySparseSet.has e = true → e < g.globalEntityCursor) (qd : QueryDef) :
    WInv (registerQueryIfNew g w qd) ∧
    (registerQueryIfNew g w qd).entitySparseSet = w.entitySparseSet ∧
    (registerQueryIfNew g w qd).manualEntityRecycling = w.manualEntityRecycling ∧
    (∃ qid, mapGet (registerQueryIfNew g w qd).queryMap qd = some qid) ∧
    (∀ gen e, readMask (registerQueryIfNew g w qd).entityMasks gen e =
      readMask w.entityMasks gen e) ∧
    (∀ c r, mapGet w.componentMap c = some r →
      regBits (registerQueryIfNew g w qd).componentMap c = regBits w.componentMap c) := by
  unfold registerQueryIfNew
  cases hm : mapGet w.queryMap qd with
  | none =>
    simp only [Option.isNone_none, if_true]
    obtain ⟨a1, a2, _, _, a5, a6, a7, a8, _, _⟩ := registerQuery_spec h g hcur qd
    exact ⟨a1, a2, a5, ⟨_, a6⟩, a7, a8⟩
  | some qid =>
    have hw : (if (some qid : Option Nat).isNone = true then registerQuery g w qd else w) = w := by
      simp
    rw [hw]
    exact ⟨h, rfl, rfl, ⟨qid, hm⟩, fun _ _ => rfl, fun _ _ _ => rfl⟩

/-- Replacing one of the two logs of a query by a well-formed set keeps the
invariant. -/
theorem WInv.set_logs {w : World} (h : WInv w) (qid : Nat) (q : Query)
    (hq : w.queries[qid]? = some q) (entered exited : SparseSet) (h1 : entered.WF)
    (h2 : exited.WF) :
    WInv { w with
      queries := w.queries.set qid { q with entered := entered, exited := exited } } := by
  have hfr : QFrame w { w with
      queries := w.queries.set qid { q with entered := entered, exited := exited } } :=
    ⟨rfl, rfl, rfl, rfl, rfl, rfl, rfl, rfl, rfl, by simp⟩
  have hlt : qid < w.queries.length := by
    by_contra hc
    rw [List.getElem?_eq_none_iff.mpr (Nat.le_of_not_lt hc)] at hq
    exact Option.noConfusion hq
  have hback : ∀ (i : Nat) (q' : Query),
      (w.queries.set qid { q with entered := entered, exited := exited })[i]? = some q' →
      ∃ q0, w.queries[i]? = some q0 ∧ SameStatic q0 q' ∧ (q0.SetsWF → q'.SetsWF) ∧
        q'.live = q0.live ∧ q'.toRemove = q0.toRemove := by
    intro i q' hq'
    rw [List.getElem?_set] at hq'
    by_cases hi : qid = i
    · subst hi
      simp only [hlt, if_true, Option.some.injEq] at hq'
      subst hq'
      refine ⟨q, hq, ⟨rfl, rfl, rfl, rfl, rfl, rfl⟩, ?_, rfl, rfl⟩
      rintro ⟨b1, b2, _, _⟩
      exact ⟨b1, b2, h1, h2⟩
    · simp only [hi, if_false] at hq'
      exact ⟨q', hq', SameStatic.static_refl q', fun x => x, rfl, rfl⟩
  refine ⟨?_, ?_⟩
  · apply h.base.of_queries hfr
    · intro i q' hq'
      obtain ⟨q0, a1, a2, a3, _, _⟩ := hback i q' hq'
      exact ⟨q0, a1, a2, a3⟩
    · intro i q' hq' hne
      obtain ⟨q0, a1, _, _, _, a5⟩ := hback i q' hq'
      rw [a5] at hne
      exact h.base.dirty_ok i q0 a1 hne
  · intro i e q' hq' hne
    obtain ⟨q0, a1, a2, _, a4, a5⟩ := hback i q' hq'
    rw [a4, a5, queryCheckEntity_static a2 rfl]
    exact h.live_ok i e q0 a1 (by
      rw [← a2.components, ← a2.notComponents]; exact hne)

theorem query_world (g : Globals) (w : World) (qd : QueryDef) :
    (query g w qd).1 = commitRemovals (registerQueryIfNew g w qd) := by
  unfold query
  simp only
  split
  · rfl
  · split
    · rfl
    · split <;> rfl

/-- A read of the entered log leaves the world `registerQuery` leaves: it changes
nothing else, whether it returns or throws. -/
theorem enterQuery_world (g : Globals) (w : World) (qd : QueryDef) :
    (enterQuery g w qd).1 = registerQueryIfNew g w qd := by
  unfold enterQuery
  simp only
  split
  · rfl
  · split
    · rfl
    · split <;> rfl

/-- A read of the exited log leaves the world `registerQuery` leaves. -/
theorem exitQuery_world (g : Globals) (w : World) (qd : QueryDef) :
    (exitQuery g w qd).1 = registerQueryIfNew g w qd := by
  unfold exitQuery
  simp only
  split
  · rfl
  · split
    · rfl
    · split <;> rfl

theorem enterQuery_spec {w : World} (h : WInv w) (g : Globals)
    (hcur : ∀ e, w.entitySparseSet.has e = true → e < g.globalEntityCursor) (qd : QueryDef) :
    WInv (enterQuery g w qd).1 ∧
      (enterQuery g w qd).1.entitySparseSet = w.entitySparseSet := by
  obtain ⟨a1, a2, _⟩ := registerQueryIfNew_spec h g hcur qd
  rw [enterQuery_world]
  exact ⟨a1, a2⟩

theorem exitQuery_spec {w : World} (h : WInv w) (g : Globals)
    (hcur : ∀ e, w.entitySparseSet.has e = true → e < g.globalEntityCursor) (qd : QueryDef) :
    WInv (exitQuery g w qd).1 ∧
      (exitQuery g w qd).1.entitySparseSet = w.entitySparseSet := by
  obtain ⟨a1, a2, _⟩ := registerQueryIfNew_spec h g hcur qd
  rw [exitQuery_world]
  exact ⟨a1, a2⟩

/-! ## Every reachable state satisfies the invariant -/

theorem readMask_createWorld (size g e : Nat) :
    readMask (createWorld size).entityMasks g e = 0 := by
  have := readMask_append_zeros [] size g e
  simp only [List.nil_append] at this
  rw [show (createWorld size).entityMasks = [List.replicate size 0] from rfl, this]
  simp [readMask]

theorem inv_init (globalSize : Nat) (threshold : Double) (size : Nat) :
    Inv { g := initGlobals globalSize threshold, w := createWorld size } := by
  refine ⟨⟨⟨⟨⟨0, by omega, rfl⟩, ?_, ?_, ?_, ?_⟩, ?_, ?_, ?_, ?_, SparseSet.WF_empty, ?_, ?_, ?_, ?_⟩,
    ?_⟩, ?_, ?_, ?_⟩
  · simp [createWorld]
  · intro m hm
    simp [createWorld] at hm
    subst hm
    simp [createWorld]
  · intro c r hr
    simp [createWorld, mapGet] at hr
  · intro c c' r r' hr
    simp [createWorld, mapGet] at hr
  · intro i q hq
    simp [createWorld] at hq
  · intro i q hq
    simp [createWorld] at hq
  · intro i q hq
    simp [createWorld] at hq
  · intro qd qid hqd
    simp [createWorld, mapGet] at hqd
  · intro i q hq
    simp [createWorld] at hq
  · intro i q hq
    simp [createWorld] at hq
  · intro e _ g
    exact readMask_createWorld size g e
  · intro e he
    have : (createWorld size).entitySparseSet.has e = false := SparseSet.has_empty e
    rw [this] at he
    exact Bool.noConfusion he
  · intro i e q hq
    simp [createWorld] at hq
  · intro e he
    have : (createWorld size).entitySparseSet.has e = false := SparseSet.has_empty e
    rw [this] at he
    exact Bool.noConfusion he
  · simp [initGlobals]
  · intro e he
    simp [initGlobals] at he

theorem inv_step {s : State} (h : Inv s) (op : Op) (hop : op.Admitted s) : Inv (step s op) := by
  cases op with
  | addEntity => exact inv_addEntity h
  | removeEntity eid => exact inv_removeEntity h eid
  | addComponent c eid =>
    unfold step
    simp only
    cases hr : addComponent s.w c eid with
    | error e => exact h
    | ok w' =>
      obtain ⟨e, _, _, hcase⟩ := addComponent_ok hr
      have hex : w'.entitySparseSet = s.w.entitySparseSet := by
        rcases hcase with ⟨_, rfl⟩ | ⟨_, r, _, rfl⟩
        · exact registerIfNew_has _ _
        · simp only
          rw [foldl_reevaluate_eq, (foldl_updQ_frame _ _ _ _).entitySparseSet]
          exact registerIfNew_has _ _
      refine ⟨h.winv.addComponent hr, ?_, h.pool_nodup, ?_⟩
      · intro e' he'
        simp only [hex] at he'
        exact h.below_cursor e' he'
      · intro e' he'
        simp only [hex]
        exact h.pool_free e' he'
  | removeComponent c eid =>
    unfold step
    simp only
    cases hr : removeComponent s.w c eid with
    | error e => exact h
    | ok w' =>
      obtain ⟨e, _, _, hcase⟩ := removeComponent_ok hr
      have hex : w'.entitySparseSet = s.w.entitySparseSet := by
        rcases hcase with ⟨_, rfl⟩ | ⟨_, r, _, rfl⟩
        · rfl
        · simp only
          rw [foldl_reevaluate_eq, (foldl_updQ_frame _ _ _ _).entitySparseSet]
      refine ⟨h.winv.removeComponent hr, ?_, h.pool_nodup, ?_⟩
      · intro e' he'
        simp only [hex] at he'
        exact h.below_cursor e' he'
      · intro e' he'
        simp only [hex]
        exact h.pool_free e' he'
  | registerComponent c =>
    have hc : mapGet s.w.componentMap c = none := hop
    have hex := (registerComponent_frame s.w c).2.2.1
    refine ⟨h.winv.inv_registerComponent c hc, ?_, h.pool_nodup, ?_⟩
    · intro e' he'
      have he'' : (registerComponent s.w c).entitySparseSet.has e' = true := he'
      rw [hex] at he''
      exact h.below_cursor e' he''
    · intro e' he'
      have := h.pool_free e' he'
      refine ⟨?_, this.2⟩
      show (registerComponent s.w c).entitySparseSet.has e' = false
      rw [hex]
      exact this.1
  | query qd =>
    obtain ⟨a1, a2, _⟩ := registerQueryIfNew_spec h.winv s.g h.below_cursor qd
    have hw : (step s (Op.query qd)).w = commitRemovals (registerQueryIfNew s.g s.w qd) :=
      query_world s.g s.w qd
    have hex : (step s (Op.query qd)).w.entitySparseSet = s.w.entitySparseSet := by
      rw [hw, (commitRemovals_frame _).entitySparseSet, a2]
    refine ⟨?_, ?_, h.pool_nodup, ?_⟩
    · rw [hw]; exact a1.commitRemovals
    · intro e' he'
      rw [hex] at he'
      exact h.below_cursor e' he'
    · intro e' he'
      rw [hex]
      exact h.pool_free e' he'
  | enterQuery qd =>
    obtain ⟨a1, a2⟩ := enterQuery_spec h.winv s.g h.below_cursor qd
    refine ⟨a1, ?_, h.pool_nodup, ?_⟩
    · intro e' he'
      have he'' : (enterQuery s.g s.w qd).1.entitySparseSet.has e' = true := he'
      rw [a2] at he''
      exact h.below_cursor e' he''
    · intro e' he'
      have := h.pool_free e' he'
      refine ⟨?_, this.2⟩
      show (enterQuery s.g s.w qd).1.entitySparseSet.has e' = false
      rw [a2]
      exact this.1
  | exitQuery qd =>
    obtain ⟨a1, a2⟩ := exitQuery_spec h.winv s.g h.below_cursor qd
    refine ⟨a1, ?_, h.pool_nodup, ?_⟩
    · intro e' he'
      have he'' : (exitQuery s.g s.w qd).1.entitySparseSet.has e' = true := he'
      rw [a2] at he''
      exact h.below_cursor e' he''
    · intro e' he'
      have := h.pool_free e' he'
      refine ⟨?_, this.2⟩
      show (exitQuery s.g s.w qd).1.entitySparseSet.has e' = false
      rw [a2]
      exact this.1
  | enableManualEntityRecycling =>
    refine ⟨⟨⟨⟨h.winv.base.reg.bitflag_pow, h.winv.base.reg.masks_ne, h.winv.base.reg.masks_len,
      h.winv.base.reg.rec_ok, h.winv.base.reg.rec_inj⟩, h.winv.base.q_sem, h.winv.base.q_sub, h.winv.base.q_not,
      h.winv.base.q_map, h.winv.base.exists_wf, h.winv.base.sets_wf, h.winv.base.dirty_ok,
      h.winv.base.masks_zero, h.winv.base.held_ok⟩, h.winv.live_ok⟩,
      h.below_cursor, h.pool_nodup, h.pool_free⟩
  | flushRemovedEntities =>
    unfold step
    simp only
    unfold flushRemovedEntities
    split
    · rename_i s1 heq
      split at heq
      · exact Except.noConfusion heq
      · have := (Except.ok.inj heq).symm
        subst this
        refine ⟨h.winv, h.below_cursor, ?_, ?_⟩
        · simp only [List.append_nil]; exact h.pool_nodup
        · intro e he
          simp only [List.append_nil] at he
          exact h.pool_free e he
    · exact h
  | setRemovedRecycleThreshold t =>
    exact ⟨h.winv, h.below_cursor, h.pool_nodup, h.pool_free⟩

theorem Reachable.inv {s : State} (h : Reachable s) : Inv s := by
  induction h with
  | init globalSize threshold size => exact inv_init globalSize threshold size
  | step op _ hop ih => exact inv_step ih op hop

/-! ## Reachability of concrete states -/

theorem Op.admitted_iff (s : State) (op : Op) : op.admitted s = true → op.Admitted s := by
  intro h
  cases op with
  | registerComponent c =>
    have h' : (mapGet s.w.componentMap c).isNone = true := h
    show mapGet s.w.componentMap c = none
    exact Option.isNone_iff_eq_none.mp h'
  | _ => trivial

theorem reachable_run {s : State} (h : Reachable s) (ops : List Op)
    (hadm : admittedRun s ops = true) : Reachable (run s ops) := by
  induction ops generalizing s with
  | nil => exact h
  | cons op rest ih =>
    unfold admittedRun at hadm
    rw [Bool.and_eq_true] at hadm
    exact ih (Reachable.step op h (Op.admitted_iff s op hadm.1)) hadm.2

theorem reachable_newState (globalSize size : Nat) : Reachable (newState globalSize size) :=
  Reachable.init globalSize defaultRemovedReuseThreshold size

/-! ## The claims -/

/-- The result of a read, for a reachable state and a query mapped in it. -/
theorem query_result {s : State} (hs : Reachable s) (qd : QueryDef) :
    ∃ qid q, mapGet (query s.g s.w qd).1.queryMap qd = some qid ∧
      (query s.g s.w qd).1.queries[qid]? = some q ∧
      q.components = requiredOf qd ∧ q.notComponents = forbiddenOf qd ∧
      q.changedComponents = changedOf qd ∧ q.toRemove.dense = [] ∧
      (changedOf qd = [] → (query s.g s.w qd).2 = some q.live.dense) := by
  have hinv := hs.inv
  obtain ⟨a1, _, _, ⟨qid, hqid⟩, _, _⟩ :=
    registerQueryIfNew_spec hinv.winv s.g hinv.below_cursor qd
  have hw := query_world s.g s.w qd
  have hfr := commitRemovals_frame (registerQueryIfNew s.g s.w qd)
  have hqm : mapGet (commitRemovals (registerQueryIfNew s.g s.w qd)).queryMap qd = some qid := by
    rw [hfr.queryMap]; exact hqid
  obtain ⟨q, hq, b1, b2, b3⟩ := a1.commitRemovals.base.q_map qd qid hqm
  obtain ⟨q0, _, hcm⟩ := commitRemovals_get_back a1.base qid q hq
  refine ⟨qid, q, by rw [hw]; exact hqm, by rw [hw]; exact hq, b1, b2, b3, hcm.pending, ?_⟩
  intro hch
  unfold query
  simp only
  rw [hqm]
  simp only
  rw [hq]
  simp only
  rw [b3, hch]
  simp

/-- C1: in every state reached from a new world by `addEntity`, `removeEntity`,
`addComponent`, `removeComponent`, first registrations and reads, a read of a query
without `Changed` components that lists some required or forbidden component
returns, each once, exactly the entities that exist in the world, have every
required component and have no forbidden component. -/
theorem query_agrees_with_rescan (s : State) (hs : Reachable s) (qd : QueryDef)
    (hch : changedOf qd = []) (hne : requiredOf qd ++ forbiddenOf qd ≠ []) :
    ∃ l, (query s.g s.w qd).2 = some l ∧ l.Nodup ∧
      ∀ e, e ∈ l ↔
        (entityExists (query s.g s.w qd).1 e = true ∧
          (∀ c ∈ requiredOf qd, hasComponent (query s.g s.w qd).1 c e = true) ∧
          (∀ c ∈ forbiddenOf qd, hasComponent (query s.g s.w qd).1 c e = false)) := by
  obtain ⟨qid, q, _, hq, b1, b2, _, hnil, hres⟩ := query_result hs qd
  have hinv : Inv (step s (Op.query qd)) := inv_step hs.inv (Op.query qd) trivial
  have hwinv : WInv (query s.g s.w qd).1 := hinv.winv
  obtain ⟨hwf, _, _, _⟩ := hwinv.base.sets_wf qid q hq
  refine ⟨q.live.dense, hres hch, hwf.nodup, ?_⟩
  intro e
  rw [← hwf.has_iff_mem]
  have hlive := hwinv.live_ok qid e q hq (by rw [b1, b2]; exact hne)
  rw [SparseSet.has_of_dense_nil hnil e] at hlive
  simp only [and_true] at hlive
  rw [hlive, queryCheckEntity_eq, hwinv.base.q_sem qid q hq, b1, b2]
  rfl

/-- C2: in a reachable world `queryCheckEntity` accepts an entity for a compiled
query exactly when `hasComponent` holds for every required component of the query
and fails for every forbidden one, whatever the generations of the components
are. -/
theorem queryCheckEntity_iff_hasComponent (s : State) (hs : Reachable s) (qid : Nat) (q : Query)
    (hq : s.w.queries[qid]? = some q) (eid : Nat) :
    queryCheckEntity s.w q eid = true ↔
      ((∀ c ∈ q.components, hasComponent s.w c eid = true) ∧
        (∀ c ∈ q.notComponents, hasComponent s.w c eid = false)) := by
  rw [queryCheckEntity_eq, hs.inv.winv.base.q_sem qid q hq]
  rfl

/-! ## The world after a mutation -/

theorem readMask_of_not_inbounds (em : List (List Nat)) (g e : Nat)
    (h : ¬ (g < em.length ∧ e < (em.getD g []).length)) : readMask em g e = 0 := by
  unfold readMask
  by_cases hg : g < em.length
  · have he : ¬ e < (em.getD g []).length := fun he => h ⟨hg, he⟩
    rw [List.getD_eq_getElem?_getD (em.getD g []), List.getElem?_eq_none_iff.mpr (Nat.le_of_not_lt he)]
    rfl
  · rw [List.getD_eq_getElem?_getD em, List.getElem?_eq_none_iff.mpr (Nat.le_of_not_lt hg)]
    rfl

theorem writeMask_of_not_inbounds (em : List (List Nat)) (g e v : Nat)
    (h : ¬ (g < em.length ∧ e < (em.getD g []).length)) : writeMask em g e v = em := by
  unfold writeMask
  by_cases hg : g < em.length
  · have he : ¬ e < (em.getD g []).length := fun he => h ⟨hg, he⟩
    rw [List.set_eq_of_length_le (Nat.le_of_not_lt he)]
    apply set_eq_self_of_getElem?
    rw [List.getD_eq_getElem?_getD, List.getElem?_eq_getElem hg]
    rfl
  · exact List.set_eq_of_length_le (Nat.le_of_not_lt hg)

/-- The fields of the world after the common tail of `addComponent` and
`removeComponent`. -/
theorem mutated_fields (w : World) (r : Registration) (e v : Nat)
    (f : List Component → List Component) :
    (mutated w r e v f).entityMasks = writeMask w.entityMasks r.generationId e v ∧
    (mutated w r e v f).componentMap = w.componentMap ∧
    (mutated w r e v f).entitySparseSet = w.entitySparseSet ∧
    (mutated w r e v f).queryMap = w.queryMap ∧
    (mutated w r e v f).dirtyQueries = (r.queries.foldl
      (updQ (reevalQ (writeMask w.entityMasks r.generationId e v) e)
        (reevalDirty (writeMask w.entityMasks r.generationId e v) e))
      { w with entityMasks := writeMask w.entityMasks r.generationId e v }).dirtyQueries ∧
    (∀ i, (mutated w r e v f).queries[i]? = (w.queries[i]?).map
      ((reevalQ (writeMask w.entityMasks r.generationId e v) e)^[r.queries.count i])) := by
  have hfr := foldl_updQ_frame
    (reevalQ (writeMask w.entityMasks r.generationId e v) e)
    (reevalDirty (writeMask w.entityMasks r.generationId e v) e) r.queries
    { w with entityMasks := writeMask w.entityMasks r.generationId e v }
  have heq := foldl_reevaluate_eq e r.queries
    { w with entityMasks := writeMask w.entityMasks r.generationId e v }
  refine ⟨?_, ?_, ?_, ?_, ?_, ?_⟩
  · show (r.queries.foldl (reevaluate e) _).entityMasks = _
    rw [heq]; exact hfr.entityMasks
  · show (r.queries.foldl (reevaluate e) _).componentMap = _
    rw [heq]; exact hfr.componentMap
  · show (r.queries.foldl (reevaluate e) _).entitySparseSet = _
    rw [heq]; exact hfr.entitySparseSet
  · show (r.queries.foldl (reevaluate e) _).queryMap = _
    rw [heq]; exact hfr.queryMap
  · show (r.queries.foldl (reevaluate e) _).dirtyQueries = _
    rw [heq]
  · intro i
    show (r.queries.foldl (reevaluate e) _).queries[i]? = _
    rw [heq, foldl_updQ_get]

/-- `removeComponent` of a component the entity has. -/
theorem removeComponent_held {w : World} {c : Component} {e : Nat} {r : Registration}
    (hex : w.entitySparseSet.has e = true) (hhc : hasComponent w c e = true)
    (hr : mapGet w.componentMap c = some r) :
    removeComponent w c (some e) = .ok (mutated w r e
      (readMask w.entityMasks r.generationId e &&& ((2 ^ 32 - 1) ^^^ r.bitflag))
      (fun held => setDelete held c)) := by
  unfold removeComponent
  simp only [hex, hhc, hr, Bool.not_true, Bool.false_eq_true, if_false]
  rfl

/-- `removeComponent` of a component the entity does not have. -/
theorem removeComponent_absent {w : World} {c : Component} {e : Nat}
    (hex : w.entitySparseSet.has e = true) (hhc : hasComponent w c e = false) :
    removeComponent w c (some e) = .ok w := by
  unfold removeComponent
  simp [hex, hhc]

/-- `addComponent` of a component the entity has. -/
theorem addComponent_held {w : World} {c : Component} {e : Nat}
    (hex : w.entitySparseSet.has e = true)
    (hhc : hasComponent (registerIfNew w c) c e = true) :
    addComponent w c (some e) = .ok (registerIfNew w c) := by
  unfold addComponent
  simp [hex, hhc]

/-- `addComponent` of a component the entity does not have. -/
theorem addComponent_new {w : World} {c : Component} {e : Nat} {r : Registration}
    (hex : w.entitySparseSet.has e = true)
    (hhc : hasComponent (registerIfNew w c) c e = false)
    (hr : mapGet (registerIfNew w c).componentMap c = some r) :
    addComponent w c (some e) = .ok (mutated (registerIfNew w c) r e
      (readMask (registerIfNew w c).entityMasks r.generationId e ||| r.bitflag)
      (fun held => setAdd held c)) := by
  unfold addComponent
  simp only [hex, hhc, hr, Bool.not_true, Bool.false_eq_true, if_false]
  rfl

theorem registerIfNew_of_registered {w : World} {c : Component} {r : Registration}
    (hr : mapGet w.componentMap c = some r) : registerIfNew w c = w := by
  unfold registerIfNew
  simp [hr]

/-- A word that had the bit of a component was inside its generation array. -/
theorem inbounds_of_hasBit {em : List (List Nat)} {g e j : Nat}
    (h : (readMask em g e).testBit j = true) : g < em.length ∧ e < (em.getD g []).length := by
  by_contra hc
  rw [readMask_of_not_inbounds em g e hc] at h
  simp at h

/-! ## C4 and C3 -/

/-- In a reachable world `removeComponent` on an existing entity returns, and the
entity does not have the component in the world it returns. -/
theorem removeComponent_clears (s : State) (hs : Reachable s) (c : Component)
    (e : Nat) (hex : entityExists s.w e = true) :
    ∃ w', removeComponent s.w c (some e) = .ok w' ∧ hasComponent w' c e = false := by
  have hex' : s.w.entitySparseSet.has e = true := hex
  by_cases hhc : hasComponent s.w c e = true
  swap
  · refine ⟨s.w, ?_, by simpa using hhc⟩
    unfold removeComponent
    simp [hex', hhc]
  · have hreg : ∃ r, mapGet s.w.componentMap c = some r := by
      unfold hasComponent at hhc
      cases hm : mapGet s.w.componentMap c with
      | none => rw [hm] at hhc; simp at hhc
      | some r => exact ⟨r, rfl⟩
    obtain ⟨r, hr⟩ := hreg
    obtain ⟨_, _, j, hj, hb, _⟩ := hs.inv.winv.base.reg.rec_ok c r hr
    refine ⟨_, removeComponent_held hex' hhc hr, ?_⟩
    obtain ⟨f1, f2, _⟩ := mutated_fields s.w r e
      (readMask s.w.entityMasks r.generationId e &&& ((2 ^ 32 - 1) ^^^ r.bitflag))
      (fun held => setDelete held c)
    rw [hasComponent_eq, f1, f2, hasBitAt_of_pow hr hb]
    rw [hasComponent_eq, hasBitAt_of_pow hr hb] at hhc
    have hin := inbounds_of_hasBit hhc
    rw [readMask_writeMask]
    simp only [hin, and_self, if_true]
    rw [hb, testBit_clearBit _ _ _ (by omega) (by omega)]
    simp


/-- C4: in a reachable world, for every component, registered or not, and every
entity of the world, `removeComponent` returns and `hasComponent` is false in
the world it leaves. -/
theorem hasComponent_false_after_removeComponent (s : State) (hs : Reachable s) (c : Component)
    (e : Nat) (hex : entityExists s.w e = true) :
    ∃ w', removeComponent s.w c (some e) = .ok w' ∧ hasComponent w' c e = false :=
  removeComponent_clears s hs c e hex

/-! ## Idempotence of the callback -/

theorem jsGet_getElem? {a : List (Option Nat)} {i v : Nat} (h : jsGet a i = some v) :
    a[i]? = some (some v) := by
  unfold jsGet at h
  rw [List.getD_eq_getElem?_getD] at h
  cases ha : a[i]? with
  | none => rw [ha] at h; simp at h
  | some x => rw [ha] at h; simp at h; rw [h]

theorem jsSet_of_jsGet {a : List (Option Nat)} {i v : Nat} (h : jsGet a i = some v) :
    jsSet a i v = a := by
  have h1 := jsGet_getElem? h
  have hlt : i < a.length := by
    by_contra hc
    rw [List.getElem?_eq_none_iff.mpr (Nat.le_of_not_lt hc)] at h1
    exact Option.noConfusion h1
  unfold jsSet
  simp only [hlt, if_true]
  exact set_eq_self_of_getElem? _ _ _ h1

theorem jsSet_jsSet (a : List (Option Nat)) (i v : Nat) : jsSet (jsSet a i v) i v = jsSet a i v := by
  apply jsSet_of_jsGet
  rw [jsGet_jsSet]
  simp

/-- Removing the value just added and adding it again gives the same arrays. -/
theorem SparseSet.add_remove_add {s : SparseSet} {e : Nat} (h : s.has e = false) :
    ((s.add e).remove e).add e = s.add e := by
  have hadd : s.add e = { dense := s.dense ++ [e], sparse := jsSet s.sparse e s.dense.length } := by
    simp [SparseSet.add, h]
  have hhas : (s.add e).has e = true := SparseSet.has_add_self s e
  have hidx : jsGet (s.add e).sparse e = some s.dense.length := by
    rw [hadd]; simp [jsGet_jsSet]
  have hd : (s.add e).dense = s.dense ++ [e] := by rw [hadd]
  have hrem := SparseSet.remove_eq hhas hd hidx
  simp only [Nat.lt_irrefl, if_false] at hrem
  rw [hrem]
  rw [hadd]
  have hnot : SparseSet.has
      { dense := s.dense, sparse := jsSet s.sparse e s.dense.length } e = false := by
    unfold SparseSet.has
    simp [jsGet_jsSet]
  have hadd2 : SparseSet.add { dense := s.dense, sparse := jsSet s.sparse e s.dense.length } e =
      { dense := s.dense ++ [e],
        sparse := jsSet (jsSet s.sparse e s.dense.length) e s.dense.length } := by
    simp [SparseSet.add, hnot]
  rw [hadd2, jsSet_jsSet]

theorem removeQ_idem (e : Nat) (q : Query) : removeQ e (removeQ e q) = removeQ e q := by
  unfold removeQ
  by_cases h1 : q.live.has e = true
  · by_cases h2 : q.toRemove.has e = true
    · simp [h1, h2]
    · simp [h1, h2, SparseSet.has_add_self]
  · simp [h1]

theorem reevalQ_of_check {em : List (List Nat)} {e : Nat} {q : Query}
    (hc : checkMasks em q.generations q.masks q.notMasks e = true) :
    reevalQ em e q = queryAddEntity
      { q with toRemove := q.toRemove.remove e, exited := q.exited.remove e } e := by
  unfold reevalQ; simp [hc]

theorem reevalQ_of_not_check {em : List (List Nat)} {e : Nat} {q : Query}
    (hc : checkMasks em q.generations q.masks q.notMasks e = false) :
    reevalQ em e q = removeQ e
      { q with toRemove := q.toRemove.remove e, entered := q.entered.remove e } := by
  unfold reevalQ; simp [hc]

theorem reevalQ_idem (em : List (List Nat)) (e : Nat) (q : Query) (hwf : q.SetsWF) :
    reevalQ em e (reevalQ em e q) = reevalQ em e q := by
  obtain ⟨h1, h2, h3, h4⟩ := hwf
  have hstat := reevalQ_static_check em e q
  cases hc : checkMasks em q.generations q.masks q.notMasks e with
  | true =>
    rw [hc] at hstat
    rw [reevalQ_of_check hstat, reevalQ_of_check hc]
    unfold queryAddEntity
    simp only
    have t1 : ((q.toRemove.remove e).remove e).has e = false :=
      (h2.remove e).has_remove_self e
    have t2 : (q.exited.remove e).has e = false := h4.has_remove_self e
    rw [SparseSet.remove_of_not_has t1, SparseSet.remove_of_not_has t1,
      SparseSet.remove_of_not_has t2,
      SparseSet.add_of_has (SparseSet.has_add_self q.entered e),
      SparseSet.add_of_has (SparseSet.has_add_self q.live e)]
  | false =>
    rw [hc] at hstat
    rw [reevalQ_of_not_check hstat, reevalQ_of_not_check hc]
    have t1 : (q.toRemove.remove e).has e = false := h2.has_remove_self e
    have t3 : (q.entered.remove e).has e = false := h3.has_remove_self e
    unfold removeQ
    simp only [t1, Bool.or_false, Bool.not_eq_true']
    cases hl : q.live.has e with
    | false =>
      simp only [if_true]
      rw [SparseSet.remove_of_not_has t1, SparseSet.remove_of_not_has t3]
      simp [t1, hl]
    | true =>
      simp only [Bool.true_eq_false, if_false]
      have t4 : (((q.toRemove.remove e).add e).remove e).has e = false :=
        ((h2.remove e).add e).has_remove_self e
      rw [SparseSet.remove_of_not_has t3]
      simp only [hl, t4, Bool.not_true, Bool.or_false, Bool.false_eq_true, if_false]
      rw [SparseSet.add_remove_add t1,
        SparseSet.add_of_has (SparseSet.has_add_self q.exited e)]

/-- After the callback, a second run of it marks the query dirty only when a
removal is pending. -/
theorem reevalDirty_after (em : List (List Nat)) (e : Nat) (q : Query) (hwf : q.SetsWF)
    (h : reevalDirty em e (reevalQ em e q) = true) : (reevalQ em e q).toRemove.dense ≠ [] := by
  unfold reevalDirty removeDirty at h
  rw [reevalQ_static_check] at h
  simp only [Bool.and_eq_true, Bool.not_eq_true', Bool.or_eq_false_iff] at h
  obtain ⟨hc, hl, _⟩ := h
  have hpost := (reevalQ_post em e q hwf).not
  rw [hc] at hpost
  simp only [Bool.false_eq_true, not_false_eq_true, iff_true, not_and, Bool.not_eq_false] at hpost
  have hl' : (reevalQ em e q).live.has e = true := by simpa using hl
  have ht := hpost hl'
  intro hnil
  rw [SparseSet.has_of_dense_nil hnil e] at ht
  exact Bool.noConfusion ht

theorem foldl_fixed {α β : Type} (f : β → α → β) (b : β) (l : List α)
    (h : ∀ a ∈ l, f b a = b) : l.foldl f b = b := by
  induction l with
  | nil => rfl
  | cons a rest ih =>
    rw [List.foldl_cons, h a (List.mem_cons_self a rest)]
    exact ih (fun x hx => h x (List.mem_cons_of_mem a hx))

theorem updateHeld_idem (ec : List (Nat × List Component)) (e : Nat)
    (f : List Component → List Component) (hf : ∀ x, f (f x) = f x) :
    updateHeld (updateHeld ec e f) e f = updateHeld ec e f := by
  unfold updateHeld
  cases h : mapGet ec e with
  | none => simp [h]
  | some held =>
    simp only [mapGet_mapSet_self, hf]
    induction ec with
    | nil => simp [mapGet] at h
    | cons p rest ih =>
      obtain ⟨k, v⟩ := p
      by_cases hk : k = e
      · simp [mapSet, hk]
      · simp only [mapGet, hk, if_false] at h
        simp only [mapSet, hk, if_false]
        rw [ih h]

/-! ## The query of a subscribed component after a mutation -/

theorem WInv.mutated {w : World} (h : WInv w) {c : Component} {r : Registration} {e v : Nat}
    (hr : mapGet w.componentMap c = some r) (hex : w.entitySparseSet.has e = true)
    (hv : ∀ j', j' ≤ 30 → r.bitflag ≠ 2 ^ j' →
      (v % 2 ^ 32).testBit j' = (readMask w.entityMasks r.generationId e).testBit j')
    (f : List Component → List Component) : WInv (ECS.mutated w r e v f) := by
  refine h.mutate hr hex hv (fun w3 : World => updateHeld w3.entityComponents e f) ?_
  intro w3 hw3 e' he'
  simp only
  apply held_update_isSome
  rw [hw3]
  exact h.base.held_ok e' he'

/-- After a mutation the object of a subscribed query is the image under the
callback of an object that is a step away from the old one. -/
theorem mutated_query {w : World} {qid : Nat} {q : Query} (hq : w.queries[qid]? = some q)
    {r : Registration} (hmem : qid ∈ r.queries) (e v : Nat)
    (f : List Component → List Component) :
    ∃ qm, QStep e q qm ∧ (mutated w r e v f).queries[qid]? =
      some (reevalQ (writeMask w.entityMasks r.generationId e v) e qm) := by
  obtain ⟨_, _, _, _, _, hget⟩ := mutated_fields w r e v f
  have hpos : 0 < List.count qid r.queries := List.count_pos_iff.mpr hmem
  refine ⟨(reevalQ (writeMask w.entityMasks r.generationId e v) e)^[r.queries.count qid - 1] q,
    QStep.iterate (QStep_reevalQ _ e) _ q, ?_⟩
  rw [hget qid, hq, Option.map_some', iterate_pos_eq hpos]

theorem dense_ne_nil_of_has {s : SparseSet} {e : Nat} (h : s.has e = true) : s.dense ≠ [] := by
  intro hnil
  rw [SparseSet.has_of_dense_nil hnil e] at h
  exact Bool.noConfusion h

/-- A mutation after which a member of the live set fails the check. -/
theorem mutated_fail {w : World} (h : WInv w) {r : Registration} {e v : Nat}
    {f : List Component → List Component} (h' : WInv (mutated w r e v f)) {qid : Nat}
    {q : Query} (hq : w.queries[qid]? = some q) (hlive : q.live.has e = true)
    (hmem : qid ∈ r.queries)
    (hfail : checkMasks (writeMask w.entityMasks r.generationId e v)
      q.generations q.masks q.notMasks e = false) :
    ∃ q', (mutated w r e v f).queries[qid]? = some q' ∧ q'.live.has e = true ∧
      q'.toRemove.has e = true ∧ q'.exited.has e = true ∧
      qid ∈ (mutated w r e v f).dirtyQueries ∧
      ∃ q'', (commitRemovals (mutated w r e v f)).queries[qid]? = some q'' ∧
        q''.live.has e = false := by
  obtain ⟨qm, hstep, hq'⟩ := mutated_query hq hmem e v f
  have hwf := h.base.sets_wf qid q hq
  have hfail' : checkMasks (writeMask w.entityMasks r.generationId e v)
      qm.generations qm.masks qm.notMasks e = false := by
    rw [hstep.static.generations, hstep.static.masks, hstep.static.notMasks]; exact hfail
  obtain ⟨a1, a2, a3, _⟩ := reevalQ_fail _ e qm (hstep.wf hwf) hfail' (hstep.live_mono hwf e hlive)
  refine ⟨_, hq', a1, a2, a3, h'.base.dirty_ok qid _ hq' (dense_ne_nil_of_has a2), ?_⟩
  obtain ⟨q'', b1, b2, _⟩ := commitRemovals_get h'.base qid _ hq'
  refine ⟨q'', b1, ?_⟩
  rw [b2.live e, a1, a2]
  rfl

/-- A mutation after which an entity passes the check. -/
theorem mutated_match {w : World} (h : WInv w) {r : Registration} {e v : Nat}
    {f : List Component → List Component} (h' : WInv (mutated w r e v f)) {qid : Nat}
    {q : Query} (hq : w.queries[qid]? = some q) (hmem : qid ∈ r.queries)
    (hpass : checkMasks (writeMask w.entityMasks r.generationId e v)
      q.generations q.masks q.notMasks e = true) :
    ∃ q', (mutated w r e v f).queries[qid]? = some q' ∧ SameStatic q q' ∧
      q'.live.has e = true ∧ q'.entered.has e = true ∧ q'.toRemove.has e = false ∧
      q'.exited.has e = false ∧
      ∃ q'', (commitRemovals (mutated w r e v f)).queries[qid]? = some q'' ∧
        q''.live.has e = true := by
  obtain ⟨qm, hstep, hq'⟩ := mutated_query hq hmem e v f
  have hwf := h.base.sets_wf qid q hq
  have hpass' : checkMasks (writeMask w.entityMasks r.generationId e v)
      qm.generations qm.masks qm.notMasks e = true := by
    rw [hstep.static.generations, hstep.static.masks, hstep.static.notMasks]; exact hpass
  obtain ⟨a1, a2, a3, a4⟩ := reevalQ_match _ e qm (hstep.wf hwf) hpass'
  refine ⟨_, hq', hstep.static.static_trans (QStep_reevalQ _ e qm).static, a1, a2, a3, a4, ?_⟩
  obtain ⟨q'', b1, b2, _⟩ := commitRemovals_get h'.base qid _ hq'
  refine ⟨q'', b1, ?_⟩
  rw [b2.live e, a1, a3]
  rfl

/-! ## C7 -/

/-- C7: in a reachable world, when `removeComponent` of a required component the
entity has, or `addComponent` of a forbidden component the entity has not, leaves
an entity of the live set of a query failing the check of the query, then on
return the entity is still in the live set, it is in the pending removals and in
the exited log of the query, the query is in the dirty set, and after
`commitRemovals` the entity is not in the live set. -/
theorem two_phase_removal (s : State) (hs : Reachable s) (qid : Nat) (q : Query)
    (hq : s.w.queries[qid]? = some q) (c : Component) (e : Nat) (hlive : q.live.has e = true)
    (w' : World)
    (hmut : (c ∈ q.components ∧ hasComponent s.w c e = true ∧
        removeComponent s.w c (some e) = .ok w') ∨
      (c ∈ q.notComponents ∧ hasComponent s.w c e = false ∧
        addComponent s.w c (some e) = .ok w'))
    (hfail : queryCheckEntity w' q e = false) :
    ∃ q', w'.queries[qid]? = some q' ∧ q'.live.has e = true ∧ q'.toRemove.has e = true ∧
      q'.exited.has e = true ∧ qid ∈ w'.dirtyQueries ∧
      ∃ q'', (commitRemovals w').queries[qid]? = some q'' ∧ q''.live.has e = false := by
  have hw := hs.inv.winv
  rcases hmut with ⟨hc, hhc, hok⟩ | ⟨hc, hhc, hok⟩
  · obtain ⟨r, hr, hmem⟩ := hw.base.q_sub qid q hq c (List.mem_append_left _ hc)
    obtain ⟨e0, he0, hex, _⟩ := removeComponent_ok hok
    have := Option.some.inj he0
    subst this
    have heq := removeComponent_held hex hhc hr
    rw [hok] at heq
    have hw' := Except.ok.inj heq
    subst hw'
    refine mutated_fail hw (hw.removeComponent hok) hq hlive hmem ?_
    rw [queryCheckEntity_eq, (mutated_fields _ _ _ _ _).1] at hfail
    exact hfail
  · obtain ⟨r, hr, hmem⟩ := hw.base.q_sub qid q hq c (List.mem_append_right _ hc)
    obtain ⟨e0, he0, hex, _⟩ := addComponent_ok hok
    have := Option.some.inj he0
    subst this
    have hreg := registerIfNew_of_registered hr
    have heq := @addComponent_new s.w c _ r hex (by rw [hreg]; exact hhc)
      (by rw [hreg]; exact hr)
    rw [hok, hreg] at heq
    have hw' := Except.ok.inj heq
    subst hw'
    refine mutated_fail hw (hw.addComponent hok) hq hlive hmem ?_
    rw [queryCheckEntity_eq, (mutated_fields _ _ _ _ _).1] at hfail
    exact hfail

/-! ## C5 -/

theorem setAdd_idem (c : Component) (x : List Component) :
    setAdd (setAdd x c) c = setAdd x c := setAdd_setAdd x c

theorem world_eta_masks (w : World) (em : List (List Nat)) (h : em = w.entityMasks) :
    { w with entityMasks := em } = w := by
  subst h
  rfl

/-- The callback changes nothing in a world where the query object is already an
image of the callback. -/
theorem reevaluate_fixed {w1 : World} (h1 : WInv w1) (e qid : Nat)
    (hq : ∀ q1 : Query, w1.queries[qid]? = some q1 →
      ∃ qm : Query, qm.SetsWF ∧ q1 = reevalQ w1.entityMasks e qm) :
    reevaluate e w1 qid = w1 := by
  rw [reevaluate_eq]
  unfold updQ
  cases hq1 : w1.queries[qid]? with
  | none => rfl
  | some q1 =>
    simp only
    obtain ⟨qm, hwfm, hq1eq⟩ := hq q1 hq1
    apply world_eta_queries
    · rw [hq1eq, reevalQ_idem _ e qm hwfm, ← hq1eq]
      exact set_eq_self_of_getElem? _ _ _ hq1
    · split
      · rename_i hd
        apply setAdd_of_mem
        apply h1.base.dirty_ok qid q1 hq1
        rw [hq1eq] at hd ⊢
        exact reevalDirty_after _ e qm hwfm hd
      · rfl

/-- The callback run again on the world a mutation left changes nothing. -/
theorem reevaluate_mutated {w : World} (h : WInv w) {r : Registration} {e v : Nat}
    {f : List Component → List Component} (h' : WInv (mutated w r e v f)) (qid : Nat)
    (hmem : qid ∈ r.queries) :
    reevaluate e (mutated w r e v f) qid = mutated w r e v f := by
  apply reevaluate_fixed h'
  intro q1 hq1
  obtain ⟨hem, _, _, _, _, hget⟩ := mutated_fields w r e v f
  have hq1' := hq1
  rw [hget qid] at hq1'
  cases hq : w.queries[qid]? with
  | none => rw [hq] at hq1'; simp at hq1'
  | some q =>
    obtain ⟨qm, hstep, hq2⟩ := mutated_query hq hmem e v f
    rw [hq1] at hq2
    refine ⟨qm, hstep.wf (h.base.sets_wf qid q hq), ?_⟩
    rw [hem]
    exact Option.some.inj hq2

/-- C5: in a reachable world and for an entity of the world, `addComponent` returns
a world on which a second `addComponent` of the same component returns that same
world (the same generation arrays, held components and sets of every query), and
`removeComponent` of a component the entity has not returns the world unchanged. -/
theorem addComponent_removeComponent_idempotent (s : State) (hs : Reachable s) (c : Component)
    (e : Nat) (hex : entityExists s.w e = true) :
    (∃ w1, addComponent s.w c (some e) = .ok w1 ∧ addComponent w1 c (some e) = .ok w1) ∧
      (hasComponent s.w c e = false → removeComponent s.w c (some e) = .ok s.w) := by
  have hex' : s.w.entitySparseSet.has e = true := hex
  refine ⟨?_, fun h => removeComponent_absent hex' h⟩
  have hw0 := hs.inv.winv.registerIfNew c
  obtain ⟨r, hr⟩ := registerIfNew_isSome s.w c
  have hex0 : (registerIfNew s.w c).entitySparseSet.has e = true := by
    rw [registerIfNew_has]; exact hex'
  have hreg0 : registerIfNew (registerIfNew s.w c) c = registerIfNew s.w c :=
    registerIfNew_of_registered hr
  cases hhc : hasComponent (registerIfNew s.w c) c e with
  | true =>
    refine ⟨_, addComponent_held hex' hhc, ?_⟩
    have := @addComponent_held (registerIfNew s.w c) c e hex0 (by rw [hreg0]; exact hhc)
    rw [hreg0] at this
    exact this
  | false =>
    have hok := addComponent_new hex' hhc hr
    refine ⟨_, hok, ?_⟩
    have hw1 := hs.inv.winv.addComponent hok
    obtain ⟨f1, f2, f3, _, _, _⟩ := mutated_fields (registerIfNew s.w c) r e
      (readMask (registerIfNew s.w c).entityMasks r.generationId e ||| r.bitflag)
      (fun held => setAdd held c)
    generalize hw1def : mutated (registerIfNew s.w c) r e
      (readMask (registerIfNew s.w c).entityMasks r.generationId e ||| r.bitflag)
      (fun held => setAdd held c) = w1 at *
    have hr1 : mapGet w1.componentMap c = some r := by rw [f2]; exact hr
    have hreg1 : registerIfNew w1 c = w1 := registerIfNew_of_registered hr1
    have hex1 : w1.entitySparseSet.has e = true := by rw [f3]; exact hex0
    cases hhc1 : hasComponent w1 c e with
    | true =>
      have := @addComponent_held w1 c e hex1 (by rw [hreg1]; exact hhc1)
      rw [hreg1] at this
      exact this
    | false =>
      have hnew := @addComponent_new w1 c e r hex1 (by rw [hreg1]; exact hhc1)
        (by rw [hreg1]; exact hr1)
      rw [hreg1] at hnew
      rw [hnew]
      congr 1
      obtain ⟨_, _, j, hj, hb, _⟩ := hw0.base.reg.rec_ok c r hr
      have hnotin : ¬ (r.generationId < (registerIfNew s.w c).entityMasks.length ∧
          e < ((registerIfNew s.w c).entityMasks.getD r.generationId []).length) := by
        intro hin
        rw [hasComponent_eq, f1, f2, hasBitAt_of_pow hr hb, readMask_writeMask] at hhc1
        simp only [hin, and_self, if_true] at hhc1
        rw [hb, testBit_setBit _ _ _ (by omega)] at hhc1
        simp at hhc1
      have hem1 : w1.entityMasks = (registerIfNew s.w c).entityMasks := by
        rw [f1]; exact writeMask_of_not_inbounds _ _ _ _ hnotin
      have hwrite : writeMask w1.entityMasks r.generationId e
          (readMask w1.entityMasks r.generationId e ||| r.bitflag) = w1.entityMasks := by
        rw [hem1]; exact writeMask_of_not_inbounds _ _ _ _ hnotin
      have hfix : ∀ qid ∈ r.queries, reevaluate e w1 qid = w1 := by
        intro qid hmem
        rw [← hw1def]
        exact reevaluate_mutated hw0 (by rw [hw1def]; exact hw1) qid hmem
      unfold mutated
      rw [hwrite, world_eta_masks w1 _ rfl, foldl_fixed _ _ _ hfix]
      have hec : updateHeld w1.entityComponents e (fun held => setAdd held c) =
          w1.entityComponents := by
        rw [← hw1def]
        unfold mutated
        simp only
        exact updateHeld_idem _ _ _ (setAdd_idem c)
      rw [hec]

/-! ## C10 -/

theorem writeMask_inbounds {em : List (List Nat)} {g e : Nat} (v : Nat)
    (h : g < em.length ∧ e < (em.getD g []).length) :
    g < (writeMask em g e v).length ∧ e < ((writeMask em g e v).getD g []).length := by
  refine ⟨by rw [writeMask_length]; exact h.1, ?_⟩
  unfold writeMask
  rw [List.getD_eq_getElem?_getD (em.set g _), List.getElem?_set]
  simp only [h.1, if_true, Option.getD_some, List.length_set]
  exact h.2

theorem RegInv.reg_set_masks {w : World} (h : RegInv w) (em' : List (List Nat))
    (hlen : em'.length = w.entityMasks.length) (hrows : ∀ m ∈ em', m.length = w.size) :
    RegInv { w with entityMasks := em' } := by
  refine ⟨h.bitflag_pow, ?_, hrows, ?_, h.rec_inj⟩
  · intro hnil
    have hnil' : em' = [] := hnil
    have : em'.length = 0 := by simp [hnil']
    rw [hlen] at this
    exact h.masks_ne (List.length_eq_zero.mp this)
  · intro c r hr
    have := h.rec_ok c r hr
    simp only [hlen]
    exact this

/-- Clearing the bit of a component and setting it again leaves `hasComponent` as
it was for every component, when the entity had the component. -/
theorem hasBitAt_clear_set {w : World} (h : RegInv w) {c : Component} {r : Registration}
    (hr : mapGet w.componentMap c = some r) (e : Nat)
    (hhc : hasBitAt w.entityMasks w.componentMap c e = true) (c' : Component) :
    hasBitAt
      (writeMask
        (writeMask w.entityMasks r.generationId e
          (readMask w.entityMasks r.generationId e &&& ((2 ^ 32 - 1) ^^^ r.bitflag)))
        r.generationId e
        (readMask
          (writeMask w.entityMasks r.generationId e
            (readMask w.entityMasks r.generationId e &&& ((2 ^ 32 - 1) ^^^ r.bitflag)))
          r.generationId e ||| r.bitflag))
      w.componentMap c' e = hasBitAt w.entityMasks w.componentMap c' e := by
  obtain ⟨_, _, j, hj, hb, _⟩ := h.rec_ok c r hr
  have h1 := h.reg_set_masks
    (writeMask w.entityMasks r.generationId e
      (readMask w.entityMasks r.generationId e &&& ((2 ^ 32 - 1) ^^^ r.bitflag)))
    (writeMask_length _ _ _ _) (writeMask_row_length _ _ _ _ _ h.masks_len)
  by_cases hcc : c' = c
  · subst hcc
    rw [hhc, hasBitAt_of_pow hr hb]
    rw [hasBitAt_of_pow hr hb] at hhc
    have hin := writeMask_inbounds
      (readMask w.entityMasks r.generationId e &&& ((2 ^ 32 - 1) ^^^ r.bitflag))
      (inbounds_of_hasBit hhc)
    rw [readMask_writeMask]
    simp only [hin, and_self, if_true]
    rw [hb, testBit_setBit _ _ _ (by omega)]
    simp
  · have s2 := @hasBitAt_write_other _ h1 c c' r hr e
      (readMask
          (writeMask w.entityMasks r.generationId e
            (readMask w.entityMasks r.generationId e &&& ((2 ^ 32 - 1) ^^^ r.bitflag)))
          r.generationId e ||| r.bitflag)
      (set_hv _ j _ hb) hcc e
    have s1 := @hasBitAt_write_other _ h c c' r hr e
      (readMask w.entityMasks r.generationId e &&& ((2 ^ 32 - 1) ^^^ r.bitflag))
      (clear_hv _ j _ hj hb) hcc e
    exact s2.trans s1

/-- C10, amended: in a reachable world, for a query that requires a component and
an entity of the world that passes the check of the query, `removeComponent`
followed by `addComponent` of that component, with no read in between, leaves the
entity in the live set and in the entered log of the query, out of its pending
removals and out of its exited log; the entity is in the live set in between,
and `commitRemovals` then leaves it in the live set. -/
theorem readd_cancels_pending_removal (s : State) (hs : Reachable s) (qid : Nat) (q : Query)
    (hq : s.w.queries[qid]? = some q) (c : Component) (hc : c ∈ q.components) (e : Nat)
    (hex : entityExists s.w e = true) (hpass : queryCheckEntity s.w q e = true) :
    q.live.has e = true ∧
    ∃ w1 w2, removeComponent s.w c (some e) = .ok w1 ∧ addComponent w1 c (some e) = .ok w2 ∧
      (∃ q1, w1.queries[qid]? = some q1 ∧ q1.live.has e = true) ∧
      ∃ q2, w2.queries[qid]? = some q2 ∧ q2.live.has e = true ∧ q2.entered.has e = true ∧
        q2.toRemove.has e = false ∧ q2.exited.has e = false ∧
        ∃ q3, (commitRemovals w2).queries[qid]? = some q3 ∧ q3.live.has e = true := by
  have hw := hs.inv.winv
  have hex' : s.w.entitySparseSet.has e = true := hex
  obtain ⟨r, hr, hmem⟩ := hw.base.q_sub qid q hq c (List.mem_append_left _ hc)
  obtain ⟨_, _, j, hj, hb, _⟩ := hw.base.reg.rec_ok c r hr
  have hsem := hw.base.q_sem qid q hq
  have hpass' := hpass
  rw [queryCheckEntity_eq, hsem] at hpass'
  have hhc : hasComponent s.w c e = true := hpass'.1 c hc
  have hne : q.components ++ q.notComponents ≠ [] := by
    intro hnil
    have := List.mem_append_left q.notComponents hc
    rw [hnil] at this
    simp at this
  have hlive : q.live.has e = true := ((hw.live_ok qid e q hq hne).mpr ⟨hex', hpass⟩).1
  refine ⟨hlive, ?_⟩
  -- the removal
  have hok1 := removeComponent_held hex' hhc hr
  have hw1 := hw.removeComponent hok1
  obtain ⟨f1, f2, f3, _, _, _⟩ := mutated_fields s.w r e
    (readMask s.w.entityMasks r.generationId e &&& ((2 ^ 32 - 1) ^^^ r.bitflag))
    (fun held => setDelete held c)
  obtain ⟨qm1, hstep1, hq1⟩ := mutated_query hq hmem e
    (readMask s.w.entityMasks r.generationId e &&& ((2 ^ 32 - 1) ^^^ r.bitflag))
    (fun held => setDelete held c)
  have hwfq := hw.base.sets_wf qid q hq
  have hstep1' := hstep1.step_trans (QStep_reevalQ
    (writeMask s.w.entityMasks r.generationId e
      (readMask s.w.entityMasks r.generationId e &&& ((2 ^ 32 - 1) ^^^ r.bitflag))) e qm1)
  obtain ⟨w1h, hnot1⟩ := removeComponent_clears s hs c e hex
  rw [hok1] at hnot1
  obtain ⟨hw1eq, hnot1⟩ := hnot1
  have hw1eq := (Except.ok.inj hw1eq).symm
  subst hw1eq
  generalize hw1def : mutated s.w r e
    (readMask s.w.entityMasks r.generationId e &&& ((2 ^ 32 - 1) ^^^ r.bitflag))
    (fun held => setDelete held c) = w1 at *
  generalize hq1def : reevalQ (writeMask s.w.entityMasks r.generationId e
      (readMask s.w.entityMasks r.generationId e &&& ((2 ^ 32 - 1) ^^^ r.bitflag))) e qm1
    = q1 at *
  have hr1 : mapGet w1.componentMap c = some r := by rw [f2]; exact hr
  have hreg1 : registerIfNew w1 c = w1 := registerIfNew_of_registered hr1
  have hex1 : w1.entitySparseSet.has e = true := by rw [f3]; exact hex'
  -- the addition
  have hok2 := @addComponent_new w1 c e r hex1 (by rw [hreg1]; exact hnot1)
    (by rw [hreg1]; exact hr1)
  rw [hreg1] at hok2
  have hw2 := hw1.addComponent hok2
  have hpass2 : checkMasks
      (writeMask w1.entityMasks r.generationId e
        (readMask w1.entityMasks r.generationId e ||| r.bitflag))
      q1.generations q1.masks q1.notMasks e = true := by
    rw [hstep1'.static.generations, hstep1'.static.masks, hstep1'.static.notMasks, hsem, f1]
    refine ⟨fun c' hc' => ?_, fun c' hc' => ?_⟩
    · rw [hasBitAt_clear_set hw.base.reg hr e hhc c']
      exact hpass'.1 c' hc'
    · rw [hasBitAt_clear_set hw.base.reg hr e hhc c']
      exact hpass'.2 c' hc'
  obtain ⟨q2, hq2, _, b1, b2, b3, b4, b5⟩ := mutated_match hw1 hw2 hq1 hmem hpass2
  exact ⟨w1, _, hok1, hok2, ⟨q1, hq1, hstep1'.live_mono hwfq e hlive⟩, q2, hq2, b1, b2, b3, b4, b5⟩

/-! ## C6 -/

theorem foldl_registerComponent_not_mem (cs : List Component) (w : World) (c : Component)
    (h : c ∉ cs) :
    mapGet (cs.foldl registerComponent w).componentMap c = mapGet w.componentMap c := by
  induction cs generalizing w with
  | nil => rfl
  | cons a rest ih =>
    rw [List.foldl_cons, ih _ (fun hm => h (List.mem_cons_of_mem a hm))]
    apply registerComponent_mapGet_ne
    intro e
    exact h (by rw [e]; exact List.mem_cons_self a rest)

/-- After `k` registrations the cursor is `2 ^ (k mod 31)` and there are
`k / 31 + 1` generation arrays; the next components receive the following slots. -/
theorem foldl_registerComponent_slots (cs : List Component) (w : World) (k : Nat)
    (hb : w.bitflag = 2 ^ (k % 31)) (hl : w.entityMasks.length = k / 31 + 1) (hnd : cs.Nodup)
    (i : Nat) (c : Component) (hc : cs[i]? = some c) :
    mapGet (cs.foldl registerComponent w).componentMap c = some
      { generationId := (k + i) / 31, bitflag := 2 ^ ((k + i) % 31), store := c, queries := [] } := by
  induction cs generalizing w k i with
  | nil => simp at hc
  | cons a rest ih =>
    rw [List.foldl_cons]
    rw [List.nodup_cons] at hnd
    cases i with
    | zero =>
      simp only [List.getElem?_cons_zero, Option.some.injEq] at hc
      subst hc
      rw [foldl_registerComponent_not_mem _ _ _ hnd.1, registerComponent_mapGet_self, hb, hl]
      simp
    | succ i =>
      simp only [List.getElem?_cons_succ] at hc
      have hk30 : k % 31 ≤ 30 := by omega
      have hwrap : w.bitflag * 2 ≥ 2 ^ 31 ↔ k % 31 = 30 := by
        rw [hb]; exact two_pow_lt_two_pow_31 hk30
      have hb' : (registerComponent w a).bitflag = 2 ^ ((k + 1) % 31) := by
        rw [registerComponent_bitflag]
        by_cases hw : w.bitflag * 2 ≥ 2 ^ 31
        · have h30 := hwrap.mp hw
          have : (k + 1) % 31 = 0 := by omega
          rw [if_pos hw, this]; rfl
        · have h30 : k % 31 ≠ 30 := fun e => hw (hwrap.mpr e)
          have : (k + 1) % 31 = k % 31 + 1 := by omega
          rw [if_neg hw, this, hb, Nat.pow_succ]
      have hl' : (registerComponent w a).entityMasks.length = (k + 1) / 31 + 1 := by
        rw [registerComponent_masks]
        by_cases hw : w.bitflag * 2 ≥ 2 ^ 31
        · have h30 := hwrap.mp hw
          rw [if_pos hw, List.length_append, hl]
          simp only [List.length_singleton]
          omega
        · have h30 : k % 31 ≠ 30 := fun e => hw (hwrap.mpr e)
          rw [if_neg hw, hl]
          omega
      have := ih (registerComponent w a) (k + 1) hb' hl' hnd.2 i hc
      rw [this]
      have e1 : k + 1 + i = k + (i + 1) := by omega
      rw [e1]

/-- C6: when distinct components are registered one after another in a new world,
the `n`-th of them (`n ≥ 1`) receives generation `(n - 1) / 31` and bitflag
`2 ^ ((n - 1) mod 31)`. -/
theorem registration_generation_and_bitflag (size : Nat) (cs : List Component) (hnd : cs.Nodup)
    (n : Nat) (_hn : 1 ≤ n) (c : Component) (hc : cs[n - 1]? = some c) :
    mapGet (registerComponents (createWorld size) cs).componentMap c = some
      { generationId := (n - 1) / 31, bitflag := 2 ^ ((n - 1) % 31), store := c, queries := [] } := by
  have := foldl_registerComponent_slots cs (createWorld size) 0 rfl rfl hnd (n - 1) c hc
  simp only [Nat.zero_add] at this
  exact this

/-! ## The claims on concrete worlds -/

set_option maxRecDepth 100000

theorem reachable_stateAB : Reachable stateAB :=
  reachable_run (reachable_newState 10 4) _ (by decide)

theorem reachable_stateFull : Reachable stateFull :=
  reachable_run (reachable_newState 10 2) _ (by decide)

theorem reachable_stateNotA : Reachable stateNotA :=
  reachable_run (reachable_newState 10 2) _ (by decide)

theorem reachable_stateGenerations : Reachable stateGenerations :=
  reachable_run (reachable_newState 10 4) _ (by decide)

/-- Witness of C1: in `stateAB` the read of the query over `[A, B]` returns the one
entity that has both components. -/
theorem query_agrees_with_rescan_witness :
    (changedOf queryAB = [] ∧ requiredOf queryAB ++ forbiddenOf queryAB ≠ [] ∧
      (query stateAB.g stateAB.w queryAB).2 = some [0]) ∧
    ∃ l, (query stateAB.g stateAB.w queryAB).2 = some l ∧ l.Nodup ∧
      ∀ e, e ∈ l ↔
        (entityExists (query stateAB.g stateAB.w queryAB).1 e = true ∧
          (∀ c ∈ requiredOf queryAB, hasComponent (query stateAB.g stateAB.w queryAB).1 c e = true) ∧
          (∀ c ∈ forbiddenOf queryAB,
            hasComponent (query stateAB.g stateAB.w queryAB).1 c e = false)) :=
  ⟨by decide,
    query_agrees_with_rescan stateAB reachable_stateAB queryAB (by decide) (by decide)⟩

/-- Witness of C2: with one component registered first and one registered 32nd, an
entity that has both passes the check of the query that requires both. -/
theorem queryCheckEntity_iff_hasComponent_witness :
    (stateGenerations.w.queries[0]? = some (queryAt stateGenerations.w 0) ∧
      (queryAt stateGenerations.w 0).components = [0, 31] ∧
      (queryAt stateGenerations.w 0).generations = [0, 1] ∧
      queryCheckEntity stateGenerations.w (queryAt stateGenerations.w 0) 0 = true) ∧
    (queryCheckEntity stateGenerations.w (queryAt stateGenerations.w 0) 0 = true ↔
      ((∀ c ∈ (queryAt stateGenerations.w 0).components,
          hasComponent stateGenerations.w c 0 = true) ∧
        (∀ c ∈ (queryAt stateGenerations.w 0).notComponents,
          hasComponent stateGenerations.w c 0 = false))) :=
  ⟨by decide,
    queryCheckEntity_iff_hasComponent stateGenerations reachable_stateGenerations 0
      (queryAt stateGenerations.w 0) (by decide) 0⟩

/-- C3 on the code: in a world of size `2` the third `addEntity` returns `2`, the
entity exists, `addComponent` of a component returns, and `hasComponent` is false
in the world it returns: the word of entity `2` lies outside the generation
array. -/
theorem addComponent_at_capacity_not_held :
    (addEntity (run (newState 10 2) [.addEntity, .addEntity])).2 = .ok 2 ∧
    entityExists stateFull.w 2 = true ∧
    (∃ w', addComponent stateFull.w 0 (some 2) = .ok w' ∧ hasComponent w' 0 2 = false) ∧
    getEntityComponents (worldOf (addComponent stateFull.w 0 (some 2)) stateFull.w) (some 2) =
      .ok [0] :=
  ⟨by decide, by decide,
    ⟨worldOf (addComponent stateFull.w 0 (some 2)) stateFull.w, by decide, by decide⟩, by decide⟩

/-- Witness of C4: in `stateAB`, `removeComponent` of `A` from entity `0`. -/
theorem hasComponent_false_after_removeComponent_witness :
    (entityExists stateAB.w 0 = true ∧ hasComponent stateAB.w 0 0 = true) ∧
    ∃ w', removeComponent stateAB.w 0 (some 0) = .ok w' ∧ hasComponent w' 0 0 = false :=
  ⟨by decide, hasComponent_false_after_removeComponent stateAB reachable_stateAB 0 0 (by decide)⟩

/-- Witness of C5: in `stateAB`, `addComponent` of `B` to entity `1`, which has only
`A`, twice. -/
theorem addComponent_removeComponent_idempotent_witness :
    (entityExists stateAB.w 1 = true ∧ hasComponent stateAB.w 1 1 = false) ∧
    ((∃ w1, addComponent stateAB.w 1 (some 1) = .ok w1 ∧ addComponent w1 1 (some 1) = .ok w1) ∧
      (hasComponent stateAB.w 1 1 = false → removeComponent stateAB.w 1 (some 1) = .ok stateAB.w)) :=
  ⟨by decide, addComponent_removeComponent_idempotent stateAB reachable_stateAB 1 1 (by decide)⟩

/-- Witness of C6: the 32nd of 32 components registered in a new world lands in
generation `1` with bitflag `1`, the 31st in generation `0` with bitflag `2 ^ 30`. -/
theorem registration_generation_and_bitflag_witness :
    ((List.range 32).Nodup ∧ 1 ≤ 32 ∧ (List.range 32)[32 - 1]? = some 31) ∧
    mapGet (registerComponents (createWorld 4) (List.range 32)).componentMap 31 = some
      { generationId := (32 - 1) / 31, bitflag := 2 ^ ((32 - 1) % 31), store := 31, queries := [] } ∧
    mapGet (registerComponents (createWorld 4) (List.range 32)).componentMap 30 = some
      { generationId := 0, bitflag := 2 ^ 30, store := 30, queries := [] } ∧
    mapGet (registerComponents (createWorld 4) (List.range 32)).componentMap 31 = some
      { generationId := 1, bitflag := 1, store := 31, queries := [] } :=
  ⟨by decide,
    registration_generation_and_bitflag 4 (List.range 32) (by decide) 32 (by decide) 31
      (by decide),
    by decide, by decide⟩

/-- Witness of C7: in `stateAB` entity `0` is in the live set of the query over
`[A, B]`; `removeComponent` of `A` makes it fail the check. -/
theorem two_phase_removal_witness :
    (stateAB.w.queries[0]? = some (queryAt stateAB.w 0) ∧
      (queryAt stateAB.w 0).live.has 0 = true ∧ 0 ∈ (queryAt stateAB.w 0).components ∧
      hasComponent stateAB.w 0 0 = true ∧
      queryCheckEntity (worldOf (removeComponent stateAB.w 0 (some 0)) stateAB.w)
        (queryAt stateAB.w 0) 0 = false) ∧
    ∃ q', (worldOf (removeComponent stateAB.w 0 (some 0)) stateAB.w).queries[0]? = some q' ∧
      q'.live.has 0 = true ∧ q'.toRemove.has 0 = true ∧ q'.exited.has 0 = true ∧
      0 ∈ (worldOf (removeComponent stateAB.w 0 (some 0)) stateAB.w).dirtyQueries ∧
      ∃ q'', (commitRemovals
          (worldOf (removeComponent stateAB.w 0 (some 0)) stateAB.w)).queries[0]? = some q'' ∧
        q''.live.has 0 = false :=
  ⟨by decide,
    two_phase_removal stateAB reachable_stateAB 0 (queryAt stateAB.w 0) (by decide) 0 0
      (by decide) (worldOf (removeComponent stateAB.w 0 (some 0)) stateAB.w)
      (Or.inl ⟨by decide, by decide, by decide⟩) (by decide)⟩

/-- C8 on the code: entity `0` is in the live set of the query over `[A, B]`.  After
`removeComponent` of `A` the exited log holds the entity once.  `exitQuery` then
raises at the call of `reset`: it returns nothing and the log keeps the entity.
The entity does not pass the check again; after `removeComponent` of `B`, with no
read of the query in between, the log still holds the entity once, and
`exitQuery` raises a second time and leaves the log as it is. -/
theorem exit_read_raises_and_keeps_log :
    ((worldOf (removeComponent stateAB.w 0 (some 0)) stateAB.w).queries[0]?).map
        (fun q => q.exited.dense) = some [0] ∧
    (exitQuery stateAB.g (worldOf (removeComponent stateAB.w 0 (some 0)) stateAB.w) queryAB).2
      = .error .resetIsNotAFunction ∧
    (let w1 := (exitQuery stateAB.g
        (worldOf (removeComponent stateAB.w 0 (some 0)) stateAB.w) queryAB).1
     (w1.queries[0]?).map (fun q => q.exited.dense) = some [0] ∧
     (w1.queries[0]?).map (fun q => queryCheckEntity w1 q 0) = some false ∧
     (∃ w2, removeComponent w1 1 (some 0) = .ok w2 ∧
       (w2.queries[0]?).map (fun q => (q.exited.dense, queryCheckEntity w2 q 0))
         = some ([0], false) ∧
       (exitQuery stateAB.g w2 queryAB).2 = .error .resetIsNotAFunction ∧
       ((exitQuery stateAB.g w2 queryAB).1.queries[0]?).map (fun q => q.exited.dense)
         = some [0])) :=
  ⟨by decide, by decide, by decide, by decide,
    ⟨worldOf (removeComponent
        (exitQuery stateAB.g (worldOf (removeComponent stateAB.w 0 (some 0)) stateAB.w) queryAB).1
        1 (some 0)) stateAB.w, by decide, by decide, by decide, by decide⟩⟩

/-- C9 on the code: in a world of size `2` with the query over `[Not(A)]` compiled,
the third `addEntity` returns `2` and the entity is in the result at once; after
`addComponent` of `A` to it the next read still returns it, and `hasComponent`
is false for it. -/
theorem not_query_keeps_entity_at_capacity :
    (addEntity (run (newState 10 2) [.query queryNotA, .addEntity, .addEntity])).2 = .ok 2 ∧
    (query stateNotA.g stateNotA.w queryNotA).2 = some [0, 1, 2] ∧
    (let w1 := worldOf (addComponent stateNotA.w 0 (some 2)) stateNotA.w
     (∃ w', addComponent stateNotA.w 0 (some 2) = .ok w') ∧
     (query stateNotA.g w1 queryNotA).2 = some [0, 1, 2] ∧
     hasComponent w1 0 2 = false ∧
     (query stateNotA.g (worldOf (addComponent stateNotA.w 0 (some 1)) stateNotA.w) queryNotA).2
       = some [0, 2]) :=
  ⟨by decide, by decide,
    ⟨⟨worldOf (addComponent stateNotA.w 0 (some 2)) stateNotA.w, by decide⟩, by decide,
      by decide, by decide⟩⟩

/-- Counterexample to C10 as stated: after `removeComponent` of `B` entity `0` is
still in the live set of the query over `[A, B]`, which requires `A`; after
`removeComponent` and `addComponent` of `A` the entity is in the pending removals
and in the exited log of the query and not in its entered log, and
`commitRemovals` takes it out of the live set. -/
theorem readd_counterexample :
    (let w0 := worldOf (removeComponent stateAB.w 1 (some 0)) stateAB.w
     let w1 := worldOf (removeComponent w0 0 (some 0)) w0
     let w2 := worldOf (addComponent w1 0 (some 0)) w1
     (w0.queries[0]?).map (fun q => (q.components, q.live.has 0)) = some ([0, 1], true) ∧
     entityExists w0 0 = true ∧
     removeComponent w0 0 (some 0) = .ok w1 ∧ addComponent w1 0 (some 0) = .ok w2 ∧
     (w2.queries[0]?).map (fun q => (q.live.has 0, q.toRemove.has 0, q.exited.has 0,
        q.entered.has 0)) = some (true, true, true, false) ∧
     ((commitRemovals w2).queries[0]?).map (fun q => q.live.has 0) = some false) := by
  decide

/-- Witness of C10, amended: in `stateAB` entity `0` passes the check of the query
over `[A, B]`. -/
theorem readd_cancels_pending_removal_witness :
    (stateAB.w.queries[0]? = some (queryAt stateAB.w 0) ∧ 0 ∈ (queryAt stateAB.w 0).components ∧
      entityExists stateAB.w 0 = true ∧
      queryCheckEntity stateAB.w (queryAt stateAB.w 0) 0 = true) ∧
    ((queryAt stateAB.w 0).live.has 0 = true ∧
    ∃ w1 w2, removeComponent stateAB.w 0 (some 0) = .ok w1 ∧
      addComponent w1 0 (some 0) = .ok w2 ∧
      (∃ q1, w1.queries[0]? = some q1 ∧ q1.live.has 0 = true) ∧
      ∃ q2, w2.queries[0]? = some q2 ∧ q2.live.has 0 = true ∧ q2.entered.has 0 = true ∧
        q2.toRemove.has 0 = false ∧ q2.exited.has 0 = false ∧
        ∃ q3, (commitRemovals w2).queries[0]? = some q3 ∧ q3.live.has 0 = true) :=
  ⟨by decide,
    readd_cancels_pending_removal stateAB reachable_stateAB 0 (queryAt stateAB.w 0) (by decide) 0
      (by decide) 0 (by decide) (by decide)⟩

/-! ## Errors of `addEntity`, `addComponent` and `removeComponent` -/

/-- The two outcomes of `addEntity`: the capacity error when the chosen identifier
is above the size of the world, the identifier otherwise; the new entity then
exists and holds no component. -/
theorem addEntity_outcome (s : State) :
    ((addEntity s).2 = .error .maxEntitiesReached ↔
      (chooseEid s.g s.w.manualEntityRecycling).1 > s.w.size) ∧
    (∀ err, (addEntity s).2 = .error err → err = .maxEntitiesReached) ∧
    (¬ (chooseEid s.g s.w.manualEntityRecycling).1 > s.w.size →
      (addEntity s).2 = .ok (chooseEid s.g s.w.manualEntityRecycling).1 ∧
      entityExists (addEntity s).1.w (chooseEid s.g s.w.manualEntityRecycling).1 = true ∧
      getEntityComponents (addEntity s).1.w (some (chooseEid s.g s.w.manualEntityRecycling).1) =
        .ok []) := by
  by_cases h : (chooseEid s.g s.w.manualEntityRecycling).1 > s.w.size
  · rw [addEntity_error s h]
    refine ⟨⟨fun _ => h, fun _ => rfl⟩, ?_, fun h' => absurd h h'⟩
    intro err he
    exact (Except.error.inj he).symm
  · obtain ⟨hw, _, hr⟩ := addEntity_ok_world s h
    have hfr := foldl_updQ_frame
      (addQ s.w.entityMasks (chooseEid s.g s.w.manualEntityRecycling).1) (fun _ => false)
      s.w.notQueries
      { s.w with
        entitySparseSet := s.w.entitySparseSet.add (chooseEid s.g s.w.manualEntityRecycling).1
        entityComponents :=
          mapSet s.w.entityComponents (chooseEid s.g s.w.manualEntityRecycling).1 [] }
    have hex : entityExists (addEntity s).1.w (chooseEid s.g s.w.manualEntityRecycling).1 = true := by
      unfold entityExists
      rw [hw, hfr.entitySparseSet]
      simp [SparseSet.has_add]
    refine ⟨⟨fun he => ?_, fun h' => absurd h' h⟩, ?_, fun _ => ⟨hr, hex, ?_⟩⟩
    · rw [hr] at he; exact Except.noConfusion he
    · intro err he
      rw [hr] at he; exact Except.noConfusion he
    · have hex' : (addEntity s).1.w.entitySparseSet.has
          (chooseEid s.g s.w.manualEntityRecycling).1 = true := hex
      unfold getEntityComponents
      simp only [hex', Bool.not_true, Bool.false_eq_true, if_false]
      rw [hw, hfr.entityComponents]
      simp [mapGet_mapSet_self]

/-- C14: `addEntity` raises the capacity error exactly when the identifier it chose,
recycled or new, is above the size of the world, and raises no other error;
otherwise it returns that identifier, the entity exists and its set of held
components is empty. -/
theorem addEntity_raises_iff_above_size (s : State) :
    ((addEntity s).2 = .error .maxEntitiesReached ↔
      (chooseEid s.g s.w.manualEntityRecycling).1 > s.w.size) ∧
    (∀ err, (addEntity s).2 = .error err → err = .maxEntitiesReached) ∧
    (¬ (chooseEid s.g s.w.manualEntityRecycling).1 > s.w.size →
      (addEntity s).2 = .ok (chooseEid s.g s.w.manualEntityRecycling).1 ∧
      entityExists (addEntity s).1.w (chooseEid s.g s.w.manualEntityRecycling).1 = true ∧
      getEntityComponents (addEntity s).1.w (some (chooseEid s.g s.w.manualEntityRecycling).1) =
        .ok []) :=
  addEntity_outcome s

/-- When `addComponent` raises, the identifier is undefined or does not exist. -/
theorem addComponent_error_iff (w : World) (c : Component) (eid : Option Nat) :
    (∃ err, addComponent w c eid = .error err) ↔
      (eid = none ∨ ∃ e, eid = some e ∧ entityExists w e = false) := by
  constructor
  · rintro ⟨err, he⟩
    cases eid with
    | none => exact Or.inl rfl
    | some e =>
      refine Or.inr ⟨e, rfl, ?_⟩
      by_cases hex : w.entitySparseSet.has e = true
      · exfalso
        unfold addComponent at he
        simp only [hex, Bool.not_true, Bool.false_eq_true, if_false] at he
        split at he
        · exact Except.noConfusion he
        · split at he
          · exact Except.noConfusion he
          · exact Except.noConfusion he
      · simpa [entityExists] using hex
  · rintro (rfl | ⟨e, rfl, hex⟩)
    · exact ⟨.entityUndefined, rfl⟩
    · have hex' : w.entitySparseSet.has e = false := hex
      exact ⟨.entityDoesNotExist, by simp [addComponent, hex']⟩

/-- When `removeComponent` raises, the identifier is undefined or does not exist. -/
theorem removeComponent_error_iff (w : World) (c : Component) (eid : Option Nat) :
    (∃ err, removeComponent w c eid = .error err) ↔
      (eid = none ∨ ∃ e, eid = some e ∧ entityExists w e = false) := by
  constructor
  · rintro ⟨err, he⟩
    cases eid with
    | none => exact Or.inl rfl
    | some e =>
      refine Or.inr ⟨e, rfl, ?_⟩
      by_cases hex : w.entitySparseSet.has e = true
      · exfalso
        unfold removeComponent at he
        simp only [hex, Bool.not_true, Bool.false_eq_true, if_false] at he
        split at he
        · exact Except.noConfusion he
        · split at he
          · exact Except.noConfusion he
          · exact Except.noConfusion he
      · simpa [entityExists] using hex
  · rintro (rfl | ⟨e, rfl, hex⟩)
    · exact ⟨.entityUndefined, rfl⟩
    · have hex' : w.entitySparseSet.has e = false := hex
      exact ⟨.entityDoesNotExist, by simp [removeComponent, hex']⟩

/-- C16: in a reachable state `addComponent` and `removeComponent` raise exactly
when the identifier is undefined or is not in the existence set of the world,
the error says which of the two, and a call that raises leaves the state as it
was: no component is registered and no bit, query set or set of held components
changes.  An identifier that exists has a set of held components, so no other
statement of the two functions can fail. -/
theorem component_calls_raise_iff (s : State) (hs : Reachable s) (c : Component)
    (eid : Option Nat) :
    ((∃ err, addComponent s.w c eid = .error err) ↔
      (eid = none ∨ ∃ e, eid = some e ∧ entityExists s.w e = false)) ∧
    ((∃ err, removeComponent s.w c eid = .error err) ↔
      (eid = none ∨ ∃ e, eid = some e ∧ entityExists s.w e = false)) ∧
    (eid = none → addComponent s.w c eid = .error .entityUndefined ∧
      removeComponent s.w c eid = .error .entityUndefined) ∧
    (∀ e, eid = some e → entityExists s.w e = false →
      addComponent s.w c eid = .error .entityDoesNotExist ∧
      removeComponent s.w c eid = .error .entityDoesNotExist) ∧
    (∀ e, eid = some e → entityExists s.w e = true →
      (mapGet s.w.entityComponents e).isSome = true) ∧
    ((∃ err, addComponent s.w c eid = .error err) → step s (.addComponent c eid) = s) ∧
    ((∃ err, removeComponent s.w c eid = .error err) → step s (.removeComponent c eid) = s) := by
  refine ⟨addComponent_error_iff s.w c eid, removeComponent_error_iff s.w c eid, ?_, ?_, ?_, ?_, ?_⟩
  · rintro rfl
    exact ⟨rfl, rfl⟩
  · rintro e rfl hex
    have hex' : s.w.entitySparseSet.has e = false := hex
    constructor
    · simp [addComponent, hex']
    · simp [removeComponent, hex']
  · rintro e _ hex
    exact hs.inv.winv.base.held_ok e hex
  · rintro ⟨err, he⟩
    simp only [step, he]
  · rintro ⟨err, he⟩
    simp only [step, he]

/-! ## The keys of the map of held components -/

theorem keys_mapSet {α β : Type} [DecidableEq α] (m : List (α × β)) (a : α) (b : β)
    (h : (m.map Prod.fst).Nodup) : ((mapSet m a b).map Prod.fst).Nodup := by
  induction m with
  | nil => simp [mapSet]
  | cons p rest ih =>
    obtain ⟨k, v⟩ := p
    simp only [List.map_cons, List.nodup_cons] at h
    by_cases hk : k = a
    · simp only [mapSet, hk, if_true, List.map_cons, List.nodup_cons]
      rw [← hk]
      exact h
    · simp only [mapSet, hk, if_false, List.map_cons, List.nodup_cons]
      refine ⟨?_, ih h.2⟩
      intro hmem
      apply h.1
      clear ih h
      induction rest with
      | nil => simp [mapSet] at hmem; exact absurd hmem hk
      | cons p2 rest2 ih2 =>
        obtain ⟨k2, v2⟩ := p2
        by_cases hk2 : k2 = a
        · simp only [mapSet, hk2, if_true, List.map_cons] at hmem
          simpa [hk2] using hmem
        · simp only [mapSet, hk2, if_false, List.map_cons, List.mem_cons] at hmem
          rcases hmem with h1 | h1
          · simp [h1]
          · simp [ih2 h1]

theorem keys_mapDelete_sub {α β : Type} [DecidableEq α] (m : List (α × β)) (a x : α)
    (h : x ∈ (mapDelete m a).map Prod.fst) : x ∈ m.map Prod.fst := by
  induction m with
  | nil => simp [mapDelete] at h
  | cons p rest ih =>
    obtain ⟨k, v⟩ := p
    by_cases hk : k = a
    · simp only [mapDelete, hk, if_true] at h
      simp [h]
    · simp only [mapDelete, hk, if_false, List.map_cons, List.mem_cons] at h
      rcases h with h1 | h1
      · simp [h1]
      · simp [ih h1]

theorem keys_mapDelete {α β : Type} [DecidableEq α] (m : List (α × β)) (a : α)
    (h : (m.map Prod.fst).Nodup) : ((mapDelete m a).map Prod.fst).Nodup := by
  induction m with
  | nil => simp [mapDelete]
  | cons p rest ih =>
    obtain ⟨k, v⟩ := p
    simp only [List.map_cons, List.nodup_cons] at h
    by_cases hk : k = a
    · simp only [mapDelete, hk, if_true]
      exact h.2
    · simp only [mapDelete, hk, if_false, List.map_cons, List.nodup_cons]
      exact ⟨fun hmem => h.1 (keys_mapDelete_sub rest a k hmem), ih h.2⟩

theorem mapGet_eq_none_of_not_mem {α β : Type} [DecidableEq α] (m : List (α × β)) (a : α)
    (h : a ∉ m.map Prod.fst) : mapGet m a = none := by
  induction m with
  | nil => rfl
  | cons p rest ih =>
    obtain ⟨k, v⟩ := p
    simp only [List.map_cons, List.mem_cons, not_or] at h
    have hk : ¬ k = a := fun e => h.1 e.symm
    simp only [mapGet, hk, if_false]
    exact ih h.2

/-- A key deleted from a map without repeated keys is no longer found. -/
theorem mapGet_mapDelete_self {α β : Type} [DecidableEq α] (m : List (α × β)) (a : α)
    (h : (m.map Prod.fst).Nodup) : mapGet (mapDelete m a) a = none := by
  induction m with
  | nil => rfl
  | cons p rest ih =>
    obtain ⟨k, v⟩ := p
    simp only [List.map_cons, List.nodup_cons] at h
    by_cases hk : k = a
    · simp only [mapDelete, hk, if_true]
      rw [hk] at h
      exact mapGet_eq_none_of_not_mem rest a h.1
    · simp only [mapDelete, hk, if_false, mapGet]
      exact ih h.2

theorem keys_updateHeld (m : List (Nat × List Component)) (e : Nat)
    (f : List Component → List Component) (h : (m.map Prod.fst).Nodup) :
    ((updateHeld m e f).map Prod.fst).Nodup := by
  unfold updateHeld
  cases mapGet m e with
  | none => exact h
  | some held => exact keys_mapSet m e _ h

theorem registerQueryIfNew_held {w : World} (h : WInv w) (g : Globals)
    (hcur : ∀ e, w.entitySparseSet.has e = true → e < g.globalEntityCursor) (qd : QueryDef) :
    (registerQueryIfNew g w qd).entityComponents = w.entityComponents := by
  unfold registerQueryIfNew
  cases hm : mapGet w.queryMap qd with
  | none =>
    simp only [Option.isNone_none, if_true]
    exact (registerQuery_spec h g hcur qd).2.2.1
  | some qid => simp

/-- Every call keeps the keys of the map of held components distinct. -/
theorem heldKeys_step {s : State} (h : Inv s) (hk : (s.w.entityComponents.map Prod.fst).Nodup)
    (op : Op) : ((step s op).w.entityComponents.map Prod.fst).Nodup := by
  cases op with
  | addEntity =>
    show ((addEntity s).1.w.entityComponents.map Prod.fst).Nodup
    by_cases hc : (chooseEid s.g s.w.manualEntityRecycling).1 > s.w.size
    · rw [addEntity_error s hc]; exact hk
    · rw [(addEntity_ok_world s hc).1, (foldl_updQ_frame _ _ _ _).entityComponents]
      exact keys_mapSet _ _ _ hk
  | removeEntity eid =>
    show ((removeEntity s eid).w.entityComponents.map Prod.fst).Nodup
    by_cases hex : s.w.entitySparseSet.has eid = true
    · rw [removeEntity_exists s eid hex]
      exact keys_mapDelete _ _ hk
    · rw [removeEntity_absent s eid (by simpa using hex)]; exact hk
  | addComponent c eid =>
    unfold step
    simp only
    cases hr : addComponent s.w c eid with
    | error e => exact hk
    | ok w' =>
      obtain ⟨e, _, _, hcase⟩ := addComponent_ok hr
      rcases hcase with ⟨_, rfl⟩ | ⟨_, r, _, rfl⟩
      · show ((registerIfNew s.w c).entityComponents.map Prod.fst).Nodup
        rw [(registerIfNew_regExt s.w c).entityComponents]; exact hk
      · simp only
        apply keys_updateHeld
        rw [foldl_reevaluate_eq, (foldl_updQ_frame _ _ _ _).entityComponents]
        show ((registerIfNew s.w c).entityComponents.map Prod.fst).Nodup
        rw [(registerIfNew_regExt s.w c).entityComponents]; exact hk
  | removeComponent c eid =>
    unfold step
    simp only
    cases hr : removeComponent s.w c eid with
    | error e => exact hk
    | ok w' =>
      obtain ⟨e, _, _, hcase⟩ := removeComponent_ok hr
      rcases hcase with ⟨_, rfl⟩ | ⟨_, r, _, rfl⟩
      · exact hk
      · simp only
        apply keys_updateHeld
        rw [foldl_reevaluate_eq, (foldl_updQ_frame _ _ _ _).entityComponents]
        exact hk
  | registerComponent c =>
    show ((registerComponent s.w c).entityComponents.map Prod.fst).Nodup
    rw [(registerComponent_frame s.w c).2.1]; exact hk
  | query qd =>
    show ((query s.g s.w qd).1.entityComponents.map Prod.fst).Nodup
    rw [query_world, (commitRemovals_frame _).entityComponents,
      registerQueryIfNew_held h.winv s.g h.below_cursor qd]
    exact hk
  | enterQuery qd =>
    show ((enterQuery s.g s.w qd).1.entityComponents.map Prod.fst).Nodup
    rw [enterQuery_world, registerQueryIfNew_held h.winv s.g h.below_cursor qd]
    exact hk
  | exitQuery qd =>
    show ((exitQuery s.g s.w qd).1.entityComponents.map Prod.fst).Nodup
    rw [exitQuery_world, registerQueryIfNew_held h.winv s.g h.below_cursor qd]
    exact hk
  | enableManualEntityRecycling => exact hk
  | flushRemovedEntities =>
    unfold step
    simp only
    cases hr : flushRemovedEntities s with
    | error e => exact hk
    | ok s1 =>
      unfold flushRemovedEntities at hr
      split at hr
      · exact Except.noConfusion hr
      · cases hr; exact hk
  | setRemovedRecycleThreshold t => exact hk

/-- In a reachable state no entity has two entries in the map of held components. -/
theorem Reachable.heldKeys {s : State} (h : Reachable s) :
    (s.w.entityComponents.map Prod.fst).Nodup := by
  induction h with
  | init globalSize threshold size => simp [createWorld]
  | step op hs _ ih => exact heldKeys_step hs.inv ih op

/-! ## `removeEntity` -/

theorem removeQ_iterate_live (e : Nat) (q : Query) (n : Nat) :
    ((removeQ e)^[n] q).live = q.live := by
  induction n generalizing q with
  | zero => rfl
  | succ k ih =>
    rw [Function.iterate_succ_apply, ih]
    unfold removeQ
    split <;> rfl

/-- The query objects after `removeEntity` of an existing entity: the live set of
every query is as it was, a query that had the entity in its live set has it
pending and is in the dirty set, and `commitRemovals` takes it out. -/
theorem removeEntity_queries (s : State) (hs : Reachable s) (eid : Nat)
    (hex : entityExists s.w eid = true) (qid : Nat) (q : Query)
    (hq : s.w.queries[qid]? = some q) :
    ∃ q', (removeEntity s eid).w.queries[qid]? = some q' ∧ q'.live = q.live ∧
      (q.live.has eid = true →
        q'.toRemove.has eid = true ∧ qid ∈ (removeEntity s eid).w.dirtyQueries) ∧
      ∃ q'', (commitRemovals (removeEntity s eid).w).queries[qid]? = some q'' ∧
        q''.live.has eid = false := by
  have hinv : Inv (removeEntity s eid) := inv_removeEntity hs.inv eid
  have hlt : qid < s.w.queries.length := by
    by_contra hc
    rw [List.getElem?_eq_none_iff.mpr (Nat.le_of_not_lt hc)] at hq
    exact Option.noConfusion hq
  have hpos : 0 < (List.range s.w.queries.length).count qid :=
    List.count_pos_iff.mpr (List.mem_range.mpr hlt)
  have hq' : (removeEntity s eid).w.queries[qid]? =
      some ((removeQ eid)^[(List.range s.w.queries.length).count qid] q) := by
    rw [removeEntity_exists s eid hex]
    show ((List.range s.w.queries.length).foldl (updQ (removeQ eid) (removeDirty eid))
      s.w).queries[qid]? = _
    rw [foldl_updQ_get, hq]
    rfl
  have hlive := removeQ_iterate_live eid q ((List.range s.w.queries.length).count qid)
  have hpend := removeQ_iterate_post eid q hpos
  obtain ⟨q'', hq'', hcom, _⟩ := commitRemovals_get hinv.winv.base qid _ hq'
  refine ⟨_, hq', hlive, ?_, q'', hq'', ?_⟩
  · intro hl
    have hl' : ((removeQ eid)^[(List.range s.w.queries.length).count qid] q).live.has eid = true := by
      rw [hlive]; exact hl
    have ht := hpend hl'
    exact ⟨ht, hinv.winv.base.dirty_ok qid _ hq' (dense_ne_nil_of_has ht)⟩
  · rw [hcom.live eid]
    by_cases hl : ((removeQ eid)^[(List.range s.w.queries.length).count qid] q).live.has eid = true
    · simp [hpend hl]
    · simp [hl]

/-- C17, amended: in a reachable state `removeEntity` of an existing entity queues
the removal from every compiled query: when it returns the live set of the query
is as it was, a query that has the entity in its live set has it among its
pending removals and is in the dirty set, and after the next `commitRemovals` the
entity is not in the live set of the query. -/
theorem removeEntity_defers_query_removal (s : State) (hs : Reachable s) (eid : Nat)
    (hex : entityExists s.w eid = true) (qid : Nat) (q : Query)
    (hq : s.w.queries[qid]? = some q) :
    ∃ q', (removeEntity s eid).w.queries[qid]? = some q' ∧ q'.live = q.live ∧
      (q.live.has eid = true →
        q'.toRemove.has eid = true ∧ qid ∈ (removeEntity s eid).w.dirtyQueries) ∧
      ∃ q'', (commitRemovals (removeEntity s eid).w).queries[qid]? = some q'' ∧
        q''.live.has eid = false :=
  removeEntity_queries s hs eid hex qid q hq

/-- The state `removeEntity` leaves for an existing entity. -/
theorem removeEntity_post (s : State) (hs : Reachable s) (eid : Nat)
    (hex : entityExists s.w eid = true) :
    entityExists (removeEntity s eid).w eid = false ∧
    (∀ g, readMask (removeEntity s eid).w.entityMasks g eid = 0) ∧
    (∀ c, hasComponent (removeEntity s eid).w c eid = false) ∧
    mapGet (removeEntity s eid).w.entityComponents eid = none ∧
    (s.w.manualEntityRecycling = true →
      (removeEntity s eid).g.recycled = s.g.recycled ++ [eid] ∧
        (removeEntity s eid).g.removed = s.g.removed) ∧
    (s.w.manualEntityRecycling = false →
      (removeEntity s eid).g.removed = s.g.removed ++ [eid] ∧
        (removeEntity s eid).g.recycled = s.g.recycled) ∧
    ((removeEntity s eid).g.removed ++ (removeEntity s eid).g.recycled).count eid = 1 := by
  have hinv : Inv (removeEntity s eid) := inv_removeEntity hs.inv eid
  have hex' : s.w.entitySparseSet.has eid = true := hex
  have hfree : eid ∉ s.g.removed ++ s.g.recycled := by
    intro hmem
    have := (hs.inv.pool_free eid hmem).1
    rw [hex'] at this
    exact Bool.noConfusion this
  have hgone : entityExists (removeEntity s eid).w eid = false := by
    unfold entityExists
    rw [removeEntity_exists s eid hex']
    show (s.w.entitySparseSet.remove eid).has eid = false
    rw [hs.inv.winv.base.exists_wf.has_remove]
    simp
  have hzero : ∀ g, readMask (removeEntity s eid).w.entityMasks g eid = 0 :=
    hinv.winv.base.masks_zero eid hgone
  refine ⟨hgone, hzero, ?_, ?_, ?_, ?_, ?_⟩
  · intro c
    rw [hasComponent_eq]
    cases hr : mapGet (removeEntity s eid).w.componentMap c with
    | none => simp [hasBitAt, hr]
    | some r =>
      obtain ⟨_, _, j, _, hb, _⟩ := hinv.winv.base.reg.rec_ok c r hr
      rw [hasBitAt_of_pow hr hb, hzero]
      simp
  · rw [removeEntity_exists s eid hex']
    exact mapGet_mapDelete_self _ _ hs.heldKeys
  · intro hm
    rw [removeEntity_exists s eid hex']
    simp [hm]
  · intro hm
    rw [removeEntity_exists s eid hex']
    simp [hm]
  · rw [removeEntity_exists s eid hex']
    have h0 : (s.g.removed ++ s.g.recycled).count eid = 0 := List.count_eq_zero.mpr hfree
    rw [List.count_append] at h0
    cases hm : s.w.manualEntityRecycling with
    | true =>
      simp only [if_true, List.count_append, List.count_singleton_self]
      omega
    | false =>
      simp only [Bool.false_eq_true, if_false, List.count_append, List.count_singleton_self]
      omega

/-- C18: in a reachable state, after `removeEntity` of an existing entity the entity
does not exist, its mask word is `0` in every generation array, so that
`hasComponent` is false for every component, its entry in the map of held
components is deleted, and the identifier has been appended to the recycled pool
when the world uses manual recycling and to the removed pool otherwise, the other
pool being as it was; it occurs exactly once in the two pools. -/
theorem removeEntity_postcondition (s : State) (hs : Reachable s) (eid : Nat)
    (hex : entityExists s.w eid = true) :
    entityExists (removeEntity s eid).w eid = false ∧
    (∀ g, readMask (removeEntity s eid).w.entityMasks g eid = 0) ∧
    (∀ c, hasComponent (removeEntity s eid).w c eid = false) ∧
    mapGet (removeEntity s eid).w.entityComponents eid = none ∧
    (s.w.manualEntityRecycling = true →
      (removeEntity s eid).g.recycled = s.g.recycled ++ [eid] ∧
        (removeEntity s eid).g.removed = s.g.removed) ∧
    (s.w.manualEntityRecycling = false →
      (removeEntity s eid).g.removed = s.g.removed ++ [eid] ∧
        (removeEntity s eid).g.recycled = s.g.recycled) ∧
    ((removeEntity s eid).g.removed ++ (removeEntity s eid).g.recycled).count eid = 1 :=
  removeEntity_post s hs eid hex

/-- C19: `removeEntity` of an identifier that does not exist in the world returns
the state unchanged, pools, existence set, bitmasks, held components and
queries; in a reachable state a second `removeEntity` of the same identifier
changes nothing, and the identifier is in the two pools at most once. -/
theorem removeEntity_absent_is_noop (s : State) (hs : Reachable s) (eid : Nat) :
    (entityExists s.w eid = false → removeEntity s eid = s) ∧
    removeEntity (removeEntity s eid) eid = removeEntity s eid ∧
    ((removeEntity (removeEntity s eid) eid).g.removed ++
      (removeEntity (removeEntity s eid) eid).g.recycled).count eid ≤ 1 := by
  have hgone : (removeEntity s eid).w.entitySparseSet.has eid = false := by
    by_cases hex : s.w.entitySparseSet.has eid = true
    · exact (removeEntity_post s hs eid hex).1
    · have hex' : s.w.entitySparseSet.has eid = false := by simpa using hex
      rw [removeEntity_absent s eid hex']; exact hex'
  have htwice := removeEntity_absent (removeEntity s eid) eid hgone
  refine ⟨fun h => removeEntity_absent s eid h, htwice, ?_⟩
  rw [htwice]
  exact List.nodup_iff_count_le_one.mp (inv_removeEntity hs.inv eid).pool_nodup eid

/-! ## Identifiers across several worlds -/

/-- What a call does to the existence set and to the module state: an entity that
exists afterwards existed before, was pooled or is at or above the old cursor;
the cursor does not decrease; a pooled identifier was pooled or existed. -/
theorem step_exists {s : State} (h : Inv s) (op : Op) :
    (∀ e, (step s op).w.entitySparseSet.has e = true →
      s.w.entitySparseSet.has e = true ∨ e ∈ s.g.removed ++ s.g.recycled ∨
        s.g.globalEntityCursor ≤ e) ∧
    s.g.globalEntityCursor ≤ (step s op).g.globalEntityCursor ∧
    (∀ e ∈ (step s op).g.removed ++ (step s op).g.recycled,
      e ∈ s.g.removed ++ s.g.recycled ∨ s.w.entitySparseSet.has e = true) := by
  have passive : ∀ s' : State, s'.w.entitySparseSet = s.w.entitySparseSet → s'.g = s.g →
      (∀ e, s'.w.entitySparseSet.has e = true →
        s.w.entitySparseSet.has e = true ∨ e ∈ s.g.removed ++ s.g.recycled ∨
          s.g.globalEntityCursor ≤ e) ∧
      s.g.globalEntityCursor ≤ s'.g.globalEntityCursor ∧
      (∀ e ∈ s'.g.removed ++ s'.g.recycled,
        e ∈ s.g.removed ++ s.g.recycled ∨ s.w.entitySparseSet.has e = true) := by
    intro s' h1 h2
    rw [h1, h2]
    exact ⟨fun e he => Or.inl he, Nat.le_refl _, fun e he => Or.inl he⟩
  cases op with
  | addEntity =>
    show (∀ e, (addEntity s).1.w.entitySparseSet.has e = true → _) ∧
      s.g.globalEntityCursor ≤ (addEntity s).1.g.globalEntityCursor ∧
      (∀ e ∈ (addEntity s).1.g.removed ++ (addEntity s).1.g.recycled, _)
    obtain ⟨_, _, hcur, _, hpool⟩ := inv_chooseEid h
    by_cases hc : (chooseEid s.g s.w.manualEntityRecycling).1 > s.w.size
    · rw [addEntity_error s hc]
      exact ⟨fun e he => Or.inl he, hcur, fun e he => Or.inl (hpool e he).1⟩
    · obtain ⟨hw, hg, _⟩ := addEntity_ok_world s hc
      rw [hw, hg, (foldl_updQ_frame _ _ _ _).entitySparseSet]
      refine ⟨?_, hcur, fun e he => Or.inl (hpool e he).1⟩
      intro e he
      have he' : (s.w.entitySparseSet.add (chooseEid s.g s.w.manualEntityRecycling).1).has e
          = true := he
      rw [SparseSet.has_add] at he'
      simp only [Bool.or_eq_true, decide_eq_true_eq] at he'
      rcases he' with rfl | he'
      · rcases chooseEid_cases s.g s.w.manualEntityRecycling with ⟨rest, hr, _⟩ | ⟨hcu, _⟩
        · refine Or.inr (Or.inl ?_)
          rw [hr]
          simp
        · exact Or.inr (Or.inr (Nat.le_of_eq hcu.symm))
      · exact Or.inl he'
  | removeEntity eid =>
    show (∀ e, (removeEntity s eid).w.entitySparseSet.has e = true → _) ∧
      s.g.globalEntityCursor ≤ (removeEntity s eid).g.globalEntityCursor ∧
      (∀ e ∈ (removeEntity s eid).g.removed ++ (removeEntity s eid).g.recycled, _)
    by_cases hex : s.w.entitySparseSet.has eid = true
    · rw [removeEntity_exists s eid hex]
      refine ⟨?_, ?_, ?_⟩
      · intro e he
        have he' : (s.w.entitySparseSet.remove eid).has e = true := he
        rw [h.winv.base.exists_wf.has_remove] at he'
        simp only [Bool.and_eq_true] at he'
        exact Or.inl he'.2
      · cases s.w.manualEntityRecycling <;> exact Nat.le_refl _
      · intro e he
        cases hm : s.w.manualEntityRecycling with
        | true =>
          simp only [hm, if_true, List.mem_append, List.mem_singleton] at he
          rcases he with he | he | he
          · exact Or.inl (List.mem_append_left _ he)
          · exact Or.inl (List.mem_append_right _ he)
          · rw [he]; exact Or.inr hex
        | false =>
          simp only [hm, Bool.false_eq_true, if_false, List.mem_append, List.mem_singleton] at he
          rcases he with (he | he) | he
          · exact Or.inl (List.mem_append_left _ he)
          · rw [he]; exact Or.inr hex
          · exact Or.inl (List.mem_append_right _ he)
    · rw [removeEntity_absent s eid (by simpa using hex)]
      exact passive s rfl rfl
  | addComponent c eid =>
    apply passive
    · unfold step
      simp only
      cases hr : addComponent s.w c eid with
      | error e => rfl
      | ok w' =>
        obtain ⟨e, _, _, hcase⟩ := addComponent_ok hr
        rcases hcase with ⟨_, rfl⟩ | ⟨_, r, _, rfl⟩
        · exact registerIfNew_has _ _
        · simp only
          rw [foldl_reevaluate_eq, (foldl_updQ_frame _ _ _ _).entitySparseSet]
          exact registerIfNew_has _ _
    · unfold step
      simp only
      cases addComponent s.w c eid <;> rfl
  | removeComponent c eid =>
    apply passive
    · unfold step
      simp only
      cases hr : removeComponent s.w c eid with
      | error e => rfl
      | ok w' =>
        obtain ⟨e, _, _, hcase⟩ := removeComponent_ok hr
        rcases hcase with ⟨_, rfl⟩ | ⟨_, r, _, rfl⟩
        · rfl
        · simp only
          rw [foldl_reevaluate_eq, (foldl_updQ_frame _ _ _ _).entitySparseSet]
    · unfold step
      simp only
      cases removeComponent s.w c eid <;> rfl
  | registerComponent c =>
    exact passive _ (registerComponent_frame s.w c).2.2.1 rfl
  | query qd =>
    refine passive (step s (Op.query qd)) ?_ rfl
    show (query s.g s.w qd).1.entitySparseSet = _
    rw [query_world, (commitRemovals_frame _).entitySparseSet]
    exact (registerQueryIfNew_spec h.winv s.g h.below_cursor qd).2.1
  | enterQuery qd =>
    exact passive _ (enterQuery_spec h.winv s.g h.below_cursor qd).2 rfl
  | exitQuery qd =>
    exact passive _ (exitQuery_spec h.winv s.g h.below_cursor qd).2 rfl
  | enableManualEntityRecycling => exact passive _ rfl rfl
  | flushRemovedEntities =>
    unfold step
    simp only
    cases hr : flushRemovedEntities s with
    | error e => exact passive s rfl rfl
    | ok s1 =>
      unfold flushRemovedEntities at hr
      split at hr
      · exact Except.noConfusion hr
      · cases hr
        refine ⟨fun e he => Or.inl he, Nat.le_refl _, ?_⟩
        intro e he
        simp only [List.append_nil] at he
        exact Or.inl he
  | setRemovedRecycleThreshold t =>
    exact ⟨fun e he => Or.inl he, Nat.le_refl _, fun e he => Or.inl he⟩

/-- The invariant of a world with the module state, from the invariant of the
module state with its worlds. -/
theorem UInv.inv_at {u : Universe} (h : UInv u) {i : Nat} {w : World}
    (hw : u.worlds[i]? = some w) : Inv { g := u.g, w := w } :=
  ⟨h.each i w hw, h.below i w hw, h.pool_nodup,
    fun e he => ⟨h.pool_free e he i w hw, h.pool_below e he⟩⟩

theorem uinv_call {u : Universe} (h : UInv u) (i : Nat) (op : Op)
    (hop : ∀ w, u.worlds[i]? = some w → op.Admitted { g := u.g, w := w }) :
    UInv (u.call i op) := by
  unfold Universe.call
  cases hw : u.worlds[i]? with
  | none => exact h
  | some w =>
    simp only
    have hs : Inv { g := u.g, w := w } := h.inv_at hw
    have hs' := inv_step hs op (hop w hw)
    obtain ⟨hnew, hcur, hpool⟩ := step_exists hs op
    have hlt : i < u.worlds.length := by
      by_contra hc
      rw [List.getElem?_eq_none_iff.mpr (Nat.le_of_not_lt hc)] at hw
      exact Option.noConfusion hw
    have hget : ∀ (k : Nat) (wk : World),
        (u.worlds.set i (step { g := u.g, w := w } op).w)[k]? = some wk →
        (k = i ∧ wk = (step { g := u.g, w := w } op).w) ∨ (k ≠ i ∧ u.worlds[k]? = some wk) := by
      intro k wk hk
      rw [List.getElem?_set] at hk
      by_cases hki : i = k
      · subst hki
        simp only [hlt, if_true, Option.some.injEq] at hk
        exact Or.inl ⟨rfl, hk.symm⟩
      · simp only [hki, if_false] at hk
        exact Or.inr ⟨fun e => hki e.symm, hk⟩
    -- an entity of the world after the call exists in no other world
    have hfresh : ∀ (k : Nat) (wk : World), k ≠ i → u.worlds[k]? = some wk → ∀ e,
        (step { g := u.g, w := w } op).w.entitySparseSet.has e = true →
        wk.entitySparseSet.has e = false := by
      intro k wk hki hk e he
      rcases hnew e he with h1 | h1 | h1
      · exact h.disjoint i k w wk (fun e => hki e.symm) hw hk e h1
      · exact h.pool_free e h1 k wk hk
      · cases hwk : wk.entitySparseSet.has e with
        | false => rfl
        | true =>
          have := h.below k wk hk e hwk
          have h1' : u.g.globalEntityCursor ≤ e := h1
          omega
    refine ⟨?_, ?_, hs'.pool_nodup, fun e he => (hs'.pool_free e he).2, ?_, ?_⟩
    · intro k wk hk
      rcases hget k wk hk with ⟨_, rfl⟩ | ⟨_, hk'⟩
      · exact hs'.winv
      · exact h.each k wk hk'
    · intro k wk hk e he
      rcases hget k wk hk with ⟨_, rfl⟩ | ⟨_, hk'⟩
      · exact hs'.below_cursor e he
      · exact Nat.lt_of_lt_of_le (h.below k wk hk' e he) hcur
    · intro e he k wk hk
      rcases hget k wk hk with ⟨_, rfl⟩ | ⟨hki, hk'⟩
      · exact (hs'.pool_free e he).1
      · rcases hpool e he with h1 | h1
        · exact h.pool_free e h1 k wk hk'
        · exact h.disjoint i k w wk (fun e => hki e.symm) hw hk' e h1
    · intro a b wa wb hab ha hb e he
      rcases hget a wa ha with ⟨rfl, rfl⟩ | ⟨hai, ha'⟩
      · rcases hget b wb hb with ⟨hbi, _⟩ | ⟨hbi, hb'⟩
        · exact absurd hbi.symm hab
        · exact hfresh b wb hbi hb' e he
      · rcases hget b wb hb with ⟨_, rfl⟩ | ⟨_, hb'⟩
        · cases hn : (step { g := u.g, w := w } op).w.entitySparseSet.has e with
          | false => rfl
          | true =>
            have := hfresh a wa hai ha' e hn
            rw [he] at this
            exact Bool.noConfusion this
        · exact h.disjoint a b wa wb hab ha' hb' e he

theorem uinv_createWorld {u : Universe} (h : UInv u) (size : Nat) :
    UInv { u with worlds := u.worlds ++ [createWorld size] } := by
  have hget : ∀ (k : Nat) (wk : World), (u.worlds ++ [createWorld size])[k]? = some wk →
      u.worlds[k]? = some wk ∨ (k = u.worlds.length ∧ wk = createWorld size) := by
    intro k wk hk
    exact (getElem?_append_singleton u.worlds (createWorld size) wk k).mp hk
  have hempty : ∀ e, (createWorld size).entitySparseSet.has e = false := fun e =>
    SparseSet.has_empty e
  refine ⟨?_, ?_, h.pool_nodup, h.pool_below, ?_, ?_⟩
  · intro k wk hk
    rcases hget k wk hk with hk' | ⟨_, rfl⟩
    · exact h.each k wk hk'
    · exact (inv_init 0 defaultRemovedReuseThreshold size).winv
  · intro k wk hk e he
    rcases hget k wk hk with hk' | ⟨_, rfl⟩
    · exact h.below k wk hk' e he
    · rw [hempty e] at he
      exact Bool.noConfusion he
  · intro e he k wk hk
    rcases hget k wk hk with hk' | ⟨_, rfl⟩
    · exact h.pool_free e he k wk hk'
    · exact hempty e
  · intro a b wa wb hab ha hb e he
    rcases hget a wa ha with ha' | ⟨_, rfl⟩
    · rcases hget b wb hb with hb' | ⟨_, rfl⟩
      · exact h.disjoint a b wa wb hab ha' hb' e he
      · exact hempty e
    · rw [hempty e] at he
      exact Bool.noConfusion he

/-- Every reachable module state with its worlds satisfies the invariant. -/
theorem UReachable.uinv {u : Universe} (h : UReachable u) : UInv u := by
  induction h with
  | init globalSize threshold =>
    refine ⟨?_, ?_, ?_, ?_, ?_, ?_⟩
    · intro i w hw; exact Option.noConfusion hw
    · intro i w hw; exact Option.noConfusion hw
    · exact List.nodup_nil
    · intro e he; exact absurd he (List.not_mem_nil e)
    · intro e he; exact absurd he (List.not_mem_nil e)
    · intro i j w w' _ hw; exact Option.noConfusion hw
  | createWorld size _ ih => exact uinv_createWorld ih size
  | call i op _ hop ih => exact uinv_call ih i op hop

/-- What holds of the identifiers in a reachable module state with its worlds. -/
theorem ids_not_reused (u : Universe) (hu : UReachable u) :
    (∀ (i : Nat) (w : World) (eid : Nat), u.worlds[i]? = some w →
      (addEntity { g := u.g, w := w }).2 = .ok eid →
      ∀ (j : Nat) (w' : World), u.worlds[j]? = some w' → entityExists w' eid = false) ∧
    (∀ (i j : Nat) (w w' : World), i ≠ j → u.worlds[i]? = some w → u.worlds[j]? = some w' →
      ∀ e, entityExists w e = true → entityExists w' e = false) ∧
    (u.g.removed ++ u.g.recycled).Nodup ∧
    (∀ e ∈ u.g.removed ++ u.g.recycled, ∀ (j : Nat) (w' : World), u.worlds[j]? = some w' →
      entityExists w' e = false) := by
  have h := hu.uinv
  refine ⟨?_, h.disjoint, h.pool_nodup, h.pool_free⟩
  intro i w eid hw hadd j w' hw'
  obtain ⟨h1, _, h3⟩ := addEntity_outcome { g := u.g, w := w }
  by_cases hc : (chooseEid u.g w.manualEntityRecycling).1 > w.size
  · rw [h1.mpr hc] at hadd
    exact Except.noConfusion hadd
  · have heq := (h3 hc).1
    rw [heq] at hadd
    have he : eid = (chooseEid u.g w.manualEntityRecycling).1 := (Except.ok.inj hadd).symm
    unfold entityExists
    rcases chooseEid_cases u.g w.manualEntityRecycling with ⟨rest, hr, _⟩ | ⟨hcu, _⟩
    · apply h.pool_free eid _ j w' hw'
      rw [hr, he]
      simp
    · cases hex : w'.entitySparseSet.has eid with
      | false => rfl
      | true =>
        have := h.below j w' hw' eid hex
        rw [he, hcu] at this
        omega

/-- C12: in every module state reached from a new module by `createWorld` and by
calls on its worlds, whichever recycling they use, `addEntity` on any world
returns no identifier that exists in some world; no identifier exists in two
worlds, the removed and recycled pools together hold no identifier twice, and a
pooled identifier exists in no world. -/
theorem entity_ids_never_reused_while_live (u : Universe) (hu : UReachable u) :
    (∀ (i : Nat) (w : World) (eid : Nat), u.worlds[i]? = some w →
      (addEntity { g := u.g, w := w }).2 = .ok eid →
      ∀ (j : Nat) (w' : World), u.worlds[j]? = some w' → entityExists w' eid = false) ∧
    (∀ (i j : Nat) (w w' : World), i ≠ j → u.worlds[i]? = some w → u.worlds[j]? = some w' →
      ∀ e, entityExists w e = true → entityExists w' e = false) ∧
    (u.g.removed ++ u.g.recycled).Nodup ∧
    (∀ e ∈ u.g.removed ++ u.g.recycled, ∀ (j : Nat) (w' : World), u.worlds[j]? = some w' →
      entityExists w' e = false) :=
  ids_not_reused u hu

/-! ## The threshold of automatic recycling -/

/-- After the halvings `excessBits` counts the numerator is below `2 ^ 53`, and
when there was a halving its top bit is set. -/
theorem excessBits_spec (fuel : Nat) : ∀ n, n ≤ fuel →
    n / 2 ^ excessBits fuel n < 2 ^ 53 ∧
    (excessBits fuel n ≠ 0 → 2 ^ 52 ≤ n / 2 ^ excessBits fuel n) := by
  induction fuel with
  | zero =>
    intro n hn
    have h0 : n = 0 := by omega
    subst h0
    simp [excessBits]
  | succ fuel ih =>
    intro n hn
    by_cases h : n < 2 ^ 53
    · have he : excessBits (fuel + 1) n = 0 := by
        unfold excessBits
        simp only [h, if_true]
      rw [he]
      simp only [pow_zero, Nat.div_one]
      exact ⟨h, fun hc => absurd rfl hc⟩
    · have he : excessBits (fuel + 1) n = excessBits fuel (n / 2) + 1 := by
        conv => lhs; unfold excessBits
        simp only [h, if_false]
      have h2 : n / 2 ≤ fuel := by omega
      obtain ⟨a, b⟩ := ih (n / 2) h2
      have e : n / 2 ^ (excessBits fuel (n / 2) + 1) = n / 2 / 2 ^ excessBits fuel (n / 2) := by
        rw [pow_succ, Nat.mul_comm, Nat.div_div_eq_div_mul]
      rw [he, e]
      refine ⟨a, fun _ => ?_⟩
      by_cases hk : excessBits fuel (n / 2) = 0
      · rw [hk]
        simp only [pow_zero, Nat.div_one]
        omega
      · exact b hk

/-- No number with a significand of 53 bits lies strictly between two neighbours
`q * 2 ^ S` and `(q + 1) * 2 ^ S` whose significand `q` has its top bit set. -/
theorem no_double_between (q S a e : Nat) (hq : 2 ^ 52 ≤ q) (ha : a < 2 ^ 53)
    (h1 : q * 2 ^ S < a * 2 ^ e) (h2 : a * 2 ^ e < (q + 1) * 2 ^ S) : False := by
  by_cases hes : S ≤ e
  · obtain ⟨d, rfl⟩ := Nat.exists_eq_add_of_le hes
    rw [pow_add, ← Nat.mul_assoc, Nat.mul_right_comm] at h1 h2
    have hpos : 0 < 2 ^ S := Nat.pow_pos (by decide)
    have h1' := Nat.lt_of_mul_lt_mul_right h1
    have h2' := Nat.lt_of_mul_lt_mul_right h2
    omega
  · obtain ⟨d, rfl⟩ := Nat.exists_eq_add_of_le (Nat.le_of_lt (Nat.lt_of_not_le hes))
    obtain ⟨d', rfl⟩ : ∃ d', d = d' + 1 := ⟨d - 1, by omega⟩
    rw [pow_add, ← Nat.mul_assoc, Nat.mul_right_comm] at h1
    have h1' := Nat.lt_of_mul_lt_mul_right h1
    have hd : 2 ≤ 2 ^ (d' + 1) := by
      rw [pow_succ]
      have : 0 < 2 ^ d' := Nat.pow_pos (by decide)
      omega
    have : q * 2 ≤ q * 2 ^ (d' + 1) := Nat.mul_le_mul_left q hd
    omega

/-- The two outcomes of `roundToDouble`: the numerator cut off after its leading
53 bits, when the bits cut off are at most half a unit, or the next multiple of
the unit, when they are at least half; at exactly half the significand chosen is
the even one. -/
theorem roundToDouble_cases (n : Nat) :
    (roundToDouble n = n / 2 ^ excessBits n n * 2 ^ excessBits n n ∧
      2 * (n % 2 ^ excessBits n n) ≤ 2 ^ excessBits n n ∧
      (2 * (n % 2 ^ excessBits n n) = 2 ^ excessBits n n → n / 2 ^ excessBits n n % 2 = 0)) ∨
    (roundToDouble n = (n / 2 ^ excessBits n n + 1) * 2 ^ excessBits n n ∧
      2 ^ excessBits n n ≤ 2 * (n % 2 ^ excessBits n n) ∧
      (2 * (n % 2 ^ excessBits n n) = 2 ^ excessBits n n → n / 2 ^ excessBits n n % 2 = 1)) := by
  unfold roundToDouble
  simp only
  split
  · rename_i h
    right
    refine ⟨rfl, ?_, ?_⟩
    · rcases h with h | h
      · omega
      · omega
    · intro ht
      rcases h with h | h
      · omega
      · exact h.2
  · rename_i h
    left
    refine ⟨rfl, ?_, ?_⟩
    · by_contra hc
      exact h (Or.inl (by omega))
    · intro ht
      by_contra hc
      exact h (Or.inr ⟨ht, by omega⟩)

/-- The value `roundToDouble` returns has a significand of 53 bits. -/
theorem roundToDouble_significand (n : Nat) :
    ∃ a e, a < 2 ^ 53 ∧ roundToDouble n = a * 2 ^ e := by
  obtain ⟨hlt, _⟩ := excessBits_spec n n (Nat.le_refl n)
  rcases roundToDouble_cases n with ⟨h, _⟩ | ⟨h, _⟩
  · exact ⟨_, _, hlt, h⟩
  · by_cases hq : n / 2 ^ excessBits n n + 1 < 2 ^ 53
    · exact ⟨_, _, hq, h⟩
    · refine ⟨2 ^ 52, excessBits n n + 1, by decide, ?_⟩
      have : n / 2 ^ excessBits n n + 1 = 2 ^ 53 := by omega
      rw [h, this, pow_succ 2 (excessBits n n), Nat.mul_comm (2 ^ excessBits n n) 2,
        ← Nat.mul_assoc]
      rfl

/-- Of two neighbours `lo` and `lo + u` with nothing admitted strictly between
them, the one on the side of `lo + r` given by the comparison of `2 * r` with `u`
is at least as near to `lo + r` as every admitted `x`. -/
theorem dist_of_neighbours (lo r u x d : Nat) (hr : r < u)
    (hgap : lo < x → x < lo + u → False)
    (hd : (d = lo ∧ 2 * r ≤ u) ∨ (d = lo + u ∧ u ≤ 2 * r)) :
    Nat.dist d (lo + r) ≤ Nat.dist x (lo + r) := by
  unfold Nat.dist
  have hx : x ≤ lo ∨ lo + u ≤ x := by
    by_cases hx : x ≤ lo
    · exact Or.inl hx
    · exact Or.inr (Nat.le_of_not_lt (fun h2 => hgap (by omega) h2))
  rcases hd with ⟨h1, h2⟩ | ⟨h1, h2⟩ <;> rcases hx with hx | hx <;> omega

/-- No number with a significand of 53 bits is nearer to `n` than
`roundToDouble n`; the candidates `a * 2 ^ e / 2 ^ f` are all such numbers, and
the distances are compared after multiplication by `2 ^ f`. -/
theorem roundToDouble_nearest (n a e f : Nat) (ha : a < 2 ^ 53) :
    Nat.dist (roundToDouble n * 2 ^ f) (n * 2 ^ f) ≤ Nat.dist (a * 2 ^ e) (n * 2 ^ f) := by
  obtain ⟨_, hlow⟩ := excessBits_spec n n (Nat.le_refl n)
  have hdm := Nat.div_add_mod n (2 ^ excessBits n n)
  have hrlt : n % 2 ^ excessBits n n < 2 ^ excessBits n n :=
    Nat.mod_lt _ (Nat.pow_pos (by decide))
  by_cases hsh : excessBits n n = 0
  · have hd : roundToDouble n = n := by
      rcases roundToDouble_cases n with ⟨h, _⟩ | ⟨_, h, _⟩
      · rw [h, hsh]
        simp
      · rw [hsh] at h hrlt
        simp only [pow_zero] at h hrlt
        omega
    rw [hd]
    unfold Nat.dist
    omega
  · have hq := hlow hsh
    have hgap := no_double_between (n / 2 ^ excessBits n n) (excessBits n n + f) a e hq ha
    have hN : n * 2 ^ f = n / 2 ^ excessBits n n * 2 ^ (excessBits n n + f) +
        n % 2 ^ excessBits n n * 2 ^ f := by
      conv => lhs; rw [← hdm]
      rw [Nat.add_mul, pow_add, Nat.mul_comm (2 ^ excessBits n n) (n / 2 ^ excessBits n n),
        Nat.mul_assoc]
    have hU : (n / 2 ^ excessBits n n + 1) * 2 ^ (excessBits n n + f) =
        n / 2 ^ excessBits n n * 2 ^ (excessBits n n + f) + 2 ^ (excessBits n n + f) := by
      rw [Nat.add_mul, Nat.one_mul]
    have hR : n % 2 ^ excessBits n n * 2 ^ f < 2 ^ (excessBits n n + f) := by
      rw [pow_add]
      exact Nat.mul_lt_mul_of_pos_right hrlt (Nat.pow_pos (by decide))
    rw [hU] at hgap
    rw [hN]
    refine dist_of_neighbours _ _ _ _ _ hR hgap ?_
    rcases roundToDouble_cases n with ⟨h, hle, _⟩ | ⟨h, hle, _⟩
    · left
      constructor
      · rw [h, pow_add, Nat.mul_assoc]
      · rw [pow_add, ← Nat.mul_assoc]
        exact Nat.mul_le_mul_right _ hle
    · right
      constructor
      · rw [h, ← hU, pow_add, Nat.mul_assoc]
      · rw [pow_add, ← Nat.mul_assoc]
        exact Nat.mul_le_mul_right _ hle

/-- At a tie the significand of the value `roundToDouble` returns is even. -/
theorem roundToDouble_even (n : Nat)
    (ht : 2 * (n % 2 ^ excessBits n n) = 2 ^ excessBits n n) :
    roundToDouble n / 2 ^ excessBits n n % 2 = 0 := by
  have hpos : 0 < 2 ^ excessBits n n := Nat.pow_pos (by decide)
  rcases roundToDouble_cases n with ⟨h, _, he⟩ | ⟨h, _, he⟩
  · rw [h, Nat.mul_div_cancel _ hpos]
    exact he ht
  · rw [h, Nat.mul_div_cancel _ hpos]
    have := he ht
    omega

/-- `reuseLimit` is the double product rounded to the nearest integer, a half
rounded up. -/
theorem reuseLimit_round (g : Globals) :
    2 ^ (g.removedReuseThreshold.scale + 1) * reuseLimit g ≤
      2 * sizeTimesThreshold g + 2 ^ g.removedReuseThreshold.scale ∧
    2 * sizeTimesThreshold g + 2 ^ g.removedReuseThreshold.scale <
      2 ^ (g.removedReuseThreshold.scale + 1) * (reuseLimit g + 1) := by
  unfold reuseLimit
  have hpos : 0 < 2 ^ (g.removedReuseThreshold.scale + 1) := Nat.pow_pos (by decide)
  exact ⟨Nat.mul_div_le _ _, Nat.lt_mul_div_succ _ hpos⟩

theorem chooseEid_recycle (g : Globals) (e : Nat) (rest : List Nat)
    (hr : g.removed = e :: rest) (hlen : g.removed.length > reuseLimit g) :
    chooseEid g false = (e, { g with removed := rest }) := by
  unfold chooseEid
  have hd : decide (g.removed.length > reuseLimit g) = true := decide_eq_true hlen
  simp only [Bool.false_eq_true, if_false, hd]
  rw [hr]

theorem chooseEid_mint (g : Globals) (hlen : g.removed.length ≤ reuseLimit g) :
    chooseEid g false =
      (g.globalEntityCursor, { g with globalEntityCursor := g.globalEntityCursor + 1 }) := by
  unfold chooseEid
  have hd : decide (g.removed.length > reuseLimit g) = false :=
    decide_eq_false (Nat.not_lt.mpr hlen)
  simp only [Bool.false_eq_true, if_false, hd]

/-- The module state `addEntity` leaves and what it returns, from the identifier
it chose. -/
theorem addEntity_of_chosen (s : State) (e : Nat) (g' : Globals)
    (hc : chooseEid s.g s.w.manualEntityRecycling = (e, g')) :
    (addEntity s).1.g = g' ∧
    ((addEntity s).2 = .ok e ∨ (e > s.w.size ∧ (addEntity s).2 = .error .maxEntitiesReached)) := by
  have h1 : (chooseEid s.g s.w.manualEntityRecycling).1 = e := by rw [hc]
  have h2 : (chooseEid s.g s.w.manualEntityRecycling).2 = g' := by rw [hc]
  by_cases hgt : (chooseEid s.g s.w.manualEntityRecycling).1 > s.w.size
  · rw [addEntity_error s hgt, h2]
    exact ⟨rfl, Or.inr ⟨by rw [← h1]; exact hgt, rfl⟩⟩
  · obtain ⟨_, hg, hr⟩ := addEntity_ok_world s hgt
    rw [hg, hr, h1, h2]
    exact ⟨rfl, Or.inl rfl⟩

/-- The rule of automatic recycling in a reachable state. -/
theorem recycling_rule (s : State) (hs : Reachable s)
    (hauto : s.w.manualEntityRecycling = false) :
    ((∃ a e, a < 2 ^ 53 ∧ sizeTimesThreshold s.g = a * 2 ^ e) ∧
      (∀ a e f, a < 2 ^ 53 →
        Nat.dist (sizeTimesThreshold s.g * 2 ^ f) (exactProduct s.g * 2 ^ f) ≤
          Nat.dist (a * 2 ^ e) (exactProduct s.g * 2 ^ f)) ∧
      (2 * (exactProduct s.g % 2 ^ excessBits (exactProduct s.g) (exactProduct s.g)) =
          2 ^ excessBits (exactProduct s.g) (exactProduct s.g) →
        sizeTimesThreshold s.g / 2 ^ excessBits (exactProduct s.g) (exactProduct s.g) % 2 = 0) ∧
      (exactProduct s.g < 2 ^ 53 → sizeTimesThreshold s.g = exactProduct s.g)) ∧
    (2 ^ (s.g.removedReuseThreshold.scale + 1) * reuseLimit s.g ≤
        2 * sizeTimesThreshold s.g + 2 ^ s.g.removedReuseThreshold.scale ∧
      2 * sizeTimesThreshold s.g + 2 ^ s.g.removedReuseThreshold.scale <
        2 ^ (s.g.removedReuseThreshold.scale + 1) * (reuseLimit s.g + 1)) ∧
    (s.g.removed.length > reuseLimit s.g →
      ∃ e rest, s.g.removed = e :: rest ∧ (addEntity s).1.g = { s.g with removed := rest } ∧
        ((addEntity s).2 = .ok e ∨
          (e > s.w.size ∧ (addEntity s).2 = .error .maxEntitiesReached))) ∧
    (s.g.removed.length ≤ reuseLimit s.g →
      (addEntity s).1.g = { s.g with globalEntityCursor := s.g.globalEntityCursor + 1 } ∧
      s.g.globalEntityCursor ∉ s.g.removed ∧
      ((addEntity s).2 = .ok s.g.globalEntityCursor ∨
        (s.g.globalEntityCursor > s.w.size ∧ (addEntity s).2 = .error .maxEntitiesReached))) := by
  refine ⟨⟨roundToDouble_significand _, fun a e f ha => roundToDouble_nearest _ a e f ha,
    roundToDouble_even _, ?_⟩, reuseLimit_round s.g, ?_, ?_⟩
  · intro hlt
    have h := roundToDouble_nearest (exactProduct s.g) (exactProduct s.g) 0 0 hlt
    unfold Nat.dist at h
    simp only [pow_zero, Nat.mul_one] at h
    show roundToDouble (exactProduct s.g) = exactProduct s.g
    omega
  · intro hlen
    cases hr : s.g.removed with
    | nil => rw [hr] at hlen; simp at hlen
    | cons e rest =>
      have hc := chooseEid_recycle s.g e rest hr hlen
      rw [← hauto] at hc
      exact ⟨e, rest, rfl, addEntity_of_chosen s e _ hc⟩
  · intro hlen
    have hc := chooseEid_mint s.g hlen
    rw [← hauto] at hc
    obtain ⟨h1, h2⟩ := addEntity_of_chosen s _ _ hc
    refine ⟨h1, ?_, h2⟩
    intro hmem
    have := (hs.inv.pool_free _ (List.mem_append_left _ hmem)).2
    omega

/-- C13, amended: in a reachable state of a world without manual recycling,
`addEntity` compares the length of the removed pool with
`Math.round(globalSize * removedReuseThreshold)`.  The product is the double
product: a number with a significand of 53 bits, as near to the exact product as
any such number, with an even significand when the exact product lies halfway
between two of them, and the exact product itself when that needs no more than
53 bits.  `Math.round` gives the integer nearest to the double product, a half
rounded up.  `addEntity` takes its identifier from the removed pool, the oldest
one, exactly when the length of the pool exceeds that integer, and otherwise
takes the cursor, which is in no pool, and advances it.  So a pool of at most
that many removed identifiers causes no reuse and one removal more does. -/
theorem automatic_recycling_rounds_threshold (s : State) (hs : Reachable s)
    (hauto : s.w.manualEntityRecycling = false) :
    ((∃ a e, a < 2 ^ 53 ∧ sizeTimesThreshold s.g = a * 2 ^ e) ∧
      (∀ a e f, a < 2 ^ 53 →
        Nat.dist (sizeTimesThreshold s.g * 2 ^ f) (exactProduct s.g * 2 ^ f) ≤
          Nat.dist (a * 2 ^ e) (exactProduct s.g * 2 ^ f)) ∧
      (2 * (exactProduct s.g % 2 ^ excessBits (exactProduct s.g) (exactProduct s.g)) =
          2 ^ excessBits (exactProduct s.g) (exactProduct s.g) →
        sizeTimesThreshold s.g / 2 ^ excessBits (exactProduct s.g) (exactProduct s.g) % 2 = 0) ∧
      (exactProduct s.g < 2 ^ 53 → sizeTimesThreshold s.g = exactProduct s.g)) ∧
    (2 ^ (s.g.removedReuseThreshold.scale + 1) * reuseLimit s.g ≤
        2 * sizeTimesThreshold s.g + 2 ^ s.g.removedReuseThreshold.scale ∧
      2 * sizeTimesThreshold s.g + 2 ^ s.g.removedReuseThreshold.scale <
        2 ^ (s.g.removedReuseThreshold.scale + 1) * (reuseLimit s.g + 1)) ∧
    (s.g.removed.length > reuseLimit s.g →
      ∃ e rest, s.g.removed = e :: rest ∧ (addEntity s).1.g = { s.g with removed := rest } ∧
        ((addEntity s).2 = .ok e ∨
          (e > s.w.size ∧ (addEntity s).2 = .error .maxEntitiesReached))) ∧
    (s.g.removed.length ≤ reuseLimit s.g →
      (addEntity s).1.g = { s.g with globalEntityCursor := s.g.globalEntityCursor + 1 } ∧
      s.g.globalEntityCursor ∉ s.g.removed ∧
      ((addEntity s).2 = .ok s.g.globalEntityCursor ∨
        (s.g.globalEntityCursor > s.w.size ∧ (addEntity s).2 = .error .maxEntitiesReached))) :=
  recycling_rule s hs hauto

/-! ## Change detection -/

theorem ensureShadow_spec (cs : Column → Column) (hcs : ∀ col, (cs col).length = col.length)
    {P : List Column} {S : List (Nat × Column)} (hfit : ShadowsFit P S) {pid : Nat}
    {col : Column} (hcol : P[pid]? = some col) :
    ∃ sh1, mapGet (ensureShadow cs S pid col) pid = some sh1 ∧ sh1.length = col.length ∧
      (∀ sh, mapGet S pid = some sh → sh1 = sh ∧ ensureShadow cs S pid col = S) ∧
      ∀ pid', pid' ≠ pid → mapGet (ensureShadow cs S pid col) pid' = mapGet S pid' := by
  cases hm : mapGet S pid with
  | some sh =>
    obtain ⟨col', hc', hlen⟩ := hfit pid sh hm
    rw [hcol] at hc'
    have hcc : col = col' := Option.some.inj hc'
    have hE : ensureShadow cs S pid col = S := by
      unfold ensureShadow
      rw [hm]
      rfl
    rw [hE]
    refine ⟨sh, hm, by rw [hcc]; exact hlen, ?_, fun _ _ => rfl⟩
    intro sh' h'
    exact ⟨Option.some.inj h', rfl⟩
  | none =>
    have hE : ensureShadow cs S pid col = mapSet S pid (cs col) := by
      unfold ensureShadow
      rw [hm]
      rfl
    rw [hE]
    refine ⟨cs col, mapGet_mapSet_self _ _ _, hcs col, ?_, ?_⟩
    · intro sh h'
      exact Option.noConfusion h'
    · intro pid' hne
      exact mapGet_mapSet_ne _ _ _ _ hne

theorem getElem?_set_other (l : List Int) (e e' : Nat) (v : Int) (h : e' ≠ e) :
    (l.set e v)[e']? = l[e']? := by
  rw [List.getElem?_set, if_neg (fun h' : e = e' => h h'.symm)]

/-- One pass of the body of the loop over `pid`: the shadows fit, the cell of the
column and the entity is synchronised, cells that were synchronised stay so, the
shadows of other columns are untouched, and the flag is raised exactly when the
cell was not synchronised. -/
theorem diffProp_spec (cs : Column → Column) (hcs : ∀ col, (cs col).length = col.length)
    {P : List Column} {S : List (Nat × Column)} (hfit : ShadowsFit P S) {pid : Nat}
    {col : Column} (hcol : P[pid]? = some col) (e : Nat) (d : Bool) :
    ShadowsFit P (diffProp cs P e (S, d) pid).1 ∧
    Synced P (diffProp cs P e (S, d) pid).1 pid e ∧
    (∀ pid' e', Synced P S pid' e' → Synced P (diffProp cs P e (S, d) pid).1 pid' e') ∧
    (∀ pid', pid' ≠ pid → mapGet (diffProp cs P e (S, d) pid).1 pid' = mapGet S pid') ∧
    (d = true → (diffProp cs P e (S, d) pid).2 = true) ∧
    (Synced P S pid e → diffProp cs P e (S, d) pid = (S, d)) ∧
    (∀ sh, mapGet S pid = some sh → sh[e]? ≠ col[e]? →
      (diffProp cs P e (S, d) pid).2 = true) := by
  obtain ⟨sh1, h1, hlen, hsame, hother⟩ := ensureShadow_spec cs hcs hfit hcol
  have hfit1 : ShadowsFit P (ensureShadow cs S pid col) := by
    intro p sh hp
    by_cases hpp : p = pid
    · subst hpp
      rw [h1] at hp
      cases hp
      exact ⟨col, hcol, hlen⟩
    · rw [hother p hpp] at hp
      exact hfit p sh hp
  have hmono1 : ∀ pid' e', Synced P S pid' e' →
      Synced P (ensureShadow cs S pid col) pid' e' := by
    rintro pid' e' ⟨sh, c, hs, hc, heq⟩
    by_cases hpp : pid' = pid
    · subst hpp
      obtain ⟨hshe, hS⟩ := hsame sh hs
      rw [hS]
      exact ⟨sh, c, hs, hc, heq⟩
    · exact ⟨sh, c, by rw [hother pid' hpp]; exact hs, hc, heq⟩
  have hshape : diffProp cs P e (S, d) pid =
      if col[e]? ≠ sh1[e]? then
        (mapSet (ensureShadow cs S pid col) pid (sh1.set e ((col[e]?).getD 0)), true)
      else (ensureShadow cs S pid col, d) := by
    unfold diffProp
    simp only [hcol, h1, Option.getD_some]
  by_cases hne : col[e]? ≠ sh1[e]?
  · have hr : diffProp cs P e (S, d) pid =
        (mapSet (ensureShadow cs S pid col) pid (sh1.set e ((col[e]?).getD 0)), true) := by
      rw [hshape]; simp only [hne, if_true, ne_eq, not_false_eq_true]
    have hlt : e < col.length := by
      by_contra hc
      have hc1 : col[e]? = none := List.getElem?_eq_none_iff.mpr (Nat.le_of_not_lt hc)
      have hc2 : sh1[e]? = none := List.getElem?_eq_none_iff.mpr (by rw [hlen]; exact Nat.le_of_not_lt hc)
      exact hne (by rw [hc1, hc2])
    have hcell : (sh1.set e ((col[e]?).getD 0))[e]? = col[e]? := by
      rw [List.getElem?_set]
      have hlt' : e < sh1.length := by rw [hlen]; exact hlt
      simp only [hlt', if_true]
      rw [List.getElem?_eq_getElem hlt]
      rfl
    rw [hr]
    refine ⟨?_, ?_, ?_, ?_, fun _ => rfl, ?_, fun _ _ _ => rfl⟩
    · intro p sh hp
      simp only at hp
      by_cases hpp : p = pid
      · subst hpp
        rw [mapGet_mapSet_self] at hp
        cases hp
        exact ⟨col, hcol, by rw [List.length_set]; exact hlen⟩
      · rw [mapGet_mapSet_ne _ _ _ _ hpp] at hp
        exact hfit1 p sh hp
    · exact ⟨_, col, mapGet_mapSet_self _ _ _, hcol, hcell⟩
    · intro pid' e' hs
      obtain ⟨sh, c, hs1, hc, heq⟩ := hmono1 pid' e' hs
      by_cases hpp : pid' = pid
      · subst hpp
        rw [h1] at hs1
        cases hs1
        rw [hcol] at hc
        cases hc
        by_cases hee : e' = e
        · subst hee
          exact ⟨_, col, mapGet_mapSet_self _ _ _, hcol, hcell⟩
        · refine ⟨_, col, mapGet_mapSet_self _ _ _, hcol, ?_⟩
          rw [getElem?_set_other _ _ _ _ hee]
          exact heq
      · exact ⟨sh, c, by simp only; rw [mapGet_mapSet_ne _ _ _ _ hpp]; exact hs1, hc, heq⟩
    · intro pid' hpp
      simp only
      rw [mapGet_mapSet_ne _ _ _ _ hpp]
      exact hother pid' hpp
    · rintro ⟨sh, c, hs, hc, heq⟩
      exfalso
      obtain ⟨hshe, _⟩ := hsame sh hs
      rw [hcol] at hc
      cases hc
      rw [hshe] at hne
      exact hne heq.symm
  · have hr : diffProp cs P e (S, d) pid = (ensureShadow cs S pid col, d) := by
      rw [hshape]; simp only [hne, if_false]
    have heq : col[e]? = sh1[e]? := by
      by_contra hc
      exact hne hc
    rw [hr]
    refine ⟨hfit1, ⟨sh1, col, h1, hcol, heq.symm⟩, hmono1, hother, fun h => h, ?_, ?_⟩
    · rintro ⟨sh, c, hs, hc, _⟩
      rw [(hsame sh hs).2]
    · intro sh hs hdiff
      exfalso
      obtain ⟨hshe, _⟩ := hsame sh hs
      rw [hshe] at heq
      exact hdiff heq.symm

/-- The loop over `pid` for one entity. -/
theorem foldl_diffProp_spec (cs : Column → Column) (hcs : ∀ col, (cs col).length = col.length)
    {P : List Column} (e : Nat) (l : List Nat) (hl : ∀ pid ∈ l, pid < P.length)
    {S : List (Nat × Column)} (hfit : ShadowsFit P S) (d : Bool) :
    ShadowsFit P (l.foldl (diffProp cs P e) (S, d)).1 ∧
    (∀ pid ∈ l, Synced P (l.foldl (diffProp cs P e) (S, d)).1 pid e) ∧
    (∀ pid' e', Synced P S pid' e' → Synced P (l.foldl (diffProp cs P e) (S, d)).1 pid' e') ∧
    (d = true → (l.foldl (diffProp cs P e) (S, d)).2 = true) ∧
    ((∀ pid ∈ l, Synced P S pid e) → l.foldl (diffProp cs P e) (S, d) = (S, d)) ∧
    (∀ pid ∈ l, ∀ sh col, mapGet S pid = some sh → P[pid]? = some col → sh[e]? ≠ col[e]? →
      (l.foldl (diffProp cs P e) (S, d)).2 = true) := by
  induction l generalizing S d with
  | nil =>
    refine ⟨hfit, ?_, fun _ _ h => h, fun h => h, fun _ => rfl, ?_⟩
    · intro pid hp; exact absurd hp (List.not_mem_nil pid)
    · intro pid hp; exact absurd hp (List.not_mem_nil pid)
  | cons a rest ih =>
    have ha : a < P.length := hl a (List.mem_cons_self a rest)
    have hcol : P[a]? = some P[a] := List.getElem?_eq_getElem ha
    obtain ⟨s1, s2, s3, s4, s5, s6, s7⟩ := diffProp_spec cs hcs hfit hcol e d
    have hl' : ∀ pid ∈ rest, pid < P.length := fun pid hp => hl pid (List.mem_cons_of_mem a hp)
    rw [List.foldl_cons]
    have hpair : diffProp cs P e (S, d) a =
        ((diffProp cs P e (S, d) a).1, (diffProp cs P e (S, d) a).2) := rfl
    rw [hpair]
    obtain ⟨r1, r2, r3, r4, r5, r6⟩ := ih hl' s1 (diffProp cs P e (S, d) a).2
    refine ⟨r1, ?_, fun pid' e' h => r3 pid' e' (s3 pid' e' h), fun h => r4 (s5 h), ?_, ?_⟩
    · intro pid hp
      rcases List.mem_cons.mp hp with rfl | hp
      · exact r3 _ _ s2
      · exact r2 pid hp
    · intro hall
      have h1 := s6 (hall a (List.mem_cons_self a rest))
      rw [← hpair, h1]
      have h2 := ih hl' hfit d
      exact h2.2.2.2.2.1 (fun pid hp => hall pid (List.mem_cons_of_mem a hp))
    · intro pid hp sh col hs hc hne
      by_cases hpa : pid = a
      · subst hpa
        rw [hcol] at hc
        cases hc
        exact r4 (s7 sh hs hne)
      · rcases List.mem_cons.mp hp with rfl | hp
        · exact absurd rfl hpa
        · exact r6 pid hp sh col (by rw [s4 pid hpa]; exact hs) hc hne

/-- The body of the loop over the live set. -/
theorem diffEntity_spec (cs : Column → Column) (hcs : ∀ col, (cs col).length = col.length)
    {P : List Column} {t : Tracking} (hfit : ShadowsFit P t.shadows) (e : Nat) :
    ShadowsFit P (diffEntity cs P t e).shadows ∧
    (∀ pid, pid < P.length → Synced P (diffEntity cs P t e).shadows pid e) ∧
    (∀ pid' e', Synced P t.shadows pid' e' → Synced P (diffEntity cs P t e).shadows pid' e') ∧
    ((∀ pid, pid < P.length → Synced P t.shadows pid e) → diffEntity cs P t e = t) ∧
    (∀ pid sh col, mapGet t.shadows pid = some sh → P[pid]? = some col → sh[e]? ≠ col[e]? →
      (diffEntity cs P t e).changed = t.changed ++ [e]) := by
  obtain ⟨r1, r2, r3, _, r5, r6⟩ := foldl_diffProp_spec cs hcs e (List.range P.length)
    (fun pid hp => List.mem_range.mp hp) hfit false
  refine ⟨r1, fun pid hp => r2 pid (List.mem_range.mpr hp), r3, ?_, ?_⟩
  · intro hall
    have := r5 (fun pid hp => hall pid (List.mem_range.mp hp))
    unfold diffEntity
    simp only [this, Bool.false_eq_true, if_false]
  · intro pid sh col hs hc hne
    have hlt : pid < P.length := by
      by_contra hcon
      rw [List.getElem?_eq_none_iff.mpr (Nat.le_of_not_lt hcon)] at hc
      exact Option.noConfusion hc
    have := r6 pid (List.mem_range.mpr hlt) sh col hs hc hne
    unfold diffEntity
    simp only [this, if_true]

/-- The loop over the live set: afterwards the shadows fit and every cell of an
entity of the list is synchronised. -/
theorem foldl_diffEntity_sync (cs : Column → Column) (hcs : ∀ col, (cs col).length = col.length)
    {P : List Column} (D : List Nat) {t : Tracking} (hfit : ShadowsFit P t.shadows) :
    ShadowsFit P (D.foldl (diffEntity cs P) t).shadows ∧
    (∀ e ∈ D, ∀ pid, pid < P.length → Synced P (D.foldl (diffEntity cs P) t).shadows pid e) ∧
    (∀ pid' e', Synced P t.shadows pid' e' →
      Synced P (D.foldl (diffEntity cs P) t).shadows pid' e') := by
  induction D generalizing t with
  | nil =>
    refine ⟨hfit, ?_, fun _ _ h => h⟩
    intro e he; exact absurd he (List.not_mem_nil e)
  | cons a rest ih =>
    obtain ⟨s1, s2, s3, _, _⟩ := diffEntity_spec cs hcs hfit a
    obtain ⟨r1, r2, r3⟩ := ih s1
    rw [List.foldl_cons]
    refine ⟨r1, ?_, fun pid' e' h => r3 pid' e' (s3 pid' e' h)⟩
    intro e he pid hp
    rcases List.mem_cons.mp he with rfl | he
    · exact r3 _ _ (s2 pid hp)
    · exact r2 e he pid hp

/-- The loop over entities whose cells are all synchronised changes nothing. -/
theorem foldl_diffEntity_fixed (cs : Column → Column) {P : List Column}
    (hcs : ∀ col, (cs col).length = col.length) (D : List Nat) {t : Tracking}
    (hfit : ShadowsFit P t.shadows)
    (hall : ∀ e ∈ D, ∀ pid, pid < P.length → Synced P t.shadows pid e) :
    D.foldl (diffEntity cs P) t = t := by
  induction D with
  | nil => rfl
  | cons a rest ih =>
    rw [List.foldl_cons, (diffEntity_spec cs hcs hfit a).2.2.2.1 (hall a (List.mem_cons_self a rest))]
    exact ih (fun e he => hall e (List.mem_cons_of_mem a he))

theorem commitRemovals_idem (w : World) : commitRemovals (commitRemovals w) = commitRemovals w := by
  by_cases h : w.dirtyQueries.length = 0
  · have h1 : commitRemovals w = w := by
      unfold commitRemovals
      simp only [h, if_true]
    rw [h1, h1]
  · have h1 : (commitRemovals w).dirtyQueries = [] := by
      unfold commitRemovals
      simp only [h, if_false]
    generalize commitRemovals w = w1 at h1
    unfold commitRemovals
    simp only [h1, List.length_nil, if_true]

theorem queryChanged_eq (cs : Column → Column) (g : Globals) (w : World) (qd : QueryDef)
    (P : List Column) (t : Tracking) (cd : Bool) {qid : Nat} {q : Query}
    (hm : mapGet (commitRemovals (registerQueryIfNew g w qd)).queryMap qd = some qid)
    (hq : (commitRemovals (registerQueryIfNew g w qd)).queries[qid]? = some q)
    (hch : q.changedComponents ≠ []) :
    queryChanged cs g w qd P t cd =
      (commitRemovals (registerQueryIfNew g w qd), diff cs P q.live.dense t cd,
        (diff cs P q.live.dense t cd).changed) := by
  have hlen : ¬ q.changedComponents.length = 0 := fun h => hch (List.length_eq_zero.mp h)
  unfold queryChanged
  simp only [hm, hq, hlen, if_false]

/-- The two reads of a change-tracked query, on the live set `D` of the query. -/
theorem diff_second_read (cs : Column → Column) (hcs : ∀ col, (cs col).length = col.length)
    (P : List Column) (D : List Nat) (hD : D.Nodup) (t : Tracking)
    (hfit : ShadowsFit P t.shadows) (cd : Bool) :
    (diff cs P D (diff cs P D t cd) true).changed = [] ∧
    ∀ (pid : Nat) (col : Column) (e : Nat) (v : Int), P[pid]? = some col → e < col.length →
      col[e]? ≠ some v → e ∈ D →
      (diff cs (P.set pid (col.set e v)) D (diff cs P D t cd) true).changed = [e] := by
  obtain ⟨f1, f2, _⟩ := @foldl_diffEntity_sync cs hcs P D
    { t with changed := if cd then [] else t.changed } hfit
  have ht1 : diff cs P D t cd =
      D.foldl (diffEntity cs P) { t with changed := if cd then [] else t.changed } := rfl
  rw [← ht1] at f1 f2
  generalize diff cs P D t cd = t1 at f1 f2
  constructor
  · have : diff cs P D t1 true = { t1 with changed := [] } := by
      unfold diff
      simp only [if_true]
      exact foldl_diffEntity_fixed cs hcs D f1 f2
    rw [this]
  · intro pid col e v hcol hlt hne he
    have hplt : pid < P.length := by
      by_contra hcon
      rw [List.getElem?_eq_none_iff.mpr (Nat.le_of_not_lt hcon)] at hcol
      exact Option.noConfusion hcol
    have hP' : ∀ p, (P.set pid (col.set e v))[p]? =
        if p = pid then some (col.set e v) else P[p]? := by
      intro p
      rw [List.getElem?_set]
      by_cases hp : pid = p
      · subst hp; simp [hplt]
      · rw [if_neg hp, if_neg (fun h : p = pid => hp h.symm)]
    have hfit' : ShadowsFit (P.set pid (col.set e v)) t1.shadows := by
      intro p sh hp
      obtain ⟨c, hc, hl⟩ := f1 p sh hp
      rw [hP' p]
      by_cases hpp : p = pid
      · subst hpp
        rw [hcol] at hc
        cases hc
        exact ⟨col.set e v, by simp, by rw [List.length_set]; exact hl⟩
      · exact ⟨c, by simp [hpp, hc], hl⟩
    have hsync' : ∀ S : List (Nat × Column), ∀ p e', e' ≠ e → Synced P S p e' →
        Synced (P.set pid (col.set e v)) S p e' := by
      rintro S p e' hee ⟨sh, c, hs, hc, heq⟩
      by_cases hpp : p = pid
      · subst hpp
        rw [hcol] at hc
        cases hc
        refine ⟨sh, col.set e v, hs, by rw [hP' p]; simp, ?_⟩
        rw [getElem?_set_other _ _ _ _ hee]
        exact heq
      · exact ⟨sh, c, hs, by rw [hP' p]; simp [hpp, hc], heq⟩
    obtain ⟨l1, l2, hsplit⟩ := List.append_of_mem he
    rw [hsplit] at hD
    have hnd := List.nodup_append.mp hD
    have he1 : e ∉ l1 := fun h => hnd.2.2 h (List.mem_cons_self e l2)
    have he2 : e ∉ l2 := (List.nodup_cons.mp hnd.2.1).1
    have hl1 : ∀ x ∈ l1, x ∈ D := fun x hx => by rw [hsplit]; exact List.mem_append_left _ hx
    have hl2 : ∀ x ∈ l2, x ∈ D := fun x hx => by
      rw [hsplit]; exact List.mem_append_right _ (List.mem_cons_of_mem e hx)
    have hfit0 : ShadowsFit (P.set pid (col.set e v))
        ({ t1 with changed := [] } : Tracking).shadows := hfit'
    have hlenP : (P.set pid (col.set e v)).length = P.length := List.length_set _ _ _
    -- the entities before `e`
    have step1 : l1.foldl (diffEntity cs (P.set pid (col.set e v))) { t1 with changed := [] } =
        { t1 with changed := [] } := by
      apply foldl_diffEntity_fixed cs hcs l1 hfit0
      intro x hx p hp
      rw [hlenP] at hp
      exact hsync' _ p x (fun h => he1 (h ▸ hx)) (f2 x (hl1 x hx) p hp)
    -- the entity `e`
    obtain ⟨sh, c, hs, hc, heq⟩ := f2 e he pid hplt
    rw [hcol] at hc
    cases hc
    have hcell : sh[e]? ≠ (col.set e v)[e]? := by
      rw [heq, List.getElem?_set]
      simp only [hlt, if_true]
      exact hne
    obtain ⟨g1, g2, g3, _, g5⟩ := diffEntity_spec cs hcs hfit0 e
    have hchanged := g5 pid sh (col.set e v) hs (by rw [hP' pid]; simp) hcell
    -- the entities after `e`
    have step2 : l2.foldl (diffEntity cs (P.set pid (col.set e v)))
        (diffEntity cs (P.set pid (col.set e v)) { t1 with changed := [] } e) =
        diffEntity cs (P.set pid (col.set e v)) { t1 with changed := [] } e := by
      apply foldl_diffEntity_fixed cs hcs l2 g1
      intro x hx p hp
      apply g3
      rw [hlenP] at hp
      exact hsync' _ p x (fun h => he2 (h ▸ hx)) (f2 x (hl2 x hx) p hp)
    unfold diff
    simp only [if_true]
    rw [hsplit, List.foldl_append, List.foldl_cons, step1, step2, hchanged]
    rfl

/-- The reads of a change-tracked query in a reachable state. -/
theorem changed_reads (cs : Column → Column) (hcs : ∀ col, (cs col).length = col.length)
    (s : State) (hs : Reachable s) (qd : QueryDef) (hch : changedOf qd ≠ [])
    (P : List Column) (t : Tracking) (hfit : ShadowsFit P t.shadows) (cd : Bool) :
    (queryChanged cs s.g (queryChanged cs s.g s.w qd P t cd).1 qd P
      (queryChanged cs s.g s.w qd P t cd).2.1 true).2.2 = [] ∧
    ∀ (pid : Nat) (col : Column) (e : Nat) (v : Int), P[pid]? = some col → e < col.length →
      col[e]? ≠ some v →
      (∃ qid q, mapGet (queryChanged cs s.g s.w qd P t cd).1.queryMap qd = some qid ∧
        (queryChanged cs s.g s.w qd P t cd).1.queries[qid]? = some q ∧ q.live.has e = true) →
      (queryChanged cs s.g (queryChanged cs s.g s.w qd P t cd).1 qd (P.set pid (col.set e v))
        (queryChanged cs s.g s.w qd P t cd).2.1 true).2.2 = [e] := by
  obtain ⟨qid, q, hm, hq, _, _, hqch, _, _⟩ := query_result hs qd
  rw [query_world] at hm hq
  have hch' : q.changedComponents ≠ [] := by rw [hqch]; exact hch
  have hinv : Inv (step s (.query qd)) := inv_step hs.inv (.query qd) trivial
  have hw : (step s (Op.query qd)).w = commitRemovals (registerQueryIfNew s.g s.w qd) :=
    query_world s.g s.w qd
  have hwf : q.live.WF := by
    have := hinv.winv.base.sets_wf qid q (by rw [hw]; exact hq)
    exact this.1
  have hnd : q.live.dense.Nodup := hwf.nodup
  have hread := queryChanged_eq cs s.g s.w qd P t cd hm hq hch'
  have hreg' : ∀ w' : World, mapGet w'.queryMap qd = some qid →
      registerQueryIfNew s.g w' qd = w' := by
    intro w' h'
    unfold registerQueryIfNew
    rw [h']
    rfl
  have hreg := hreg' _ hm
  have hagain : commitRemovals (registerQueryIfNew s.g
      (commitRemovals (registerQueryIfNew s.g s.w qd)) qd) =
      commitRemovals (registerQueryIfNew s.g s.w qd) := by
    rw [hreg, commitRemovals_idem]
  have hread2 : ∀ (P' : List Column) (t' : Tracking),
      queryChanged cs s.g (commitRemovals (registerQueryIfNew s.g s.w qd)) qd P' t' true =
        (commitRemovals (registerQueryIfNew s.g s.w qd), diff cs P' q.live.dense t' true,
          (diff cs P' q.live.dense t' true).changed) := by
    intro P' t'
    have := queryChanged_eq cs s.g (commitRemovals (registerQueryIfNew s.g s.w qd)) qd P' t' true
      (by rw [hagain]; exact hm) (by rw [hagain]; exact hq) hch'
    rw [this, hagain]
  obtain ⟨d1, d2⟩ := diff_second_read cs hcs P q.live.dense hnd t hfit cd
  rw [hread]
  constructor
  · rw [hread2]
    exact d1
  · intro pid col e v hcol hlt hne hlive
    obtain ⟨qid', q', hm', hq', hl'⟩ := hlive
    rw [hm] at hm'
    cases hm'
    rw [hq] at hq'
    cases hq'
    rw [hread2]
    exact d2 pid col e v hcol hlt hne (SparseSet.has_mem _ _ hl')

/-- C11: for a query with `Changed` components over columns of integers, read once
in a reachable state (`createShadow` returning a buffer as long as the column):
a second read with nothing changed in between returns the empty list, and when
one column of the tracked ones has been given a different value at one entity of
the live set in between, the second read returns exactly that entity. -/
theorem changed_query_second_read (cs : Column → Column)
    (hcs : ∀ col, (cs col).length = col.length)
    (s : State) (hs : Reachable s) (qd : QueryDef) (hch : changedOf qd ≠ [])
    (P : List Column) (t : Tracking) (hfit : ShadowsFit P t.shadows) (cd : Bool) :
    (queryChanged cs s.g (queryChanged cs s.g s.w qd P t cd).1 qd P
      (queryChanged cs s.g s.w qd P t cd).2.1 true).2.2 = [] ∧
    ∀ (pid : Nat) (col : Column) (e : Nat) (v : Int), P[pid]? = some col → e < col.length →
      col[e]? ≠ some v →
      (∃ qid q, mapGet (queryChanged cs s.g s.w qd P t cd).1.queryMap qd = some qid ∧
        (queryChanged cs s.g s.w qd P t cd).1.queries[qid]? = some q ∧ q.live.has e = true) →
      (queryChanged cs s.g (queryChanged cs s.g s.w qd P t cd).1 qd (P.set pid (col.set e v))
        (queryChanged cs s.g s.w qd P t cd).2.1 true).2.2 = [e] :=
  changed_reads cs hcs s hs qd hch P t hfit cd

/-! ## Change detection, identifiers and errors on concrete worlds -/

set_option maxRecDepth 100000

theorem reachable_stateHalf : Reachable stateHalf :=
  reachable_run (Reachable.init 3 { mant := 1, scale := 1 } 3) _ (by decide)

theorem reachable_stateDouble : Reachable stateDouble :=
  reachable_run (Reachable.init 10 threshold035 10) _ (by decide)

theorem reachable_stateTracked : Reachable stateTracked :=
  reachable_run (reachable_newState 10 4) _ (by decide)

theorem reachable_twoWorlds : UReachable twoWorlds :=
  UReachable.call 0 (.removeEntity 0)
    (UReachable.call 0 .addEntity
      (UReachable.call 1 .addEntity
        (UReachable.call 0 .addEntity
          (UReachable.createWorld 4
            (UReachable.createWorld 4 (UReachable.init 10 defaultRemovedReuseThreshold)))
          (fun _ _ => trivial))
        (fun _ _ => trivial))
      (fun _ _ => trivial))
    (fun _ _ => trivial)

/-- Witness of C11: entities `0` and `1` have the tracked component, whose column
holds `5` and `7` for them.  The first read makes the shadow; the second read
returns nothing; after the value of entity `1` has become `9` the read returns
entity `1`. -/
theorem changed_query_second_read_witness :
    (changedOf queryChangedA ≠ [] ∧
      (queryChanged id stateTracked.g stateTracked.w queryChangedA trackedColumns noTracking
        true).2.1 = { changed := [], shadows := [(0, [5, 7, 0, 0])] }) ∧
    (queryChanged id stateTracked.g
      (queryChanged id stateTracked.g stateTracked.w queryChangedA trackedColumns noTracking
        true).1 queryChangedA trackedColumns
      (queryChanged id stateTracked.g stateTracked.w queryChangedA trackedColumns noTracking
        true).2.1 true).2.2 = [] ∧
    (queryChanged id stateTracked.g
      (queryChanged id stateTracked.g stateTracked.w queryChangedA trackedColumns noTracking
        true).1 queryChangedA (trackedColumns.set 0 ([5, 7, 0, 0].set 1 9))
      (queryChanged id stateTracked.g stateTracked.w queryChangedA trackedColumns noTracking
        true).2.1 true).2.2 = [1] :=
  ⟨by decide,
    (changed_query_second_read id (fun _ => rfl) stateTracked reachable_stateTracked
      queryChangedA (by decide) trackedColumns noTracking
      (fun _ _ h => Option.noConfusion h) true).1,
    (changed_query_second_read id (fun _ => rfl) stateTracked reachable_stateTracked
      queryChangedA (by decide) trackedColumns noTracking
      (fun _ _ h => Option.noConfusion h) true).2 0 [5, 7, 0, 0] 1 9 rfl (by decide) (by decide)
      ⟨0, queryAt (queryChanged id stateTracked.g stateTracked.w queryChangedA trackedColumns
        noTracking true).1 0, by decide, by decide, by decide⟩⟩

/-- Witness of C12: two worlds in one module; entity `2` exists in the first world
and entity `1` in the second, identifier `0` is in the removed pool, and
`addEntity` on the second world returns `0`, which exists in neither world. -/
theorem entity_ids_never_reused_while_live_witness :
    (entityExists (worldAt twoWorlds 0) 2 = true ∧ entityExists (worldAt twoWorlds 1) 1 = true ∧
      twoWorlds.g.removed = [0] ∧
      (addEntity { g := twoWorlds.g, w := worldAt twoWorlds 1 }).2 = .ok 0) ∧
    entityExists (worldAt twoWorlds 0) 0 = false ∧
    entityExists (worldAt twoWorlds 1) 2 = false ∧
    (twoWorlds.g.removed ++ twoWorlds.g.recycled).Nodup :=
  ⟨by decide,
    (entity_ids_never_reused_while_live twoWorlds reachable_twoWorlds).1 1 (worldAt twoWorlds 1) 0
      (by decide) (by decide) 0 (worldAt twoWorlds 0) (by decide),
    (entity_ids_never_reused_while_live twoWorlds reachable_twoWorlds).2.1 0 1
      (worldAt twoWorlds 0) (worldAt twoWorlds 1) (by decide) (by decide) (by decide) 2
      (by decide),
    (entity_ids_never_reused_while_live twoWorlds reachable_twoWorlds).2.2.1⟩

/-- Counterexample to C13 as stated: global size and world size `3`, threshold
`1 / 2`, no manual recycling, entities `0` and `1` removed.  The removed pool has
length `2`, which exceeds `3 × 1 / 2`, and `2` is one removal more than the one
removal that `1 ≤ 3 × 1 / 2` allows; still `addEntity` returns the cursor `2` and
leaves the pool as it is. -/
theorem recycling_threshold_counterexample :
    stateHalf.w.manualEntityRecycling = false ∧ stateHalf.g.globalSize = 3 ∧
    stateHalf.w.size = 3 ∧ stateHalf.g.removedReuseThreshold = { mant := 1, scale := 1 } ∧
    stateHalf.g.removed = [0, 1] ∧
    stateHalf.g.removed.length * 2 ^ stateHalf.g.removedReuseThreshold.scale >
      stateHalf.g.globalSize * stateHalf.g.removedReuseThreshold.mant ∧
    stateHalf.g.globalEntityCursor = 2 ∧
    (addEntity stateHalf).2 = .ok 2 ∧ (addEntity stateHalf).1.g.removed = [0, 1] := by
  decide

/-- Witness of C13, amended: in `stateDouble` the global size is `10` and the
threshold the double `0.35`.  The exact product is just below `3.5`, the double
product is `3.5` and the limit is `4`; the pool of length `4` does not exceed it
and `addEntity` returns the cursor; after one removal more `addEntity` returns
the oldest removed identifier.  The limit is `2` for size `3` and threshold
`0.5`, `14` for size `100` and the double `0.145`, `3` for size `100000` and the
double `0.000035`, and `1000` for the default size and threshold. -/
theorem automatic_recycling_rounds_threshold_witness :
    (exactProduct stateDouble.g = 31525197391593470 ∧
      sizeTimesThreshold stateDouble.g = 31525197391593472 ∧
      stateDouble.g.removedReuseThreshold.scale = 53 ∧ reuseLimit stateDouble.g = 4 ∧
      stateDouble.g.removed = [0, 1, 2, 3] ∧ (addEntity stateDouble).2 = .ok 5 ∧
      (addEntity (removeEntity (addEntity stateDouble).1 4)).2 = .ok 0 ∧
      reuseLimit stateHalf.g = 2 ∧
      reuseLimit (initGlobals 100 { mant := 5224175567749775, scale := 55 }) = 14 ∧
      reuseLimit (initGlobals 100000 { mant := 2582544170319337, scale := 66 }) = 3 ∧
      reuseLimit (initGlobals 100000 defaultRemovedReuseThreshold) = 1000) ∧
    (((∃ a e, a < 2 ^ 53 ∧ sizeTimesThreshold stateDouble.g = a * 2 ^ e) ∧
      (∀ a e f, a < 2 ^ 53 →
        Nat.dist (sizeTimesThreshold stateDouble.g * 2 ^ f) (exactProduct stateDouble.g * 2 ^ f) ≤
          Nat.dist (a * 2 ^ e) (exactProduct stateDouble.g * 2 ^ f)) ∧
      (2 * (exactProduct stateDouble.g %
            2 ^ excessBits (exactProduct stateDouble.g) (exactProduct stateDouble.g)) =
          2 ^ excessBits (exactProduct stateDouble.g) (exactProduct stateDouble.g) →
        sizeTimesThreshold stateDouble.g /
          2 ^ excessBits (exactProduct stateDouble.g) (exactProduct stateDouble.g) % 2 = 0) ∧
      (exactProduct stateDouble.g < 2 ^ 53 →
        sizeTimesThreshold stateDouble.g = exactProduct stateDouble.g)) ∧
    (2 ^ (stateDouble.g.removedReuseThreshold.scale + 1) * reuseLimit stateDouble.g ≤
        2 * sizeTimesThreshold stateDouble.g + 2 ^ stateDouble.g.removedReuseThreshold.scale ∧
      2 * sizeTimesThreshold stateDouble.g + 2 ^ stateDouble.g.removedReuseThreshold.scale <
        2 ^ (stateDouble.g.removedReuseThreshold.scale + 1) * (reuseLimit stateDouble.g + 1)) ∧
    (stateDouble.g.removed.length > reuseLimit stateDouble.g →
      ∃ e rest, stateDouble.g.removed = e :: rest ∧
        (addEntity stateDouble).1.g = { stateDouble.g with removed := rest } ∧
        ((addEntity stateDouble).2 = .ok e ∨
          (e > stateDouble.w.size ∧ (addEntity stateDouble).2 = .error .maxEntitiesReached))) ∧
    (stateDouble.g.removed.length ≤ reuseLimit stateDouble.g →
      (addEntity stateDouble).1.g =
        { stateDouble.g with globalEntityCursor := stateDouble.g.globalEntityCursor + 1 } ∧
      stateDouble.g.globalEntityCursor ∉ stateDouble.g.removed ∧
      ((addEntity stateDouble).2 = .ok stateDouble.g.globalEntityCursor ∨
        (stateDouble.g.globalEntityCursor > stateDouble.w.size ∧
          (addEntity stateDouble).2 = .error .maxEntitiesReached)))) :=
  ⟨by decide,
    automatic_recycling_rounds_threshold stateDouble reachable_stateDouble (by decide)⟩

/-- Witness of C14: in `stateFull`, a world of size `2`, the cursor is `3` and
`addEntity` raises; in a new world of size `2` it returns `0`. -/
theorem addEntity_raises_iff_above_size_witness :
    ((chooseEid stateFull.g stateFull.w.manualEntityRecycling).1 = 3 ∧ stateFull.w.size = 2 ∧
      (addEntity stateFull).2 = .error .maxEntitiesReached ∧
      (addEntity (newState 10 2)).2 = .ok 0) ∧
    ((addEntity stateFull).2 = .error .maxEntitiesReached ↔
      (chooseEid stateFull.g stateFull.w.manualEntityRecycling).1 > stateFull.w.size) ∧
    entityExists (addEntity (newState 10 2)).1.w
      (chooseEid (newState 10 2).g (newState 10 2).w.manualEntityRecycling).1 = true ∧
    getEntityComponents (addEntity (newState 10 2)).1.w
      (some (chooseEid (newState 10 2).g (newState 10 2).w.manualEntityRecycling).1) = .ok [] :=
  ⟨by decide, (addEntity_raises_iff_above_size stateFull).1,
    ((addEntity_raises_iff_above_size (newState 10 2)).2.2 (by decide)).2.1,
    ((addEntity_raises_iff_above_size (newState 10 2)).2.2 (by decide)).2.2⟩

/-- C15 on the code: in `stateFull`, a world of size `2` with the cursor at `3`,
`addEntity` raises the capacity error and the cursor is `4` afterwards. -/
theorem addEntity_error_advances_cursor :
    stateFull.w.size = 2 ∧ stateFull.g.globalEntityCursor = 3 ∧
    (addEntity stateFull).2 = .error .maxEntitiesReached ∧
    (addEntity stateFull).1.g.globalEntityCursor = 4 ∧
    (addEntity stateFull).1 ≠ stateFull := by
  decide

/-- Witness of C16: in `stateAB` entity `7` does not exist: `addComponent` and
`removeComponent` raise for it and for an undefined identifier. -/
theorem component_calls_raise_iff_witness :
    (entityExists stateAB.w 7 = false ∧
      addComponent stateAB.w 0 none = .error .entityUndefined) ∧
    (addComponent stateAB.w 0 (some 7) = .error .entityDoesNotExist ∧
      removeComponent stateAB.w 0 (some 7) = .error .entityDoesNotExist) ∧
    step stateAB (.addComponent 0 (some 7)) = stateAB ∧
    step stateAB (.removeComponent 0 (some 7)) = stateAB :=
  ⟨by decide,
    (component_calls_raise_iff stateAB reachable_stateAB 0 (some 7)).2.2.2.1 7 rfl (by decide),
    (component_calls_raise_iff stateAB reachable_stateAB 0 (some 7)).2.2.2.2.2.1
      ⟨.entityDoesNotExist, by decide⟩,
    (component_calls_raise_iff stateAB reachable_stateAB 0 (some 7)).2.2.2.2.2.2
      ⟨.entityDoesNotExist, by decide⟩⟩

/-- Counterexample to C17 as stated: in `stateAB` entity `0` exists and is in the
live set of the query over `[A, B]`; when `removeEntity` has returned, the entity
does not exist and is still in the live set of the query, among its pending
removals. -/
theorem removeEntity_counterexample :
    entityExists stateAB.w 0 = true ∧
    (stateAB.w.queries[0]?).map (fun q => q.live.has 0) = some true ∧
    entityExists (removeEntity stateAB 0).w 0 = false ∧
    ((removeEntity stateAB 0).w.queries[0]?).map (fun q => (q.live.has 0, q.toRemove.has 0)) =
      some (true, true) := by
  decide

/-- Witness of C17, amended: `removeEntity` of entity `0` in `stateAB`. -/
theorem removeEntity_defers_query_removal_witness :
    (entityExists stateAB.w 0 = true ∧ stateAB.w.queries[0]? = some (queryAt stateAB.w 0) ∧
      (queryAt stateAB.w 0).live.has 0 = true) ∧
    ∃ q', (removeEntity stateAB 0).w.queries[0]? = some q' ∧ q'.live = (queryAt stateAB.w 0).live ∧
      ((queryAt stateAB.w 0).live.has 0 = true →
        q'.toRemove.has 0 = true ∧ 0 ∈ (removeEntity stateAB 0).w.dirtyQueries) ∧
      ∃ q'', (commitRemovals (removeEntity stateAB 0).w).queries[0]? = some q'' ∧
        q''.live.has 0 = false :=
  ⟨by decide,
    removeEntity_defers_query_removal stateAB reachable_stateAB 0 (by decide) 0
      (queryAt stateAB.w 0) (by decide)⟩

/-- Witness of C18: `removeEntity` of entity `0`, which has two components, in
`stateAB`. -/
theorem removeEntity_postcondition_witness :
    (entityExists stateAB.w 0 = true ∧ getEntityComponents stateAB.w (some 0) = .ok [0, 1] ∧
      stateAB.w.manualEntityRecycling = false ∧ (removeEntity stateAB 0).g.removed = [0]) ∧
    (entityExists (removeEntity stateAB 0).w 0 = false ∧
    (∀ g, readMask (removeEntity stateAB 0).w.entityMasks g 0 = 0) ∧
    (∀ c, hasComponent (removeEntity stateAB 0).w c 0 = false) ∧
    mapGet (removeEntity stateAB 0).w.entityComponents 0 = none ∧
    (stateAB.w.manualEntityRecycling = true →
      (removeEntity stateAB 0).g.recycled = stateAB.g.recycled ++ [0] ∧
        (removeEntity stateAB 0).g.removed = stateAB.g.removed) ∧
    (stateAB.w.manualEntityRecycling = false →
      (removeEntity stateAB 0).g.removed = stateAB.g.removed ++ [0] ∧
        (removeEntity stateAB 0).g.recycled = stateAB.g.recycled) ∧
    ((removeEntity stateAB 0).g.removed ++ (removeEntity stateAB 0).g.recycled).count 0 = 1) :=
  ⟨by decide, removeEntity_postcondition stateAB reachable_stateAB 0 (by decide)⟩

/-- Witness of C19: in `stateAB` entity `7` does not exist and `removeEntity` of it
changes nothing; a second `removeEntity` of entity `0` changes nothing. -/
theorem removeEntity_absent_is_noop_witness :
    (entityExists stateAB.w 7 = false ∧ (removeEntity stateAB 0).g.removed = [0]) ∧
    removeEntity stateAB 7 = stateAB ∧
    removeEntity (removeEntity stateAB 0) 0 = removeEntity stateAB 0 ∧
    ((removeEntity (removeEntity stateAB 0) 0).g.removed ++
      (removeEntity (removeEntity stateAB 0) 0).g.recycled).count 0 ≤ 1 :=
  ⟨by decide, (removeEntity_absent_is_noop stateAB reachable_stateAB 7).1 (by decide),
    (removeEntity_absent_is_noop stateAB reachable_stateAB 0).2.1,
    (removeEntity_absent_is_noop stateAB reachable_stateAB 0).2.2⟩

/-- C20 on the code: in a world of size `2` reached by three calls of `addEntity`
and `addComponent` of the registered component `0` to entity `2`, the entity
exists and `getEntityComponents` lists the component, but the bit of the
component is not set in the mask of the entity: every mask word of the entity
reads `0`. -/
theorem held_component_without_bit :
    (∃ w', addComponent stateFull.w 0 (some 2) = .ok w') ∧
    (let w1 := worldOf (addComponent stateFull.w 0 (some 2)) stateFull.w
     entityExists w1 2 = true ∧
     mapGet w1.componentMap 0 =
       some { generationId := 0, bitflag := 1, store := 0, queries := [] } ∧
     getEntityComponents w1 (some 2) = .ok [0] ∧
     hasBitAt w1.entityMasks w1.componentMap 0 2 = false ∧
     readMask w1.entityMasks 0 2 = 0 ∧ w1.entityMasks = [[0, 0]]) :=
  ⟨⟨worldOf (addComponent stateFull.w 0 (some 2)) stateFull.w, by decide⟩, by decide⟩

/-! ## The indexed set -/

theorem SparseSet.Built.wf {s : SparseSet} (h : s.Built) : s.WF := by
  induction h with
  | empty => exact SparseSet.WF_empty
  | add v _ ih => exact ih.add v
  | remove v _ ih => exact ih.remove v

/-- C24: for every indexed set built from the empty one by `add` and `remove` and
every value `v`: after `add(v)`, `has(v)` is true and `has(w)` is as before for
every other `w`; after `remove(v)`, `has(v)` is false and `has(w)` is as before
for every other `w`; `add` of a member and `remove` of a value that is no member
leave the arrays `dense` and `sparse` as they are. -/
theorem sparseSet_is_finite_set (s : SparseSet) (hs : s.Built) (v : Nat) :
    (s.add v).has v = true ∧ (∀ w, w ≠ v → (s.add v).has w = s.has w) ∧
    (s.remove v).has v = false ∧ (∀ w, w ≠ v → (s.remove v).has w = s.has w) ∧
    (s.has v = true → s.add v = s) ∧ (s.has v = false → s.remove v = s) := by
  refine ⟨?_, ?_, ?_, ?_, fun h => SparseSet.add_of_has h, fun h => SparseSet.remove_of_not_has h⟩
  · rw [SparseSet.has_add]; simp
  · intro w hw
    rw [SparseSet.has_add]; simp [hw]
  · rw [hs.wf.has_remove]; simp
  · intro w hw
    rw [hs.wf.has_remove]; simp [hw]

/-- C25: every indexed set built from the empty one by `add` and `remove` has no
value twice in `dense` and `sparse[dense[i]] = i` at every index `i` of `dense`;
`remove(v)` of a member stored at index `i` makes `dense` one shorter, puts the
former last element at index `i`, with its entry in `sparse` set to `i`, when `i`
was not the last index, and leaves every other position of `dense` as it was. -/
theorem sparseSet_structure (s : SparseSet) (hs : s.Built) :
    s.dense.Nodup ∧ (∀ i v, s.dense[i]? = some v → jsGet s.sparse v = some i) ∧
    ∀ v, s.has v = true → ∃ i d last, jsGet s.sparse v = some i ∧ s.dense[i]? = some v ∧
      s.dense = d ++ [last] ∧ (s.remove v).dense.length + 1 = s.dense.length ∧
      (i < d.length →
        (s.remove v).dense = d.set i last ∧ jsGet (s.remove v).sparse last = some i) ∧
      (¬ i < d.length → (s.remove v).dense = d ∧ (s.remove v).sparse = s.sparse) ∧
      (∀ j, j ≠ i → j < (s.remove v).dense.length → (s.remove v).dense[j]? = s.dense[j]?) := by
  refine ⟨hs.wf.nodup, hs.wf, ?_⟩
  intro v hv
  obtain ⟨i, hi, hdv⟩ := (SparseSet.has_iff s v).mp hv
  have hne : s.dense ≠ [] := by
    intro hnil
    rw [hnil] at hdv
    exact Option.noConfusion hdv
  rcases List.eq_nil_or_concat s.dense with hnil | ⟨d, last, hd⟩
  · exact absurd hnil hne
  rw [List.concat_eq_append] at hd
  have hrem := SparseSet.remove_eq hv hd hi
  refine ⟨i, d, last, hi, hdv, hd, ?_, ?_, ?_, ?_⟩
  · rw [hrem, hd]
    split <;> simp
  · intro hlt
    rw [hrem, if_pos hlt]
    exact ⟨rfl, by simp [jsGet_jsSet]⟩
  · intro hlt
    rw [hrem, if_neg hlt]
    exact ⟨rfl, rfl⟩
  · intro j hji hj
    rw [hrem] at hj ⊢
    rw [hd]
    by_cases hlt : i < d.length
    · simp only [hlt, if_true, List.length_set] at hj ⊢
      rw [List.getElem?_set, if_neg (fun h => hji h.symm), List.getElem?_append_left hj]
    · simp only [hlt, if_false] at hj ⊢
      rw [List.getElem?_append_left hj]

/-! ## `commitRemovals` and the registration invariant -/

theorem commitRemovals_dirty (w : World) : (commitRemovals w).dirtyQueries = [] := by
  unfold commitRemovals
  by_cases h : w.dirtyQueries.length = 0
  · simp only [h, if_true]
    exact List.length_eq_zero.mp h
  · simp only [h, if_false]

/-- C26: in a reachable world, after `commitRemovals` every query that was in the
dirty set has no pending removal left and has in its live set exactly the
entities that were in the live set and not pending, each once; every query that
was not in the dirty set is as it was; the dirty set is empty. -/
theorem commitRemovals_effect (s : State) (hs : Reachable s) (qid : Nat) (q : Query)
    (hq : s.w.queries[qid]? = some q) :
    ∃ q', (commitRemovals s.w).queries[qid]? = some q' ∧
      (qid ∈ s.w.dirtyQueries →
        q'.toRemove.dense = [] ∧ q'.live.dense.Nodup ∧
        (∀ e, q'.live.has e = (q.live.has e && !q.toRemove.has e)) ∧
        (∀ e, e ∈ q'.live.dense ↔ (e ∈ q.live.dense ∧ e ∉ q.toRemove.dense))) ∧
      (qid ∉ s.w.dirtyQueries → q' = q) ∧
      (commitRemovals s.w).dirtyQueries = [] := by
  obtain ⟨q', hq', hcom, hkeep, _⟩ := commitRemovals_get hs.inv.winv.base qid q hq
  refine ⟨q', hq', ?_, hkeep, commitRemovals_dirty s.w⟩
  intro _
  obtain ⟨hl, ht, _, _⟩ := hs.inv.winv.base.sets_wf qid q hq
  refine ⟨hcom.pending, hcom.wf_live.nodup, hcom.live, ?_⟩
  intro e
  rw [← hcom.wf_live.has_iff_mem, hcom.live e, ← hl.has_iff_mem]
  have hmem := ht.has_iff_mem e
  cases h1 : q.live.has e <;> cases h2 : q.toRemove.has e
  · simp
  · simp
  · have : e ∉ q.toRemove.dense := fun h => by
      rw [hmem.mpr h] at h2; exact Bool.noConfusion h2
    simp [this]
  · have : e ∈ q.toRemove.dense := hmem.mp h2
    simp [this]

/-! ## The registration invariant under any calls -/

/-- `registerComponent` keeps the registration invariant, also for a component that
is registered already: the record of the component is replaced by one with the
slot of the cursor, which no other component has. -/
theorem RegInv.register_any {w : World} (h : RegInv w) (c : Component) :
    RegInv (registerComponent w c) := by
  obtain ⟨k, hk, hbk⟩ := h.bitflag_pow
  have hlen : 0 < w.entityMasks.length := List.length_pos.mpr h.masks_ne
  have hwrap : w.bitflag * 2 ≥ 2 ^ 31 ↔ k = 30 := by rw [hbk]; exact two_pow_lt_two_pow_31 hk
  have hbpos : 0 < w.bitflag := by rw [hbk]; exact Nat.two_pow_pos k
  refine ⟨?_, ?_, ?_, ?_, ?_⟩
  · rw [registerComponent_bitflag]
    by_cases hw : w.bitflag * 2 ≥ 2 ^ 31
    · exact ⟨0, by omega, by rw [if_pos hw]; rfl⟩
    · refine ⟨k + 1, ?_, by rw [if_neg hw, hbk, Nat.pow_succ]⟩
      have : k ≠ 30 := fun e => hw (hwrap.mpr e)
      omega
  · rw [registerComponent_masks]
    split
    · simp
    · exact h.masks_ne
  · rw [registerComponent_masks, (registerComponent_frame w c).1]
    split
    · intro m hm
      rcases List.mem_append.mp hm with h1 | h1
      · exact h.masks_len m h1
      · simp at h1; subst h1; simp
    · exact h.masks_len
  · intro c' r hr
    by_cases hcc : c' = c
    · subst hcc
      rw [registerComponent_mapGet_self] at hr
      have hr := (Option.some.inj hr).symm
      subst hr
      refine ⟨rfl, ?_, k, hk, hbk, ?_⟩
      · rw [registerComponent_masks]
        split
        · simp; omega
        · simp only; omega
      · rw [registerComponent_masks, registerComponent_bitflag]
        by_cases hw : w.bitflag * 2 ≥ 2 ^ 31
        · simp only [hw, if_true, List.length_append, List.length_singleton]
          intro hh; omega
        · simp only [hw, if_false]
          intro _; omega
    · rw [registerComponent_mapGet_ne _ _ _ hcc] at hr
      obtain ⟨h1, h2, j, hj, hbj, hlt⟩ := h.rec_ok c' r hr
      refine ⟨h1, ?_, j, hj, hbj, ?_⟩
      · rw [registerComponent_masks]
        split
        · simp; omega
        · exact h2
      · rw [registerComponent_masks, registerComponent_bitflag]
        by_cases hw : w.bitflag * 2 ≥ 2 ^ 31
        · simp only [hw, if_true, List.length_append, List.length_singleton]
          intro hh; omega
        · simp only [hw, if_false]
          intro hh
          have := hlt hh
          omega
  · intro c1 c2 r1 r2 hr1 hr2 hg hb
    by_cases h1 : c1 = c
    · by_cases h2 : c2 = c
      · rw [h1, h2]
      · subst h1
        rw [registerComponent_mapGet_self] at hr1
        rw [registerComponent_mapGet_ne _ _ _ h2] at hr2
        have hr1 := (Option.some.inj hr1).symm
        subst hr1
        simp only at hg hb
        obtain ⟨_, h22, j, _, _, hlt⟩ := h.rec_ok c2 r2 hr2
        have := hlt (by omega)
        omega
    · by_cases h2 : c2 = c
      · subst h2
        rw [registerComponent_mapGet_self] at hr2
        rw [registerComponent_mapGet_ne _ _ _ h1] at hr1
        have hr2 := (Option.some.inj hr2).symm
        subst hr2
        simp only at hg hb
        obtain ⟨_, h22, j, _, _, hlt⟩ := h.rec_ok c1 r1 hr1
        have := hlt (by omega)
        omega
      · rw [registerComponent_mapGet_ne _ _ _ h1] at hr1
        rw [registerComponent_mapGet_ne _ _ _ h2] at hr2
        exact h.rec_inj c1 c2 r1 r2 hr1 hr2 hg hb

/-- The registration invariant depends on the cursor, the size, the shape of the
generation arrays and the generation, bitflag and store of the records only. -/
theorem RegInv.of_shape {w w' : World} (h : RegInv w) (hb : w'.bitflag = w.bitflag)
    (hlen : w'.entityMasks.length = w.entityMasks.length)
    (hrows : ∀ m ∈ w'.entityMasks, m.length = w'.size)
    (hcm : ∀ c r', mapGet w'.componentMap c = some r' → ∃ r, mapGet w.componentMap c = some r ∧
      r'.generationId = r.generationId ∧ r'.bitflag = r.bitflag ∧ r'.store = r.store) :
    RegInv w' := by
  refine ⟨by rw [hb]; exact h.bitflag_pow, ?_, hrows, ?_, ?_⟩
  · intro hnil
    have h0 : w'.entityMasks.length = 0 := by rw [hnil]; rfl
    rw [hlen] at h0
    exact h.masks_ne (List.length_eq_zero.mp h0)
  · intro c r' hr'
    obtain ⟨r, hr, h1, h2, h3⟩ := hcm c r' hr'
    obtain ⟨a1, a2, j, hj, hbj, hlt⟩ := h.rec_ok c r hr
    rw [h1, h2, h3, hlen, hb]
    exact ⟨a1, a2, j, hj, hbj, hlt⟩
  · intro c1 c2 r1' r2' hr1 hr2 hg hbf
    obtain ⟨r1, hr1o, a1, a2, _⟩ := hcm c1 r1' hr1
    obtain ⟨r2, hr2o, b1, b2, _⟩ := hcm c2 r2' hr2
    exact h.rec_inj c1 c2 r1 r2 hr1o hr2o (by rw [← a1, ← b1]; exact hg)
      (by rw [← a2, ← b2]; exact hbf)

theorem RegInv.of_frame {w w' : World} (h : RegInv w) (hfr : QFrame w w') : RegInv w' := by
  refine h.of_shape hfr.bitflag (by rw [hfr.entityMasks]) ?_ ?_
  · rw [hfr.entityMasks, hfr.size]; exact h.masks_len
  · intro c r' hr'
    rw [hfr.componentMap] at hr'
    exact ⟨r', hr', rfl, rfl, rfl⟩

theorem RegInv.registerIfNew_any {w : World} (h : RegInv w) (c : Component) :
    RegInv (registerIfNew w c) := by
  unfold ECS.registerIfNew
  split
  · exact h.register_any c
  · exact h

theorem RegInv.resolveTerm_any {acc : World × QueryLists} (h : RegInv acc.1) (t : QueryTerm) :
    RegInv (resolveTerm acc t).1 := by
  unfold resolveTerm
  split <;> exact h.registerIfNew_any _

theorem RegInv.foldl_resolveTerm (terms : List QueryTerm) {acc : World × QueryLists}
    (h : RegInv acc.1) : RegInv (terms.foldl resolveTerm acc).1 := by
  induction terms generalizing acc with
  | nil => exact h
  | cons t rest ih =>
    rw [List.foldl_cons]
    exact ih (h.resolveTerm_any t)

theorem RegInv.registerQuery_any {w : World} (h : RegInv w) (g : Globals) (qd : QueryDef) :
    RegInv (registerQuery g w qd) := by
  rw [registerQuery_eq]
  have h1 := RegInv.foldl_resolveTerm qd.queryComponents
    (show RegInv ((w, ({ components := [], notComponents := [], changedComponents := [] } :
      QueryLists)) : World × QueryLists).1 from h)
  generalize qd.queryComponents.foldl resolveTerm
    (w, { components := [], notComponents := [], changedComponents := [] }) = R at *
  obtain ⟨w1, ls⟩ := R
  simp only at h1 ⊢
  refine RegInv.of_frame ?_ (scan_spec _ _ _).1
  refine h1.of_shape rfl rfl h1.masks_len ?_
  intro c r' hr'
  obtain ⟨r, hr, a1, a2, a3, _⟩ := subscribe_record hr'
  exact ⟨r, hr, a1, a2, a3⟩

theorem RegInv.registerQueryIfNew_any {w : World} (h : RegInv w) (g : Globals) (qd : QueryDef) :
    RegInv (registerQueryIfNew g w qd) := by
  unfold registerQueryIfNew
  split
  · exact h.registerQuery_any g qd
  · exact h

theorem RegInv.mutated_any {w : World} (h : RegInv w) (r : Registration) (e v : Nat)
    (ec : List (Nat × List Component)) :
    RegInv { (r.queries.foldl (reevaluate e)
        { w with entityMasks := writeMask w.entityMasks r.generationId e v }) with
      entityComponents := ec } := by
  have h1 : RegInv { w with entityMasks := writeMask w.entityMasks r.generationId e v } :=
    h.reg_set_masks _ (writeMask_length _ _ _ _) (writeMask_row_length _ _ _ _ _ h.masks_len)
  rw [foldl_reevaluate_eq]
  have hfr := foldl_updQ_frame
    (reevalQ ({ w with entityMasks := writeMask w.entityMasks r.generationId e v } :
      World).entityMasks e)
    (reevalDirty ({ w with entityMasks := writeMask w.entityMasks r.generationId e v } :
      World).entityMasks e) r.queries
    { w with entityMasks := writeMask w.entityMasks r.generationId e v }
  have h2 := h1.of_frame hfr
  exact h2.of_shape rfl rfl h2.masks_len (fun c r' hr' => ⟨r', hr', rfl, rfl, rfl⟩)

/-- Every call keeps the registration invariant. -/
theorem regInv_step {s : State} (h : RegInv s.w) (op : Op) : RegInv (step s op).w := by
  cases op with
  | addEntity =>
    show RegInv (addEntity s).1.w
    by_cases hc : (chooseEid s.g s.w.manualEntityRecycling).1 > s.w.size
    · rw [addEntity_error s hc]; exact h
    · rw [(addEntity_ok_world s hc).1]
      refine RegInv.of_frame ?_ (foldl_updQ_frame _ _ _ _)
      exact h.of_shape rfl rfl h.masks_len (fun c r' hr' => ⟨r', hr', rfl, rfl, rfl⟩)
  | removeEntity eid =>
    show RegInv (removeEntity s eid).w
    by_cases hex : s.w.entitySparseSet.has eid = true
    · rw [removeEntity_exists s eid hex]
      have hfr := foldl_updQ_frame (removeQ eid) (removeDirty eid)
        (List.range s.w.queries.length) s.w
      refine h.of_shape hfr.bitflag (by simp) ?_ ?_
      · intro m hm
        simp only [List.mem_map] at hm
        obtain ⟨m0, hm0, rfl⟩ := hm
        rw [List.length_set]
        show m0.length = ((List.range s.w.queries.length).foldl
          (updQ (removeQ eid) (removeDirty eid)) s.w).size
        rw [hfr.size]
        exact h.masks_len m0 hm0
      · intro c r' hr'
        have hr'' : mapGet ((List.range s.w.queries.length).foldl
            (updQ (removeQ eid) (removeDirty eid)) s.w).componentMap c = some r' := hr'
        rw [hfr.componentMap] at hr''
        exact ⟨r', hr'', rfl, rfl, rfl⟩
    · rw [removeEntity_absent s eid (by simpa using hex)]; exact h
  | addComponent c eid =>
    unfold step
    simp only
    cases hr : addComponent s.w c eid with
    | error e => exact h
    | ok w' =>
      obtain ⟨e, _, _, hcase⟩ := addComponent_ok hr
      rcases hcase with ⟨_, rfl⟩ | ⟨_, r, _, rfl⟩
      · exact h.registerIfNew_any c
      · exact (h.registerIfNew_any c).mutated_any r e _ _
  | removeComponent c eid =>
    unfold step
    simp only
    cases hr : removeComponent s.w c eid with
    | error e => exact h
    | ok w' =>
      obtain ⟨e, _, _, hcase⟩ := removeComponent_ok hr
      rcases hcase with ⟨_, rfl⟩ | ⟨_, r, _, rfl⟩
      · exact h
      · exact h.mutated_any r e _ _
  | registerComponent c => exact h.register_any c
  | query qd =>
    show RegInv (query s.g s.w qd).1
    rw [query_world]
    exact (h.registerQueryIfNew_any s.g qd).of_frame (commitRemovals_frame _)
  | enterQuery qd =>
    show RegInv (enterQuery s.g s.w qd).1
    rw [enterQuery_world]
    exact h.registerQueryIfNew_any s.g qd
  | exitQuery qd =>
    show RegInv (exitQuery s.g s.w qd).1
    rw [exitQuery_world]
    exact h.registerQueryIfNew_any s.g qd
  | enableManualEntityRecycling =>
    exact h.of_shape rfl rfl h.masks_len (fun c r' hr' => ⟨r', hr', rfl, rfl, rfl⟩)
  | flushRemovedEntities =>
    unfold step
    simp only
    cases hr : flushRemovedEntities s with
    | error e => exact h
    | ok s1 =>
      unfold flushRemovedEntities at hr
      split at hr
      · exact Except.noConfusion hr
      · cases hr; exact h
  | setRemovedRecycleThreshold t => exact h

theorem Reached.regInv {s : State} (h : Reached s) : RegInv s.w := by
  induction h with
  | init globalSize threshold size => exact (inv_init globalSize threshold size).winv.base.reg
  | step op _ ih => exact regInv_step ih op

/-- C27: in every world reached from `createWorld` by any calls, among them explicit
registrations, of new components and of registered ones, and the registrations
that `addComponent` and the compilation of a query make: the bitflag cursor is a
power of two between `1` and `2 ^ 30`, the bitflag of every registered component
is a power of two between `1` and `2 ^ 30`, its generation is an index of the
list of generation arrays, and no two registered components have the same
generation and bitflag. -/
theorem registration_invariant (s : State) (hs : Reached s) :
    (∃ k, k ≤ 30 ∧ s.w.bitflag = 2 ^ k) ∧
    (∀ c r, mapGet s.w.componentMap c = some r →
      (∃ j, j ≤ 30 ∧ r.bitflag = 2 ^ j) ∧ r.generationId < s.w.entityMasks.length) ∧
    (∀ c c' r r', mapGet s.w.componentMap c = some r → mapGet s.w.componentMap c' = some r' →
      c ≠ c' → ¬ (r.generationId = r'.generationId ∧ r.bitflag = r'.bitflag)) := by
  have h := hs.regInv
  refine ⟨h.bitflag_pow, ?_, ?_⟩
  · intro c r hr
    obtain ⟨_, h2, j, hj, hb, _⟩ := h.rec_ok c r hr
    exact ⟨⟨j, hj, hb⟩, h2⟩
  · intro c c' r r' hr hr' hne hpair
    exact hne (h.rec_inj c c' r r' hr hr' hpair.1 hpair.2)

/-! ## The frame of `addComponent` and `removeComponent` -/

theorem hasComponent_regExt {w w' : World} (h : RegExt w w') {c' : Component}
    (hreg : (mapGet w.componentMap c').isSome = true) (e' : Nat) :
    hasComponent w' c' e' = hasComponent w c' e' := by
  cases hr : mapGet w.componentMap c' with
  | none => rw [hr] at hreg; exact Bool.noConfusion hreg
  | some r =>
    unfold hasComponent
    rw [hr, h.keep c' r hr]
    simp only
    rw [h.readMask]

/-- A write to the word of entity `e` in the generation of component `c` that keeps
every bit but the one of `c` changes `hasComponent` for no other pair of a
component and an entity. -/
theorem hasComponent_mutated {w : World} (h : RegInv w) {c : Component} {r : Registration}
    (hr : mapGet w.componentMap c = some r) (e v : Nat)
    (hv : ∀ j', j' ≤ 30 → r.bitflag ≠ 2 ^ j' →
      (v % 2 ^ 32).testBit j' = (readMask w.entityMasks r.generationId e).testBit j')
    (f : List Component → List Component) (c' : Component) (e' : Nat)
    (hne : c' ≠ c ∨ e' ≠ e) :
    hasComponent (mutated w r e v f) c' e' = hasComponent w c' e' := by
  obtain ⟨f1, f2, _⟩ := mutated_fields w r e v f
  rw [hasComponent_eq, hasComponent_eq, f1, f2]
  by_cases hcc : c' = c
  · have hee : e' ≠ e := by
      rcases hne with h1 | h1
      · exact absurd hcc h1
      · exact h1
    unfold hasBitAt
    cases mapGet w.componentMap c' with
    | none => rfl
    | some r' =>
      simp only
      rw [readMask_write_other_entity _ _ _ _ _ _ hee]
  · exact hasBitAt_write_other h hr e v hv hcc e'

/-- The frame of the two mutations in a reachable state. -/
theorem mutation_frame_lemma (s : State) (hs : Reachable s) (c : Component) (e : Nat)
    (hex : entityExists s.w e = true) :
    ∃ w1 w2, addComponent s.w c (some e) = .ok w1 ∧ removeComponent s.w c (some e) = .ok w2 ∧
      (∀ c' e', (mapGet s.w.componentMap c').isSome = true → (c', e') ≠ (c, e) →
        hasComponent w1 c' e' = hasComponent s.w c' e' ∧
        hasComponent w2 c' e' = hasComponent s.w c' e') ∧
      (∀ e', entityExists w1 e' = entityExists s.w e' ∧
        entityExists w2 e' = entityExists s.w e') := by
  have hex' : s.w.entitySparseSet.has e = true := hex
  have hreg := hs.inv.winv.base.reg
  have hext := registerIfNew_regExt s.w c
  have hregR : RegInv (registerIfNew s.w c) := hreg.registerIfNew_any c
  have hpair : ∀ c' e', (c', e') ≠ (c, e) → c' ≠ c ∨ e' ≠ e := by
    intro c' e' h
    by_cases h1 : c' = c
    · right
      intro h2
      exact h (by rw [h1, h2])
    · exact Or.inl h1
  -- addComponent
  have hadd : ∃ w1, addComponent s.w c (some e) = .ok w1 ∧
      (∀ c' e', (mapGet s.w.componentMap c').isSome = true → (c', e') ≠ (c, e) →
        hasComponent w1 c' e' = hasComponent s.w c' e') ∧
      w1.entitySparseSet = s.w.entitySparseSet := by
    by_cases hhc : hasComponent (registerIfNew s.w c) c e = true
    · refine ⟨_, addComponent_held hex' hhc, ?_, hext.entitySparseSet⟩
      intro c' e' hc' _
      exact hasComponent_regExt hext hc' e'
    · have hhc' : hasComponent (registerIfNew s.w c) c e = false := by simpa using hhc
      obtain ⟨r, hr⟩ := registerIfNew_isSome s.w c
      obtain ⟨_, _, j, hj, hb, _⟩ := hregR.rec_ok c r hr
      refine ⟨_, addComponent_new hex' hhc' hr, ?_, ?_⟩
      · intro c' e' hc' hne
        rw [hasComponent_mutated hregR hr e _ (set_hv _ j _ hb) _ c' e' (hpair c' e' hne)]
        exact hasComponent_regExt hext hc' e'
      · rw [(mutated_fields _ r e _ _).2.2.1]
        exact hext.entitySparseSet
  -- removeComponent
  have hrem : ∃ w2, removeComponent s.w c (some e) = .ok w2 ∧
      (∀ c' e', (c', e') ≠ (c, e) → hasComponent w2 c' e' = hasComponent s.w c' e') ∧
      w2.entitySparseSet = s.w.entitySparseSet := by
    by_cases hhc : hasComponent s.w c e = true
    · have hr : ∃ r, mapGet s.w.componentMap c = some r := by
        unfold hasComponent at hhc
        cases hm : mapGet s.w.componentMap c with
        | none => rw [hm] at hhc; exact Bool.noConfusion hhc
        | some r => exact ⟨r, rfl⟩
      obtain ⟨r, hr⟩ := hr
      obtain ⟨_, _, j, hj, hb, _⟩ := hreg.rec_ok c r hr
      refine ⟨_, removeComponent_held hex' hhc hr, ?_, (mutated_fields _ r e _ _).2.2.1⟩
      intro c' e' hne
      exact hasComponent_mutated hreg hr e _ (clear_hv _ j _ hj hb) _ c' e' (hpair c' e' hne)
    · have hhc' : hasComponent s.w c e = false := by simpa using hhc
      exact ⟨s.w, removeComponent_absent hex' hhc', fun _ _ _ => rfl, rfl⟩
  obtain ⟨w1, a1, a2, a3⟩ := hadd
  obtain ⟨w2, b1, b2, b3⟩ := hrem
  refine ⟨w1, w2, a1, b1, fun c' e' hc' hne => ⟨a2 c' e' hc' hne, b2 c' e' hne⟩, ?_⟩
  intro e'
  unfold entityExists
  rw [a3, b3]
  exact ⟨rfl, rfl⟩

/-- C28: in a reachable state, for every component `c` and existing entity `e`,
`addComponent` and `removeComponent` return, `hasComponent` has the value it had
for every registered component `c'` and every entity `e'` with `(c', e')` other
than `(c, e)`, and the same entities exist. -/
theorem mutation_frame (s : State) (hs : Reachable s) (c : Component) (e : Nat)
    (hex : entityExists s.w e = true) :
    ∃ w1 w2, addComponent s.w c (some e) = .ok w1 ∧ removeComponent s.w c (some e) = .ok w2 ∧
      (∀ c' e', (mapGet s.w.componentMap c').isSome = true → (c', e') ≠ (c, e) →
        hasComponent w1 c' e' = hasComponent s.w c' e' ∧
        hasComponent w2 c' e' = hasComponent s.w c' e') ∧
      (∀ e', entityExists w1 e' = entityExists s.w e' ∧
        entityExists w2 e' = entityExists s.w e') :=
  mutation_frame_lemma s hs c e hex

/-! ## Manual recycling -/

/-- `addEntity` returns no identifier of the recycled pool. -/
theorem addEntity_not_recycled (g : Globals) (w : World)
    (hnd : (g.removed ++ g.recycled).Nodup)
    (hbelow : ∀ e ∈ g.removed ++ g.recycled, e < g.globalEntityCursor) (e : Nat)
    (he : e ∈ g.recycled) : (addEntity { g := g, w := w }).2 ≠ .ok e := by
  intro hadd
  obtain ⟨h1, _, h3⟩ := addEntity_outcome { g := g, w := w }
  by_cases hc : (chooseEid g w.manualEntityRecycling).1 > w.size
  · rw [h1.mpr hc] at hadd
    exact Except.noConfusion hadd
  · rw [(h3 hc).1] at hadd
    have heq : (chooseEid g w.manualEntityRecycling).1 = e := Except.ok.inj hadd
    rcases chooseEid_cases g w.manualEntityRecycling with ⟨rest, hr, _⟩ | ⟨hcu, _⟩
    · rw [heq] at hr
      have hmem : e ∈ g.removed := by rw [hr]; exact List.mem_cons_self e rest
      exact (List.nodup_append.mp hnd).2.2 hmem he
    · have := hbelow e (List.mem_append_right _ he)
      rw [← heq, hcu] at this
      omega

/-- A call other than `flushRemovedEntities` takes nothing out of the recycled
pool. -/
theorem step_keeps_recycled (s : State) (op : Op) (hop : op ≠ .flushRemovedEntities) (e : Nat)
    (he : e ∈ s.g.recycled) : e ∈ (step s op).g.recycled := by
  cases op with
  | addEntity =>
    show e ∈ (addEntity s).1.g.recycled
    have hg : (addEntity s).1.g = (chooseEid s.g s.w.manualEntityRecycling).2 := by
      by_cases hc : (chooseEid s.g s.w.manualEntityRecycling).1 > s.w.size
      · rw [addEntity_error s hc]
      · exact (addEntity_ok_world s hc).2.1
    rw [hg]
    rcases chooseEid_cases s.g s.w.manualEntityRecycling with ⟨rest, _, h2⟩ | ⟨_, h2⟩
    · rw [h2]; exact he
    · rw [h2]; exact he
  | removeEntity eid =>
    show e ∈ (removeEntity s eid).g.recycled
    by_cases hex : s.w.entitySparseSet.has eid = true
    · rw [removeEntity_exists s eid hex]
      cases s.w.manualEntityRecycling with
      | true => exact List.mem_append_left _ he
      | false => exact he
    · rw [removeEntity_absent s eid (by simpa using hex)]; exact he
  | addComponent c eid =>
    unfold step
    simp only
    cases addComponent s.w c eid <;> exact he
  | removeComponent c eid =>
    unfold step
    simp only
    cases removeComponent s.w c eid <;> exact he
  | registerComponent c => exact he
  | query qd => exact he
  | enterQuery qd => exact he
  | exitQuery qd => exact he
  | enableManualEntityRecycling => exact he
  | flushRemovedEntities => exact absurd rfl hop
  | setRemovedRecycleThreshold t => exact he

theorem flushRemovedEntities_error_iff (s : State) :
    (∃ err, flushRemovedEntities s = .error err) ↔ s.w.manualEntityRecycling = false := by
  cases hm : s.w.manualEntityRecycling with
  | true =>
    have hf : flushRemovedEntities s =
        .ok { s with g := { s.g with removed := s.g.removed ++ s.g.recycled, recycled := [] } } := by
      unfold flushRemovedEntities
      simp only [hm, Bool.not_true, Bool.false_eq_true, if_false]
    rw [hf]
    constructor
    · rintro ⟨err, h⟩
      exact Except.noConfusion h
    · intro h
      exact Bool.noConfusion h
  | false =>
    have hf : flushRemovedEntities s = .error .cannotFlushRemovedEntities := by
      unfold flushRemovedEntities
      simp only [hm, Bool.not_false, if_true]
    rw [hf]
    exact ⟨fun _ => rfl, fun _ => ⟨_, rfl⟩⟩

/-- C22: in a reachable state, `removeEntity` of an existing entity in a world with
manual recycling appends the identifier to the recycled pool and leaves the
removed pool as it is; an identifier in the recycled pool is not returned by
`addEntity`, on this world or on any world of the module, and stays in the
recycled pool through every call but `flushRemovedEntities`; with manual
recycling `flushRemovedEntities` appends the recycled identifiers, in order, to
the removed pool and empties the recycled pool; it raises exactly when manual
recycling is not enabled, and then the state is as it was. -/
theorem manual_recycling (s : State) (hs : Reachable s) :
    (s.w.manualEntityRecycling = true → ∀ eid, entityExists s.w eid = true →
      (removeEntity s eid).g.recycled = s.g.recycled ++ [eid] ∧
        (removeEntity s eid).g.removed = s.g.removed) ∧
    (∀ e ∈ s.g.recycled, (addEntity s).2 ≠ .ok e ∧
      ∀ op, op ≠ Op.flushRemovedEntities → e ∈ (step s op).g.recycled) ∧
    (∀ u, UReachable u → ∀ e ∈ u.g.recycled, ∀ (i : Nat) (w : World), u.worlds[i]? = some w →
      (addEntity { g := u.g, w := w }).2 ≠ .ok e) ∧
    (s.w.manualEntityRecycling = true →
      flushRemovedEntities s =
        .ok { s with g := { s.g with removed := s.g.removed ++ s.g.recycled, recycled := [] } }) ∧
    ((∃ err, flushRemovedEntities s = .error err) ↔ s.w.manualEntityRecycling = false) ∧
    (s.w.manualEntityRecycling = false →
      flushRemovedEntities s = .error .cannotFlushRemovedEntities ∧
        step s .flushRemovedEntities = s) := by
  refine ⟨?_, ?_, ?_, ?_, flushRemovedEntities_error_iff s, ?_⟩
  · intro hm eid hex
    exact (removeEntity_post s hs eid hex).2.2.2.2.1 hm
  · intro e he
    refine ⟨?_, fun op hop => step_keeps_recycled s op hop e he⟩
    exact addEntity_not_recycled s.g s.w hs.inv.pool_nodup
      (fun x hx => (hs.inv.pool_free x hx).2) e he
  · intro u hu e he i w _
    exact addEntity_not_recycled u.g w hu.uinv.pool_nodup hu.uinv.pool_below e he
  · intro hm
    unfold flushRemovedEntities
    simp only [hm, Bool.not_true, Bool.false_eq_true, if_false]
  · intro hm
    have hf : flushRemovedEntities s = .error .cannotFlushRemovedEntities := by
      unfold flushRemovedEntities
      simp only [hm, Bool.not_false, if_true]
    refine ⟨hf, ?_⟩
    unfold step
    simp only [hf]

/-! ## What the change-detection pass compares -/

theorem any_congr_mem {α : Type} (l : List α) (f g : α → Bool) (h : ∀ x ∈ l, f x = g x) :
    l.any f = l.any g := by
  induction l with
  | nil => rfl
  | cons a rest ih =>
    rw [List.any_cons, List.any_cons, h a (List.mem_cons_self a rest),
      ih (fun x hx => h x (List.mem_cons_of_mem a hx))]

theorem shadow_of_ensure (cs : Column → Column) (S : List (Nat × Column)) (pid : Nat)
    (col : Column) :
    (mapGet (ensureShadow cs S pid col) pid).getD [] = (mapGet S pid).getD (cs col) ∧
    (mapGet (ensureShadow cs S pid col) pid).getD (cs col) = (mapGet S pid).getD (cs col) ∧
    ∀ pid', pid' ≠ pid → mapGet (ensureShadow cs S pid col) pid' = mapGet S pid' := by
  cases hm : mapGet S pid with
  | some sh =>
    have hE : ensureShadow cs S pid col = S := by
      unfold ensureShadow
      rw [hm]
      rfl
    rw [hE, hm]
    exact ⟨rfl, rfl, fun _ _ => rfl⟩
  | none =>
    have hE : ensureShadow cs S pid col = mapSet S pid (cs col) := by
      unfold ensureShadow
      rw [hm]
      rfl
    rw [hE, mapGet_mapSet_self]
    exact ⟨rfl, rfl, fun pid' hne => mapGet_mapSet_ne _ _ _ _ hne⟩

/-- One pass of the body of the loop over `pid`: the flag is raised exactly when the
cell differs from its shadow, and the comparison of every other cell is as it
was. -/
theorem diffProp_cells (cs : Column → Column) (P : List Column) (S : List (Nat × Column))
    (e : Nat) (d : Bool) (pid : Nat) :
    (diffProp cs P e (S, d) pid).2 = (d || cellDiffers cs P S pid e) ∧
    ∀ pid' e', pid' ≠ pid ∨ e' ≠ e →
      cellDiffers cs P (diffProp cs P e (S, d) pid).1 pid' e' = cellDiffers cs P S pid' e' := by
  cases hcol : P[pid]? with
  | none =>
    have hr : diffProp cs P e (S, d) pid = (S, d) := by
      unfold diffProp
      rw [hcol]
    rw [hr]
    refine ⟨?_, fun _ _ _ => rfl⟩
    unfold cellDiffers
    rw [hcol]
    simp
  | some col =>
    obtain ⟨h1, h2, h3⟩ := shadow_of_ensure cs S pid col
    have hshape : diffProp cs P e (S, d) pid =
        if col[e]? ≠ ((mapGet S pid).getD (cs col))[e]? then
          (mapSet (ensureShadow cs S pid col) pid
            (((mapGet S pid).getD (cs col)).set e ((col[e]?).getD 0)), true)
        else (ensureShadow cs S pid col, d) := by
      unfold diffProp
      simp only [hcol, h1]
    have hcell : cellDiffers cs P S pid e =
        decide (col[e]? ≠ ((mapGet S pid).getD (cs col))[e]?) := by
      unfold cellDiffers
      rw [hcol]
    have hother : ∀ (S' : List (Nat × Column)) (pid' e' : Nat),
        (∀ p, p ≠ pid → mapGet S' p = mapGet S p) →
        (∀ e'', e'' ≠ e → ((mapGet S' pid).getD (cs col))[e'']? =
          ((mapGet S pid).getD (cs col))[e'']?) →
        pid' ≠ pid ∨ e' ≠ e → cellDiffers cs P S' pid' e' = cellDiffers cs P S pid' e' := by
      intro S' pid' e' hp he hne
      unfold cellDiffers
      by_cases hpp : pid' = pid
      · subst hpp
        have hee : e' ≠ e := by
          rcases hne with h | h
          · exact absurd rfl h
          · exact h
        rw [hcol]
        simp only
        rw [he e' hee]
      · rw [hp pid' hpp]
    by_cases hne : col[e]? ≠ ((mapGet S pid).getD (cs col))[e]?
    · rw [hshape, if_pos hne, hcell]
      refine ⟨by simp [hne], ?_⟩
      intro pid' e' hpe
      apply hother _ pid' e' _ _ hpe
      · intro p hp
        simp only
        rw [mapGet_mapSet_ne _ _ _ _ hp]
        exact h3 p hp
      · intro e'' he''
        simp only
        rw [mapGet_mapSet_self]
        simp only [Option.getD_some]
        rw [List.getElem?_set, if_neg (fun h => he'' h.symm)]
    · rw [hshape, if_neg hne, hcell]
      refine ⟨by simp [hne], ?_⟩
      intro pid' e' hpe
      apply hother _ pid' e' h3 _ hpe
      intro e'' _
      rw [h2]

/-- The loop over `pid` for one entity, over distinct positions. -/
theorem foldl_diffProp_cells (cs : Column → Column) (P : List Column) (e : Nat) (l : List Nat)
    (hl : l.Nodup) (S : List (Nat × Column)) (d : Bool) :
    (l.foldl (diffProp cs P e) (S, d)).2 = (d || l.any fun pid => cellDiffers cs P S pid e) ∧
    ∀ pid' e', e' ≠ e →
      cellDiffers cs P (l.foldl (diffProp cs P e) (S, d)).1 pid' e' =
        cellDiffers cs P S pid' e' := by
  induction l generalizing S d with
  | nil => simp
  | cons a rest ih =>
    obtain ⟨ha, hrest⟩ := List.nodup_cons.mp hl
    obtain ⟨s1, s2⟩ := diffProp_cells cs P S e d a
    have hpair : diffProp cs P e (S, d) a =
        ((diffProp cs P e (S, d) a).1, (diffProp cs P e (S, d) a).2) := rfl
    rw [List.foldl_cons, hpair]
    obtain ⟨r1, r2⟩ := ih hrest (diffProp cs P e (S, d) a).1 (diffProp cs P e (S, d) a).2
    constructor
    · rw [r1, s1, List.any_cons]
      have hany : (rest.any fun pid => cellDiffers cs P (diffProp cs P e (S, d) a).1 pid e) =
          rest.any fun pid => cellDiffers cs P S pid e := by
        apply any_congr_mem
        intro pid hp
        exact s2 pid e (Or.inl (fun h => ha (h ▸ hp)))
      rw [hany, Bool.or_assoc]
    · intro pid' e' he'
      rw [r2 pid' e' he', s2 pid' e' (Or.inr he')]

/-- The body of the loop over the live set: the entity is appended to the list
exactly when one of the columns differs from its shadow at it, and the
comparisons for every other entity are as they were. -/
theorem diffEntity_cells (cs : Column → Column) (P : List Column) (t : Tracking) (e : Nat) :
    (diffEntity cs P t e).changed =
      (if entityDiffers cs P t.shadows e then t.changed ++ [e] else t.changed) ∧
    ∀ e', e' ≠ e →
      entityDiffers cs P (diffEntity cs P t e).shadows e' = entityDiffers cs P t.shadows e' := by
  obtain ⟨r1, r2⟩ := foldl_diffProp_cells cs P e (List.range P.length) (List.nodup_range _)
    t.shadows false
  constructor
  · unfold diffEntity
    simp only [r1, Bool.false_or]
    rfl
  · intro e' he'
    unfold entityDiffers
    apply any_congr_mem
    intro pid _
    exact r2 pid e' he'

/-- The loop over a live set without repetition appends the entities at which a
column differs from its shadow, in the order of the live set. -/
theorem foldl_diffEntity_filter (cs : Column → Column) (P : List Column) (D : List Nat)
    (hD : D.Nodup) (t : Tracking) :
    (D.foldl (diffEntity cs P) t).changed =
      t.changed ++ D.filter (entityDiffers cs P t.shadows) := by
  induction D generalizing t with
  | nil => simp
  | cons a rest ih =>
    obtain ⟨ha, hrest⟩ := List.nodup_cons.mp hD
    obtain ⟨s1, s2⟩ := diffEntity_cells cs P t a
    rw [List.foldl_cons, ih hrest, s1]
    have hf : rest.filter (entityDiffers cs P (diffEntity cs P t a).shadows) =
        rest.filter (entityDiffers cs P t.shadows) := by
      apply List.filter_congr
      intro x hx
      exact s2 x (fun h => ha (h ▸ hx))
    rw [hf, List.filter_cons]
    by_cases hd : entityDiffers cs P t.shadows a = true
    · simp [hd]
    · simp [hd]

theorem entityDiffers_iff (cs : Column → Column) (P : List Column) (S : List (Nat × Column))
    (e : Nat) :
    entityDiffers cs P S e = true ↔
      ∃ pid col, P[pid]? = some col ∧ col[e]? ≠ ((mapGet S pid).getD (cs col))[e]? := by
  unfold entityDiffers
  rw [List.any_eq_true]
  constructor
  · rintro ⟨pid, _, hc⟩
    unfold cellDiffers at hc
    cases hcol : P[pid]? with
    | none => rw [hcol] at hc; exact Bool.noConfusion hc
    | some col =>
      rw [hcol] at hc
      exact ⟨pid, col, hcol, of_decide_eq_true hc⟩
  · rintro ⟨pid, col, hcol, hne⟩
    have hlt : pid < P.length := by
      by_contra hcon
      rw [List.getElem?_eq_none_iff.mpr (Nat.le_of_not_lt hcon)] at hcol
      exact Option.noConfusion hcol
    refine ⟨pid, List.mem_range.mpr hlt, ?_⟩
    unfold cellDiffers
    rw [hcol]
    exact decide_eq_true hne

theorem mem_foldl_append {α : Type} (L : List (List α)) (acc : List α) (x : α) :
    x ∈ L.foldl (fun a v => a ++ v) acc ↔ x ∈ acc ∨ ∃ l ∈ L, x ∈ l := by
  induction L generalizing acc with
  | nil => simp
  | cons l rest ih =>
    rw [List.foldl_cons, ih]
    simp only [List.mem_append, List.mem_cons, exists_eq_or_imp]
    tauto

/-- The columns in `flatProps` are those of the listed components that are not tag
stores. -/
theorem mem_flatPropsOf (stores : Component → StoreView) (components : List Component)
    (col : Column) :
    col ∈ flatPropsOf stores components ↔
      ∃ c ∈ components, (stores c).tagStore = false ∧ col ∈ columnsOf (stores c) := by
  unfold flatPropsOf
  rw [mem_foldl_append]
  simp only [List.not_mem_nil, false_or, List.mem_map, List.mem_filter, Bool.not_eq_true',
    exists_exists_and_eq_and]
  constructor
  · rintro ⟨c, ⟨hc, ht⟩, hcol⟩
    exact ⟨c, hc, ht, hcol⟩
  · rintro ⟨c, hc, ht, hcol⟩
    exact ⟨c, ⟨hc, ht⟩, hcol⟩

/-- The read of a change-tracked query with the default `clearDiff`. -/
theorem tracked_read (cs : Column → Column) (stores : Component → StoreView) (s : State)
    (hs : Reachable s) (qd : QueryDef) (hch : changedOf qd ≠ []) (t : Tracking) :
    ∃ qid q, mapGet (queryTracked cs stores s.g s.w qd t true).1.queryMap qd = some qid ∧
      (queryTracked cs stores s.g s.w qd t true).1.queries[qid]? = some q ∧
      (queryTracked cs stores s.g s.w qd t true).2.2 =
        q.live.dense.filter (entityDiffers cs (flatPropsOf stores (requiredOf qd)) t.shadows) ∧
      (∀ e, e ∈ (queryTracked cs stores s.g s.w qd t true).2.2 ↔
        (q.live.has e = true ∧
          ∃ pid col, (flatPropsOf stores (requiredOf qd))[pid]? = some col ∧
            col[e]? ≠ ((mapGet t.shadows pid).getD (cs col))[e]?)) ∧
      (∀ col, col ∈ flatPropsOf stores (requiredOf qd) ↔
        ∃ c ∈ requiredOf qd, (stores c).tagStore = false ∧ col ∈ columnsOf (stores c)) := by
  obtain ⟨qid, q, hm, hq, hcomp, _, hqch, _, _⟩ := query_result hs qd
  rw [query_world] at hm hq
  have hch' : q.changedComponents ≠ [] := by rw [hqch]; exact hch
  have hinv : Inv (step s (.query qd)) := inv_step hs.inv (.query qd) trivial
  have hw : (step s (Op.query qd)).w = commitRemovals (registerQueryIfNew s.g s.w qd) :=
    query_world s.g s.w qd
  have hwf : q.live.WF := (hinv.winv.base.sets_wf qid q (by rw [hw]; exact hq)).1
  have hread : queryTracked cs stores s.g s.w qd t true =
      (commitRemovals (registerQueryIfNew s.g s.w qd),
        diff cs (flatPropsOf stores (requiredOf qd)) q.live.dense t true,
        (diff cs (flatPropsOf stores (requiredOf qd)) q.live.dense t true).changed) := by
    unfold queryTracked
    simp only [hm, hq]
    rw [hcomp]
    exact queryChanged_eq cs s.g s.w qd _ t true hm hq hch'
  have hchanged : (diff cs (flatPropsOf stores (requiredOf qd)) q.live.dense t true).changed =
      q.live.dense.filter (entityDiffers cs (flatPropsOf stores (requiredOf qd)) t.shadows) := by
    unfold diff
    simp only [if_true]
    rw [foldl_diffEntity_filter cs _ _ hwf.nodup]
    rfl
  rw [hread]
  refine ⟨qid, q, hm, hq, hchanged, ?_, fun col => mem_flatPropsOf stores (requiredOf qd) col⟩
  intro e
  show e ∈ (diff cs (flatPropsOf stores (requiredOf qd)) q.live.dense t true).changed ↔ _
  rw [hchanged, List.mem_filter, ← hwf.has_iff_mem, entityDiffers_iff]

/-- C30: for a query with at least one `Changed` component, read in a reachable
state with the default `clearDiff`: the columns compared are those of every
required component of the query that is not a tag store, the plain required
components included with the `Changed` ones, and the read returns, in the order
of the live set, exactly the entities of the live set at which one of these
columns differs from its shadow (the stored one, or the one `createShadow`
makes). -/
theorem change_detection_covers_required (cs : Column → Column)
    (stores : Component → StoreView) (s : State) (hs : Reachable s) (qd : QueryDef)
    (hch : changedOf qd ≠ []) (t : Tracking) :
    ∃ qid q, mapGet (queryTracked cs stores s.g s.w qd t true).1.queryMap qd = some qid ∧
      (queryTracked cs stores s.g s.w qd t true).1.queries[qid]? = some q ∧
      (queryTracked cs stores s.g s.w qd t true).2.2 =
        q.live.dense.filter (entityDiffers cs (flatPropsOf stores (requiredOf qd)) t.shadows) ∧
      (∀ e, e ∈ (queryTracked cs stores s.g s.w qd t true).2.2 ↔
        (q.live.has e = true ∧
          ∃ pid col, (flatPropsOf stores (requiredOf qd))[pid]? = some col ∧
            col[e]? ≠ ((mapGet t.shadows pid).getD (cs col))[e]?)) ∧
      (∀ col, col ∈ flatPropsOf stores (requiredOf qd) ↔
        ∃ c ∈ requiredOf qd, (stores c).tagStore = false ∧ col ∈ columnsOf (stores c)) :=
  tracked_read cs stores s hs qd hch t

/-! ## Registration, recycling, logs and reset on concrete worlds -/

set_option maxRecDepth 100000

theorem reachable_stateManual : Reachable stateManual :=
  reachable_run (reachable_newState 10 4) _ (by decide)

/-- C21 on the code: component `0` is registered with bitflag `1`, the cursor is
`2` and entity `0` has the component.  After a second `registerComponent` of the
component its bitflag is `2`, the cursor is `4` and `hasComponent` is false for
the entity, whose mask word is as it was. -/
theorem redundant_registration_reassigns :
    mapGet stateRegistered.w.componentMap 0 =
      some { generationId := 0, bitflag := 1, store := 0, queries := [] } ∧
    stateRegistered.w.bitflag = 2 ∧ hasComponent stateRegistered.w 0 0 = true ∧
    readMask stateRegistered.w.entityMasks 0 0 = 1 ∧
    mapGet (registerComponent stateRegistered.w 0).componentMap 0 =
      some { generationId := 0, bitflag := 2, store := 0, queries := [] } ∧
    (registerComponent stateRegistered.w 0).bitflag = 4 ∧
    readMask (registerComponent stateRegistered.w 0).entityMasks 0 0 = 1 ∧
    hasComponent (registerComponent stateRegistered.w 0) 0 0 = false := by
  decide

/-- Witness of C22: in `stateManual` manual recycling is enabled, identifier `0`
is in the recycled pool and entity `1` exists; `addEntity` returns `2`; after
`flushRemovedEntities` the removed pool is `[0]`. -/
theorem manual_recycling_witness :
    (stateManual.w.manualEntityRecycling = true ∧ stateManual.g.recycled = [0] ∧
      stateManual.g.removed = [] ∧ (addEntity stateManual).2 = .ok 2 ∧
      (step stateManual .flushRemovedEntities).g.removed = [0] ∧
      (addEntity (step stateManual .flushRemovedEntities)).2 = .ok 0) ∧
    ((removeEntity stateManual 1).g.recycled = stateManual.g.recycled ++ [1] ∧
      (removeEntity stateManual 1).g.removed = stateManual.g.removed) ∧
    ((addEntity stateManual).2 ≠ .ok 0 ∧
      ∀ op, op ≠ Op.flushRemovedEntities → 0 ∈ (step stateManual op).g.recycled) ∧
    flushRemovedEntities stateManual =
      .ok { stateManual with
        g := { stateManual.g with
          removed := stateManual.g.removed ++ stateManual.g.recycled, recycled := [] } } :=
  ⟨by decide,
    (manual_recycling stateManual reachable_stateManual).1 (by decide) 1 (by decide),
    (manual_recycling stateManual reachable_stateManual).2.1 0 (by decide),
    (manual_recycling stateManual reachable_stateManual).2.2.2.1 (by decide)⟩

/-- C23 on the code: in `stateAB` the entered log of the query over `[A, B]` holds
entity `0`.  `enterQuery` raises at the call of `reset`, returns nothing and
leaves the log as it was, so that it raises again when it is repeated; after
`removeComponent` of `A` the same holds of `exitQuery` and the exited log. -/
theorem log_read_raises :
    (stateAB.w.queries[0]?).map (fun q => q.entered.dense) = some [0] ∧
    (enterQuery stateAB.g stateAB.w queryAB).2 = .error .resetIsNotAFunction ∧
    ((enterQuery stateAB.g stateAB.w queryAB).1.queries[0]?).map (fun q => q.entered.dense) =
      some [0] ∧
    (enterQuery stateAB.g (enterQuery stateAB.g stateAB.w queryAB).1 queryAB).2 =
      .error .resetIsNotAFunction ∧
    (let w1 := worldOf (removeComponent stateAB.w 0 (some 0)) stateAB.w
     (w1.queries[0]?).map (fun q => q.exited.dense) = some [0] ∧
     (exitQuery stateAB.g w1 queryAB).2 = .error .resetIsNotAFunction ∧
     ((exitQuery stateAB.g w1 queryAB).1.queries[0]?).map (fun q => q.exited.dense) =
       some [0]) := by
  decide

/-- Witness of C24: the set built by `add(3)`, `add(5)`, `remove(3)`, and the
value `5`. -/
theorem sparseSet_is_finite_set_witness :
    (((SparseSet.empty.add 3).add 5).remove 3).dense = [5] ∧
    ((((SparseSet.empty.add 3).add 5).remove 3).add 5).has 5 = true ∧
    ((((SparseSet.empty.add 3).add 5).remove 3).remove 5).has 5 = false ∧
    ((((SparseSet.empty.add 3).add 5).remove 3).has 5 = true →
      (((SparseSet.empty.add 3).add 5).remove 3).add 5 =
        ((SparseSet.empty.add 3).add 5).remove 3) :=
  ⟨by decide,
    (sparseSet_is_finite_set _ (.remove 3 (.add 5 (.add 3 .empty))) 5).1,
    (sparseSet_is_finite_set _ (.remove 3 (.add 5 (.add 3 .empty))) 5).2.2.1,
    (sparseSet_is_finite_set _ (.remove 3 (.add 5 (.add 3 .empty))) 5).2.2.2.2.1⟩

/-- Witness of C25: the set built by `add(3)`, `add(5)`, `add(7)`; `remove(3)` puts
the last value `7` at index `0`. -/
theorem sparseSet_structure_witness :
    (((SparseSet.empty.add 3).add 5).add 7).dense = [3, 5, 7] ∧
    ((((SparseSet.empty.add 3).add 5).add 7).remove 3).dense = [7, 5] ∧
    jsGet ((((SparseSet.empty.add 3).add 5).add 7).remove 3).sparse 7 = some 0 ∧
    (((SparseSet.empty.add 3).add 5).add 7).dense.Nodup ∧
    ∀ i v, (((SparseSet.empty.add 3).add 5).add 7).dense[i]? = some v →
      jsGet (((SparseSet.empty.add 3).add 5).add 7).sparse v = some i :=
  ⟨by decide, by decide, by decide,
    (sparseSet_structure _ (.add 7 (.add 5 (.add 3 .empty)))).1,
    (sparseSet_structure _ (.add 7 (.add 5 (.add 3 .empty)))).2.1⟩

/-- Witness of C26: after `removeComponent` of `A` from entity `0` in `stateAB` the
query over `[A, B]` is in the dirty set with entity `0` pending. -/
theorem commitRemovals_effect_witness :
    ((step stateAB (.removeComponent 0 (some 0))).w.dirtyQueries = [0] ∧
      (step stateAB (.removeComponent 0 (some 0))).w.queries[0]? =
        some (queryAt (step stateAB (.removeComponent 0 (some 0))).w 0) ∧
      (queryAt (step stateAB (.removeComponent 0 (some 0))).w 0).live.dense = [0] ∧
      (queryAt (step stateAB (.removeComponent 0 (some 0))).w 0).toRemove.dense = [0] ∧
      (queryAt (commitRemovals (step stateAB (.removeComponent 0 (some 0))).w) 0).live.dense
        = []) ∧
    ∃ q', (commitRemovals (step stateAB (.removeComponent 0 (some 0))).w).queries[0]? = some q' ∧
      (0 ∈ (step stateAB (.removeComponent 0 (some 0))).w.dirtyQueries →
        q'.toRemove.dense = [] ∧ q'.live.dense.Nodup ∧
        (∀ e, q'.live.has e =
          ((queryAt (step stateAB (.removeComponent 0 (some 0))).w 0).live.has e &&
            !(queryAt (step stateAB (.removeComponent 0 (some 0))).w 0).toRemove.has e)) ∧
        (∀ e, e ∈ q'.live.dense ↔
          (e ∈ (queryAt (step stateAB (.removeComponent 0 (some 0))).w 0).live.dense ∧
            e ∉ (queryAt (step stateAB (.removeComponent 0 (some 0))).w 0).toRemove.dense))) ∧
      (0 ∉ (step stateAB (.removeComponent 0 (some 0))).w.dirtyQueries →
        q' = queryAt (step stateAB (.removeComponent 0 (some 0))).w 0) ∧
      (commitRemovals (step stateAB (.removeComponent 0 (some 0))).w).dirtyQueries = [] :=
  ⟨by decide,
    commitRemovals_effect (step stateAB (.removeComponent 0 (some 0)))
      (Reachable.step (.removeComponent 0 (some 0)) reachable_stateAB trivial) 0
      (queryAt (step stateAB (.removeComponent 0 (some 0))).w 0) (by decide)⟩

/-- Witness of C27: components `0` and `1` are registered and component `0` is
registered a second time; it then has bitflag `4`, component `1` has bitflag `2`
and the cursor is `8`. -/
theorem registration_invariant_witness :
    (mapGet (step (step (step (newState 10 4) (.registerComponent 0)) (.registerComponent 1))
        (.registerComponent 0)).w.componentMap 0 =
        some { generationId := 0, bitflag := 4, store := 0, queries := [] } ∧
      mapGet (step (step (step (newState 10 4) (.registerComponent 0)) (.registerComponent 1))
        (.registerComponent 0)).w.componentMap 1 =
        some { generationId := 0, bitflag := 2, store := 1, queries := [] }) ∧
    ∃ k, k ≤ 30 ∧
      (step (step (step (newState 10 4) (.registerComponent 0)) (.registerComponent 1))
        (.registerComponent 0)).w.bitflag = 2 ^ k :=
  ⟨by decide,
    (registration_invariant _
      (Reached.step (.registerComponent 0)
        (Reached.step (.registerComponent 1)
          (Reached.step (.registerComponent 0)
            (Reached.init 10 defaultRemovedReuseThreshold 4))))).1⟩

/-- Witness of C28: in `stateAB` entity `1` has `A` only; `addComponent` of `B` to
it leaves `hasComponent` of `A` for entity `1` and of `B` for entity `0` as they
were. -/
theorem mutation_frame_witness :
    (entityExists stateAB.w 1 = true ∧ hasComponent stateAB.w 1 1 = false ∧
      hasComponent (worldOf (addComponent stateAB.w 1 (some 1)) stateAB.w) 1 1 = true ∧
      hasComponent (worldOf (addComponent stateAB.w 1 (some 1)) stateAB.w) 0 1 = true ∧
      hasComponent (worldOf (addComponent stateAB.w 1 (some 1)) stateAB.w) 1 0 = true) ∧
    ∃ w1 w2, addComponent stateAB.w 1 (some 1) = .ok w1 ∧
      removeComponent stateAB.w 1 (some 1) = .ok w2 ∧
      (∀ c' e', (mapGet stateAB.w.componentMap c').isSome = true → (c', e') ≠ (1, 1) →
        hasComponent w1 c' e' = hasComponent stateAB.w c' e' ∧
        hasComponent w2 c' e' = hasComponent stateAB.w c' e') ∧
      (∀ e', entityExists w1 e' = entityExists stateAB.w e' ∧
        entityExists w2 e' = entityExists stateAB.w e') :=
  ⟨by decide, mutation_frame stateAB reachable_stateAB 1 1 (by decide)⟩

/-- C29 on the code: the world of `stateThree` holds the entities `0`, `1` and `2`.
After `resetWorld` the removed pool is `[0, 1]` and the recycled pool is empty:
`removeEntity` was not called for entity `2`, which is in no pool and exists in
no world. -/
theorem resetWorld_skips_entity :
    stateThree.w.entitySparseSet.dense = [0, 1, 2] ∧ stateThree.g.removed = [] ∧
    stateThree.g.recycled = [] ∧
    (resetWorld stateThree 4).g.removed = [0, 1] ∧ (resetWorld stateThree 4).g.recycled = [] ∧
    2 ∉ (resetWorld stateThree 4).g.removed ++ (resetWorld stateThree 4).g.recycled ∧
    entityExists (resetWorld stateThree 4).w 2 = false ∧
    (resetWorld stateThree 4).g.globalEntityCursor = 3 := by
  decide

/-- Witness of C30: the query over `[Changed(A), B]` is read in `stateAB`, where
entity `0` has both components, with the value `1` of `B` for entity `0`; when
that value has become `9` and no value of `A` has changed, the next read returns
entity `0`. -/
theorem change_detection_covers_required_witness :
    (changedOf queryChangedAB ≠ [] ∧ requiredOf queryChangedAB = [0, 1] ∧
      flatPropsOf (twoStores 9) (requiredOf queryChangedAB) = [[5, 7, 0, 0], [9, 2, 0, 0]] ∧
      (queryTracked id (twoStores 1) stateAB.g stateAB.w queryChangedAB noTracking true).2.1 =
        { changed := [], shadows := [(0, [5, 7, 0, 0]), (1, [1, 2, 0, 0])] } ∧
      (queryTracked id (twoStores 9) (step stateAB (.query queryChangedAB)).g
        (step stateAB (.query queryChangedAB)).w queryChangedAB
        (queryTracked id (twoStores 1) stateAB.g stateAB.w queryChangedAB noTracking true).2.1
        true).2.2 = [0]) ∧
    ∃ qid q,
      mapGet (queryTracked id (twoStores 9) (step stateAB (.query queryChangedAB)).g
        (step stateAB (.query queryChangedAB)).w queryChangedAB
        (queryTracked id (twoStores 1) stateAB.g stateAB.w queryChangedAB noTracking true).2.1
        true).1.queryMap queryChangedAB = some qid ∧
      (queryTracked id (twoStores 9) (step stateAB (.query queryChangedAB)).g
        (step stateAB (.query queryChangedAB)).w queryChangedAB
        (queryTracked id (twoStores 1) stateAB.g stateAB.w queryChangedAB noTracking true).2.1
        true).1.queries[qid]? = some q ∧
      (queryTracked id (twoStores 9) (step stateAB (.query queryChangedAB)).g
        (step stateAB (.query queryChangedAB)).w queryChangedAB
        (queryTracked id (twoStores 1) stateAB.g stateAB.w queryChangedAB noTracking true).2.1
        true).2.2 =
        q.live.dense.filter (entityDiffers id
          (flatPropsOf (twoStores 9) (requiredOf queryChangedAB))
          (queryTracked id (twoStores 1) stateAB.g stateAB.w queryChangedAB noTracking
            true).2.1.shadows) :=
  ⟨by decide,
    (change_detection_covers_required id (twoStores 9) (step stateAB (.query queryChangedAB))
      (Reachable.step (.query queryChangedAB) reachable_stateAB trivial) queryChangedAB
      (by decide)
      (queryTracked id (twoStores 1) stateAB.g stateAB.w queryChangedAB noTracking
        true).2.1).imp fun _ h => h.imp fun _ h' => ⟨h'.1, h'.2.1, h'.2.2.1⟩⟩

end ECS
